import Mathlib

/-!
# filestorageserver: the storage engine (`src/storage.c`) and the worker's
request handling (`src/server.c`)

The embedding is sequential: requests are handled one at a time, so the
reader/writer counters `active_readers` / `active_writers` are zero at the
start and at the end of every storage operation, none of the condition waits
is entered, and the mutexes are not modelled.

* Files live in a memory `List (Option file_t)`: a pointer is an index, a cell
  is `none` once it has been handed to `file_dealloc`, allocation takes the
  next fresh index.  `previous`, `next`, `head` and `tail` are pointers, so
  the list surgery of `file_destroy` / `storage_add` is the source's.
* A user list (`user_node_t*`) is a `List Int`; `NULL` is `[]`.
* A byte buffer is a `List Char`; `content = none` is the `NULL` buffer.
* `size_t` values are `Nat`: they count bytes of buffers held in memory.
* An operation returns `none` when the run leaves defined behaviour: a freed
  file is dereferenced, an `EXIT_ON_*` check terminates the process, or a
  pointer-chasing loop does not terminate.
* `malloc` / `calloc` are taken to succeed.
-/

namespace FSS

/-- Values of `errno` the storage sets. -/
inductive Errno where
  | EINVAL | ENOENT | EEXIST | ENODATA | EACCES | ENOMEM | EINPROGRESS | ECANCELED
deriving DecidableEq, Repr

/-- A `file_t*`: an index into the memory. -/
abbrev Ptr := Nat

/-- The `file_t` of `storage.h` (without the synchronisation fields). -/
structure file_t where
  pathname : List Char
  content : Option (List Char)
  size : Nat
  owner : Int
  modified : Bool
  opened_by : List Int
  locked_by : Int
  pending_locks : List Int
  previous : Option Ptr
  next : Option Ptr
deriving DecidableEq, Repr

/-- The `storage_t` of `storage.h`; `dictionary` holds the entries of the hash table. -/
structure storage_t where
  file_number : Nat
  size : Nat
  max_file_number : Nat
  max_size : Nat
  dictionary : List (List Char × Ptr)
  head : Option Ptr
  tail : Option Ptr
  max_file_number_reached : Nat
  max_size_reached : Nat
  replacement_counter : Nat
deriving DecidableEq, Repr

/-- The memory holding the files, and the storage. -/
structure Machine where
  mem : List (Option file_t)
  storage : storage_t
deriving DecidableEq, Repr

/-! ## Memory -/

/-- Read the file a pointer points to; `none` for a freed or never allocated cell. -/
def deref (mem : List (Option file_t)) (p : Ptr) : Option file_t :=
  (mem.get? p).join

/-- Overwrite the cell of a pointer. -/
def store (mem : List (Option file_t)) (p : Ptr) (f : file_t) : List (Option file_t) :=
  mem.set p (some f)

/-- Give the cell of a pointer back: `file_dealloc`. -/
def file_dealloc (mem : List (Option file_t)) (p : Ptr) : List (Option file_t) :=
  mem.set p none

/-- The assignment `p->next = v`; `none` when `p` is freed. -/
def assign_next (mem : List (Option file_t)) (p : Ptr) (v : Option Ptr) :
    Option (List (Option file_t)) :=
  (deref mem p).map (fun pf => store mem p { pf with next := v })

/-- The assignment `p->previous = v`; `none` when `p` is freed. -/
def assign_previous (mem : List (Option file_t)) (p : Ptr) (v : Option Ptr) :
    Option (List (Option file_t)) :=
  (deref mem p).map (fun pf => store mem p { pf with previous := v })

/-! ## The hash table -/

/-- Modelled from the spec: `icl_hash_find` of the hash-table library, which is not among the
sources; the dictionary is a mapping `pathname → file`. -/
def icl_hash_find : List (List Char × Ptr) → List Char → Option Ptr
  | [], _ => none
  | (k, v) :: rest, key => if k = key then some v else icl_hash_find rest key

/-- Modelled from the spec: `icl_hash_insert`; keys are unique, so inserting a key that is
present fails (`none`, the library's `NULL`). -/
def icl_hash_insert (d : List (List Char × Ptr)) (key : List Char) (v : Ptr) :
    Option (List (List Char × Ptr)) :=
  match icl_hash_find d key with
  | some _ => none
  | none => some ((key, v) :: d)

/-- Modelled from the spec: `icl_hash_delete`; removes the entry of a key, fails (`none`,
the library's `-1`) when the key is absent. -/
def icl_hash_delete : List (List Char × Ptr) → List Char → Option (List (List Char × Ptr))
  | [], _ => none
  | (k, v) :: rest, key =>
    if k = key then some rest
    else (icl_hash_delete rest key).map (fun r => (k, v) :: r)

/-! ## `storage.c` -/

/-- The file `file_create` allocates: zeroed by `calloc`, with a copy of the pathname. -/
def new_file (pathname : List Char) : file_t :=
  { pathname := pathname, content := none, size := 0, owner := 0, modified := false,
    opened_by := [], locked_by := 0, pending_locks := [], previous := none, next := none }

/-- The function `file_create`: the new file, at a fresh address. -/
def file_create (mem : List (Option file_t)) (pathname : List Char) :
    List (Option file_t) × Ptr :=
  (mem ++ [some (new_file pathname)], mem.length)

/-- The function `storage_create`. -/
def storage_create (max_file_number max_size : Nat) : Machine :=
  { mem := [],
    storage := { file_number := 0, size := 0, max_file_number := max_file_number,
                 max_size := max_size, dictionary := [], head := none, tail := none,
                 max_file_number_reached := 0, max_size_reached := 0,
                 replacement_counter := 0 } }

/-- The first step of `file_destroy`, for a file read as `f`:
`if (file->previous) file->previous->next = file->next; else storage->head = file->next;`
Returns the memory and `head`. -/
def unlink_previous (mem : List (Option file_t)) (head : Option Ptr) (f : file_t) :
    Option (List (Option file_t) × Option Ptr) :=
  match f.previous with
  | some p => (assign_next mem p f.next).map (fun mem1 => (mem1, head))
  | none => some (mem, f.next)

/-- The second step of `file_destroy`, for a file read as `f`:
`if (file->next) file->next->previous = file->previous; else storage->tail = file->previous;`
Returns the memory and `tail`. -/
def unlink_next (mem : List (Option file_t)) (tail : Option Ptr) (f : file_t) :
    Option (List (Option file_t) × Option Ptr) :=
  match f.next with
  | some n => (assign_previous mem n f.previous).map (fun mem1 => (mem1, tail))
  | none => some (mem, f.previous)

/-- The value `file_destroy` leaves in the caller's `pending_locks`, an out-parameter:
`none` for a `NULL` pointer, `some l` for a pointer to a variable holding `l`. -/
def handed_out (f : file_t) (pending_locks : Option (List Int)) : Option (List Int) :=
  if f.pending_locks ≠ [] then pending_locks.map (fun _ => f.pending_locks)
  else pending_locks

/-- The file as `file_destroy` leaves it when it is not deallocated: `opened_by` is freed,
and so is `pending_locks` unless it was handed out. -/
def destroyed (f : file_t) (pending_locks : Option (List Int)) : file_t :=
  { f with pending_locks := if f.pending_locks ≠ [] ∧ pending_locks = none then []
                            else f.pending_locks,
           opened_by := [] }

/-- The function `file_destroy`: unlink `file` from the list through its own `previous` and
`next`, hand out or drop its `pending_locks`, drop `opened_by`, decrement the counters,
delete the dictionary entry of its pathname, and free it when `dealloc` is set.  Returns
the new machine and the new value of the out-parameter `pending_locks`. -/
def file_destroy (m : Machine) (file : Ptr) (pending_locks : Option (List Int))
    (dealloc : Bool) : Option (Machine × Option (List Int)) := do
  let f ← deref m.mem file
  -- remove the file from the list structure
  let (mem1, head1) ← unlink_previous m.mem m.storage.head f
  let f1 ← deref mem1 file
  let (mem2, tail2) ← unlink_next mem1 m.storage.tail f1
  let f2 ← deref mem2 file
  -- remove the file from the dictionary structure
  let dict ← icl_hash_delete m.storage.dictionary f2.pathname
  pure ({ mem := if dealloc then file_dealloc mem2 file
                 else store mem2 file (destroyed f2 pending_locks),
          storage := { m.storage with head := head1, tail := tail2, dictionary := dict,
                                      file_number := m.storage.file_number - 1,
                                      size := m.storage.size - f2.size } },
        handed_out f2 pending_locks)

/-- The list part of `storage_add`, for a file read as `f`:
`if (!storage->head) storage->head = file; else { file->previous = storage->tail;
if (storage->tail) storage->tail->next = file; }`.  Returns the memory and `head`. -/
def link_last (mem : List (Option file_t)) (head tail : Option Ptr) (file : Ptr) :
    Option (List (Option file_t) × Option Ptr) :=
  match head with
  | none => some (mem, some file)
  | some h =>
    (assign_previous mem file tail).bind (fun mem0 =>
      match tail with
      | some t => (assign_next mem0 t (some file)).map (fun mem1 => (mem1, some h))
      | none => some (mem0, some h))

/-- The function `storage_add`: link `file` after `tail` (or make it `head`), insert it in
the dictionary, increment the counters. -/
def storage_add (m : Machine) (file : Ptr) : Option Machine := do
  let (mem1, head1) ← link_last m.mem m.storage.head m.storage.tail file
  let f1 ← deref mem1 file
  -- add the file to the dictionary structure
  let dict ← icl_hash_insert m.storage.dictionary f1.pathname file
  pure { mem := mem1,
         storage := { m.storage with head := head1, tail := some file, dictionary := dict,
                                     file_number := m.storage.file_number + 1,
                                     size := m.storage.size + f1.size } }

/-- The function `storage_find`. -/
def storage_find (s : storage_t) (pathname : List Char) : Except Errno Ptr :=
  if pathname = [] then .error .EINVAL
  else match icl_hash_find s.dictionary pathname with
    | some p => .ok p
    | none => .error .ENOENT

/-- The loop of `get_victim`, from `victim`: `some (some v)` for the first file that is
modified and is not `spare`, `some none` when the walk reaches `NULL`, `none` when it
dereferences a freed file or the fuel ends. -/
def get_victim_loop (mem : List (Option file_t)) (spare : Option Ptr) :
    Nat → Option Ptr → Option (Option Ptr)
  | _, none => some none
  | 0, some _ => none
  | fuel + 1, some v =>
    match deref mem v with
    | none => none
    | some f =>
      if some v ≠ spare ∧ f.modified then some (some v)
      else get_victim_loop mem spare fuel f.next

/-- The function `get_victim`.  A walk that takes more steps than the memory has cells
runs in a cycle, which the source never leaves: the fuel is the size of the memory. -/
def get_victim (m : Machine) (spare : Option Ptr) : Option (Option Ptr) :=
  get_victim_loop m.mem spare (m.mem.length + 1) m.storage.head

/-- The function `storage_copy`: `none` is the `NULL` of a file without content when no
extra space is asked for; otherwise the first `size` bytes of the content, followed by
`extra_space` zero bytes. -/
def storage_copy (f : file_t) (extra_space : Nat) : Option (List Char) :=
  if f.content = none ∧ extra_space = 0 then none
  else some ((f.content.getD []).take f.size ++ List.replicate extra_space (Char.ofNat 0))

/-- The function `enqueue_user`: `none` is the `-1` for a user that is not positive. -/
def enqueue_user (list : List Int) (user : Int) : Option (List Int) :=
  if user ≤ 0 then none else some (list ++ [user])

/-- The function `dequeue_user`: returns the list left and the user removed (`0` when
nothing is removed); a negative `user` asks for the front element. -/
def dequeue_user (list : List Int) (user : Int) : List Int × Int :=
  match list with
  | [] => ([], 0)
  | x :: rest =>
    if user < 0 then (rest, x)
    else if user ∈ x :: rest then ((x :: rest).erase user, user)
    else (x :: rest, 0)

/-- The function `contains_user`. -/
def contains_user (list : List Int) (user : Int) : Bool :=
  decide (user ∈ list)

/-- The function `concatenate_lists`. -/
def concatenate_lists (dest src : List Int) : List Int :=
  dest ++ src

/-- The flag `O_CREATE`. -/
def O_CREATE : Nat := 1

/-- The flag `O_LOCK`. -/
def O_LOCK : Nat := 2

/-- The test `IS_SET`. -/
def IS_SET (x y : Nat) : Bool :=
  (x &&& y) != 0

/-- The capacity check of `storage_open` before it creates a file: when
`file_number == max_file_number` a victim is destroyed.  Returns the machine to go on with
(`none` when no victim is found: the `ENOMEM` exit) and the value of `pending_locks`. -/
def open_make_room (m : Machine) (pending_locks : Option (List Int)) :
    Option (Option Machine × Option (List Int)) :=
  if m.storage.file_number = m.storage.max_file_number then
    -- need to remove a file
    match get_victim m none with
    | none => none
    | some none => some (none, pending_locks)
    | some (some victim) =>
      (file_destroy m victim pending_locks true).map (fun r => (some r.1, r.2))
  else some (some m, pending_locks)

/-- The creation in `storage_open`: `file_create`, the lock and the owner when `O_LOCK` is
set, the user in `opened_by`, then `storage_add`. -/
def open_create (m : Machine) (pathname : List Char) (lock_flag : Bool) (user : Int) :
    Option Machine := do
  let (mem2, file) := file_create m.mem pathname
  let f ← deref mem2 file
  let f1 := if lock_flag then { f with locked_by := user, owner := user } else f
  let ob ← enqueue_user f1.opened_by user
  storage_add { m with mem := store mem2 file { f1 with opened_by := ob } } file

/-- The function `storage_open`.  Returns the new machine, the return value (`.ok ()` for
`0`, `.error e` for `-1` with `errno = e`) and the new value of the out-parameter
`pending_locks`. -/
def storage_open (m : Machine) (pathname : List Char) (flags : Nat)
    (pending_locks : Option (List Int)) (user : Int) :
    Option (Machine × Except Errno Unit × Option (List Int)) :=
  if pathname = [] ∨ user ≤ 0 then some (m, .error .EINVAL, pending_locks)
  else
    let create_flag := IS_SET O_CREATE flags
    let lock_flag := IS_SET O_LOCK flags
    match storage_find m.storage pathname with
    | .error _ =>
      -- file not found
      if !create_flag then some (m, .error .ENOENT, pending_locks)
      else
        match open_make_room m pending_locks with
        | none => none
        | some (none, _) => some (m, .error .ENOMEM, pending_locks)
        | some (some m1, out) =>
          (open_create m1 pathname lock_flag user).map (fun m4 => (m4, .ok (), out))
    | .ok file =>
      -- file exists
      if create_flag then some (m, .error .EEXIST, pending_locks)
      else
        match deref m.mem file with
        | none => none
        | some f =>
          if lock_flag ∧ f.locked_by ≠ 0 then some (m, .error .EACCES, pending_locks)
          else
            let f1 := if lock_flag then { f with locked_by := user } else f
            match enqueue_user f1.opened_by user with
            | none => none
            | some ob =>
              some ({ m with mem := store m.mem file { f1 with opened_by := ob } }, .ok (),
                    pending_locks)

/-- The function `storage_read`: on success the copy of the content and the size. -/
def storage_read (m : Machine) (pathname : List Char) (user : Int) :
    Option (Machine × Except Errno (List Char × Nat)) :=
  if pathname = [] ∨ user ≤ 0 then some (m, .error .EINVAL)
  else match storage_find m.storage pathname with
    | .error e => some (m, .error e)
    | .ok file => do
      let f ← deref m.mem file
      if (f.locked_by ≠ 0 ∧ f.locked_by ≠ user) ∨ !contains_user f.opened_by user then
        -- user cannot access the file
        pure (m, .error .EACCES)
      else
        -- copy file content
        match storage_copy f 0 with
        | none => pure (m, .error .ENODATA)
        | some buffer =>
          -- the first write to the file can no longer be performed
          pure ({ m with mem := store m.mem file { f with owner := 0 } },
                .ok (buffer, f.size))

/-- The decimal digits of a number, most significant first (at most `fuel` of them). -/
def dec_digits : Nat → Nat → List Char
  | 0, _ => []
  | fuel + 1, n =>
    if n < 10 then [Char.ofNat (48 + n)]
    else dec_digits fuel (n / 10) ++ [Char.ofNat (48 + n % 10)]

/-- The conversion `%010ld` of `printf` for a value that is not negative: the decimal
digits, padded with zeros on the left to ten characters. -/
def fmt_010ld (n : Nat) : List Char :=
  let d := dec_digits (n + 1) n
  List.replicate (10 - d.length) '0' ++ d

/-- The constant `METADATA_LENGTH`. -/
def METADATA_LENGTH : Nat := 10

/-- The walk both loops of `storage_read_many` make from `current_file`: the files with
`size ≠ 0`, in the order met, while `file_count != up_to || up_to <= 0`; `none` when a
freed file is dereferenced or the fuel ends. -/
def read_many_loop (mem : List (Option file_t)) (up_to : Int) :
    Nat → Option Ptr → Int → Option (List file_t)
  | _, none, _ => some []
  | 0, some _, _ => none
  | fuel + 1, some p, file_count =>
    if file_count ≠ up_to ∨ up_to ≤ 0 then
      match deref mem p with
      | none => none
      | some f =>
        if f.size = 0 then read_many_loop mem up_to fuel f.next file_count
        else (read_many_loop mem up_to fuel f.next (file_count + 1)).map (fun l => f :: l)
    else some []

/-- The bytes the second loop of `storage_read_many` writes for the files it includes;
`none` when `storage_copy` returns `NULL`. -/
def read_many_fill : List file_t → Option (List Char)
  | [] => some []
  | f :: rest =>
    match storage_copy f 0, read_many_fill rest with
    | some c, some r =>
      some (fmt_010ld f.pathname.length ++ f.pathname ++ fmt_010ld f.size ++ c.take f.size ++ r)
    | _, _ => none

/-- The function `storage_read_many`.  The first loop counts the files and the bytes, the
second fills the buffer; nothing changes in between, so both make the walk
`read_many_loop` and compute the same size (the `ECANCELED` exit is not taken).  On
success: the number of files, the bytes written to the buffer, and `*size` (their count by
the source's formula, plus one for the terminator). -/
def storage_read_many (m : Machine) (up_to : Int) (user : Int) :
    Option (Machine × Except Errno (Int × List Char × Nat)) :=
  if user ≤ 0 then some (m, .error .EINVAL)
  else do
    let files ← read_many_loop m.mem up_to (m.mem.length + 1) m.storage.head 0
    if files = [] then pure (m, .error .ENODATA)
    else
      let return_size := (files.map (fun f =>
        METADATA_LENGTH + f.pathname.length + METADATA_LENGTH + f.size)).sum + 1
      match read_many_fill files with
      | none => pure (m, .error .ENODATA)
      | some buffer => pure (m, .ok ((files.length : Int), buffer, return_size))

/-- The function `storage_can_write`; `none` when the file found is a freed one. -/
def storage_can_write (m : Machine) (pathname : List Char) (user : Int) : Option Bool :=
  if pathname = [] ∨ user ≤ 0 then some false
  else match storage_find m.storage pathname with
    | .error _ => some false
    | .ok file => (deref m.mem file).map (fun f => decide (f.owner = user))

/-- The eviction loop of `storage_append`:
`while (storage->size - file->size + new_file_size > storage->max_size)`. -/
def append_evict_loop (file : Ptr) (new_file_size : Nat) :
    Nat → Machine → List Int → Option Ptr →
    Option (Machine × Except Errno Unit × List Int × Option Ptr)
  | 0, _, _, _ => none
  | fuel + 1, m, pending_locks, removed_list =>
    match deref m.mem file with
    | none => none
    | some f =>
      if m.storage.size - f.size + new_file_size > m.storage.max_size then
        -- need to remove some files
        match get_victim m (some file) with
        | none => none
        | some none => some (m, .error .ENOMEM, pending_locks, removed_list)
        | some (some victim) =>
          -- build a list of removed files
          match assign_next m.mem victim removed_list with
          | none => none
          | some mem1 =>
            match file_destroy { m with mem := mem1 } victim (some []) false with
            | none => none
            | some (m2, tmp_list) =>
              append_evict_loop file new_file_size fuel m2
                (concatenate_lists pending_locks (tmp_list.getD [])) (some victim)
      else some (m, .ok (), pending_locks, removed_list)

/-- The function `storage_append`.  Returns the new machine, the return value, and the
values of the out-parameters `pending_locks` and `removed_list` (given on entry). -/
def storage_append (m : Machine) (pathname : List Char) (new_content : List Char)
    (pending_locks : List Int) (removed_list : Option Ptr) (user : Int) :
    Option (Machine × Except Errno Unit × List Int × Option Ptr) :=
  if pathname = [] ∨ new_content.length = 0 ∨ user ≤ 0 then
    some (m, .error .EINVAL, pending_locks, removed_list)
  else match storage_find m.storage pathname with
    | .error e => some (m, .error e, pending_locks, removed_list)
    | .ok file => do
      let f ← deref m.mem file
      if (f.locked_by ≠ 0 ∧ f.locked_by ≠ user) ∨ !contains_user f.opened_by user then
        -- user cannot access the file
        pure (m, .error .EACCES, pending_locks, removed_list)
      else
        match storage_copy f new_content.length with
        | none => pure (m, .error .ENODATA, pending_locks, removed_list)
        | some copy =>
          -- append new content to file content buffer
          let new_file_content := copy.take f.size ++ new_content
          let new_file_size := f.size + new_content.length
          -- check if storage can store the new file content
          if new_file_size > m.storage.max_size then
            pure (m, .error .ENOMEM, pending_locks, removed_list)
          else do
            let (m1, r, pl, rl) ← append_evict_loop file new_file_size
              (m.storage.dictionary.length + 1) m pending_locks removed_list
            match r with
            | .error e => pure (m1, .error e, pl, rl)
            | .ok () =>
              let f1 ← deref m1.mem file
              -- update the storage size and the written file
              let st := { m1.storage with size := m1.storage.size - f1.size + new_file_size }
              let f2 := { f1 with content := some new_file_content, size := new_file_size,
                                  modified := true, owner := 0 }
              pure ({ mem := store m1.mem file f2, storage := st }, .ok (), pl, rl)

/-- The function `storage_lock`; `.error .EINPROGRESS` is the return value `-2`. -/
def storage_lock (m : Machine) (pathname : List Char) (user : Int) :
    Option (Machine × Except Errno Unit) :=
  if pathname = [] ∨ user ≤ 0 then some (m, .error .EINVAL)
  else match storage_find m.storage pathname with
    | .error e => some (m, .error e)
    | .ok file => do
      let f ← deref m.mem file
      if f.locked_by ≠ 0 ∧ f.locked_by ≠ user then do
        -- user cannot lock the file at the moment (put user in waiting list)
        let pl ← enqueue_user f.pending_locks user
        pure ({ m with mem := store m.mem file { f with pending_locks := pl } },
              .error .EINPROGRESS)
      else
        pure ({ m with mem := store m.mem file { f with locked_by := user, owner := 0 } },
              .ok ())

/-- The function `storage_unlock`: on success the value of `*waiter`. -/
def storage_unlock (m : Machine) (pathname : List Char) (user : Int) :
    Option (Machine × Except Errno Int) :=
  if pathname = [] ∨ user ≤ 0 then some (m, .error .EINVAL)
  else match storage_find m.storage pathname with
    | .error e => some (m, .error e)
    | .ok file => do
      let f ← deref m.mem file
      if f.locked_by = user then
        -- get the first user waiting to lock the file
        let (pl, new_lock) := dequeue_user f.pending_locks (-1)
        let f1 := { f with pending_locks := pl, locked_by := new_lock, owner := 0 }
        pure ({ m with mem := store m.mem file f1 }, .ok new_lock)
      else pure (m, .error .EACCES)

/-- The function `storage_close`. -/
def storage_close (m : Machine) (pathname : List Char) (user : Int) :
    Option (Machine × Except Errno Unit) :=
  if pathname = [] ∨ user ≤ 0 then some (m, .error .EINVAL)
  else match storage_find m.storage pathname with
    | .error e => some (m, .error e)
    | .ok file => do
      let f ← deref m.mem file
      -- remove the user from the list of those who have opened the file
      let (ob, removed) := dequeue_user f.opened_by user
      if removed = 0 then
        pure ({ m with mem := store m.mem file { f with opened_by := ob } }, .error .EINVAL)
      else
        pure ({ m with mem := store m.mem file { f with opened_by := ob, owner := 0 } },
              .ok ())

/-- The function `storage_remove`. -/
def storage_remove (m : Machine) (pathname : List Char) (pending_locks : Option (List Int))
    (user : Int) : Option (Machine × Except Errno Unit × Option (List Int)) :=
  if pathname = [] ∨ user ≤ 0 then some (m, .error .EINVAL, pending_locks)
  else match storage_find m.storage pathname with
    | .error e => some (m, .error e, pending_locks)
    | .ok file => do
      let f ← deref m.mem file
      if f.locked_by ≠ user then pure (m, .error .EACCES, pending_locks)
      else do
        let (m1, out) ← file_destroy m file pending_locks true
        pure (m1, .ok (), out)

/-- The loop of `storage_user_exit` from `current_file`, with the caller's list
`pending_locks`; `none` when a freed file is dereferenced or the fuel ends. -/
def user_exit_loop (user : Int) :
    Nat → List (Option file_t) → Option Ptr → List Int →
    Option (List (Option file_t) × List Int)
  | _, mem, none, pending_locks => some (mem, pending_locks)
  | 0, _, some _, _ => none
  | fuel + 1, mem, some p, pending_locks =>
    match deref mem p with
    | none => none
    | some f =>
      let (f1, pending_locks1) :=
        if f.locked_by = user then
          -- get the first user waiting to lock the file
          let (pl, waiter) := dequeue_user f.pending_locks (-1)
          ({ f with pending_locks := pl, locked_by := waiter },
           if waiter > 0 then (enqueue_user pending_locks waiter).getD pending_locks
           else pending_locks)
        else (f, pending_locks)
      let f2 := { f1 with pending_locks := (dequeue_user f1.pending_locks user).1 }
      let f3 := { f2 with opened_by := (dequeue_user f2.opened_by user).1 }
      user_exit_loop user fuel (store mem p f3) f3.next pending_locks1

/-- The function `storage_user_exit`: returns the new value of `pending_locks`. -/
def storage_user_exit (m : Machine) (pending_locks : List Int) (user : Int) :
    Option (Machine × Except Errno Unit × List Int) :=
  if user ≤ 0 then some (m, .error .EINVAL, pending_locks)
  else
    (user_exit_loop user (m.mem.length + 1) m.mem m.storage.head pending_locks).map
      (fun r => ({ m with mem := r.1 }, .ok (), r.2))

/-! ## `str2num.c` -/

/-- The bytes of a buffer up to its first zero byte: the string a `char*` denotes. -/
def c_str (s : List Char) : List Char :=
  s.takeWhile (fun c => c ≠ Char.ofNat 0)

/-- The test `isspace` in the C locale. -/
def isspace (c : Char) : Bool :=
  c = ' ' || c = '\t' || c = '\n' || c = Char.ofNat 11 || c = Char.ofNat 12 || c = '\r'

/-- The function `str2num`: `some n` when it returns `0` and stores `n`; `none` when it
returns `1` (empty string, no digits, or characters left after the number) or `2` (the
value does not fit a `long`). -/
def str2num (buf : List Char) : Option Int :=
  let s := c_str buf
  if s = [] then none
  else
    let t := s.dropWhile isspace
    let (neg, t1) := (match t with
      | '-' :: r => (true, r)
      | '+' :: r => (false, r)
      | _ => (false, t))
    let ds := t1.takeWhile Char.isDigit
    let rest := t1.dropWhile Char.isDigit
    if ds = [] ∨ rest ≠ [] then none
    else
      let v : Int := ((ds.foldl (fun a c => 10 * a + (c.toNat - 48)) 0 : Nat) : Int)
      let val : Int := if neg then -v else v
      if val < -(2 : Int) ^ 63 ∨ val > (2 : Int) ^ 63 - 1 then none else some val

/-! ## The worker of `server.c` -/

/-- What a worker writes while it handles one request. -/
inductive Event where
  /-- The bytes of one `writen` on a client socket. -/
  | send (fd : Int) (bytes : List Char)
  /-- The bytes of one `writen` on the pipe to the master. -/
  | relay (bytes : List Char)
  /-- One `close` of a client socket. -/
  | close (fd : Int)
deriving DecidableEq, Repr

/-- One request as the worker reads it from a ready client socket: the request code and
the fields that follow it (a pathname and a content are the payloads of
`request_payload`, `flags` and `n` are the raw fixed-width fields); `other` is a request
code outside `1..9`, `client_left` is the read that finds the connection closed. -/
inductive Request where
  | open_file (pathname : List Char) (flags : List Char)
  | read_file (pathname : List Char)
  | read_n_files (n : List Char)
  | write_file (pathname : List Char) (content : List Char)
  | append_to_file (pathname : List Char) (content : List Char)
  | lock_file (pathname : List Char)
  | unlock_file (pathname : List Char)
  | close_file (pathname : List Char)
  | remove_file (pathname : List Char)
  | other (pathname : List Char)
  | client_left
deriving DecidableEq, Repr

/-- The response codes of `communication_protocol.h`. -/
def RESPONSE_OK : Nat := 1

/-- The response code `FILE_NOT_FOUND`. -/
def FILE_NOT_FOUND : Nat := 2

/-- The response code `ALREADY_EXISTS`. -/
def ALREADY_EXISTS : Nat := 3

/-- The response code `NO_CONTENT`. -/
def NO_CONTENT : Nat := 4

/-- The response code `FORBIDDEN`. -/
def FORBIDDEN : Nat := 5

/-- The response code `OUT_OF_MEMORY`. -/
def OUT_OF_MEMORY : Nat := 6

/-- The response code `INTERNAL_SERVER_ERROR`. -/
def INTERNAL_SERVER_ERROR : Nat := 7

/-- The response code `BAD_REQUEST`. -/
def BAD_REQUEST : Nat := 8

/-- The string `END_OF_CONTENT`. -/
def END_OF_CONTENT : List Char := List.replicate 10 '0'

/-- The string `NO_CLIENT`. -/
def NO_CLIENT : List Char := List.replicate 4 '0'

/-- The macro `SEND_RESPONSE`: one byte, the code printed with `%d`. -/
def SEND_RESPONSE (fd : Int) (code : Nat) : Event :=
  .send fd ((dec_digits (code + 1) code).take 1)

/-- The macro `SEND_ERROR`: the response code for the value of `errno`. -/
def error_code : Errno → Nat
  | .ENOENT => FILE_NOT_FOUND
  | .EEXIST => ALREADY_EXISTS
  | .ENODATA => NO_CONTENT
  | .EACCES => FORBIDDEN
  | .ENOMEM => OUT_OF_MEMORY
  | .EINVAL => BAD_REQUEST
  | _ => INTERNAL_SERVER_ERROR

/-- The descriptor printed with `%04d` into the five bytes of `pipe_buffer`. -/
def fmt_04d (fd : Int) : List Char :=
  let d := dec_digits (fd.toNat + 1) fd.toNat
  (List.replicate (4 - d.length) '0' ++ d).take 4

/-- The macro `NOTIFY_PENDING_CLIENTS`: to every client of the list, in order, the response
code on its socket and its descriptor on the pipe. -/
def NOTIFY_PENDING_CLIENTS (pending_clients : List Int) (code : Nat) : List Event :=
  pending_clients.flatMap (fun u => [SEND_RESPONSE u code, .relay (fmt_04d u)])

/-- The bytes the macro `SEND_FILE` writes: the header printed by `snprintf` within its
bound, then `size` bytes of the content. -/
def SEND_FILE (f : file_t) (file_content : List Char) : List Char :=
  (fmt_010ld f.pathname.length ++ f.pathname ++ fmt_010ld f.size).take
      (METADATA_LENGTH + f.pathname.length + METADATA_LENGTH)
    ++ file_content.take f.size

/-- The loop of the worker over `removed_files`: each file is copied, sent to the client
and deallocated; `none` when a freed file is dereferenced, when `storage_copy` returns
`NULL`, or when the fuel ends. -/
def send_removed_files (fd : Int) :
    Nat → List (Option file_t) → Option Ptr → Option (List (Option file_t) × List Event)
  | _, mem, none => some (mem, [])
  | 0, _, some _ => none
  | fuel + 1, mem, some p =>
    match deref mem p with
    | none => none
    | some f =>
      match storage_copy f 0 with
      | none => none
      | some content_buffer =>
        (send_removed_files fd fuel (file_dealloc mem p) f.next).map
          (fun r => (r.1, Event.send fd (SEND_FILE f content_buffer) :: r.2))

/-- The `APPEND_TO_FILE` case of the worker (also the end of the `WRITE_FILE` case). -/
def worker_append (m : Machine) (client : Int) (pathname new_content : List Char) :
    Option (Machine × List Event) := do
  let (m1, r, pending_clients, removed_files) ←
    storage_append m pathname new_content [] none client
  match r with
  | .error e => pure (m1, [SEND_RESPONSE client (error_code e)])
  | .ok () =>
    let (mem2, sent) ← send_removed_files client (m1.mem.length + 1) m1.mem removed_files
    pure ({ m1 with mem := mem2 },
      [SEND_RESPONSE client RESPONSE_OK] ++ NOTIFY_PENDING_CLIENTS pending_clients FILE_NOT_FOUND
        ++ sent ++ [Event.send client END_OF_CONTENT])

/-- The body of the loop of `worker` for one ready client: the storage operation the request
asks for, the bytes written in answer, and (unless the request is left pending) the
descriptor of the client written to the pipe. -/
def worker (m : Machine) (client : Int) : Request → Option (Machine × List Event)
  | .open_file payload flags_buffer =>
    let pathname := c_str payload
    match str2num (flags_buffer.take 1) with
    | none => some (m, [SEND_RESPONSE client BAD_REQUEST, .relay (fmt_04d client)])
    | some flags =>
      (storage_open m pathname flags.toNat (some []) client).map (fun r =>
        match r.2.1 with
        | .error e => (r.1, [SEND_RESPONSE client (error_code e), .relay (fmt_04d client)])
        | .ok () => (r.1, [SEND_RESPONSE client RESPONSE_OK]
            ++ NOTIFY_PENDING_CLIENTS (r.2.2.getD []) FILE_NOT_FOUND
            ++ [.relay (fmt_04d client)]))
  | .read_file payload =>
    (storage_read m (c_str payload) client).map (fun r =>
      match r.2 with
      | .error e => (r.1, [SEND_RESPONSE client (error_code e), .relay (fmt_04d client)])
      | .ok (file_buffer, file_size) =>
        (r.1, [SEND_RESPONSE client RESPONSE_OK,
               .send client ((fmt_010ld file_size).take METADATA_LENGTH
                              ++ file_buffer.take file_size),
               .relay (fmt_04d client)]))
  | .read_n_files n_buffer =>
    match str2num (n_buffer.take METADATA_LENGTH) with
    | none => some (m, [SEND_RESPONSE client BAD_REQUEST, .relay (fmt_04d client)])
    | some n =>
      (storage_read_many m n client).map (fun r =>
        match r.2 with
        | .error e => (r.1, [SEND_RESPONSE client (error_code e), .relay (fmt_04d client)])
        | .ok (_, files_buffer, files_size) =>
          (r.1, [SEND_RESPONSE client RESPONSE_OK,
                 .send client ((files_buffer ++ [Char.ofNat 0]).take files_size),
                 .send client END_OF_CONTENT, .relay (fmt_04d client)]))
  | .write_file payload content =>
    match storage_can_write m (c_str payload) client with
    | none => none
    | some false => some (m, [SEND_RESPONSE client FORBIDDEN, .relay (fmt_04d client)])
    | some true =>
      (worker_append m client (c_str payload) content).map
        (fun r => (r.1, r.2 ++ [.relay (fmt_04d client)]))
  | .append_to_file payload content =>
    (worker_append m client (c_str payload) content).map
      (fun r => (r.1, r.2 ++ [.relay (fmt_04d client)]))
  | .lock_file payload =>
    (storage_lock m (c_str payload) client).map (fun r =>
      match r.2 with
      | .error .EINPROGRESS => (r.1, [])
      | .error e => (r.1, [SEND_RESPONSE client (error_code e), .relay (fmt_04d client)])
      | .ok () => (r.1, [SEND_RESPONSE client RESPONSE_OK, .relay (fmt_04d client)]))
  | .unlock_file payload =>
    (storage_unlock m (c_str payload) client).map (fun r =>
      match r.2 with
      | .error e => (r.1, [SEND_RESPONSE client (error_code e), .relay (fmt_04d client)])
      | .ok pending_client =>
        (r.1, [SEND_RESPONSE client RESPONSE_OK]
          ++ (if pending_client ≠ 0 then
                [SEND_RESPONSE pending_client RESPONSE_OK, .relay (fmt_04d pending_client)]
              else [])
          ++ [.relay (fmt_04d client)]))
  | .close_file payload =>
    (storage_close m (c_str payload) client).map (fun r =>
      match r.2 with
      | .error e => (r.1, [SEND_RESPONSE client (error_code e), .relay (fmt_04d client)])
      | .ok () => (r.1, [SEND_RESPONSE client RESPONSE_OK, .relay (fmt_04d client)]))
  | .remove_file payload =>
    (storage_remove m (c_str payload) (some []) client).map (fun r =>
      match r.2.1 with
      | .error e => (r.1, [SEND_RESPONSE client (error_code e), .relay (fmt_04d client)])
      | .ok () => (r.1, [SEND_RESPONSE client RESPONSE_OK]
          ++ NOTIFY_PENDING_CLIENTS (r.2.2.getD []) FILE_NOT_FOUND
          ++ [.relay (fmt_04d client)]))
  | .other _ => some (m, [SEND_RESPONSE client BAD_REQUEST, .relay (fmt_04d client)])
  | .client_left =>
    match storage_user_exit m [] client with
    | none => none
    | some (_, .error _, _) => none
    | some (m1, .ok (), pending_clients) =>
      some (m1, [Event.close client] ++ NOTIFY_PENDING_CLIENTS pending_clients RESPONSE_OK
        ++ [.relay NO_CLIENT])

/-- The states of the server: the storage `main` creates, and every state a worker leaves
after handling a request of a connected client (a descriptor, hence positive). -/
inductive Reachable (max_file_number max_size : Nat) : Machine → Prop where
  | init : Reachable max_file_number max_size (storage_create max_file_number max_size)
  | step {m m1 : Machine} {client : Int} {req : Request} {out : List Event} :
      Reachable max_file_number max_size m → 0 < client →
      worker m client req = some (m1, out) → Reachable max_file_number max_size m1

/-- The pointers of the sequence `head .. tail`: the files met from a pointer by following
`next` (a freed file ends the walk). -/
def sequence_from (mem : List (Option file_t)) : Nat → Option Ptr → List Ptr
  | _, none => []
  | 0, some _ => []
  | fuel + 1, some p =>
    match deref mem p with
    | none => [p]
    | some f => p :: sequence_from mem fuel f.next

/-- The files reachable from `head` by following `next`. -/
def sequence (m : Machine) : List Ptr :=
  sequence_from m.mem (m.mem.length + 1) m.storage.head

/-- A worker handling a list of requests, one after the other. -/
def run (m : Machine) : List (Int × Request) → Option Machine
  | [] => some m
  | (client, req) :: rest =>
    match worker m client req with
    | none => none
    | some (m1, _) => run m1 rest

/-! ## Well-formed states -/

/-- What the list structure and the counters of the storage read of a file. -/
structure Links where
  pathname : List Char
  size : Nat
  content_length : Nat
  previous : Option Ptr
  next : Option Ptr
deriving DecidableEq, Repr

/-- The part of a file the list structure and the counters depend on. -/
def file_t.links (f : file_t) : Links :=
  { pathname := f.pathname, size := f.size, content_length := (f.content.getD []).length,
    previous := f.previous, next := f.next }

/-- The memory as the list structure sees it. -/
def links_at (m : Machine) (p : Ptr) : Option Links :=
  (deref m.mem p).map file_t.links

/-- The size of the file a pointer points to (`0` for a freed cell). -/
def size_at (c : Ptr → Option Links) (p : Ptr) : Nat :=
  ((c p).map Links.size).getD 0

/-- Well-formedness of a storage `s` over cells `c` of a memory of `len` cells.  The
dictionary has unique keys and points to live files named by their key; following `next`
from a stored file, or from `head`, stays among the stored files; `next` and `previous` of
stored files agree (the latter except for predecessor `hole`); the counters count the
dictionary and respect the limits; `size` is the length of the content. -/
structure WFs (c : Ptr → Option Links) (len : Nat) (s : storage_t) (hole : Option Ptr) :
    Prop where
  keys_nodup : (s.dictionary.map Prod.fst).Nodup
  live : ∀ k p, (k, p) ∈ s.dictionary → ∃ f, c p = some f ∧ f.pathname = k
  next_in : ∀ k p f n, (k, p) ∈ s.dictionary → c p = some f → f.next = some n →
    ∃ k1, (k1, n) ∈ s.dictionary
  head_in : ∀ h, s.head = some h → ∃ k, (k, h) ∈ s.dictionary
  next_prev : ∀ k p f n g, (k, p) ∈ s.dictionary → c p = some f → f.next = some n →
    c n = some g → g.previous = some p
  head_prev : ∀ h g, s.head = some h → c h = some g → g.previous = none
  prev_next : ∀ k x f k1 p g, (k, x) ∈ s.dictionary → c x = some f → f.previous = some p →
    some p ≠ hole → (k1, p) ∈ s.dictionary → c p = some g → g.next = some x
  tail_next : ∀ k t g, s.tail = some t → (k, t) ∈ s.dictionary → c t = some g →
    g.next = none
  prev_lt : ∀ k x f p, (k, x) ∈ s.dictionary → c x = some f → f.previous = some p → p < len
  tail_lt : ∀ t, s.tail = some t → t < len
  cell_lt : ∀ p f, c p = some f → p < len
  file_number_eq : s.file_number = s.dictionary.length
  size_eq : s.size = (s.dictionary.map (fun e => size_at c e.2)).sum
  file_number_le : s.file_number ≤ s.max_file_number
  size_le : s.size ≤ s.max_size
  content_len : ∀ k p f, (k, p) ∈ s.dictionary → c p = some f → f.content_length = f.size

/-- Well-formedness of a state of the server. -/
def WF (m : Machine) : Prop :=
  WFs (links_at m) m.mem.length m.storage none

/-- The cell of `q` after `file_destroy` has unlinked a file with links `f`: `next` of the
predecessor and `previous` of the successor are redirected. -/
def relink (f : Links) (q : Ptr) (g : Links) : Links :=
  { g with next := if f.previous = some q then f.next else g.next,
           previous := if f.next = some q then f.previous else g.previous }

/-- One step along `next`. -/
def next_of (c : Ptr → Option Links) (o : Option Ptr) : Option Ptr :=
  o.bind (fun p => (c p).bind Links.next)

/-- The file `k` steps after `start` along `next`. -/
def nth_from (c : Ptr → Option Links) (start : Option Ptr) (k : Nat) : Option Ptr :=
  (next_of c)^[k] start

/-- A well-formed state of a storage created with the limits `a` and `b`. -/
def Inv (a b : Nat) (m : Machine) : Prop :=
  WF m ∧ m.storage.max_file_number = a ∧ m.storage.max_size = b

/-- The test of `storage_read` and `storage_append`: the user cannot access the file. -/
def no_access (f : file_t) (user : Int) : Prop :=
  (f.locked_by ≠ 0 ∧ f.locked_by ≠ user) ∨ (!contains_user f.opened_by user) = true

/-- The state `storage_append` leaves when it succeeds, from the state `m0` its eviction
loop ended in: the file, read as `f0`, gets the bytes `new_content` after its content. -/
def written (m0 : Machine) (file : Ptr) (f0 : file_t) (new_content : List Char) : Machine :=
  { mem := store m0.mem file
      { f0 with content := some (f0.content.getD [] ++ new_content),
                size := f0.size + new_content.length, modified := true, owner := 0 },
    storage := { m0.storage with
      size := m0.storage.size - f0.size + (f0.size + new_content.length) } }

/-- The files the dictionary holds. -/
def stored_files (m : Machine) : List file_t :=
  m.storage.dictionary.filterMap (fun e => deref m.mem e.2)

/-- The state of a server created with the limits `a` and `b` after a worker has handled
the requests `reqs` (the initial state if the run leaves defined behaviour). -/
def state_after (a b : Nat) (reqs : List (Int × Request)) : Machine :=
  (run (storage_create a b) reqs).getD (storage_create a b)

/-! ## The history of a pathname -/

/-- The first event a worker produced is the answer `OK` to the client. -/
def answered_ok (client : Int) (out : List Event) : Bool :=
  decide (out.head? = some (SEND_RESPONSE client RESPONSE_OK))

/-- The write predicate as the specification words it, read off the history alone: the
client that may do the first write on `p` after one more request, given the client `g`
that might before (`0` for nobody).  An `open` of `p` with `O_CREATE` answered `OK` created
the file: the right goes to the client if `O_LOCK` was set too, to nobody otherwise; a
`read`, `write`, `append`, `lock`, `unlock` or `close` of `p` answered `OK` takes it away;
everything else leaves it. -/
def first_writer_step (p : List Char) (client : Int) (req : Request) (out : List Event)
    (g : Int) : Int :=
  if answered_ok client out then
    match req with
    | .open_file payload flags_buffer =>
      if c_str payload = p then
        match str2num (flags_buffer.take 1) with
        | some flags =>
          if IS_SET O_CREATE flags.toNat then
            if IS_SET O_LOCK flags.toNat then client else 0
          else g
        | none => g
      else g
    | .read_file payload => if c_str payload = p then 0 else g
    | .write_file payload _ => if c_str payload = p then 0 else g
    | .append_to_file payload _ => if c_str payload = p then 0 else g
    | .lock_file payload => if c_str payload = p then 0 else g
    | .unlock_file payload => if c_str payload = p then 0 else g
    | .close_file payload => if c_str payload = p then 0 else g
    | _ => g
  else g

/-- A worker handling a list of requests, with the right of the first write on `p` followed
along the history. -/
def first_writer (p : List Char) :
    Machine → List (Int × Request) → Int → Option (Machine × Int)
  | m, [], g => some (m, g)
  | m, (client, req) :: rest, g =>
    match worker m client req with
    | none => none
    | some (m1, out) => first_writer p m1 rest (first_writer_step p client req out g)

/-- The file stored at `p`, if there is one, has `owner = g`; the empty pathname is not
stored. -/
def Own (p : List Char) (m : Machine) (g : Int) : Prop :=
  (∀ file f, (p, file) ∈ m.storage.dictionary → deref m.mem file = some f → f.owner = g) ∧
  (p = [] → ∀ file, (p, file) ∉ m.storage.dictionary)

/-! ## The sequence -/

/-- The pointers `l` are the files met from `start` by following `next`, all of them live,
up to `NULL`. -/
def is_chain (mem : List (Option file_t)) : Option Ptr → List Ptr → Prop
  | start, [] => start = none
  | start, x :: l => start = some x ∧ ∃ f, deref mem x = some f ∧ is_chain mem f.next l

/-- The test of `get_victim` on a file: it is not `spare` and `modified` is set. -/
def is_victim (mem : List (Option file_t)) (spare : Option Ptr) (q : Ptr) : Bool :=
  decide (some q ≠ spare) && ((deref mem q).map file_t.modified).getD false

/-- The pointer `tail` is not dangling. -/
def tail_live (m : Machine) : Prop :=
  ∀ t, m.storage.tail = some t → ∃ f, deref m.mem t = some f

/-! ## Scenarios -/

/-- The clients of a list call `storage_lock` on `p`, one after the other: the state left
and the return values. -/
def lock_all (m : Machine) (p : List Char) :
    List Int → Option (Machine × List (Except Errno Unit))
  | [] => some (m, [])
  | w :: ws =>
    match storage_lock m p w with
    | none => none
    | some (m1, r) => (lock_all m1 p ws).map (fun x => (x.1, r :: x.2))

/-- The clients of a list call `storage_unlock` on `p`, one after the other: the state left
and the return values (on success the new holder, `0` for none). -/
def unlock_all (m : Machine) (p : List Char) :
    List Int → Option (Machine × List (Except Errno Int))
  | [] => some (m, [])
  | u :: us =>
    match storage_unlock m p u with
    | none => none
    | some (m1, r) => (unlock_all m1 p us).map (fun x => (x.1, r :: x.2))

/-- Client 4 creates `/c` locked; the clients 5 and 6 open it. -/
def lock_queue_requests : List (Int × Request) :=
  [(4, .open_file "/c".toList ['3']), (5, .open_file "/c".toList ['0']),
   (6, .open_file "/c".toList ['0'])]



/-- Client 4 creates `/a` locked and writes `secret`; client 5 opens `/a` without flags. -/
def locked_file_requests : List (Int × Request) :=
  [(4, .open_file "/a".toList ['3']), (4, .write_file "/a".toList "secret".toList),
   (5, .open_file "/a".toList ['0'])]

/-- Client 4 creates `/a` locked, writes `x`, and opens `/a` a second time. -/
def double_open_requests : List (Int × Request) :=
  [(4, .open_file "/a".toList ['3']), (4, .write_file "/a".toList "x".toList),
   (4, .open_file "/a".toList ['0'])]

/-- The scenario "Eviction during append" up to the open of `/z`: client 4 creates `/x`,
writes `aaaaa`, unlocks and closes it, does the same with `/y` and `bbbbb`, then opens
`/z` with `O_CREATE|O_LOCK`. -/
def eviction_requests : List (Int × Request) :=
  [(4, .open_file "/x".toList ['3']), (4, .write_file "/x".toList "aaaaa".toList),
   (4, .unlock_file "/x".toList), (4, .close_file "/x".toList),
   (4, .open_file "/y".toList ['3']), (4, .write_file "/y".toList "bbbbb".toList),
   (4, .unlock_file "/y".toList), (4, .close_file "/y".toList),
   (4, .open_file "/z".toList ['3'])]

/-- Client 4 fills a storage of two files: `/x` holding `aaaaa` and `/y` holding `bbbbb`. -/
def full_storage_requests : List (Int × Request) :=
  [(4, .open_file "/x".toList ['3']), (4, .write_file "/x".toList "aaaaa".toList),
   (4, .open_file "/y".toList ['3']), (4, .write_file "/y".toList "bbbbb".toList)]

/-- The C library's `atol` on a buffer that ends with a zero byte: white space is skipped, a
sign is read, then the decimal digits up to the first character that is not one (`0` when
there is none). -/
def atol (buf : List Char) : Int :=
  let t := (c_str buf).dropWhile isspace
  let (neg, t1) := (match t with
    | '-' :: r => (true, r)
    | '+' :: r => (false, r)
    | _ => (false, t))
  let ds := t1.takeWhile Char.isDigit
  let v : Int := ((ds.foldl (fun a c => 10 * a + (c.toNat - 48)) 0 : Nat) : Int)
  if neg then -v else v

/-- The function `receive_files` of `fss_api.c` (with `dirname == NULL`) on the bytes that
are to come on the socket: the number of files read and the bytes left unread; `none` when a
`readn` asks for more bytes than are to come (the client blocks), for a negative length, or
when the fuel ends. -/
def receive_files : Nat → List Char → Option (Nat × List Char)
  | 0, _ => none
  | fuel + 1, stream =>
    -- read pathname length
    if stream.length < METADATA_LENGTH then none
    else
      let pathname_length := atol (stream.take METADATA_LENGTH)
      let s1 := stream.drop METADATA_LENGTH
      if pathname_length = 0 then some (0, s1)   -- no more files to read
      else if pathname_length < 0 ∨ s1.length < pathname_length.toNat then none
      else
        -- read pathname
        let s2 := s1.drop pathname_length.toNat
        -- read file size
        if s2.length < METADATA_LENGTH then none
        else
          let file_size := atol (s2.take METADATA_LENGTH)
          let s3 := s2.drop METADATA_LENGTH
          if file_size < 0 ∨ s3.length < file_size.toNat then none
          else
            -- read file content
            (receive_files fuel (s3.drop file_size.toNat)).map (fun r => (r.1 + 1, r.2))

/-- The bytes written to the socket `fd`, in order. -/
def sent_to (fd : Int) : List Event → List Char
  | [] => []
  | .send d bytes :: rest => if d = fd then bytes ++ sent_to fd rest else sent_to fd rest
  | _ :: rest => sent_to fd rest

/-- Client 4 creates `/a` locked and writes `secret`. -/
def one_file_requests : List (Int × Request) :=
  [(4, .open_file "/a".toList ['3']), (4, .write_file "/a".toList "secret".toList)]

/-- The files of the sequence `head .. tail`, in its order. -/
def sequence_files (m : Machine) : List file_t :=
  (sequence m).filterMap (deref m.mem)

/-- The files `read_many(N)` is to return, in the words of the specification: the files of
the sequence with `size > 0`, in its order; the first `N` of them when `N > 0`, all of them
when `N ≤ 0`. -/
def read_many_selected (m : Machine) (N : Int) : List file_t :=
  let non_empty := (sequence_files m).filter (fun f => decide (0 < f.size))
  if 0 < N then non_empty.take N.toNat else non_empty

/-- The block of a file in the buffer of `read_many`: the length of the pathname, the
pathname, the size, the content. -/
def read_many_block (f : file_t) : List Char :=
  fmt_010ld f.pathname.length ++ f.pathname ++ fmt_010ld f.size ++ f.content.getD []

/-- The body of the loop of `storage_user_exit` on one file: the lock held by `user` goes to
the head of `pending_locks` (or is released), then `user` is taken out of `pending_locks`
and out of `opened_by`. -/
def exit_file (user : Int) (f : file_t) : file_t :=
  let f1 := if f.locked_by = user then
      { f with pending_locks := (dequeue_user f.pending_locks (-1)).1,
               locked_by := (dequeue_user f.pending_locks (-1)).2 }
    else f
  let f2 := { f1 with pending_locks := (dequeue_user f1.pending_locks user).1 }
  { f2 with opened_by := (dequeue_user f2.opened_by user).1 }

/-- The clients `storage_user_exit` adds to the caller's list for the files it visits: for
every file locked by `user`, the head of its `pending_locks`. -/
def exit_holders (user : Int) : List file_t → List Int
  | [] => []
  | f :: rest =>
    if f.locked_by = user ∧ 0 < (dequeue_user f.pending_locks (-1)).2 then
      (dequeue_user f.pending_locks (-1)).2 :: exit_holders user rest
    else exit_holders user rest

/-- Two values of a file that differ at most in the links `previous` and `next`. -/
def same_file (f1 f : file_t) : Prop :=
  f1 = { f with previous := f1.previous, next := f1.next }

/-- What a request of `client` does to the stored file `f` of pathname `k` it is about: `g`
is the file after it, links apart. -/
def touched (client : Int) (k : List Char) : Request → file_t → file_t → Prop
  | .open_file payload _, f, g =>
    c_str payload = k ∧ 0 < client ∧
      (g = { f with opened_by := f.opened_by ++ [client] } ∨
       (f.locked_by = 0 ∧
        g = { f with locked_by := client, opened_by := f.opened_by ++ [client] }))
  | .read_file payload, f, g =>
    c_str payload = k ∧ 0 < client ∧ ¬ no_access f client ∧ g = { f with owner := 0 }
  | .write_file payload content, f, g =>
    c_str payload = k ∧ 0 < client ∧ ¬ no_access f client ∧ content ≠ [] ∧
      g = { f with content := some (f.content.getD [] ++ content),
                   size := f.size + content.length, modified := true, owner := 0 }
  | .append_to_file payload content, f, g =>
    c_str payload = k ∧ 0 < client ∧ ¬ no_access f client ∧ content ≠ [] ∧
      g = { f with content := some (f.content.getD [] ++ content),
                   size := f.size + content.length, modified := true, owner := 0 }
  | .lock_file payload, f, g =>
    c_str payload = k ∧ 0 < client ∧
      (((f.locked_by = 0 ∨ f.locked_by = client) ∧
        g = { f with locked_by := client, owner := 0 }) ∨
       (f.locked_by ≠ 0 ∧ f.locked_by ≠ client ∧
        g = { f with pending_locks := f.pending_locks ++ [client] }))
  | .unlock_file payload, f, g =>
    c_str payload = k ∧ 0 < client ∧ f.locked_by = client ∧
      g = { f with pending_locks := f.pending_locks.tail,
                   locked_by := f.pending_locks.headD 0, owner := 0 }
  | .close_file payload, f, g =>
    c_str payload = k ∧ 0 < client ∧ client ∈ f.opened_by ∧
      g = { f with opened_by := f.opened_by.erase client, owner := 0 }
  | .client_left, f, g => 0 < client ∧ g = exit_file client f
  | _, _, _ => False

/-- The file a request of `client` creates at the pathname `k`, links apart. -/
def created (client : Int) (k : List Char) : Request → file_t → Prop
  | .open_file payload _, g =>
    c_str payload = k ∧ k ≠ [] ∧ 0 < client ∧
      (g = { new_file k with opened_by := [client] } ∨
       g = { new_file k with owner := client, locked_by := client, opened_by := [client] })
  | _, _ => False

/-- The stored files after a step, each traced to the file it was before: the same but for
the links, changed as `P` says, or new as `C` says. -/
def files_step (P : List Char → file_t → file_t → Prop) (C : List Char → file_t → Prop)
    (m m1 : Machine) : Prop :=
  ∀ k q f1, (k, q) ∈ m1.storage.dictionary → deref m1.mem q = some f1 →
    (∃ f, (k, q) ∈ m.storage.dictionary ∧ deref m.mem q = some f ∧
      (same_file f1 f ∨ ∃ g1, P k f g1 ∧ same_file f1 g1)) ∨
    ((∀ q0, (k, q0) ∉ m.storage.dictionary) ∧ ∃ g1, C k g1 ∧ same_file f1 g1)

/-- A property of the stored files: every file the dictionary holds has it. -/
def all_files (Q : List Char → file_t → Prop) (m : Machine) : Prop :=
  ∀ k q f, (k, q) ∈ m.storage.dictionary → deref m.mem q = some f → Q k f

/-- The clients waiting for a lock are descriptors, and the stored pathnames are not empty. -/
def waiters_positive (k : List Char) (f : file_t) : Prop :=
  k ≠ [] ∧ ∀ x ∈ f.pending_locks, 0 < x

/-- The file a request on `pathname` is about, as the storage operations find it. -/
def target_file (m : Machine) (pathname : List Char) : Option file_t :=
  match storage_find m.storage pathname with
  | .ok file => deref m.mem file
  | .error _ => none

/-- The discipline of the waiting queue: a client asks for the lock of a file only while it
has the file open and is not waiting for that lock, and closes a file only while it is not
waiting for its lock. -/
def orderly_waits (m : Machine) (client : Int) : Request → Bool
  | .lock_file payload =>
    match target_file m (c_str payload) with
    | some f => contains_user f.opened_by client && !contains_user f.pending_locks client
    | none => true
  | .close_file payload =>
    match target_file m (c_str payload) with
    | some f => !contains_user f.pending_locks client
    | none => true
  | _ => true

/-- The discipline of the lock: that of the waiting queue, and a client closes a file only
while it does not hold its lock. -/
def orderly (m : Machine) (client : Int) : Request → Bool
  | .close_file payload =>
    match target_file m (c_str payload) with
    | some f => decide (f.locked_by ≠ client) && !contains_user f.pending_locks client
    | none => true
  | req => orderly_waits m client req

/-- Every request of a run keeps the discipline `D` in the state it is handled in. -/
def disciplined (D : Machine → Int → Request → Bool) :
    Machine → List (Int × Request) → Bool
  | _, [] => true
  | m, (client, req) :: rest =>
    D m client req &&
      (match worker m client req with
       | some (m1, _) => disciplined D m1 rest
       | none => true)

/-- The waiting queue of a stored file: every waiting client has the file open, and no
client waits twice. -/
def queue_inv (k : List Char) (f : file_t) : Prop :=
  k ≠ [] ∧ (∀ x ∈ f.pending_locks, x ∈ f.opened_by) ∧ f.pending_locks.Nodup

/-- The lock of a stored file: the holder has the file open and does not wait for the lock,
and clients wait only for a lock that is held. -/
def lock_inv (k : List Char) (f : file_t) : Prop :=
  queue_inv k f ∧ (f.locked_by ≠ 0 → f.locked_by ∈ f.opened_by) ∧
    f.locked_by ∉ f.pending_locks ∧ (f.locked_by = 0 → f.pending_locks = []) ∧
    ∀ x ∈ f.pending_locks, 0 < x

/-- Client 4 creates `/c` locked, the clients 5 and 6 open it and ask for its lock, client 4
unlocks it, and client 5, the new holder, leaves. -/
def handover_requests : List (Int × Request) :=
  [(4, .open_file "/c".toList ['3']), (5, .open_file "/c".toList ['0']),
   (6, .open_file "/c".toList ['0']), (5, .lock_file "/c".toList),
   (6, .lock_file "/c".toList), (4, .unlock_file "/c".toList), (5, .client_left)]

/-- Client 4 creates `/c` locked; the clients 5 and 6 open it and ask for its lock. -/
def waiting_requests : List (Int × Request) :=
  lock_queue_requests ++ [(5, .lock_file "/c".toList), (6, .lock_file "/c".toList)]

/-- The bytes of a file: a file that was never written has no content and takes no space. -/
def space_inv (_k : List Char) (f : file_t) : Prop :=
  f.modified = false → f.size = 0 ∧ f.content = none

/-- Client 4 creates `/a` locked and writes `hello`. -/
def hello_requests : List (Int × Request) :=
  [(4, .open_file "/a".toList ['3']), (4, .write_file "/a".toList "hello".toList)]

/-- In a storage of one file, client 4 creates `/x` and writes `aaaaa`, then creates `/y`:
the open evicts `/x`. -/
def open_eviction_requests : List (Int × Request) :=
  [(4, .open_file "/x".toList ['3']), (4, .write_file "/x".toList "aaaaa".toList),
   (4, .open_file "/y".toList ['3'])]

/-- The events of a request that is answered: the response code for the client, the
notifications of the clients `others` (for each its response code on its socket and its
descriptor on the pipe), the data blocks for the client, and the descriptor of the client on
the pipe. -/
def answer (client : Int) (code : Nat) (others : List Int) (code2 : Nat)
    (data : List (List Char)) : List Event :=
  [SEND_RESPONSE client code] ++ NOTIFY_PENDING_CLIENTS others code2
    ++ data.map (Event.send client) ++ [.relay (fmt_04d client)]

/-- The client `u` waits for the lock of a stored file. -/
def waiting_in (m : Machine) (u : Int) : Prop :=
  ∃ k q f, (k, q) ∈ m.storage.dictionary ∧ deref m.mem q = some f ∧ u ∈ f.pending_locks

/-- A file that was written takes space. -/
def modified_inv (_k : List Char) (f : file_t) : Prop :=
  f.modified = true → 0 < f.size

/-- Client 4 creates `/x` and `/y`, writes to both, unlocks and closes `/x`; client 5 asks
for the lock of `/y`, which client 4 holds. -/
def notify_requests : List (Int × Request) :=
  [(4, .open_file "/x".toList ['3']), (4, .write_file "/x".toList "aaaaa".toList),
   (4, .open_file "/y".toList ['3']), (4, .write_file "/y".toList "bbbbb".toList),
   (5, .open_file "/y".toList ['0']), (5, .lock_file "/y".toList)]

/-- In a storage of ten bytes, client 4 creates `/x` and writes `aaaa`, creates `/y` and
writes `bbbb`, and creates `/z`. -/
def two_victims_requests : List (Int × Request) :=
  [(4, .open_file "/x".toList ['3']), (4, .write_file "/x".toList "aaaa".toList),
   (4, .open_file "/y".toList ['3']), (4, .write_file "/y".toList "bbbb".toList),
   (4, .open_file "/z".toList ['3'])]

/-- The client waits for the lock of no stored file.  The master takes the descriptor of a
client out of its set when it hands it to a worker, and a `lockFile` left pending does not
give it back: the workers handle no request of a client that waits for a lock. -/
def not_waiting (m : Machine) (client : Int) : Bool :=
  (stored_files m).all (fun f => !contains_user f.pending_locks client)

/-- The requests the server handles: those of clients that wait for no lock. -/
def served (m : Machine) (client : Int) (_req : Request) : Bool :=
  not_waiting m client

/-- The requests the server handles, when a client asks for the lock of a file only while it
has the file open. -/
def served_open (m : Machine) (client : Int) (req : Request) : Bool :=
  not_waiting m client &&
    (match req with
     | .lock_file payload =>
       match target_file m (c_str payload) with
       | some f => contains_user f.opened_by client
       | none => true
     | _ => true)

/-- The waiting queue of a stored file holds no client twice. -/
def nodup_inv (_k : List Char) (f : file_t) : Prop :=
  f.pending_locks.Nodup

/-- In a storage of five files and ten bytes, client 4 creates `/a`, `/b`, `/c` (six bytes),
`/d` and `/e`, appends five bytes to `/a` (which evicts `/c`), removes `/e`, and creates
`/f` and `/g`. -/
def orphan_tail_requests : List (Int × Request) :=
  [(4, .open_file "/a".toList ['3']), (4, .open_file "/b".toList ['3']),
   (4, .open_file "/c".toList ['3']), (4, .write_file "/c".toList "cccccc".toList),
   (4, .open_file "/d".toList ['3']), (4, .open_file "/e".toList ['3']),
   (4, .append_to_file "/a".toList "aaaaa".toList), (4, .remove_file "/e".toList),
   (4, .open_file "/f".toList ['3']), (4, .open_file "/g".toList ['3'])]

/-- In a storage of five bytes, client 4 creates `/a` and writes four bytes, creates `/b`
and writes two bytes: the second write evicts `/a`. -/
def truncated_requests : List (Int × Request) :=
  [(4, .open_file "/a".toList ['3']), (4, .write_file "/a".toList "aaaa".toList),
   (4, .open_file "/b".toList ['3']), (4, .write_file "/b".toList "bb".toList)]

/-! ## Theorems -/

/-! ### Memory -/

theorem deref_lt {mem : List (Option file_t)} {p : Ptr} {f : file_t}
    (h : deref mem p = some f) : p < mem.length := by
  unfold deref at h
  by_contra hlt
  rw [List.get?_eq_none.mpr (Nat.le_of_not_lt hlt)] at h
  simp at h

theorem deref_store {mem : List (Option file_t)} {p : Ptr} (f : file_t) (q : Ptr)
    (hp : p < mem.length) :
    deref (store mem p f) q = if q = p then some f else deref mem q := by
  unfold deref store
  by_cases hq : q = p
  · subst hq
    simp [hp]
  · simp [hq, List.getElem?_set, Ne.symm hq]

theorem deref_dealloc (mem : List (Option file_t)) (p q : Ptr) :
    deref (file_dealloc mem p) q = if q = p then none else deref mem q := by
  unfold deref file_dealloc
  by_cases hq : q = p
  · subst hq
    by_cases hp : q < mem.length <;> simp [hp, List.getElem?_set]
  · simp [hq, List.getElem?_set, Ne.symm hq]

theorem deref_append (mem : List (Option file_t)) (f : file_t) (q : Ptr) :
    deref (mem ++ [some f]) q = if q = mem.length then some f else deref mem q := by
  unfold deref
  by_cases hq : q = mem.length
  · subst hq
    simp
  · simp only [hq, if_false]
    rcases Nat.lt_or_gt_of_ne hq with h | h
    · simp [List.getElem?_append_left h]
    · have h1 : mem.length + 1 ≤ q := h
      simp [List.getElem?_eq_none, Nat.le_of_lt h, h1]

theorem length_store (mem : List (Option file_t)) (p : Ptr) (f : file_t) :
    (store mem p f).length = mem.length := by
  simp [store]

theorem length_dealloc (mem : List (Option file_t)) (p : Ptr) :
    (file_dealloc mem p).length = mem.length := by
  simp [file_dealloc]

theorem assign_next_spec {mem mem1 : List (Option file_t)} {p : Ptr} {v : Option Ptr}
    (h : assign_next mem p v = some mem1) :
    mem1.length = mem.length ∧ ∀ q, deref mem1 q =
      (deref mem q).map (fun g => if q = p then { g with next := v } else g) := by
  unfold assign_next at h
  cases hp : deref mem p with
  | none => simp [hp] at h
  | some pf =>
    simp only [hp, Option.map_some', Option.some.injEq] at h
    subst h
    refine ⟨length_store _ _ _, fun q => ?_⟩
    rw [deref_store _ _ (deref_lt hp)]
    by_cases hq : q = p
    · subst hq
      simp [hp]
    · simp only [if_neg hq]
      cases deref mem q <;> rfl

theorem assign_previous_spec {mem mem1 : List (Option file_t)} {p : Ptr} {v : Option Ptr}
    (h : assign_previous mem p v = some mem1) :
    mem1.length = mem.length ∧ ∀ q, deref mem1 q =
      (deref mem q).map (fun g => if q = p then { g with previous := v } else g) := by
  unfold assign_previous at h
  cases hp : deref mem p with
  | none => simp [hp] at h
  | some pf =>
    simp only [hp, Option.map_some', Option.some.injEq] at h
    subst h
    refine ⟨length_store _ _ _, fun q => ?_⟩
    rw [deref_store _ _ (deref_lt hp)]
    by_cases hq : q = p
    · subst hq
      simp [hp]
    · simp only [if_neg hq]
      cases deref mem q <;> rfl

theorem unlink_previous_spec {mem mem1 : List (Option file_t)} {head head1 : Option Ptr}
    {f : file_t} (h : unlink_previous mem head f = some (mem1, head1)) :
    mem1.length = mem.length ∧
    head1 = (if f.previous = none then f.next else head) ∧
    ∀ q, deref mem1 q =
      (deref mem q).map (fun g => if f.previous = some q then { g with next := f.next } else g) := by
  unfold unlink_previous at h
  cases hp : f.previous with
  | none =>
    simp only [hp, Option.some.injEq, Prod.mk.injEq] at h
    obtain ⟨rfl, rfl⟩ := h
    refine ⟨rfl, by simp, fun q => ?_⟩
    cases deref mem q <;> simp
  | some p =>
    simp only [hp] at h
    cases ha : assign_next mem p f.next with
    | none => simp [ha] at h
    | some mem0 =>
      simp only [ha, Option.map_some', Option.some.injEq, Prod.mk.injEq] at h
      obtain ⟨rfl, rfl⟩ := h
      obtain ⟨h1, h2⟩ := assign_next_spec ha
      refine ⟨h1, by simp, fun q => ?_⟩
      rw [h2 q]
      congr 1
      funext g
      by_cases hq : q = p
      · simp [hq]
      · have : ¬ (p = q) := fun e => hq e.symm
        simp [hq, this]

theorem unlink_next_spec {mem mem1 : List (Option file_t)} {tail tail1 : Option Ptr}
    {f : file_t} (h : unlink_next mem tail f = some (mem1, tail1)) :
    mem1.length = mem.length ∧
    tail1 = (if f.next = none then f.previous else tail) ∧
    ∀ q, deref mem1 q =
      (deref mem q).map (fun g =>
        if f.next = some q then { g with previous := f.previous } else g) := by
  unfold unlink_next at h
  cases hp : f.next with
  | none =>
    simp only [hp, Option.some.injEq, Prod.mk.injEq] at h
    obtain ⟨rfl, rfl⟩ := h
    refine ⟨rfl, by simp, fun q => ?_⟩
    cases deref mem q <;> simp
  | some p =>
    simp only [hp] at h
    cases ha : assign_previous mem p f.previous with
    | none => simp [ha] at h
    | some mem0 =>
      simp only [ha, Option.map_some', Option.some.injEq, Prod.mk.injEq] at h
      obtain ⟨rfl, rfl⟩ := h
      obtain ⟨h1, h2⟩ := assign_previous_spec ha
      refine ⟨h1, by simp, fun q => ?_⟩
      rw [h2 q]
      congr 1
      funext g
      by_cases hq : q = p
      · simp [hq]
      · have : ¬ (p = q) := fun e => hq e.symm
        simp [hq, this]

/-- What `file_destroy` does, when it returns. -/
theorem file_destroy_spec {m m1 : Machine} {file : Ptr} {pl out : Option (List Int)}
    {dealloc : Bool} (h : file_destroy m file pl dealloc = some (m1, out)) :
    ∃ f, deref m.mem file = some f ∧
      (∀ q, q ≠ file → deref m1.mem q = (deref m.mem q).map (fun g =>
        { g with next := if f.previous = some q then f.next else g.next,
                 previous := if f.next = some q then f.previous else g.previous })) ∧
      deref m1.mem file = (if dealloc then none else some (destroyed f pl)) ∧
      m1.mem.length = m.mem.length ∧
      icl_hash_delete m.storage.dictionary f.pathname = some m1.storage.dictionary ∧
      m1.storage = { m.storage with
        head := if f.previous = none then f.next else m.storage.head,
        tail := if f.next = none then f.previous else m.storage.tail,
        dictionary := m1.storage.dictionary,
        file_number := m.storage.file_number - 1,
        size := m.storage.size - f.size } ∧
      out = handed_out f pl := by
  unfold file_destroy at h
  cases hf : deref m.mem file with
  | none => simp [hf] at h
  | some f =>
    simp only [hf, Option.bind_eq_bind, Option.some_bind] at h
    cases hu1 : unlink_previous m.mem m.storage.head f with
    | none => simp [hu1] at h
    | some r1 =>
      obtain ⟨mem1, head1⟩ := r1
      obtain ⟨hl1, hh1, hd1⟩ := unlink_previous_spec hu1
      have hf1 : deref mem1 file = some f := by
        rw [hd1 file, hf]
        simp only [Option.map_some', Option.some.injEq]
        split_ifs
        · cases f
          rfl
        · rfl
      simp only [hu1, Option.some_bind, hf1] at h
      cases hu2 : unlink_next mem1 m.storage.tail f with
      | none => simp [hu2] at h
      | some r2 =>
        obtain ⟨mem2, tail2⟩ := r2
        obtain ⟨hl2, hh2, hd2⟩ := unlink_next_spec hu2
        have hf2 : deref mem2 file = some f := by
          rw [hd2 file, hf1]
          simp only [Option.map_some', Option.some.injEq]
          split_ifs
          · cases f
            rfl
          · rfl
        simp only [hu2, Option.some_bind, hf2] at h
        cases hdel : icl_hash_delete m.storage.dictionary f.pathname with
        | none => simp [hdel] at h
        | some dict =>
          simp only [hdel, Option.some_bind, pure, Option.some.injEq, Prod.mk.injEq] at h
          obtain ⟨rfl, rfl⟩ := h
          have hlt : file < mem2.length := deref_lt hf2
          refine ⟨f, rfl, ?_, ?_, ?_, hdel, ?_, rfl⟩
          · intro q hq
            have hm3 : deref (if dealloc = true then file_dealloc mem2 file
                else store mem2 file (destroyed f pl)) q = deref mem2 q := by
              cases dealloc
              · simp [deref_store _ _ hlt, hq]
              · simp [deref_dealloc, hq]
            simp only [hm3]
            rw [hd2 q, hd1 q]
            cases deref m.mem q with
            | none => rfl
            | some g =>
              by_cases h1 : f.previous = some q <;> by_cases h2 : f.next = some q <;>
                simp [h1, h2]
          · cases dealloc
            · simp [deref_store _ _ hlt]
            · simp [deref_dealloc]
          · cases dealloc
            · simp [length_store, hl2, hl1]
            · simp [length_dealloc, hl2, hl1]
          · simp [hh1, hh2]

theorem link_last_spec {mem mem1 : List (Option file_t)} {head tail head1 : Option Ptr}
    {file : Ptr} (h : link_last mem head tail file = some (mem1, head1)) :
    mem1.length = mem.length ∧
    head1 = (if head = none then some file else head) ∧
    ∀ q, deref mem1 q = (deref mem q).map (fun g =>
      { g with previous := if head ≠ none ∧ q = file then tail else g.previous,
               next := if head ≠ none ∧ tail = some q then some file else g.next }) := by
  unfold link_last at h
  cases hh : head with
  | none =>
    simp only [hh, Option.some.injEq, Prod.mk.injEq] at h
    obtain ⟨rfl, rfl⟩ := h
    refine ⟨rfl, by simp, fun q => ?_⟩
    cases deref mem q <;> simp
  | some x =>
    simp only [hh] at h
    cases ha : assign_previous mem file tail with
    | none => simp [ha] at h
    | some mem0 =>
      simp only [ha, Option.some_bind] at h
      obtain ⟨hl0, hd0⟩ := assign_previous_spec ha
      cases ht : tail with
      | none =>
        simp only [ht, Option.some.injEq, Prod.mk.injEq] at h
        obtain ⟨rfl, rfl⟩ := h
        refine ⟨hl0, by simp, fun q => ?_⟩
        rw [hd0 q, ht]
        cases deref mem q with
        | none => rfl
        | some g => by_cases hq : q = file <;> simp [hq]
      | some t =>
        simp only [ht] at h
        cases hn : assign_next mem0 t (some file) with
        | none => simp [hn] at h
        | some mem2 =>
          simp only [hn, Option.map_some', Option.some.injEq, Prod.mk.injEq] at h
          obtain ⟨rfl, rfl⟩ := h
          obtain ⟨hl1, hd1⟩ := assign_next_spec hn
          refine ⟨by rw [hl1, hl0], by simp, fun q => ?_⟩
          rw [hd1 q, hd0 q, ht]
          cases deref mem q with
          | none => rfl
          | some g =>
            by_cases hq : q = file
            · subst hq
              by_cases hq2 : t = q
              · subst hq2
                simp
              · have hq3 : ¬ q = t := fun e => hq2 e.symm
                simp [hq2, hq3]
            · by_cases hq2 : t = q
              · subst hq2
                simp [hq]
              · have hq3 : ¬ q = t := fun e => hq2 e.symm
                simp [hq, hq2, hq3]

/-- What `storage_add` does, when it returns. -/
theorem storage_add_spec {m m1 : Machine} {file : Ptr} (h : storage_add m file = some m1) :
    ∃ f, deref m.mem file = some f ∧
      m1.mem.length = m.mem.length ∧
      (∀ q, deref m1.mem q = (deref m.mem q).map (fun g =>
        { g with previous := if m.storage.head ≠ none ∧ q = file then m.storage.tail
                             else g.previous,
                 next := if m.storage.head ≠ none ∧ m.storage.tail = some q then some file
                         else g.next })) ∧
      icl_hash_find m.storage.dictionary f.pathname = none ∧
      m1.storage = { m.storage with
        head := if m.storage.head = none then some file else m.storage.head,
        tail := some file,
        dictionary := (f.pathname, file) :: m.storage.dictionary,
        file_number := m.storage.file_number + 1,
        size := m.storage.size + f.size } := by
  unfold storage_add at h
  cases hl : link_last m.mem m.storage.head m.storage.tail file with
  | none => simp [hl] at h
  | some r =>
    obtain ⟨mem1, head1⟩ := r
    obtain ⟨hlen, hhead, hd⟩ := link_last_spec hl
    simp only [hl, Option.bind_eq_bind, Option.some_bind] at h
    cases hf1 : deref mem1 file with
    | none => simp [hf1] at h
    | some f1 =>
      simp only [hf1, Option.some_bind] at h
      cases hi : icl_hash_insert m.storage.dictionary f1.pathname file with
      | none => simp [hi] at h
      | some dict =>
        simp only [hi, Option.some_bind, pure, Option.some.injEq] at h
        subst h
        have hf1' := hf1
        rw [hd file] at hf1'
        cases hf : deref m.mem file with
        | none => simp [hf] at hf1'
        | some f =>
          simp only [hf, Option.map_some', Option.some.injEq] at hf1'
          have hp : f1.pathname = f.pathname := by rw [← hf1']
          have hs : f1.size = f.size := by rw [← hf1']
          unfold icl_hash_insert at hi
          cases hfind : icl_hash_find m.storage.dictionary f1.pathname with
          | some _ => simp [hfind] at hi
          | none =>
            simp only [hfind, Option.some.injEq] at hi
            subst hi
            refine ⟨f, rfl, hlen, hd, by rw [← hp]; exact hfind, ?_⟩
            simp only [hhead, hp, hs]

/-! ### The list structure -/

theorem perm_mem_ne {c : Ptr → Option Links} {len : Nat} {s : storage_t} {hole : Option Ptr}
    {file : Ptr} {f : Links} {d' : List (List Char × Ptr)}
    (h : WFs c len s hole) (hf : c file = some f)
    (hperm : s.dictionary.Perm ((f.pathname, file) :: d')) :
    ∀ k p, (k, p) ∈ d' ↔ ((k, p) ∈ s.dictionary ∧ p ≠ file) := by
  intro k p
  have hnd : (((f.pathname, file) :: d').map Prod.fst).Nodup :=
    (hperm.map Prod.fst).nodup_iff.mp h.keys_nodup
  simp only [List.map_cons, List.nodup_cons, List.mem_map, not_exists, not_and] at hnd
  constructor
  · intro hm
    have hD : (k, p) ∈ s.dictionary := hperm.mem_iff.mpr (List.mem_cons_of_mem _ hm)
    refine ⟨hD, ?_⟩
    intro hp
    subst hp
    obtain ⟨g, hg, hgk⟩ := h.live k p hD
    rw [hf] at hg
    cases hg
    exact hnd.1 (k, p) hm hgk.symm
  · rintro ⟨hD, hp⟩
    rcases List.mem_cons.mp (hperm.mem_iff.mp hD) with h1 | h1
    · cases h1
      exact absurd rfl hp
    · exact h1

theorem wfs_destroy {c c' : Ptr → Option Links} {len : Nat} {s s' : storage_t}
    {file : Ptr} {f : Links} {d' : List (List Char × Ptr)}
    (h : WFs c len s (some file)) (hf : c file = some f)
    (hmem : (f.pathname, file) ∈ s.dictionary)
    (hperm : s.dictionary.Perm ((f.pathname, file) :: d'))
    (hc' : ∀ q, q ≠ file → c' q = (c q).map (relink f q))
    (hcf : ∀ g, c' file = some g → file < len)
    (hhead : s'.head = if f.previous = none then f.next else s.head)
    (htail : s'.tail = if f.next = none then f.previous else s.tail)
    (hdict : s'.dictionary = d')
    (hfn : s'.file_number = s.file_number - 1)
    (hsize : s'.size = s.size - f.size)
    (hmf : s'.max_file_number = s.max_file_number)
    (hms : s'.max_size = s.max_size) :
    WFs c' len s' none := by
  have hd := perm_mem_ne h hf hperm
  have cell : ∀ q g', q ≠ file → c' q = some g' → ∃ g, c q = some g ∧ g' = relink f q g := by
    intro q g' hq hg'
    rw [hc' q hq] at hg'
    cases hcq : c q with
    | none => simp [hcq] at hg'
    | some g =>
      simp only [hcq, Option.map_some', Option.some.injEq] at hg'
      exact ⟨g, rfl, hg'.symm⟩
  have A1 : ∀ k p g, (k, p) ∈ s.dictionary → c p = some g → g.next = some file →
      f.previous = some p := fun k p g hp hg hn => h.next_prev k p g file f hp hg hn hf
  have A2 : ∀ n g, f.next = some n → c n = some g → g.previous = some file :=
    fun n g hn hg => h.next_prev _ file f n g hmem hf hn hg
  have A3 : ∀ k p g, f.previous = some p → p ≠ file → (k, p) ∈ s.dictionary → c p = some g →
      g.next = some file := fun k p g hp hne hpd hg =>
    h.prev_next _ file f k p g hmem hf hp (by simpa using hne) hpd hg
  subst hdict
  refine
    { keys_nodup := ?_, live := ?_, next_in := ?_, head_in := ?_, next_prev := ?_,
      head_prev := ?_, prev_next := ?_, tail_next := ?_, prev_lt := ?_, tail_lt := ?_,
      cell_lt := ?_, file_number_eq := ?_, size_eq := ?_, file_number_le := ?_,
      size_le := ?_, content_len := ?_ }
  · -- keys_nodup
    have hnd : (((f.pathname, file) :: s'.dictionary).map Prod.fst).Nodup :=
      (hperm.map Prod.fst).nodup_iff.mp h.keys_nodup
    exact (List.nodup_cons.mp hnd).2
  · -- live
    intro k p hp
    obtain ⟨hD, hne⟩ := (hd k p).mp hp
    obtain ⟨g, hg, hk⟩ := h.live k p hD
    exact ⟨relink f p g, by rw [hc' p hne, hg]; rfl, hk⟩
  · -- next_in
    intro k p g' n hp hg' hn
    obtain ⟨hD, hne⟩ := (hd k p).mp hp
    obtain ⟨g, hg, rfl⟩ := cell p g' hne hg'
    simp only [relink] at hn
    by_cases hP : f.previous = some p
    · rw [if_pos hP] at hn
      obtain ⟨k1, hk1⟩ := h.next_in _ file f n hmem hf hn
      refine ⟨k1, (hd k1 n).mpr ⟨hk1, ?_⟩⟩
      rintro rfl
      have := A2 n f hn hf
      rw [hP] at this
      exact hne (Option.some.inj this)
    · rw [if_neg hP] at hn
      obtain ⟨k1, hk1⟩ := h.next_in k p g n hD hg hn
      refine ⟨k1, (hd k1 n).mpr ⟨hk1, ?_⟩⟩
      rintro rfl
      exact hP (A1 k p g hD hg hn)
  · -- head_in
    intro x hx
    rw [hhead] at hx
    by_cases hP : f.previous = none
    · rw [if_pos hP] at hx
      obtain ⟨k1, hk1⟩ := h.next_in _ file f x hmem hf hx
      refine ⟨k1, (hd k1 x).mpr ⟨hk1, ?_⟩⟩
      rintro rfl
      have := A2 x f hx hf
      rw [hP] at this
      cases this
    · rw [if_neg hP] at hx
      obtain ⟨k1, hk1⟩ := h.head_in x hx
      refine ⟨k1, (hd k1 x).mpr ⟨hk1, ?_⟩⟩
      rintro rfl
      exact hP (h.head_prev x f hx hf)
  · -- next_prev
    intro k p g' n gn' hp hg' hn hgn'
    obtain ⟨hD, hne⟩ := (hd k p).mp hp
    obtain ⟨g, hg, rfl⟩ := cell p g' hne hg'
    simp only [relink] at hn
    by_cases hP : f.previous = some p
    · rw [if_pos hP] at hn
      have hnf : n ≠ file := by
        rintro rfl
        have := A2 n f hn hf
        rw [hP] at this
        exact hne (Option.some.inj this)
      obtain ⟨gn, hgn, rfl⟩ := cell n gn' hnf hgn'
      simp only [relink, if_pos hn, hP]
    · rw [if_neg hP] at hn
      have hnf : n ≠ file := by
        rintro rfl
        exact hP (A1 k p g hD hg hn)
      obtain ⟨gn, hgn, rfl⟩ := cell n gn' hnf hgn'
      have hold := h.next_prev k p g n gn hD hg hn hgn
      have hN : f.next ≠ some n := by
        intro hN
        have := A2 n gn hN hgn
        rw [hold] at this
        exact hne (Option.some.inj this)
      simp only [relink, if_neg hN, hold]
  · -- head_prev
    intro x gx' hx hgx'
    rw [hhead] at hx
    by_cases hP : f.previous = none
    · rw [if_pos hP] at hx
      have hxf : x ≠ file := by
        rintro rfl
        have := A2 x f hx hf
        rw [hP] at this
        cases this
      obtain ⟨gx, hgx, rfl⟩ := cell x gx' hxf hgx'
      simp only [relink, if_pos hx, hP]
    · rw [if_neg hP] at hx
      have hxf : x ≠ file := by
        rintro rfl
        exact hP (h.head_prev x f hx hf)
      obtain ⟨gx, hgx, rfl⟩ := cell x gx' hxf hgx'
      have hold := h.head_prev x gx hx hgx
      have hN : f.next ≠ some x := by
        intro hN
        have := A2 x gx hN hgx
        rw [hold] at this
        cases this
      simp only [relink, if_neg hN, hold]
  · -- prev_next
    intro k x gx' k1 p gp' hx hgx' hpr _ hp hgp'
    obtain ⟨hxD, hxf⟩ := (hd k x).mp hx
    obtain ⟨hpD, hpf⟩ := (hd k1 p).mp hp
    obtain ⟨gx, hgx, rfl⟩ := cell x gx' hxf hgx'
    obtain ⟨gp, hgp, rfl⟩ := cell p gp' hpf hgp'
    simp only [relink] at hpr
    by_cases hN : f.next = some x
    · rw [if_pos hN] at hpr
      simp only [relink, if_pos hpr, hN]
    · rw [if_neg hN] at hpr
      have hold := h.prev_next k x gx k1 p gp hxD hgx hpr (by simpa using hpf) hpD hgp
      have hP : f.previous ≠ some p := by
        intro hP
        have := A3 k1 p gp hP hpf hpD hgp
        rw [hold] at this
        exact hxf (Option.some.inj this)
      simp only [relink, if_neg hP, hold]
  · -- tail_next
    intro k t gt' ht htd hgt'
    obtain ⟨htD, htf⟩ := (hd k t).mp htd
    obtain ⟨gt, hgt, rfl⟩ := cell t gt' htf hgt'
    rw [htail] at ht
    by_cases hN : f.next = none
    · rw [if_pos hN] at ht
      simp only [relink, if_pos ht, hN]
    · rw [if_neg hN] at ht
      have hold := h.tail_next k t gt ht htD hgt
      have hP : f.previous ≠ some t := by
        intro hP
        have := A3 k t gt hP htf htD hgt
        rw [hold] at this
        cases this
      simp only [relink, if_neg hP, hold]
  · -- prev_lt
    intro k x gx' p hx hgx' hpr
    obtain ⟨hxD, hxf⟩ := (hd k x).mp hx
    obtain ⟨gx, hgx, rfl⟩ := cell x gx' hxf hgx'
    simp only [relink] at hpr
    by_cases hN : f.next = some x
    · rw [if_pos hN] at hpr
      exact h.prev_lt _ file f p hmem hf hpr
    · rw [if_neg hN] at hpr
      exact h.prev_lt k x gx p hxD hgx hpr
  · -- tail_lt
    intro t ht
    rw [htail] at ht
    by_cases hN : f.next = none
    · rw [if_pos hN] at ht
      exact h.prev_lt _ file f t hmem hf ht
    · rw [if_neg hN] at ht
      exact h.tail_lt t ht
  · -- cell_lt
    intro p g' hg'
    by_cases hpf : p = file
    · subst hpf
      exact hcf g' hg'
    · obtain ⟨g, hg, _⟩ := cell p g' hpf hg'
      exact h.cell_lt p g hg
  · -- file_number_eq
    rw [hfn, h.file_number_eq, hperm.length_eq]
    simp
  · -- size_eq
    have hsum : (s.dictionary.map (fun e => size_at c e.2)).sum
        = size_at c file + (s'.dictionary.map (fun e => size_at c e.2)).sum := by
      rw [(hperm.map _).sum_eq]
      simp
    have hsame : s'.dictionary.map (fun e => size_at c' e.2)
        = s'.dictionary.map (fun e => size_at c e.2) := by
      apply List.map_congr_left
      intro e he
      obtain ⟨hD, hne⟩ := (hd e.1 e.2).mp he
      obtain ⟨g, hg, _⟩ := h.live e.1 e.2 hD
      simp [size_at, hc' e.2 hne, hg, relink]
    have hfs : size_at c file = f.size := by simp [size_at, hf]
    rw [hsize, h.size_eq, hsum, hsame, hfs]
    omega
  · -- file_number_le
    rw [hfn, hmf]
    exact le_trans (Nat.sub_le _ _) h.file_number_le
  · -- size_le
    rw [hsize, hms]
    exact le_trans (Nat.sub_le _ _) h.size_le
  · -- content_len
    intro k p g' hp hg'
    obtain ⟨hD, hne⟩ := (hd k p).mp hp
    obtain ⟨g, hg, rfl⟩ := cell p g' hne hg'
    exact h.content_len k p g hD hg

theorem wfs_weaken {c : Ptr → Option Links} {len : Nat} {s : storage_t} (hole : Option Ptr)
    (h : WFs c len s none) : WFs c len s hole :=
  { h with prev_next := fun k x f k1 p g hx hf hp _ hpd hg =>
      h.prev_next k x f k1 p g hx hf hp (by simp) hpd hg }

theorem wfs_congr {c c' : Ptr → Option Links} {len : Nat} {s : storage_t} {hole : Option Ptr}
    (h : WFs c len s hole) (hc : ∀ q, c' q = c q) : WFs c' len s hole := by
  have : c' = c := funext hc
  rw [this]
  exact h

/-- Setting `next` of a stored file to `NULL` keeps everything but the agreement of
`previous` fields with that file as predecessor. -/
theorem wfs_set_next_none {c c' : Ptr → Option Links} {len : Nat} {s : storage_t}
    {file : Ptr} {f : Links}
    (h : WFs c len s none) (hf : c file = some f)
    (hc' : ∀ q, c' q = if q = file then some { f with next := none } else c q) :
    WFs c' len s (some file) := by
  have cell : ∀ q g', c' q = some g' →
      ∃ g, c q = some g ∧ g'.pathname = g.pathname ∧ g'.size = g.size ∧
        g'.content_length = g.content_length ∧ g'.previous = g.previous ∧
        (g'.next = g.next ∨ (q = file ∧ g'.next = none)) := by
    intro q g' hg'
    rw [hc' q] at hg'
    by_cases hq : q = file
    · subst hq
      simp only [if_true, Option.some.injEq] at hg'
      subst hg'
      exact ⟨f, hf, rfl, rfl, rfl, rfl, Or.inr ⟨rfl, rfl⟩⟩
    · rw [if_neg hq] at hg'
      exact ⟨g', hg', rfl, rfl, rfl, rfl, Or.inl rfl⟩
  have cell_ne : ∀ q, q ≠ file → c' q = c q := fun q hq => by rw [hc' q, if_neg hq]
  refine
    { keys_nodup := h.keys_nodup, live := ?_, next_in := ?_, head_in := h.head_in,
      next_prev := ?_, head_prev := ?_, prev_next := ?_, tail_next := ?_, prev_lt := ?_,
      tail_lt := h.tail_lt, cell_lt := ?_, file_number_eq := h.file_number_eq,
      size_eq := ?_, file_number_le := h.file_number_le, size_le := h.size_le,
      content_len := ?_ }
  · intro k p hp
    obtain ⟨g, hg, hk⟩ := h.live k p hp
    by_cases hq : p = file
    · subst hq
      rw [hf] at hg
      cases hg
      exact ⟨{ f with next := none }, by rw [hc' p, if_pos rfl], hk⟩
    · exact ⟨g, by rw [cell_ne p hq, hg], hk⟩
  · intro k p g' n hp hg' hn
    obtain ⟨g, hg, _, _, _, _, hnx⟩ := cell p g' hg'
    rcases hnx with hnx | ⟨_, hnx⟩
    · exact h.next_in k p g n hp hg (hnx ▸ hn)
    · rw [hnx] at hn
      cases hn
  · intro k p g' n gn' hp hg' hn hgn'
    obtain ⟨g, hg, _, _, _, _, hnx⟩ := cell p g' hg'
    obtain ⟨gn, hgn, _, _, _, hpr, _⟩ := cell n gn' hgn'
    rcases hnx with hnx | ⟨_, hnx⟩
    · rw [hpr]
      exact h.next_prev k p g n gn hp hg (hnx ▸ hn) hgn
    · rw [hnx] at hn
      cases hn
  · intro x gx' hx hgx'
    obtain ⟨gx, hgx, _, _, _, hpr, _⟩ := cell x gx' hgx'
    rw [hpr]
    exact h.head_prev x gx hx hgx
  · intro k x gx' k1 p gp' hx hgx' hpr hne hp hgp'
    have hpf : p ≠ file := fun e => hne (by rw [e])
    obtain ⟨gx, hgx, _, _, _, hprx, _⟩ := cell x gx' hgx'
    rw [cell_ne p hpf] at hgp'
    exact h.prev_next k x gx k1 p gp' hx hgx (hprx ▸ hpr) (by simp) hp hgp'
  · intro k t gt' ht htd hgt'
    obtain ⟨gt, hgt, _, _, _, _, hnx⟩ := cell t gt' hgt'
    rcases hnx with hnx | ⟨_, hnx⟩
    · rw [hnx]
      exact h.tail_next k t gt ht htd hgt
    · exact hnx
  · intro k x gx' p hx hgx' hpr
    obtain ⟨gx, hgx, _, _, _, hprx, _⟩ := cell x gx' hgx'
    exact h.prev_lt k x gx p hx hgx (hprx ▸ hpr)
  · intro p g' hg'
    obtain ⟨g, hg, _⟩ := cell p g' hg'
    exact h.cell_lt p g hg
  · rw [h.size_eq]
    congr 1
    apply List.map_congr_left
    intro e _
    by_cases hq : e.2 = file
    · rw [hq]
      simp only [size_at, hc' file, hf, if_true, Option.map_some', Option.getD_some]
    · simp [size_at, cell_ne e.2 hq]
  · intro k p g' hp hg'
    obtain ⟨g, hg, _, hs, hcl, _, _⟩ := cell p g' hg'
    rw [hs, hcl]
    exact h.content_len k p g hp hg

/-- Freeing a cell that is not stored changes nothing. -/
theorem wfs_dealloc {c c' : Ptr → Option Links} {len : Nat} {s : storage_t}
    {hole : Option Ptr} {p : Ptr}
    (h : WFs c len s hole) (hp : ∀ k, (k, p) ∉ s.dictionary)
    (hc' : ∀ q, c' q = if q = p then none else c q) :
    WFs c' len s hole := by
  have cell : ∀ q g, c' q = some g → c q = some g := by
    intro q g hg
    rw [hc' q] at hg
    by_cases hq : q = p
    · simp [hq] at hg
    · rwa [if_neg hq] at hg
  have stored : ∀ k q, (k, q) ∈ s.dictionary → c' q = c q := by
    intro k q hq
    rw [hc' q, if_neg]
    rintro rfl
    exact hp k hq
  refine
    { keys_nodup := h.keys_nodup, live := ?_, next_in := ?_, head_in := h.head_in,
      next_prev := ?_, head_prev := ?_, prev_next := ?_, tail_next := ?_, prev_lt := ?_,
      tail_lt := h.tail_lt, cell_lt := ?_, file_number_eq := h.file_number_eq,
      size_eq := ?_, file_number_le := h.file_number_le, size_le := h.size_le,
      content_len := ?_ }
  · intro k q hq
    rw [stored k q hq]
    exact h.live k q hq
  · intro k q g n hq hg hn
    exact h.next_in k q g n hq (cell q g hg) hn
  · intro k q g n gn hq hg hn hgn
    exact h.next_prev k q g n gn hq (cell q g hg) hn (cell n gn hgn)
  · intro x gx hx hgx
    exact h.head_prev x gx hx (cell x gx hgx)
  · intro k x gx k1 q gq hx hgx hpr hne hq hgq
    exact h.prev_next k x gx k1 q gq hx (cell x gx hgx) hpr hne hq (cell q gq hgq)
  · intro k t gt ht htd hgt
    exact h.tail_next k t gt ht htd (cell t gt hgt)
  · intro k x gx q hx hgx hpr
    exact h.prev_lt k x gx q hx (cell x gx hgx) hpr
  · intro q g hg
    exact h.cell_lt q g (cell q g hg)
  · rw [h.size_eq]
    congr 1
    apply List.map_congr_left
    intro e he
    simp [size_at, stored e.1 e.2 he]
  · intro k q g hq hg
    exact h.content_len k q g hq (cell q g hg)

/-- Linking a fresh file after `tail` (or as `head`) and inserting it. -/
theorem wfs_add {c c' : Ptr → Option Links} {len : Nat} {s s' : storage_t}
    {path : List Char}
    (h : WFs c len s none)
    (hfresh : ∀ p, (path, p) ∉ s.dictionary)
    (hroom : s.file_number < s.max_file_number)
    (hc' : ∀ q, c' q =
      if q = len then
        some { pathname := path, size := 0, content_length := 0,
               previous := if s.head = none then none else s.tail, next := none }
      else if s.head ≠ none ∧ s.tail = some q then
        (c q).map (fun g => { g with next := some len })
      else c q)
    (hhead : s'.head = if s.head = none then some len else s.head)
    (htail : s'.tail = some len)
    (hdict : s'.dictionary = (path, len) :: s.dictionary)
    (hfn : s'.file_number = s.file_number + 1)
    (hsize : s'.size = s.size)
    (hmf : s'.max_file_number = s.max_file_number)
    (hms : s'.max_size = s.max_size) :
    WFs c' (len + 1) s' none := by
  have hlen : c len = none := by
    cases hcl : c len with
    | none => rfl
    | some g => exact absurd (h.cell_lt len g hcl) (Nat.lt_irrefl _)
  have stored_ne : ∀ k p, (k, p) ∈ s.dictionary → p ≠ len := by
    intro k p hp e
    obtain ⟨g, hg, _⟩ := h.live k p hp
    rw [e, hlen] at hg
    cases hg
  have cnew := (hc' len).trans (if_pos rfl)
  have cell : ∀ q g', q ≠ len → c' q = some g' →
      ∃ g, c q = some g ∧ g'.pathname = g.pathname ∧ g'.size = g.size ∧
        g'.content_length = g.content_length ∧ g'.previous = g.previous ∧
        ((g'.next = g.next ∧ ¬ (s.head ≠ none ∧ s.tail = some q)) ∨
          (s.head ≠ none ∧ s.tail = some q ∧ g'.next = some len)) := by
    intro q g' hq hg'
    rw [hc' q, if_neg hq] at hg'
    by_cases ht : s.head ≠ none ∧ s.tail = some q
    · rw [if_pos ht] at hg'
      cases hcq : c q with
      | none => simp [hcq] at hg'
      | some g =>
        simp only [hcq, Option.map_some', Option.some.injEq] at hg'
        subst hg'
        exact ⟨g, rfl, rfl, rfl, rfl, rfl, Or.inr ⟨ht.1, ht.2, rfl⟩⟩
    · rw [if_neg ht] at hg'
      exact ⟨g', hg', rfl, rfl, rfl, rfl, Or.inl ⟨rfl, ht⟩⟩
  have mem' : ∀ k p, (k, p) ∈ s'.dictionary ↔ ((k, p) = (path, len) ∨ (k, p) ∈ s.dictionary) := by
    intro k p
    rw [hdict, List.mem_cons]
  refine
    { keys_nodup := ?_, live := ?_, next_in := ?_, head_in := ?_, next_prev := ?_,
      head_prev := ?_, prev_next := ?_, tail_next := ?_, prev_lt := ?_, tail_lt := ?_,
      cell_lt := ?_, file_number_eq := ?_, size_eq := ?_, file_number_le := ?_,
      size_le := ?_, content_len := ?_ }
  · -- keys_nodup
    rw [hdict, List.map_cons, List.nodup_cons]
    refine ⟨?_, h.keys_nodup⟩
    intro hm
    obtain ⟨e, he, hk⟩ := List.mem_map.mp hm
    obtain ⟨k, p⟩ := e
    simp only at hk
    subst hk
    exact hfresh p he
  · -- live
    intro k p hp
    rcases (mem' k p).mp hp with he | hp
    · cases he
      exact ⟨_, cnew, rfl⟩
    · obtain ⟨g, hg, hk⟩ := h.live k p hp
      have hne := stored_ne k p hp
      by_cases ht : s.head ≠ none ∧ s.tail = some p
      · exact ⟨{ g with next := some len }, by rw [hc' p, if_neg hne, if_pos ht, hg]; rfl, hk⟩
      · exact ⟨g, by rw [hc' p, if_neg hne, if_neg ht, hg], hk⟩
  · -- next_in
    intro k p g' n hp hg' hn
    rcases (mem' k p).mp hp with he | hp
    · cases he
      rw [cnew] at hg'
      cases hg'
      cases hn
    · obtain ⟨g, hg, _, _, _, _, hnx⟩ := cell p g' (stored_ne k p hp) hg'
      rcases hnx with ⟨hnx, _⟩ | ⟨_, _, hnx⟩
      · obtain ⟨k1, hk1⟩ := h.next_in k p g n hp hg (hnx ▸ hn)
        exact ⟨k1, (mem' k1 n).mpr (Or.inr hk1)⟩
      · rw [hnx] at hn
        cases hn
        exact ⟨path, (mem' path len).mpr (Or.inl rfl)⟩
  · -- head_in
    intro x hx
    rw [hhead] at hx
    by_cases hh : s.head = none
    · rw [if_pos hh] at hx
      cases hx
      exact ⟨path, (mem' path len).mpr (Or.inl rfl)⟩
    · rw [if_neg hh] at hx
      obtain ⟨k1, hk1⟩ := h.head_in x hx
      exact ⟨k1, (mem' k1 x).mpr (Or.inr hk1)⟩
  · -- next_prev
    intro k p g' n gn' hp hg' hn hgn'
    rcases (mem' k p).mp hp with he | hp
    · cases he
      rw [cnew] at hg'
      cases hg'
      cases hn
    · obtain ⟨g, hg, _, _, _, _, hnx⟩ := cell p g' (stored_ne k p hp) hg'
      rcases hnx with ⟨hnx, _⟩ | ⟨hh, ht, hnx⟩
      · rw [hnx] at hn
        obtain ⟨k1, hk1⟩ := h.next_in k p g n hp hg hn
        obtain ⟨gn, hgn, _, _, _, hpr, _⟩ := cell n gn' (stored_ne k1 n hk1) hgn'
        rw [hpr]
        exact h.next_prev k p g n gn hp hg hn hgn
      · rw [hnx] at hn
        cases hn
        rw [cnew] at hgn'
        cases hgn'
        simp only [if_neg hh, ht]
  · -- head_prev
    intro x gx' hx hgx'
    rw [hhead] at hx
    by_cases hh : s.head = none
    · rw [if_pos hh] at hx
      cases hx
      rw [cnew] at hgx'
      cases hgx'
      simp only [if_pos hh]
    · rw [if_neg hh] at hx
      obtain ⟨k1, hk1⟩ := h.head_in x hx
      obtain ⟨gx, hgx, _, _, _, hpr, _⟩ := cell x gx' (stored_ne k1 x hk1) hgx'
      rw [hpr]
      exact h.head_prev x gx hx hgx
  · -- prev_next
    intro k x gx' k1 p gp' hx hgx' hpr _ hp hgp'
    have hpl : p < len := by
      rcases (mem' k x).mp hx with he | hx
      · cases he
        rw [cnew] at hgx'
        cases hgx'
        simp only at hpr
        by_cases hh : s.head = none
        · rw [if_pos hh] at hpr
          cases hpr
        · rw [if_neg hh] at hpr
          exact h.tail_lt p hpr
      · obtain ⟨gx, hgx, _, _, _, hprx, _⟩ := cell x gx' (stored_ne k x hx) hgx'
        exact h.prev_lt k x gx p hx hgx (hprx ▸ hpr)
    have hpne : p ≠ len := Nat.ne_of_lt hpl
    have hpD : (k1, p) ∈ s.dictionary := by
      rcases (mem' k1 p).mp hp with he | hp
      · cases he
        exact absurd rfl hpne
      · exact hp
    obtain ⟨gp, hgp, _, _, _, _, hnx⟩ := cell p gp' hpne hgp'
    rcases (mem' k x).mp hx with he | hx
    · cases he
      rw [cnew] at hgx'
      cases hgx'
      simp only at hpr
      by_cases hh : s.head = none
      · rw [if_pos hh] at hpr
        cases hpr
      · rw [if_neg hh] at hpr
        rcases hnx with ⟨_, hno⟩ | ⟨_, _, hnx⟩
        · exact absurd ⟨hh, hpr⟩ hno
        · exact hnx
    · obtain ⟨gx, hgx, _, _, _, hprx, _⟩ := cell x gx' (stored_ne k x hx) hgx'
      have hold := h.prev_next k x gx k1 p gp hx hgx (hprx ▸ hpr) (by simp) hpD hgp
      rcases hnx with ⟨hnx, _⟩ | ⟨_, ht, _⟩
      · rw [hnx]
        exact hold
      · have := h.tail_next k1 p gp ht hpD hgp
        rw [hold] at this
        cases this
  · -- tail_next
    intro k t gt' ht _ hgt'
    rw [htail] at ht
    cases ht
    rw [cnew] at hgt'
    cases hgt'
    rfl
  · -- prev_lt
    intro k x gx' p hx hgx' hpr
    apply Nat.lt_succ_of_lt
    rcases (mem' k x).mp hx with he | hx
    · cases he
      rw [cnew] at hgx'
      cases hgx'
      simp only at hpr
      by_cases hh : s.head = none
      · rw [if_pos hh] at hpr
        cases hpr
      · rw [if_neg hh] at hpr
        exact h.tail_lt p hpr
    · obtain ⟨gx, hgx, _, _, _, hprx, _⟩ := cell x gx' (stored_ne k x hx) hgx'
      exact h.prev_lt k x gx p hx hgx (hprx ▸ hpr)
  · -- tail_lt
    intro t ht
    rw [htail] at ht
    cases ht
    exact Nat.lt_succ_self _
  · -- cell_lt
    intro p g' hg'
    by_cases hp : p = len
    · rw [hp]
      exact Nat.lt_succ_self _
    · obtain ⟨g, hg, _⟩ := cell p g' hp hg'
      exact Nat.lt_succ_of_lt (h.cell_lt p g hg)
  · -- file_number_eq
    rw [hfn, hdict, h.file_number_eq]
    simp
  · -- size_eq
    have hsame : s.dictionary.map (fun e => size_at c' e.2)
        = s.dictionary.map (fun e => size_at c e.2) := by
      apply List.map_congr_left
      intro e he
      obtain ⟨g, hg, _⟩ := h.live e.1 e.2 he
      have hne := stored_ne e.1 e.2 he
      by_cases ht : s.head ≠ none ∧ s.tail = some e.2
      · simp only [size_at, hc' e.2, if_neg hne, if_pos ht, hg, Option.map_some',
          Option.getD_some]
      · simp only [size_at, hc' e.2, if_neg hne, if_neg ht]
    rw [hsize, hdict, List.map_cons, List.sum_cons, hsame, h.size_eq]
    simp [size_at, cnew]
  · -- file_number_le
    rw [hfn, hmf]
    exact hroom
  · -- size_le
    rw [hsize, hms]
    exact h.size_le
  · -- content_len
    intro k p g' hp hg'
    rcases (mem' k p).mp hp with he | hp
    · cases he
      rw [cnew] at hg'
      cases hg'
      rfl
    · obtain ⟨g, hg, _, hs, hcl, _, _⟩ := cell p g' (stored_ne k p hp) hg'
      rw [hs, hcl]
      exact h.content_len k p g hp hg

/-- Replacing the content of a stored file and adjusting the total size. -/
theorem wfs_resize {c c' : Ptr → Option Links} {len : Nat} {s s' : storage_t}
    {hole : Option Ptr} {file : Ptr} {f : Links} {k0 : List Char} {n : Nat}
    (h : WFs c len s hole) (hf : c file = some f) (hmem : (k0, file) ∈ s.dictionary)
    (hc' : ∀ q, c' q = if q = file then some { f with size := n, content_length := n }
                       else c q)
    (hhead : s'.head = s.head) (htail : s'.tail = s.tail)
    (hdict : s'.dictionary = s.dictionary)
    (hfn : s'.file_number = s.file_number)
    (hsize : s'.size = s.size - f.size + n)
    (hle : s.size - f.size + n ≤ s.max_size)
    (hmf : s'.max_file_number = s.max_file_number)
    (hms : s'.max_size = s.max_size) :
    WFs c' len s' hole := by
  have cell : ∀ q g', c' q = some g' →
      (∃ g, c q = some g ∧ g'.pathname = g.pathname ∧ g'.previous = g.previous ∧
        g'.next = g.next ∧ g'.content_length = g'.size) ∨
        (∃ g, c q = some g ∧ g' = g) := by
    intro q g' hg'
    rw [hc' q] at hg'
    by_cases hq : q = file
    · subst hq
      simp only [if_true, Option.some.injEq] at hg'
      subst hg'
      exact Or.inl ⟨f, hf, rfl, rfl, rfl, rfl⟩
    · rw [if_neg hq] at hg'
      exact Or.inr ⟨g', hg', rfl⟩
  have cell2 : ∀ q g', c' q = some g' →
      ∃ g, c q = some g ∧ g'.pathname = g.pathname ∧ g'.previous = g.previous ∧
        g'.next = g.next := by
    intro q g' hg'
    rcases cell q g' hg' with ⟨g, hg, h1, h2, h3, _⟩ | ⟨g, hg, rfl⟩
    · exact ⟨g, hg, h1, h2, h3⟩
    · exact ⟨g', hg, rfl, rfl, rfl⟩
  refine
    { keys_nodup := hdict ▸ h.keys_nodup, live := ?_, next_in := ?_, head_in := ?_,
      next_prev := ?_, head_prev := ?_, prev_next := ?_, tail_next := ?_, prev_lt := ?_,
      tail_lt := ?_, cell_lt := ?_, file_number_eq := ?_, size_eq := ?_,
      file_number_le := ?_, size_le := ?_, content_len := ?_ }
  · intro k p hp
    rw [hdict] at hp
    obtain ⟨g, hg, hk⟩ := h.live k p hp
    by_cases hq : p = file
    · subst hq
      rw [hf] at hg
      cases hg
      exact ⟨{ f with size := n, content_length := n }, by rw [hc' p, if_pos rfl], hk⟩
    · exact ⟨g, by rw [hc' p, if_neg hq, hg], hk⟩
  · intro k p g' m hp hg' hn
    rw [hdict] at hp ⊢
    obtain ⟨g, hg, _, _, hnx⟩ := cell2 p g' hg'
    exact h.next_in k p g m hp hg (hnx ▸ hn)
  · intro x hx
    rw [hdict]
    exact h.head_in x (hhead ▸ hx)
  · intro k p g' m gm' hp hg' hn hgm'
    rw [hdict] at hp
    obtain ⟨g, hg, _, _, hnx⟩ := cell2 p g' hg'
    obtain ⟨gm, hgm, _, hpr, _⟩ := cell2 m gm' hgm'
    rw [hpr]
    exact h.next_prev k p g m gm hp hg (hnx ▸ hn) hgm
  · intro x gx' hx hgx'
    obtain ⟨gx, hgx, _, hpr, _⟩ := cell2 x gx' hgx'
    rw [hpr]
    exact h.head_prev x gx (hhead ▸ hx) hgx
  · intro k x gx' k1 p gp' hx hgx' hpr hne hp hgp'
    rw [hdict] at hx hp
    obtain ⟨gx, hgx, _, hprx, _⟩ := cell2 x gx' hgx'
    obtain ⟨gp, hgp, _, _, hnx⟩ := cell2 p gp' hgp'
    rw [hnx]
    exact h.prev_next k x gx k1 p gp hx hgx (hprx ▸ hpr) hne hp hgp
  · intro k t gt' ht htd hgt'
    rw [hdict] at htd
    obtain ⟨gt, hgt, _, _, hnx⟩ := cell2 t gt' hgt'
    rw [hnx]
    exact h.tail_next k t gt (htail ▸ ht) htd hgt
  · intro k x gx' p hx hgx' hpr
    rw [hdict] at hx
    obtain ⟨gx, hgx, _, hprx, _⟩ := cell2 x gx' hgx'
    exact h.prev_lt k x gx p hx hgx (hprx ▸ hpr)
  · intro t ht
    exact h.tail_lt t (htail ▸ ht)
  · intro p g' hg'
    obtain ⟨g, hg, _⟩ := cell2 p g' hg'
    exact h.cell_lt p g hg
  · rw [hfn, hdict]
    exact h.file_number_eq
  · -- size_eq
    have hk0 : f.pathname = k0 := by
      obtain ⟨g, hg, hk⟩ := h.live k0 file hmem
      rw [hf] at hg
      cases hg
      exact hk
    subst hk0
    obtain ⟨l1, l2, hl⟩ := List.append_of_mem hmem
    have hperm : s.dictionary.Perm ((f.pathname, file) :: (l1 ++ l2)) := by
      rw [hl]
      exact List.perm_middle
    have hd := perm_mem_ne h hf hperm
    have hsame : (l1 ++ l2).map (fun e => size_at c' e.2)
        = (l1 ++ l2).map (fun e => size_at c e.2) := by
      apply List.map_congr_left
      intro e he
      obtain ⟨_, hne⟩ := (hd e.1 e.2).mp he
      simp only [size_at, hc' e.2, if_neg hne]
    have h1 : (s.dictionary.map (fun e => size_at c e.2)).sum
        = f.size + ((l1 ++ l2).map (fun e => size_at c e.2)).sum := by
      rw [(hperm.map _).sum_eq, List.map_cons, List.sum_cons]
      simp only [size_at, hf, Option.map_some', Option.getD_some]
    have h2 : (s.dictionary.map (fun e => size_at c' e.2)).sum
        = n + ((l1 ++ l2).map (fun e => size_at c e.2)).sum := by
      rw [(hperm.map _).sum_eq, List.map_cons, List.sum_cons, hsame]
      simp only [size_at, hc' file, if_true, Option.map_some', Option.getD_some]
    rw [hsize, hdict, h2, h.size_eq, h1]
    omega
  · rw [hfn, hmf]
    exact h.file_number_le
  · rw [hsize, hms]
    exact hle
  · intro k p g' hp hg'
    rw [hdict] at hp
    rcases cell p g' hg' with ⟨g, hg, _, _, _, hcl⟩ | ⟨g, hg, rfl⟩
    · exact hcl
    · exact h.content_len k p g' hp hg

theorem icl_hash_find_mem {d : List (List Char × Ptr)} {k : List Char} {p : Ptr}
    (h : icl_hash_find d k = some p) : (k, p) ∈ d := by
  induction d with
  | nil => simp [icl_hash_find] at h
  | cons e rest ih =>
    obtain ⟨k1, v⟩ := e
    simp only [icl_hash_find] at h
    by_cases hk : k1 = k
    · rw [if_pos hk] at h
      cases h
      subst hk
      exact List.mem_cons_self _ _
    · rw [if_neg hk] at h
      exact List.mem_cons_of_mem _ (ih h)

theorem icl_hash_find_none {d : List (List Char × Ptr)} {k : List Char} :
    icl_hash_find d k = none ↔ ∀ p, (k, p) ∉ d := by
  induction d with
  | nil => simp [icl_hash_find]
  | cons e rest ih =>
    obtain ⟨k1, v⟩ := e
    simp only [icl_hash_find]
    by_cases hk : k1 = k
    · subst hk
      simp only [if_true, List.mem_cons, not_or, false_iff, not_forall, reduceCtorEq]
      exact ⟨v, by simp⟩
    · rw [if_neg hk, ih]
      constructor
      · intro h p hp
        rcases List.mem_cons.mp hp with h1 | h1
        · cases h1
          exact hk rfl
        · exact h p h1
      · intro h p hp
        exact h p (List.mem_cons_of_mem _ hp)

theorem keys_unique {d : List (List Char × Ptr)} (hnd : (d.map Prod.fst).Nodup)
    {k : List Char} {p q : Ptr} (hp : (k, p) ∈ d) (hq : (k, q) ∈ d) : p = q := by
  induction d with
  | nil => cases hp
  | cons e rest ih =>
    simp only [List.map_cons, List.nodup_cons, List.mem_map, not_exists, not_and] at hnd
    rcases List.mem_cons.mp hp with h1 | h1 <;> rcases List.mem_cons.mp hq with h2 | h2
    · rw [← h1] at h2
      cases h2
      rfl
    · subst h1
      exact absurd rfl (hnd.1 (k, q) h2)
    · subst h2
      exact absurd rfl (hnd.1 (k, p) h1)
    · exact ih hnd.2 h1 h2

theorem icl_hash_find_of_mem {d : List (List Char × Ptr)} (hnd : (d.map Prod.fst).Nodup)
    {k : List Char} {p : Ptr} (hp : (k, p) ∈ d) : icl_hash_find d k = some p := by
  cases hf : icl_hash_find d k with
  | none => exact absurd hp (icl_hash_find_none.mp hf p)
  | some q => rw [keys_unique hnd (icl_hash_find_mem hf) hp]

theorem icl_hash_delete_perm {d d' : List (List Char × Ptr)} {k : List Char}
    (h : icl_hash_delete d k = some d') : ∃ p, d.Perm ((k, p) :: d') := by
  induction d generalizing d' with
  | nil => simp [icl_hash_delete] at h
  | cons e rest ih =>
    obtain ⟨k1, v⟩ := e
    simp only [icl_hash_delete] at h
    by_cases hk : k1 = k
    · rw [if_pos hk] at h
      cases h
      subst hk
      exact ⟨v, List.Perm.refl _⟩
    · rw [if_neg hk] at h
      cases hr : icl_hash_delete rest k with
      | none => simp [hr] at h
      | some r =>
        simp only [hr, Option.map_some', Option.some.injEq] at h
        subst h
        obtain ⟨p, hp⟩ := ih hr
        exact ⟨p, (hp.cons (k1, v)).trans (List.Perm.swap _ _ _)⟩

theorem icl_hash_delete_some {d : List (List Char × Ptr)} {k : List Char} {p : Ptr}
    (h : (k, p) ∈ d) : ∃ d', icl_hash_delete d k = some d' := by
  induction d with
  | nil => cases h
  | cons e rest ih =>
    obtain ⟨k1, v⟩ := e
    simp only [icl_hash_delete]
    by_cases hk : k1 = k
    · exact ⟨rest, by rw [if_pos hk]⟩
    · rw [if_neg hk]
      rcases List.mem_cons.mp h with h1 | h1
      · cases h1
        exact absurd rfl hk
      · obtain ⟨d', hd'⟩ := ih h1
        exact ⟨(k1, v) :: d', by rw [hd']; rfl⟩

theorem links_at_map (m : Machine) (q : Ptr) (F : file_t → file_t) (G : Links → Links)
    (h : ∀ g, (F g).links = G g.links) :
    ((deref m.mem q).map F).map file_t.links = (links_at m q).map G := by
  unfold links_at
  cases deref m.mem q with
  | none => rfl
  | some g => simp [h g]

/-- The function `file_destroy` on a stored file keeps the state well-formed. -/
theorem file_destroy_wf {m m1 : Machine} {file : Ptr} {k : List Char}
    {pl out : Option (List Int)} {dealloc : Bool}
    (h : WFs (links_at m) m.mem.length m.storage (some file))
    (hmem : (k, file) ∈ m.storage.dictionary)
    (hd : file_destroy m file pl dealloc = some (m1, out)) : WF m1 := by
  obtain ⟨f, hf, hq, hfile, hlen, hdel, hst, _⟩ := file_destroy_spec hd
  have hlf : links_at m file = some f.links := by simp [links_at, hf]
  have hk : f.pathname = k := by
    obtain ⟨g, hg, hgk⟩ := h.live k file hmem
    rw [hlf] at hg
    cases hg
    exact hgk
  subst hk
  obtain ⟨p, hperm⟩ := icl_hash_delete_perm hdel
  have hp : p = file :=
    keys_unique h.keys_nodup (hperm.mem_iff.mpr (List.mem_cons_self _ _)) hmem
  subst hp
  unfold WF
  rw [hlen]
  refine wfs_destroy h hlf hmem hperm ?_ ?_ ?_ ?_ rfl ?_ ?_ ?_ ?_
  · intro q hne
    unfold links_at
    rw [hq q hne]
    exact links_at_map m q _ _ (fun g => rfl)
  · intro g _
    exact deref_lt hf
  · rw [hst]
    rfl
  · rw [hst]
    rfl
  · rw [hst]
  · rw [hst]
    rfl
  · rw [hst]
  · rw [hst]

/-! ### Walks along `next` -/

theorem nth_from_succ (c : Ptr → Option Links) (start : Option Ptr) (k : Nat) :
    nth_from c start (k + 1) = next_of c (nth_from c start k) := by
  unfold nth_from
  exact Function.iterate_succ_apply' _ _ _

theorem nth_from_succ_some {c : Ptr → Option Links} {start : Option Ptr} {k : Nat} {x : Ptr}
    (h : nth_from c start (k + 1) = some x) :
    ∃ y g, nth_from c start k = some y ∧ c y = some g ∧ g.next = some x := by
  rw [nth_from_succ] at h
  cases hy : nth_from c start k with
  | none => simp [hy, next_of] at h
  | some y =>
    rw [hy] at h
    simp only [next_of, Option.some_bind] at h
    cases hg : c y with
    | none => simp [hg] at h
    | some g =>
      rw [hg] at h
      exact ⟨y, g, rfl, hg, h⟩

theorem nth_from_none_of_le {c : Ptr → Option Links} {start : Option Ptr} {k n : Nat}
    (h : nth_from c start k = none) (hkn : k ≤ n) : nth_from c start n = none := by
  induction n with
  | zero =>
    have : k = 0 := Nat.le_zero.mp hkn
    subst this
    exact h
  | succ n ih =>
    rcases Nat.lt_or_ge k (n + 1) with hlt | hge
    · rw [nth_from_succ, ih (Nat.le_of_lt_succ hlt)]
      rfl
    · have : k = n + 1 := Nat.le_antisymm hkn hge
      subst this
      exact h

/-- Every file met from `head` is stored. -/
theorem nth_from_head_stored {c : Ptr → Option Links} {len : Nat} {s : storage_t}
    {hole : Option Ptr} (h : WFs c len s hole) :
    ∀ k x, nth_from c s.head k = some x → ∃ key, (key, x) ∈ s.dictionary := by
  intro k
  induction k with
  | zero =>
    intro x hx
    exact h.head_in x hx
  | succ k ih =>
    intro x hx
    obtain ⟨y, g, hy, hg, hn⟩ := nth_from_succ_some hx
    obtain ⟨key, hkey⟩ := ih y hy
    exact h.next_in key y g x hkey hg hn

/-- No file is met twice from `head`. -/
theorem nth_from_head_inj {c : Ptr → Option Links} {len : Nat} {s : storage_t}
    {hole : Option Ptr} (h : WFs c len s hole) :
    ∀ i j x, i < j → nth_from c s.head i = some x → nth_from c s.head j = some x → False := by
  intro i
  induction i with
  | zero =>
    intro j x hij hi hj
    obtain ⟨j, rfl⟩ : ∃ j', j = j' + 1 := ⟨j - 1, by omega⟩
    obtain ⟨y, g, hy, hg, hn⟩ := nth_from_succ_some hj
    obtain ⟨key, hkey⟩ := nth_from_head_stored h j y hy
    obtain ⟨kx, hkx⟩ := h.head_in x hi
    obtain ⟨gx, hgx, _⟩ := h.live kx x hkx
    have h1 := h.next_prev key y g x gx hkey hg hn hgx
    have h2 := h.head_prev x gx hi hgx
    rw [h2] at h1
    cases h1
  | succ i ih =>
    intro j x hij hi hj
    obtain ⟨j, rfl⟩ : ∃ j', j = j' + 1 := ⟨j - 1, by omega⟩
    obtain ⟨y1, g1, hy1, hg1, hn1⟩ := nth_from_succ_some hi
    obtain ⟨y2, g2, hy2, hg2, hn2⟩ := nth_from_succ_some hj
    obtain ⟨k1, hk1⟩ := nth_from_head_stored h i y1 hy1
    obtain ⟨k2, hk2⟩ := nth_from_head_stored h j y2 hy2
    obtain ⟨kx, hkx⟩ := h.next_in k1 y1 g1 x hk1 hg1 hn1
    obtain ⟨gx, hgx, _⟩ := h.live kx x hkx
    have h1 := h.next_prev k1 y1 g1 x gx hk1 hg1 hn1 hgx
    have h2 := h.next_prev k2 y2 g2 x gx hk2 hg2 hn2 hgx
    rw [h1] at h2
    cases h2
    exact ih j y1 (by omega) hy1 hy2

/-- The walk from `head` ends within as many steps as the memory has cells. -/
theorem nth_from_head_len {c : Ptr → Option Links} {len : Nat} {s : storage_t}
    {hole : Option Ptr} (h : WFs c len s hole) : nth_from c s.head len = none := by
  by_contra hne
  have hsome : ∀ k, k ≤ len → ∃ x, nth_from c s.head k = some x := by
    intro k hk
    cases hx : nth_from c s.head k with
    | none => exact absurd (nth_from_none_of_le hx hk) hne
    | some x => exact ⟨x, rfl⟩
  have hcard := Finset.card_le_card_of_injOn (s := Finset.range (len + 1))
    (t := Finset.range len) (fun k => (nth_from c s.head k).getD 0)
    (by
      intro k hk
      obtain ⟨x, hx⟩ := hsome k (Nat.le_of_lt_succ (Finset.mem_range.mp hk))
      obtain ⟨key, hkey⟩ := nth_from_head_stored h k x hx
      obtain ⟨g, hg, _⟩ := h.live key x hkey
      simpa [hx] using h.cell_lt x g hg)
    (by
      intro i hi j hj hij
      obtain ⟨x, hx⟩ := hsome i (Nat.le_of_lt_succ (Finset.mem_range.mp hi))
      obtain ⟨y, hy⟩ := hsome j (Nat.le_of_lt_succ (Finset.mem_range.mp hj))
      simp only [hx, hy, Option.getD_some] at hij
      subst hij
      rcases Nat.lt_trichotomy i j with hlt | heq | hgt
      · exact absurd hy (fun hy => nth_from_head_inj h i j x hlt hx hy)
      · exact heq
      · exact absurd hx (fun hx => nth_from_head_inj h j i x hgt hy hx))
  simp at hcard

/-! ### Operations keep the state well-formed -/

theorem links_at_store {m : Machine} {p : Ptr} {f : file_t} (g : file_t)
    (hf : deref m.mem p = some f) (q : Ptr) :
    links_at { m with mem := store m.mem p g } q
      = if q = p then some g.links else links_at m q := by
  unfold links_at
  simp only [deref_store _ _ (deref_lt hf)]
  by_cases hq : q = p <;> simp [hq]

/-- Overwriting a file by one with the same links keeps the state well-formed. -/
theorem wf_store {m : Machine} {p : Ptr} {f : file_t} (g : file_t)
    (h : WF m) (hf : deref m.mem p = some f) (hl : g.links = f.links) :
    WF { m with mem := store m.mem p g } := by
  unfold WF
  simp only [length_store]
  apply wfs_congr h
  intro q
  rw [links_at_store g hf q]
  by_cases hq : q = p
  · subst hq
    simp [links_at, hf, hl]
  · simp [hq]

theorem user_exit_loop_links (user : Int) :
    ∀ (fuel : Nat) (mem : List (Option file_t)) (start : Option Ptr) (pl : List Int)
      (mem1 : List (Option file_t)) (pl1 : List Int),
      user_exit_loop user fuel mem start pl = some (mem1, pl1) →
      mem1.length = mem.length ∧
        ∀ q, (deref mem1 q).map file_t.links = (deref mem q).map file_t.links := by
  intro fuel
  induction fuel with
  | zero =>
    intro mem start pl mem1 pl1 h
    cases start with
    | none =>
      simp only [user_exit_loop, Option.some.injEq, Prod.mk.injEq] at h
      obtain ⟨rfl, _⟩ := h
      exact ⟨rfl, fun _ => rfl⟩
    | some p => simp [user_exit_loop] at h
  | succ fuel ih =>
    intro mem start pl mem1 pl1 h
    cases start with
    | none =>
      simp only [user_exit_loop, Option.some.injEq, Prod.mk.injEq] at h
      obtain ⟨rfl, _⟩ := h
      exact ⟨rfl, fun _ => rfl⟩
    | some p =>
      simp only [user_exit_loop] at h
      cases hf : deref mem p with
      | none => simp [hf] at h
      | some f =>
        simp only [hf] at h
        obtain ⟨h1, h2⟩ := ih _ _ _ _ _ h
        refine ⟨by rw [h1, length_store], fun q => ?_⟩
        rw [h2 q, deref_store _ _ (deref_lt hf)]
        by_cases hq : q = p
        · subst hq
          rw [if_pos rfl, hf]
          simp only [Option.map_some', Option.some.injEq]
          by_cases hl : f.locked_by = user <;> simp [hl, file_t.links]
        · rw [if_neg hq]

theorem storage_find_ok {s : storage_t} {pathname : List Char} {file : Ptr}
    (h : storage_find s pathname = .ok file) :
    (pathname, file) ∈ s.dictionary ∧ pathname ≠ [] := by
  unfold storage_find at h
  split at h
  · cases h
  · rename_i hne
    split at h
    · rename_i p hp
      cases h
      exact ⟨icl_hash_find_mem hp, hne⟩
    · cases h

theorem storage_find_error {s : storage_t} {pathname : List Char} {e : Errno}
    (h : storage_find s pathname = .error e) (hne : pathname ≠ []) :
    e = .ENOENT ∧ ∀ p, (pathname, p) ∉ s.dictionary := by
  unfold storage_find at h
  rw [if_neg hne] at h
  split at h
  · cases h
  · rename_i hp
    cases h
    exact ⟨rfl, icl_hash_find_none.mp hp⟩

theorem inv_store {a b : Nat} {m : Machine} {p : Ptr} {f : file_t} (g : file_t)
    (h : Inv a b m) (hf : deref m.mem p = some f) (hl : g.links = f.links) :
    Inv a b { m with mem := store m.mem p g } :=
  ⟨wf_store g h.1 hf hl, h.2.1, h.2.2⟩

theorem storage_read_inv {a b : Nat} {m m1 : Machine} {pathname : List Char} {user : Int}
    {r : Except Errno (List Char × Nat)} (h : Inv a b m)
    (hr : storage_read m pathname user = some (m1, r)) : Inv a b m1 := by
  unfold storage_read at hr
  split at hr
  · cases hr; exact h
  · split at hr
    · cases hr; exact h
    · rename_i file _
      cases hf : deref m.mem file with
      | none => simp [hf] at hr
      | some f =>
        simp only [hf, Option.bind_eq_bind, Option.some_bind] at hr
        split at hr
        · cases hr; exact h
        · split at hr
          · cases hr; exact h
          · cases hr
            exact inv_store _ h hf rfl

theorem storage_lock_inv {a b : Nat} {m m1 : Machine} {pathname : List Char} {user : Int}
    {r : Except Errno Unit} (h : Inv a b m)
    (hr : storage_lock m pathname user = some (m1, r)) : Inv a b m1 := by
  unfold storage_lock at hr
  split at hr
  · cases hr; exact h
  · split at hr
    · cases hr; exact h
    · rename_i file _
      cases hf : deref m.mem file with
      | none => simp [hf] at hr
      | some f =>
        simp only [hf, Option.bind_eq_bind, Option.some_bind] at hr
        split at hr
        · cases he : enqueue_user f.pending_locks user with
          | none => simp [he] at hr
          | some pl =>
            simp only [he, Option.some_bind] at hr
            cases hr
            exact inv_store _ h hf rfl
        · cases hr
          exact inv_store _ h hf rfl

theorem storage_unlock_inv {a b : Nat} {m m1 : Machine} {pathname : List Char} {user : Int}
    {r : Except Errno Int} (h : Inv a b m)
    (hr : storage_unlock m pathname user = some (m1, r)) : Inv a b m1 := by
  unfold storage_unlock at hr
  split at hr
  · cases hr; exact h
  · split at hr
    · cases hr; exact h
    · rename_i file _
      cases hf : deref m.mem file with
      | none => simp [hf] at hr
      | some f =>
        simp only [hf, Option.bind_eq_bind, Option.some_bind] at hr
        split at hr
        · cases hr
          exact inv_store _ h hf rfl
        · cases hr; exact h

theorem storage_close_inv {a b : Nat} {m m1 : Machine} {pathname : List Char} {user : Int}
    {r : Except Errno Unit} (h : Inv a b m)
    (hr : storage_close m pathname user = some (m1, r)) : Inv a b m1 := by
  unfold storage_close at hr
  split at hr
  · cases hr; exact h
  · split at hr
    · cases hr; exact h
    · rename_i file _
      cases hf : deref m.mem file with
      | none => simp [hf] at hr
      | some f =>
        simp only [hf, Option.bind_eq_bind, Option.some_bind] at hr
        split at hr
        · cases hr
          exact inv_store _ h hf rfl
        · cases hr
          exact inv_store _ h hf rfl

theorem storage_read_many_inv {a b : Nat} {m m1 : Machine} {up_to user : Int}
    {r : Except Errno (Int × List Char × Nat)} (h : Inv a b m)
    (hr : storage_read_many m up_to user = some (m1, r)) : Inv a b m1 := by
  unfold storage_read_many at hr
  split at hr
  · cases hr; exact h
  · cases hl : read_many_loop m.mem up_to (m.mem.length + 1) m.storage.head 0 with
    | none => simp [hl] at hr
    | some files =>
      simp only [hl, Option.bind_eq_bind, Option.some_bind] at hr
      split at hr
      · cases hr; exact h
      · split at hr
        · cases hr; exact h
        · cases hr; exact h

theorem storage_user_exit_inv {a b : Nat} {m m1 : Machine} {pl : List Int} {user : Int}
    {r : Except Errno Unit × List Int} (h : Inv a b m)
    (hr : storage_user_exit m pl user = some (m1, r)) : Inv a b m1 := by
  unfold storage_user_exit at hr
  split at hr
  · cases hr; exact h
  · cases hl : user_exit_loop user (m.mem.length + 1) m.mem m.storage.head pl with
    | none => simp [hl] at hr
    | some res =>
      obtain ⟨mem1, pl1⟩ := res
      simp only [hl, Option.map_some', Option.some.injEq, Prod.mk.injEq] at hr
      obtain ⟨rfl, _⟩ := hr
      obtain ⟨h1, h2⟩ := user_exit_loop_links user _ _ _ _ _ _ hl
      refine ⟨?_, h.2.1, h.2.2⟩
      unfold WF
      simp only [h1]
      exact wfs_congr h.1 (fun q => h2 q)

theorem storage_remove_inv {a b : Nat} {m m1 : Machine} {pathname : List Char} {user : Int}
    {pl : Option (List Int)} {r : Except Errno Unit × Option (List Int)} (h : Inv a b m)
    (hr : storage_remove m pathname pl user = some (m1, r)) : Inv a b m1 := by
  unfold storage_remove at hr
  split at hr
  · cases hr; exact h
  · split at hr
    · cases hr; exact h
    · rename_i file hfind
      cases hf : deref m.mem file with
      | none => simp [hf] at hr
      | some f =>
        simp only [hf, Option.bind_eq_bind, Option.some_bind] at hr
        split at hr
        · cases hr; exact h
        · cases hd : file_destroy m file pl true with
          | none => simp [hd] at hr
          | some res =>
            obtain ⟨m2, out⟩ := res
            simp only [hd, Option.some_bind, pure, Option.some.injEq, Prod.mk.injEq] at hr
            obtain ⟨rfl, _⟩ := hr
            have hmem := (storage_find_ok hfind).1
            obtain ⟨f', _, _, _, _, _, hst, _⟩ := file_destroy_spec hd
            refine ⟨file_destroy_wf (wfs_weaken _ h.1) hmem hd, ?_, ?_⟩
            · rw [hst]; exact h.2.1
            · rw [hst]; exact h.2.2

theorem links_at_some {m : Machine} {p : Ptr} {f : file_t} (h : deref m.mem p = some f) :
    links_at m p = some f.links := by
  simp [links_at, h]

theorem wf_live {m : Machine} (h : WF m) {k : List Char} {p : Ptr}
    (hp : (k, p) ∈ m.storage.dictionary) : ∃ f, deref m.mem p = some f ∧ f.pathname = k := by
  obtain ⟨l, hl, hk⟩ := h.live k p hp
  unfold links_at at hl
  cases hf : deref m.mem p with
  | none => simp [hf] at hl
  | some f =>
    simp only [hf, Option.map_some', Option.some.injEq] at hl
    subst hl
    exact ⟨f, rfl, hk⟩

/-- A victim is a stored file that is modified and is not the spared one. -/
theorem get_victim_loop_stored {m : Machine} (h : WF m) (spare : Option Ptr) :
    ∀ (fuel : Nat) (start : Option Ptr) (v : Ptr),
      (∀ p, start = some p → ∃ k, (k, p) ∈ m.storage.dictionary) →
      get_victim_loop m.mem spare fuel start = some (some v) →
      (∃ k, (k, v) ∈ m.storage.dictionary) ∧
        ∃ f, deref m.mem v = some f ∧ f.modified = true ∧ some v ≠ spare := by
  intro fuel
  induction fuel with
  | zero =>
    intro start v _ hg
    cases start <;> simp [get_victim_loop] at hg
  | succ fuel ih =>
    intro start v hs hg
    cases start with
    | none => simp [get_victim_loop] at hg
    | some p =>
      simp only [get_victim_loop] at hg
      cases hf : deref m.mem p with
      | none => simp [hf] at hg
      | some f =>
        simp only [hf] at hg
        split at hg
        · rename_i hc
          simp only [Option.some.injEq] at hg
          subst hg
          exact ⟨hs p rfl, f, hf, hc.2, hc.1⟩
        · refine ih f.next v ?_ hg
          intro n hn
          obtain ⟨k, hk⟩ := hs p rfl
          exact h.next_in k p f.links n hk (links_at_some hf) hn

theorem get_victim_stored {m : Machine} (h : WF m) {spare : Option Ptr} {v : Ptr}
    (hg : get_victim m spare = some (some v)) :
    (∃ k, (k, v) ∈ m.storage.dictionary) ∧
      ∃ f, deref m.mem v = some f ∧ f.modified = true ∧ some v ≠ spare :=
  get_victim_loop_stored h spare _ _ v (fun p hp => h.head_in p hp) hg

/-- Creating a file: a fresh cell holding a file without content or links, then
`storage_add`. -/
theorem create_inv {a b : Nat} {m1 m4 : Machine} {pathname : List Char} {f0 f1 : file_t}
    (h : Inv a b m1) (hroom : m1.storage.file_number < m1.storage.max_file_number)
    (hp : f1.pathname = pathname) (hs : f1.size = 0) (hc : f1.content = none)
    (hprev : f1.previous = none) (hnext : f1.next = none)
    (hadd : storage_add { m1 with mem := store (m1.mem ++ [some f0]) m1.mem.length f1 }
      m1.mem.length = some m4) : Inv a b m4 := by
  obtain ⟨f, hf, hlen, hd, hfind, hst⟩ := storage_add_spec hadd
  simp only at hf hlen hd hfind hst
  have hlt : m1.mem.length < (m1.mem ++ [some f0]).length := by simp
  have hderef : ∀ q, deref (store (m1.mem ++ [some f0]) m1.mem.length f1) q
      = if q = m1.mem.length then some f1 else deref m1.mem q := by
    intro q
    rw [deref_store _ _ hlt, deref_append]
    by_cases hq : q = m1.mem.length <;> simp [hq]
  rw [hderef, if_pos rfl] at hf
  cases hf
  rw [hp] at hfind hst
  refine ⟨?_, by rw [hst]; exact h.2.1, by rw [hst]; exact h.2.2⟩
  unfold WF
  have hl4 : m4.mem.length = m1.mem.length + 1 := by
    rw [hlen, length_store]
    simp
  rw [hl4]
  refine @wfs_add _ _ _ _ _ pathname h.1 (icl_hash_find_none.mp hfind) hroom ?_
    (by rw [hst]) (by rw [hst]) (by rw [hst]) (by rw [hst]) (by rw [hst, hs]; rfl)
    (by rw [hst]) (by rw [hst])
  intro q
  unfold links_at
  rw [hd q, hderef q]
  by_cases hq : q = m1.mem.length
  · subst hq
    have ht : m1.storage.tail ≠ some m1.mem.length := by
      intro e
      exact absurd (h.1.tail_lt _ e) (Nat.lt_irrefl _)
    simp only [if_true, Option.map_some', file_t.links, hp, hs, hc, hprev, hnext, ht,
      and_false, if_false, and_true, Option.getD_none, List.length_nil, Option.some.injEq,
      Links.mk.injEq, true_and]
    by_cases hh : m1.storage.head = none <;> simp [hh]
  · simp only [if_neg hq, and_false, if_false]
    cases hg : deref m1.mem q with
    | none => simp
    | some g =>
      by_cases ht : m1.storage.head ≠ none ∧ m1.storage.tail = some q
      · simp [ht, file_t.links, hq]
      · simp [ht, file_t.links, hq]

theorem open_create_inv {a b : Nat} {m1 m4 : Machine} {pathname : List Char}
    {lock_flag : Bool} {user : Int} (h : Inv a b m1)
    (hroom : m1.storage.file_number < m1.storage.max_file_number)
    (hc : open_create m1 pathname lock_flag user = some m4) : Inv a b m4 := by
  unfold open_create file_create at hc
  simp only [Option.bind_eq_bind] at hc
  have hd : deref (m1.mem ++ [some (new_file pathname)]) m1.mem.length
      = some (new_file pathname) := by
    rw [deref_append, if_pos rfl]
  rw [hd] at hc
  simp only [Option.some_bind] at hc
  split at hc
  · cases he : enqueue_user (new_file pathname).opened_by user with
    | none => simp [he] at hc
    | some ob =>
      simp only [he, Option.some_bind] at hc
      exact create_inv h hroom rfl rfl rfl rfl rfl hc
  · cases he : enqueue_user (new_file pathname).opened_by user with
    | none => simp [he] at hc
    | some ob =>
      simp only [he, Option.some_bind] at hc
      exact create_inv h hroom rfl rfl rfl rfl rfl hc

theorem open_make_room_inv {a b : Nat} {m m1 : Machine} {pl out : Option (List Int)}
    (h : Inv a b m) (hr : open_make_room m pl = some (some m1, out)) :
    Inv a b m1 ∧ m1.storage.file_number < m1.storage.max_file_number := by
  unfold open_make_room at hr
  split at hr
  · rename_i hfull
    split at hr
    · cases hr
    · cases hr
    · rename_i victim hv
      cases hd : file_destroy m victim pl true with
      | none => simp [hd] at hr
      | some r =>
        simp only [hd, Option.map_some', Option.some.injEq, Prod.mk.injEq] at hr
        obtain ⟨hr1, _⟩ := hr
        obtain ⟨m2, out2⟩ := r
        simp only at hr1
        subst hr1
        obtain ⟨⟨k, hk⟩, _⟩ := get_victim_stored h.1 hv
        obtain ⟨f', _, _, _, _, _, hst, _⟩ := file_destroy_spec hd
        have hpos : 0 < m.storage.file_number := by
          rw [h.1.file_number_eq]
          exact List.length_pos_of_mem hk
        refine ⟨⟨file_destroy_wf (wfs_weaken _ h.1) hk hd, ?_, ?_⟩, ?_⟩
        · rw [hst]; exact h.2.1
        · rw [hst]; exact h.2.2
        · rw [hst]
          simp only
          omega
  · rename_i hne
    simp only [Option.some.injEq, Prod.mk.injEq] at hr
    obtain ⟨rfl, _⟩ := hr
    exact ⟨h, lt_of_le_of_ne h.1.file_number_le hne⟩

theorem storage_open_inv {a b : Nat} {m m1 : Machine} {pathname : List Char} {flags : Nat}
    {user : Int} {pl : Option (List Int)} {r : Except Errno Unit × Option (List Int)}
    (h : Inv a b m) (hr : storage_open m pathname flags pl user = some (m1, r)) :
    Inv a b m1 := by
  unfold storage_open at hr
  split at hr
  · cases hr; exact h
  · simp only at hr
    split at hr
    · split at hr
      · cases hr; exact h
      · split at hr
        · cases hr
        · cases hr; exact h
        · rename_i m2 out hroom
          cases hc : open_create m2 pathname (IS_SET O_LOCK flags) user with
          | none => simp [hc] at hr
          | some m4 =>
            simp only [hc, Option.map_some', Option.some.injEq, Prod.mk.injEq] at hr
            obtain ⟨rfl, _⟩ := hr
            obtain ⟨h2, hlt⟩ := open_make_room_inv h hroom
            exact open_create_inv h2 hlt hc
    · rename_i file hfind
      split at hr
      · cases hr; exact h
      · split at hr
        · cases hr
        · rename_i f hf
          split at hr
          · cases hr; exact h
          · split at hr
            · cases hr
            · cases hr
              refine inv_store _ h hf ?_
              split <;> rfl

/-- The eviction step of `storage_append`: `victim->next = NULL`, then `file_destroy`. -/
theorem evict_wf {m m2 : Machine} {v : Ptr} {k : List Char} {mem1 : List (Option file_t)}
    {pl out : Option (List Int)} {dealloc : Bool}
    (h : WF m) (hk : (k, v) ∈ m.storage.dictionary)
    (ha : assign_next m.mem v none = some mem1)
    (hd : file_destroy { m with mem := mem1 } v pl dealloc = some (m2, out)) : WF m2 := by
  obtain ⟨hl1, hd1⟩ := assign_next_spec ha
  obtain ⟨f, hf, _⟩ := wf_live h hk
  refine file_destroy_wf (m := { m with mem := mem1 }) (k := k) ?_ hk hd
  simp only [hl1]
  refine wfs_set_next_none (f := f.links) h (links_at_some hf) ?_
  intro q
  unfold links_at
  simp only [hd1 q]
  by_cases hq : q = v
  · subst hq
    simp [hf, file_t.links]
  · simp only [if_neg hq]
    cases deref m.mem q <;> rfl

/-- After the eviction step of `storage_append` the walk from `head` meets no victim. -/
theorem get_victim_loop_after_evict {m m2 : Machine} {v : Ptr} {fv : file_t}
    {spare : Option Ptr} (h : WF m) {kv : List Char} (hkv : (kv, v) ∈ m.storage.dictionary)
    (hfv : deref m.mem v = some fv)
    (hm2 : ∀ q, q ≠ v → deref m2.mem q = (deref m.mem q).map (fun g =>
      { g with next := if fv.previous = some q then none else g.next })) :
    ∀ (fuel : Nat) (start : Option Ptr),
      (∀ p, start = some p → p ≠ v ∧ ∃ k, (k, p) ∈ m.storage.dictionary) →
      get_victim_loop m.mem spare fuel start = some (some v) →
      get_victim_loop m2.mem spare fuel start = some none := by
  intro fuel
  induction fuel with
  | zero =>
    intro start _ hg
    cases start <;> simp [get_victim_loop] at hg
  | succ fuel ih =>
    intro start hs hg
    cases start with
    | none => simp [get_victim_loop] at hg
    | some p =>
      obtain ⟨hpv, k, hk⟩ := hs p rfl
      simp only [get_victim_loop] at hg ⊢
      cases hf : deref m.mem p with
      | none => simp [hf] at hg
      | some g =>
        simp only [hf] at hg
        rw [hm2 p hpv, hf]
        simp only [Option.map_some']
        split at hg
        · simp only [Option.some.injEq] at hg
          exact absurd hg hpv
        · rename_i hnot
          rw [if_neg hnot]
          cases hn : g.next with
          | none =>
            rw [hn] at hg
            simp [get_victim_loop] at hg
          | some n =>
            rw [hn] at hg
            by_cases hnv : n = v
            · subst hnv
              have := h.next_prev k p g.links n fv.links hk (links_at_some hf) hn
                (links_at_some hfv)
              have hpr : fv.previous = some p := this
              rw [if_pos hpr]
              cases fuel <;> rfl
            · have hpr : fv.previous ≠ some p := by
                intro hpr
                have := h.prev_next kv v fv.links k p g.links hkv (links_at_some hfv) hpr
                  (by simp) hk (links_at_some hf)
                have h2 : g.next = some v := this
                rw [hn] at h2
                exact hnv (Option.some.inj h2)
              rw [if_neg hpr]
              exact ih (some n) (fun q hq => by
                cases hq
                exact ⟨hnv, h.next_in k p g.links n hk (links_at_some hf) hn⟩) hg

/-- What the eviction step of `storage_append` does to a well-formed state: the victim
leaves the dictionary, every other file keeps all but its `next`, and no further
victim can be found. -/
theorem evict_step_spec {m m2 : Machine} {v : Ptr} {spare : Option Ptr}
    {mem1 : List (Option file_t)} {pl out : Option (List Int)}
    (h : WF m) (hv : get_victim m spare = some (some v))
    (ha : assign_next m.mem v none = some mem1)
    (hd : file_destroy { m with mem := mem1 } v pl false = some (m2, out)) :
    ∃ fv, deref m.mem v = some fv ∧ fv.modified = true ∧ some v ≠ spare ∧
      (fv.pathname, v) ∈ m.storage.dictionary ∧
      WF m2 ∧
      get_victim m2 spare = some none ∧
      (∀ q, q ≠ v → deref m2.mem q = (deref m.mem q).map (fun g =>
        { g with next := if fv.previous = some q then none else g.next })) ∧
      deref m2.mem v = some (destroyed { fv with next := none } pl) ∧
      m2.mem.length = m.mem.length ∧
      (∀ k p, (k, p) ∈ m2.storage.dictionary ↔ ((k, p) ∈ m.storage.dictionary ∧ p ≠ v)) ∧
      m2.storage = { m.storage with
        head := if fv.previous = none then none else m.storage.head,
        tail := fv.previous,
        dictionary := m2.storage.dictionary,
        file_number := m.storage.file_number - 1,
        size := m.storage.size - fv.size } ∧
      out = handed_out fv pl := by
  obtain ⟨⟨kv, hkv⟩, fv, hfv, hmod, hne⟩ := get_victim_stored h hv
  obtain ⟨_, hpath⟩ := wf_live h hkv
  have hkv' : (fv.pathname, v) ∈ m.storage.dictionary := by
    obtain ⟨f', hf', hk'⟩ := wf_live h hkv
    rw [hfv] at hf'
    cases hf'
    rw [hk']
    exact hkv
  obtain ⟨hl1, hd1⟩ := assign_next_spec ha
  obtain ⟨f', hf', hq, hfile, hlen, hdel, hst, hout⟩ := file_destroy_spec hd
  simp only at hf' hq hfile hlen hdel hst
  have hf'eq : f' = { fv with next := none } := by
    rw [hd1 v, hfv] at hf'
    simp only [if_true, Option.map_some', Option.some.injEq] at hf'
    exact hf'.symm
  subst hf'eq
  simp only at hq hfile hdel hst hout
  have hwf2 : WF m2 := evict_wf h hkv ha hd
  have hcells : ∀ q, q ≠ v → deref m2.mem q = (deref m.mem q).map (fun g =>
      { g with next := if fv.previous = some q then none else g.next }) := by
    intro q hqv
    rw [hq q hqv, hd1 q]
    simp only [if_neg hqv, Option.map_map]
    cases deref m.mem q with
    | none => rfl
    | some g => simp
  obtain ⟨p, hperm⟩ := icl_hash_delete_perm hdel
  have hp : p = v :=
    keys_unique h.keys_nodup (hperm.mem_iff.mpr (List.mem_cons_self _ _)) hkv'
  subst hp
  have hdict := perm_mem_ne (f := fv.links) h (links_at_some hfv) hperm
  refine ⟨fv, hfv, hmod, hne, hkv', hwf2, ?_, hcells, ?_, ?_, hdict, ?_, ?_⟩
  · -- no further victim
    unfold get_victim at hv ⊢
    rw [hlen, hl1, hst]
    simp only
    cases hh : m.storage.head with
    | none =>
      rw [hh] at hv
      simp [get_victim_loop] at hv
    | some x =>
      by_cases hP : fv.previous = none
      · rw [if_pos hP]
        rfl
      · rw [if_neg hP]
        rw [hh] at hv
        refine get_victim_loop_after_evict h hkv' hfv hcells _ _ ?_ hv
        intro q hq2
        cases hq2
        refine ⟨?_, h.head_in _ hh⟩
        rintro rfl
        exact hP (h.head_prev _ fv.links hh (links_at_some hfv))
  · simpa using hfile
  · rw [hlen, hl1]
  · rw [hst]
    simp
  · exact hout

/-- The eviction loop of `storage_append`, entered with an empty list of removed files in
a well-formed state: either nothing is evicted, or exactly one file is. -/
theorem append_evict_loop_spec {m m1 : Machine} {file : Ptr} {nfs : Nat}
    {fuel : Nat} {pl pl1 : List Int} {r : Except Errno Unit} {rl1 : Option Ptr}
    (h : WF m)
    (hl : append_evict_loop file nfs fuel m pl none = some (m1, r, pl1, rl1)) :
    ∃ f, deref m.mem file = some f ∧
      ((m1 = m ∧ pl1 = pl ∧ rl1 = none ∧
          ((r = .ok () ∧ m.storage.size - f.size + nfs ≤ m.storage.max_size) ∨
           (r = .error .ENOMEM ∧ ¬ m.storage.size - f.size + nfs ≤ m.storage.max_size ∧
              get_victim m (some file) = some none))) ∨
       (∃ v mem1 out, ¬ m.storage.size - f.size + nfs ≤ m.storage.max_size ∧
          get_victim m (some file) = some (some v) ∧
          assign_next m.mem v none = some mem1 ∧
          file_destroy { m with mem := mem1 } v (some []) false = some (m1, out) ∧
          pl1 = concatenate_lists pl (out.getD []) ∧ rl1 = some v ∧
          ((r = .ok () ∧ m1.storage.size - f.size + nfs ≤ m1.storage.max_size) ∨
           (r = .error .ENOMEM ∧
              ¬ m1.storage.size - f.size + nfs ≤ m1.storage.max_size)))) := by
  cases fuel with
  | zero => simp [append_evict_loop] at hl
  | succ fuel =>
    simp only [append_evict_loop] at hl
    cases hf : deref m.mem file with
    | none => simp [hf] at hl
    | some f =>
      refine ⟨f, rfl, ?_⟩
      simp only [hf] at hl
      by_cases hfit : m.storage.size - f.size + nfs ≤ m.storage.max_size
      · rw [if_neg (by omega)] at hl
        simp only [Option.some.injEq, Prod.mk.injEq] at hl
        obtain ⟨rfl, rfl, rfl, rfl⟩ := hl
        exact Or.inl ⟨rfl, rfl, rfl, Or.inl ⟨rfl, hfit⟩⟩
      · rw [if_pos (by omega)] at hl
        cases hv : get_victim m (some file) with
        | none => simp [hv] at hl
        | some ov =>
          cases ov with
          | none =>
            simp only [hv, Option.some.injEq, Prod.mk.injEq] at hl
            obtain ⟨rfl, rfl, rfl, rfl⟩ := hl
            exact Or.inl ⟨rfl, rfl, rfl, Or.inr ⟨rfl, hfit, rfl⟩⟩
          | some v =>
            simp only [hv] at hl
            cases ha : assign_next m.mem v none with
            | none => simp [ha] at hl
            | some mem1 =>
              simp only [ha] at hl
              cases hd : file_destroy { m with mem := mem1 } v (some []) false with
              | none => simp [hd] at hl
              | some res =>
                obtain ⟨m2, out⟩ := res
                simp only [hd] at hl
                obtain ⟨fv, hfv, _, hne, _, hwf2, hnov, hcells, _, _, _, _, _⟩ :=
                  evict_step_spec h hv ha hd
                have hfv' : file ≠ v := fun e => hne (by rw [e])
                have hf2 : deref m2.mem file
                    = some { f with next := if fv.previous = some file then none
                                            else f.next } := by
                  rw [hcells file hfv', hf]
                  rfl
                cases fuel with
                | zero => simp [append_evict_loop] at hl
                | succ fuel =>
                  simp only [append_evict_loop, hf2, hnov] at hl
                  by_cases hfit2 : m2.storage.size - f.size + nfs ≤ m2.storage.max_size
                  · rw [if_neg (by omega)] at hl
                    simp only [Option.some.injEq, Prod.mk.injEq] at hl
                    obtain ⟨rfl, rfl, rfl, rfl⟩ := hl
                    exact Or.inr ⟨v, mem1, out, hfit, rfl, ha, hd, rfl, rfl,
                      Or.inl ⟨rfl, hfit2⟩⟩
                  · rw [if_pos (by omega)] at hl
                    simp only [Option.some.injEq, Prod.mk.injEq] at hl
                    obtain ⟨rfl, rfl, rfl, rfl⟩ := hl
                    exact Or.inr ⟨v, mem1, out, hfit, rfl, ha, hd, rfl, rfl,
                      Or.inr ⟨rfl, hfit2⟩⟩

theorem wf_content_len {m : Machine} (h : WF m) {k : List Char} {p : Ptr} {f : file_t}
    (hp : (k, p) ∈ m.storage.dictionary) (hf : deref m.mem p = some f) :
    (f.content.getD []).length = f.size :=
  h.content_len k p f.links hp (links_at_some hf)

/-- What `storage_append` does in a well-formed state, called as the worker calls it
(with an empty list of removed files). -/
theorem storage_append_spec {m m1 : Machine} {pathname new_content : List Char}
    {pl pl1 : List Int} {user : Int} {r : Except Errno Unit} {rl1 : Option Ptr}
    (h : WF m)
    (hr : storage_append m pathname new_content pl none user = some (m1, r, pl1, rl1)) :
    (m1 = m ∧ pl1 = pl ∧ rl1 = none ∧
      ((r = .error .EINVAL ∧ (pathname = [] ∨ new_content.length = 0 ∨ user ≤ 0)) ∨
       (r = .error .ENOENT ∧ ¬ (pathname = [] ∨ new_content.length = 0 ∨ user ≤ 0) ∧
          ∀ p, (pathname, p) ∉ m.storage.dictionary) ∨
       (∃ file f, (pathname, file) ∈ m.storage.dictionary ∧ deref m.mem file = some f ∧
          ¬ (pathname = [] ∨ new_content.length = 0 ∨ user ≤ 0) ∧
          ((r = .error .EACCES ∧ no_access f user) ∨
           (r = .error .ENOMEM ∧ ¬ no_access f user ∧
              (m.storage.max_size < f.size + new_content.length ∨
               (¬ m.storage.size - f.size + (f.size + new_content.length)
                    ≤ m.storage.max_size ∧
                get_victim m (some file) = some none))))))) ∨
    (∃ file f m0, (pathname, file) ∈ m.storage.dictionary ∧ deref m.mem file = some f ∧
        ¬ (pathname = [] ∨ new_content.length = 0 ∨ user ≤ 0) ∧ ¬ no_access f user ∧
        f.size + new_content.length ≤ m.storage.max_size ∧
        ((m0 = m ∧ pl1 = pl ∧ rl1 = none ∧
            m.storage.size - f.size + (f.size + new_content.length) ≤ m.storage.max_size ∧
            r = .ok ()) ∨
         (∃ v mem1 out,
            ¬ m.storage.size - f.size + (f.size + new_content.length) ≤ m.storage.max_size ∧
            get_victim m (some file) = some (some v) ∧
            assign_next m.mem v none = some mem1 ∧
            file_destroy { m with mem := mem1 } v (some []) false = some (m0, out) ∧
            pl1 = concatenate_lists pl (out.getD []) ∧ rl1 = some v ∧
            ((r = .ok () ∧ m0.storage.size - f.size + (f.size + new_content.length)
                ≤ m0.storage.max_size) ∨
             (r = .error .ENOMEM ∧ ¬ m0.storage.size - f.size + (f.size + new_content.length)
                ≤ m0.storage.max_size)))) ∧
        ((∃ e, r = .error e ∧ m1 = m0) ∨
         (r = .ok () ∧ ∃ f0, deref m0.mem file = some f0 ∧
            f0 = { f with next := f0.next } ∧ m1 = written m0 file f0 new_content))) := by
  unfold storage_append at hr
  split at hr
  · rename_i hbad
    simp only [Option.some.injEq, Prod.mk.injEq] at hr
    obtain ⟨rfl, rfl, rfl, rfl⟩ := hr
    exact Or.inl ⟨rfl, rfl, rfl, Or.inl ⟨rfl, hbad⟩⟩
  · rename_i hgood
    have hpath : pathname ≠ [] := fun e => hgood (Or.inl e)
    split at hr
    · rename_i e hfind
      simp only [Option.some.injEq, Prod.mk.injEq] at hr
      obtain ⟨rfl, rfl, rfl, rfl⟩ := hr
      obtain ⟨rfl, hno⟩ := storage_find_error hfind hpath
      exact Or.inl ⟨rfl, rfl, rfl, Or.inr (Or.inl ⟨rfl, hgood, hno⟩)⟩
    · rename_i file hfind
      have hmem := (storage_find_ok hfind).1
      cases hf : deref m.mem file with
      | none => simp [hf] at hr
      | some f =>
        have hclen := wf_content_len h hmem hf
        simp only [hf, Option.bind_eq_bind, Option.some_bind] at hr
        split at hr
        · rename_i hacc
          simp only [pure, Option.some.injEq, Prod.mk.injEq] at hr
          obtain ⟨rfl, rfl, rfl, rfl⟩ := hr
          exact Or.inl ⟨rfl, rfl, rfl, Or.inr (Or.inr ⟨file, f, hmem, hf, hgood,
            Or.inl ⟨rfl, hacc⟩⟩)⟩
        · rename_i hacc
          have hcopy : storage_copy f new_content.length
              = some ((f.content.getD []).take f.size
                  ++ List.replicate new_content.length (Char.ofNat 0)) := by
            unfold storage_copy
            rw [if_neg]
            intro hc
            exact hgood (Or.inr (Or.inl hc.2))
          rw [hcopy] at hr
          simp only at hr
          split at hr
          · rename_i hbig
            simp only [pure, Option.some.injEq, Prod.mk.injEq] at hr
            obtain ⟨rfl, rfl, rfl, rfl⟩ := hr
            exact Or.inl ⟨rfl, rfl, rfl, Or.inr (Or.inr ⟨file, f, hmem, hf, hgood,
              Or.inr ⟨rfl, hacc, Or.inl (by omega)⟩⟩)⟩
          · rename_i hsmall
            cases hl : append_evict_loop file (f.size + new_content.length)
                (m.storage.dictionary.length + 1) m pl none with
            | none => simp [hl] at hr
            | some res =>
              obtain ⟨m0, r0, pl0, rl0⟩ := res
              simp only [hl, Option.some_bind] at hr
              obtain ⟨f', hf', hcase⟩ := append_evict_loop_spec h hl
              rw [hf] at hf'
              cases hf'
              have htake : ((f.content.getD []).take f.size
                  ++ List.replicate new_content.length (Char.ofNat 0)).take f.size
                  = f.content.getD [] := by
                rw [List.take_of_length_le (Nat.le_of_eq hclen), ← hclen, List.take_left']
                rfl
              rw [htake] at hr
              rcases hcase with ⟨rfl, rfl, rfl, hc⟩ | ⟨v, mem1, out, hnofit, hv, ha, hd, rfl, rfl, hc⟩
              · rcases hc with ⟨rfl, hfit⟩ | ⟨rfl, hnofit, hv⟩
                · simp only [hf, Option.some_bind, pure, Option.some.injEq, Prod.mk.injEq] at hr
                  obtain ⟨rfl, rfl, rfl, rfl⟩ := hr
                  exact Or.inr ⟨file, f, m0, hmem, hf, hgood, hacc, by omega,
                    Or.inl ⟨rfl, rfl, rfl, hfit, rfl⟩, Or.inr ⟨rfl, f, hf, rfl, rfl⟩⟩
                · simp only [pure, Option.some.injEq, Prod.mk.injEq] at hr
                  obtain ⟨rfl, rfl, rfl, rfl⟩ := hr
                  exact Or.inl ⟨rfl, rfl, rfl, Or.inr (Or.inr ⟨file, f, hmem, hf, hgood,
                    Or.inr ⟨rfl, hacc, Or.inr ⟨hnofit, hv⟩⟩⟩)⟩
              · obtain ⟨fv, hfv, _, hne, _, _, _, hcells, _, _, _, _, _⟩ :=
                  evict_step_spec h hv ha hd
                have hfv' : file ≠ v := fun e => hne (by rw [e])
                have hf0 : deref m0.mem file
                    = some { f with next := if fv.previous = some file then none
                                            else f.next } := by
                  rw [hcells file hfv', hf]
                  rfl
                rcases hc with ⟨rfl, hfit⟩ | ⟨rfl, hnofit2⟩
                · simp only [hf0, Option.some_bind, pure, Option.some.injEq,
                    Prod.mk.injEq] at hr
                  obtain ⟨rfl, rfl, rfl, rfl⟩ := hr
                  exact Or.inr ⟨file, f, m0, hmem, hf, hgood, hacc, by omega,
                    Or.inr ⟨v, mem1, out, hnofit, hv, ha, hd, rfl, rfl, Or.inl ⟨rfl, hfit⟩⟩,
                    Or.inr ⟨rfl, _, hf0, rfl, rfl⟩⟩
                · simp only [pure, Option.some.injEq, Prod.mk.injEq] at hr
                  obtain ⟨rfl, rfl, rfl, rfl⟩ := hr
                  exact Or.inr ⟨file, f, m0, hmem, hf, hgood, hacc, by omega,
                    Or.inr ⟨v, mem1, out, hnofit, hv, ha, hd, rfl, rfl,
                      Or.inr ⟨rfl, hnofit2⟩⟩,
                    Or.inl ⟨_, rfl, rfl⟩⟩

theorem written_wf {m0 : Machine} {file : Ptr} {k : List Char} {f0 : file_t}
    {new_content : List Char} (h : WF m0) (hk : (k, file) ∈ m0.storage.dictionary)
    (hf : deref m0.mem file = some f0)
    (hfit : m0.storage.size - f0.size + (f0.size + new_content.length)
      ≤ m0.storage.max_size) :
    WF (written m0 file f0 new_content) := by
  unfold WF written
  simp only [length_store]
  refine wfs_resize (f := f0.links) (n := f0.size + new_content.length) h
    (links_at_some hf) hk ?_ rfl rfl rfl rfl rfl hfit rfl rfl
  intro q
  unfold links_at
  simp only [deref_store _ _ (deref_lt hf)]
  by_cases hq : q = file
  · simp only [if_pos hq, Option.map_some', file_t.links, Option.getD_some,
      List.length_append, Option.some.injEq, Links.mk.injEq, true_and, and_true]
    rw [wf_content_len h hk hf]
  · simp only [if_neg hq]

theorem storage_append_inv {a b : Nat} {m m1 : Machine} {pathname new_content : List Char}
    {pl pl1 : List Int} {user : Int} {r : Except Errno Unit} {rl1 : Option Ptr}
    (h : Inv a b m)
    (hr : storage_append m pathname new_content pl none user = some (m1, r, pl1, rl1)) :
    Inv a b m1 ∧
      (rl1 = none ∨ ∃ v vf, rl1 = some v ∧ (∀ k, (k, v) ∉ m1.storage.dictionary) ∧
        deref m1.mem v = some vf ∧ vf.next = none) := by
  rcases storage_append_spec h.1 hr with ⟨rfl, _, rfl, _⟩ |
    ⟨file, f, m0, hmem, hf, _, _, _, hloop, hfin⟩
  · exact ⟨h, Or.inl rfl⟩
  · rcases hloop with ⟨rfl, _, rfl, hfit, rfl⟩ | ⟨v, mem1, out, _, hv, ha, hd, _, rfl, hc⟩
    · rcases hfin with ⟨e, he, _⟩ | ⟨_, f0, hf0, _, rfl⟩
      · cases he
      · rw [hf] at hf0
        cases hf0
        exact ⟨⟨written_wf h.1 hmem hf hfit, h.2.1, h.2.2⟩, Or.inl rfl⟩
    · obtain ⟨fv, hfv, _, hne, _, hwf0, _, hcells, hvcell, _, hdict, hst, _⟩ :=
        evict_step_spec h.1 hv ha hd
      have hfv' : file ≠ v := fun e => hne (by rw [e])
      have hmem0 : (pathname, file) ∈ m0.storage.dictionary :=
        (hdict pathname file).mpr ⟨hmem, hfv'⟩
      have hnotin : ∀ k, (k, v) ∉ m0.storage.dictionary :=
        fun k hk => ((hdict k v).mp hk).2 rfl
      have hinv0 : Inv a b m0 := ⟨hwf0, by rw [hst]; exact h.2.1, by rw [hst]; exact h.2.2⟩
      rcases hfin with ⟨e, _, rfl⟩ | ⟨hok, f0, hf0, hs0, rfl⟩
      · exact ⟨hinv0, Or.inr ⟨v, destroyed { fv with next := none } (some []), rfl, hnotin,
          hvcell, rfl⟩⟩
      · rcases hc with ⟨_, hfit⟩ | ⟨he, _⟩
        · have hs : f0.size = f.size := by rw [hs0]
          refine ⟨⟨written_wf hwf0 hmem0 hf0 (by rw [hs]; exact hfit), hinv0.2.1,
            hinv0.2.2⟩, Or.inr ⟨v, destroyed { fv with next := none } (some []), rfl,
            hnotin, ?_, rfl⟩⟩
          unfold written
          simp only
          rw [deref_store _ _ (deref_lt hf0), if_neg (Ne.symm hfv')]
          exact hvcell
        · rw [hok] at he
          cases he

theorem send_removed_files_one {fd : Int} {fuel : Nat} {mem mem2 : List (Option file_t)}
    {v : Ptr} {vf : file_t} {sent : List Event}
    (hv : deref mem v = some vf) (hn : vf.next = none)
    (hs : send_removed_files fd (fuel + 1) mem (some v) = some (mem2, sent)) :
    mem2 = file_dealloc mem v ∧
      ∃ c, storage_copy vf 0 = some c ∧ sent = [Event.send fd (SEND_FILE vf c)] := by
  simp only [send_removed_files, hv] at hs
  cases hc : storage_copy vf 0 with
  | none => simp [hc] at hs
  | some c =>
    simp only [hc, hn] at hs
    cases fuel <;>
      simp only [send_removed_files, Option.map_some', Option.some.injEq,
        Prod.mk.injEq] at hs <;>
      exact ⟨hs.1.symm, c, rfl, hs.2.symm⟩

theorem worker_append_inv {a b : Nat} {m m1 : Machine} {client : Int}
    {pathname new_content : List Char} {out : List Event} (h : Inv a b m)
    (hw : worker_append m client pathname new_content = some (m1, out)) : Inv a b m1 := by
  unfold worker_append at hw
  cases ha : storage_append m pathname new_content [] none client with
  | none => simp [ha] at hw
  | some res =>
    obtain ⟨m2, r, pl, rl⟩ := res
    obtain ⟨hinv, hrl⟩ := storage_append_inv h ha
    simp only [ha, Option.bind_eq_bind, Option.some_bind] at hw
    cases r with
    | error e =>
      simp only [pure, Option.some.injEq, Prod.mk.injEq] at hw
      obtain ⟨rfl, _⟩ := hw
      exact hinv
    | ok u =>
      simp only at hw
      cases hs : send_removed_files client (m2.mem.length + 1) m2.mem rl with
      | none => simp [hs] at hw
      | some res2 =>
        obtain ⟨mem3, sent⟩ := res2
        simp only [hs, Option.some_bind, pure, Option.some.injEq, Prod.mk.injEq] at hw
        obtain ⟨rfl, _⟩ := hw
        rcases hrl with rfl | ⟨v, vf, rfl, hnotin, hvf, hnext⟩
        · simp only [send_removed_files, Option.some.injEq, Prod.mk.injEq] at hs
          obtain ⟨rfl, _⟩ := hs
          exact hinv
        · obtain ⟨rfl, _⟩ := send_removed_files_one hvf hnext hs
          refine ⟨?_, hinv.2.1, hinv.2.2⟩
          unfold WF
          simp only [length_dealloc]
          refine wfs_dealloc hinv.1 hnotin ?_
          intro q
          unfold links_at
          simp only [deref_dealloc]
          by_cases hq : q = v <;> simp [hq]

/-- A worker handling a request keeps the state well-formed. -/
theorem worker_inv {a b : Nat} {m m1 : Machine} {client : Int} {req : Request}
    {out : List Event} (h : Inv a b m) (hw : worker m client req = some (m1, out)) :
    Inv a b m1 := by
  cases req with
  | open_file payload flags_buffer =>
    simp only [worker] at hw
    split at hw
    · cases hw; exact h
    · rename_i flags _
      cases ho : storage_open m (c_str payload) flags.toNat (some []) client with
      | none => simp [ho] at hw
      | some res =>
        obtain ⟨m2, r⟩ := res
        have hi := storage_open_inv h ho
        simp only [ho, Option.map_some', Option.some.injEq] at hw
        split at hw <;> (cases hw; exact hi)
  | read_file payload =>
    simp only [worker] at hw
    cases ho : storage_read m (c_str payload) client with
    | none => simp [ho] at hw
    | some res =>
      obtain ⟨m2, r⟩ := res
      have hi := storage_read_inv h ho
      simp only [ho, Option.map_some', Option.some.injEq] at hw
      split at hw <;> (cases hw; exact hi)
  | read_n_files n_buffer =>
    simp only [worker] at hw
    split at hw
    · cases hw; exact h
    · rename_i n _
      cases ho : storage_read_many m n client with
      | none => simp [ho] at hw
      | some res =>
        obtain ⟨m2, r⟩ := res
        have hi := storage_read_many_inv h ho
        simp only [ho, Option.map_some', Option.some.injEq] at hw
        split at hw <;> (cases hw; exact hi)
  | write_file payload content =>
    simp only [worker] at hw
    split at hw
    · cases hw
    · cases hw; exact h
    · cases ho : worker_append m client (c_str payload) content with
      | none => simp [ho] at hw
      | some res =>
        obtain ⟨m2, r⟩ := res
        have hi := worker_append_inv h ho
        simp only [ho, Option.map_some', Option.some.injEq, Prod.mk.injEq] at hw
        obtain ⟨rfl, _⟩ := hw
        exact hi
  | append_to_file payload content =>
    simp only [worker] at hw
    cases ho : worker_append m client (c_str payload) content with
    | none => simp [ho] at hw
    | some res =>
      obtain ⟨m2, r⟩ := res
      have hi := worker_append_inv h ho
      simp only [ho, Option.map_some', Option.some.injEq, Prod.mk.injEq] at hw
      obtain ⟨rfl, _⟩ := hw
      exact hi
  | lock_file payload =>
    simp only [worker] at hw
    cases ho : storage_lock m (c_str payload) client with
    | none => simp [ho] at hw
    | some res =>
      obtain ⟨m2, r⟩ := res
      have hi := storage_lock_inv h ho
      simp only [ho, Option.map_some', Option.some.injEq] at hw
      split at hw <;> (cases hw; exact hi)
  | unlock_file payload =>
    simp only [worker] at hw
    cases ho : storage_unlock m (c_str payload) client with
    | none => simp [ho] at hw
    | some res =>
      obtain ⟨m2, r⟩ := res
      have hi := storage_unlock_inv h ho
      simp only [ho, Option.map_some', Option.some.injEq] at hw
      split at hw <;> (cases hw; exact hi)
  | close_file payload =>
    simp only [worker] at hw
    cases ho : storage_close m (c_str payload) client with
    | none => simp [ho] at hw
    | some res =>
      obtain ⟨m2, r⟩ := res
      have hi := storage_close_inv h ho
      simp only [ho, Option.map_some', Option.some.injEq] at hw
      split at hw <;> (cases hw; exact hi)
  | remove_file payload =>
    simp only [worker] at hw
    cases ho : storage_remove m (c_str payload) (some []) client with
    | none => simp [ho] at hw
    | some res =>
      obtain ⟨m2, r⟩ := res
      have hi := storage_remove_inv h ho
      simp only [ho, Option.map_some', Option.some.injEq] at hw
      split at hw <;> (cases hw; exact hi)
  | other payload =>
    simp only [worker, Option.some.injEq, Prod.mk.injEq] at hw
    obtain ⟨rfl, _⟩ := hw
    exact h
  | client_left =>
    simp only [worker] at hw
    split at hw
    · cases hw
    · cases hw
    · rename_i m2 pending_clients ho
      simp only [Option.some.injEq, Prod.mk.injEq] at hw
      obtain ⟨rfl, _⟩ := hw
      exact storage_user_exit_inv h ho

theorem storage_create_inv (a b : Nat) : Inv a b (storage_create a b) := by
  refine ⟨?_, rfl, rfl⟩
  unfold WF storage_create
  refine
    { keys_nodup := by simp, live := by simp, next_in := by simp, head_in := by simp,
      next_prev := by simp, head_prev := by simp, prev_next := by simp,
      tail_next := by simp, prev_lt := by simp, tail_lt := by simp, cell_lt := ?_,
      file_number_eq := by simp, size_eq := by simp, file_number_le := by simp,
      size_le := by simp, content_len := by simp }
  intro p f hf
  simp [links_at, deref] at hf

/-- Every state of the server is well-formed. -/
theorem reachable_inv {a b : Nat} {m : Machine} (h : Reachable a b m) : Inv a b m := by
  induction h with
  | init => exact storage_create_inv a b
  | step _ _ hw ih => exact worker_inv ih hw

/-- What the creation in `storage_open` does, when it returns. -/
theorem open_create_spec {m m1 : Machine} {pathname : List Char} {lock_flag : Bool}
    {user : Int} (hc : open_create m pathname lock_flag user = some m1) :
    0 < user ∧
    icl_hash_find m.storage.dictionary pathname = none ∧
    deref m1.mem m.mem.length = some
      { new_file pathname with
        owner := if lock_flag then user else 0,
        locked_by := if lock_flag then user else 0,
        opened_by := [user],
        previous := if m.storage.head = none then none else m.storage.tail,
        next := if m.storage.head ≠ none ∧ m.storage.tail = some m.mem.length
                then some m.mem.length else none } ∧
    (∀ q, q ≠ m.mem.length → deref m1.mem q = (deref m.mem q).map (fun g =>
      { g with next := if m.storage.head ≠ none ∧ m.storage.tail = some q
                       then some m.mem.length else g.next })) ∧
    m1.mem.length = m.mem.length + 1 ∧
    m1.storage = { m.storage with
      head := if m.storage.head = none then some m.mem.length else m.storage.head,
      tail := some m.mem.length,
      dictionary := (pathname, m.mem.length) :: m.storage.dictionary,
      file_number := m.storage.file_number + 1,
      size := m.storage.size + 0 } := by
  unfold open_create file_create at hc
  simp only [Option.bind_eq_bind] at hc
  have hd : deref (m.mem ++ [some (new_file pathname)]) m.mem.length
      = some (new_file pathname) := by
    rw [deref_append, if_pos rfl]
  rw [hd] at hc
  simp only [Option.some_bind] at hc
  have hderef : ∀ (f0 f1 : file_t) q,
      deref (store (m.mem ++ [some f0]) m.mem.length f1) q
      = if q = m.mem.length then some f1 else deref m.mem q := by
    intro f0 f1 q
    have hlt : m.mem.length < (m.mem ++ [some f0]).length := by simp
    rw [deref_store _ _ hlt, deref_append]
    by_cases hq : q = m.mem.length <;> simp [hq]
  have hpos : 0 < user := by
    by_contra hle
    have : enqueue_user [] user = none := by
      unfold enqueue_user
      rw [if_pos (by omega)]
    cases lock_flag <;> simp [new_file, this] at hc
  have he : enqueue_user [] user = some [user] := by
    unfold enqueue_user
    rw [if_neg (by omega)]
    rfl
  refine ⟨hpos, ?_⟩
  cases lock_flag
  · simp only [Bool.false_eq_true, if_false, new_file, he, Option.some_bind] at hc
    obtain ⟨f, hf, hlen, hcells, hfind, hst⟩ := storage_add_spec hc
    simp only at hf hlen hcells hfind hst
    rw [hderef, if_pos rfl] at hf
    cases hf
    simp only at hfind hst
    refine ⟨hfind, ?_, ?_, ?_, ?_⟩
    · rw [hcells, hderef, if_pos rfl]
      simp only [Option.map_some', new_file, Bool.false_eq_true, if_false, and_true,
        Option.some.injEq, file_t.mk.injEq, true_and]
      by_cases hh : m.storage.head = none <;> simp [hh]
    · intro q hq
      rw [hcells, hderef, if_neg hq]
      cases deref m.mem q with
      | none => rfl
      | some g => simp [hq]
    · rw [hlen, length_store]
      simp
    · rw [hst]
  · simp only [if_true, new_file, he, Option.some_bind] at hc
    obtain ⟨f, hf, hlen, hcells, hfind, hst⟩ := storage_add_spec hc
    simp only at hf hlen hcells hfind hst
    rw [hderef, if_pos rfl] at hf
    cases hf
    simp only at hfind hst
    refine ⟨hfind, ?_, ?_, ?_, ?_⟩
    · rw [hcells, hderef, if_pos rfl]
      simp only [Option.map_some', new_file, if_true, and_true,
        Option.some.injEq, file_t.mk.injEq, true_and]
      by_cases hh : m.storage.head = none <;> simp [hh]
    · intro q hq
      rw [hcells, hderef, if_neg hq]
      cases deref m.mem q with
      | none => rfl
      | some g => simp [hq]
    · rw [hlen, length_store]
      simp
    · rw [hst]

/-- A successful `storage_open` of a pathname that is not stored: the capacity check,
then the creation. -/
theorem storage_open_absent_ok {m m1 : Machine} {pathname : List Char} {flags : Nat}
    {user : Int} {pl out : Option (List Int)}
    (habs : ∀ p, (pathname, p) ∉ m.storage.dictionary)
    (ho : storage_open m pathname flags pl user = some (m1, .ok (), out)) :
    pathname ≠ [] ∧ 0 < user ∧ IS_SET O_CREATE flags = true ∧
    ∃ m0, open_make_room m pl = some (some m0, out) ∧
      open_create m0 pathname (IS_SET O_LOCK flags) user = some m1 := by
  unfold storage_open at ho
  split at ho
  · cases ho
  · rename_i hgood
    simp only [not_or, not_le] at hgood
    simp only at ho
    split at ho
    · split at ho
      · cases ho
      · rename_i hcreate
        simp only [Bool.not_eq_true, Bool.not_eq_false'] at hcreate
        split at ho
        · cases ho
        · cases ho
        · rename_i m0 out0 hroom
          cases hc : open_create m0 pathname (IS_SET O_LOCK flags) user with
          | none => simp [hc] at ho
          | some m4 =>
            simp only [hc, Option.map_some', Option.some.injEq, Prod.mk.injEq, true_and] at ho
            obtain ⟨rfl, rfl⟩ := ho
            exact ⟨hgood.1, hgood.2, by simpa using hcreate, m0, hroom, hc⟩
    · rename_i file hfind
      exact absurd (storage_find_ok hfind).1 (habs file)

theorem send_response_ok_ne (u : Int) (e : Errno) :
    SEND_RESPONSE u (error_code e) ≠ SEND_RESPONSE u RESPONSE_OK := by
  cases e <;> simp [SEND_RESPONSE, error_code, RESPONSE_OK, FILE_NOT_FOUND, ALREADY_EXISTS,
    NO_CONTENT, FORBIDDEN, OUT_OF_MEMORY, INTERNAL_SERVER_ERROR, BAD_REQUEST, dec_digits]

/-- What the `APPEND_TO_FILE` case of the worker does in a well-formed state. -/
theorem worker_append_spec {m m2 : Machine} {client : Int} {pathname new_content : List Char}
    {ev : List Event} (h : WF m)
    (hw : worker_append m client pathname new_content = some (m2, ev)) :
    ∃ m1 r pl rl, storage_append m pathname new_content [] none client = some (m1, r, pl, rl) ∧
      m2.storage = m1.storage ∧
      ((∃ e, r = .error e ∧ m2 = m1 ∧ ev = [SEND_RESPONSE client (error_code e)]) ∨
       (r = .ok () ∧ ev.head? = some (SEND_RESPONSE client RESPONSE_OK) ∧
          ((rl = none ∧ m2 = m1) ∨
           ∃ v, rl = some v ∧ (∀ k, (k, v) ∉ m1.storage.dictionary) ∧
             m2.mem = file_dealloc m1.mem v))) := by
  unfold worker_append at hw
  cases ha : storage_append m pathname new_content [] none client with
  | none => simp [ha] at hw
  | some res =>
    obtain ⟨m1, r, pl, rl⟩ := res
    obtain ⟨_, hrl⟩ := storage_append_inv (a := m.storage.max_file_number)
      (b := m.storage.max_size) ⟨h, rfl, rfl⟩ ha
    refine ⟨m1, r, pl, rl, rfl, ?_⟩
    simp only [ha, Option.bind_eq_bind, Option.some_bind] at hw
    cases r with
    | error e =>
      simp only [pure, Option.some.injEq, Prod.mk.injEq] at hw
      obtain ⟨rfl, rfl⟩ := hw
      exact ⟨rfl, Or.inl ⟨e, rfl, rfl, rfl⟩⟩
    | ok u =>
      simp only at hw
      cases hs : send_removed_files client (m1.mem.length + 1) m1.mem rl with
      | none => simp [hs] at hw
      | some res2 =>
        obtain ⟨mem3, sent⟩ := res2
        simp only [hs, Option.some_bind, pure, Option.some.injEq, Prod.mk.injEq] at hw
        obtain ⟨rfl, rfl⟩ := hw
        refine ⟨rfl, Or.inr ⟨rfl, rfl, ?_⟩⟩
        rcases hrl with rfl | ⟨v, vf, rfl, hnotin, hvf, hnext⟩
        · simp only [send_removed_files, Option.some.injEq, Prod.mk.injEq] at hs
          obtain ⟨rfl, _⟩ := hs
          exact Or.inl ⟨rfl, rfl⟩
        · obtain ⟨rfl, _⟩ := send_removed_files_one hvf hnext hs
          exact Or.inr ⟨v, rfl, hnotin, rfl⟩

theorem storage_find_of_mem {m : Machine} (h : WF m) {pathname : List Char} {file : Ptr}
    (hm : (pathname, file) ∈ m.storage.dictionary) (hp : pathname ≠ []) :
    storage_find m.storage pathname = .ok file := by
  unfold storage_find
  rw [if_neg hp, icl_hash_find_of_mem h.keys_nodup hm]

/-- What a successful `storage_append` leaves of the file it wrote, in a well-formed
state: the file is stored under its pathname and has the new bytes after its content. -/
theorem storage_append_ok_file {m m1 : Machine} {pathname new_content : List Char}
    {pl pl1 : List Int} {user : Int} {rl1 : Option Ptr} (h : WF m)
    (hr : storage_append m pathname new_content pl none user
      = some (m1, .ok (), pl1, rl1)) :
    ∃ file f nx, (pathname, file) ∈ m.storage.dictionary ∧ deref m.mem file = some f ∧
      ¬ no_access f user ∧
      (pathname, file) ∈ m1.storage.dictionary ∧
      deref m1.mem file = some
        { f with content := some (f.content.getD [] ++ new_content),
                 size := f.size + new_content.length, modified := true, owner := 0,
                 next := nx } := by
  rcases storage_append_spec h hr with ⟨_, _, _, hc⟩ |
    ⟨file, f, m0, hmem, hf, _, hacc, _, hloop, hfin⟩
  · rcases hc with ⟨he, _⟩ | ⟨he, _⟩ | ⟨_, _, _, _, _, ⟨he, _⟩ | ⟨he, _⟩⟩ <;> cases he
  · rcases hfin with ⟨e, he, _⟩ | ⟨_, f0, hf0, hf0eq, rfl⟩
    · cases he
    · have hmem0 : (pathname, file) ∈ m0.storage.dictionary := by
        rcases hloop with ⟨rfl, _⟩ | ⟨v, mem1, out, _, hv, ha, hd, _⟩
        · exact hmem
        · obtain ⟨fv, _, _, hne, _, _, _, _, _, _, hdict, _⟩ := evict_step_spec h hv ha hd
          exact (hdict pathname file).mpr ⟨hmem, fun e => hne (by rw [e])⟩
      refine ⟨file, f, f0.next, hmem, hf, hacc, hmem0, ?_⟩
      unfold written
      simp only
      rw [deref_store _ _ (deref_lt hf0), if_pos rfl, hf0eq]

theorem lock_all_parks (p : List Char) (file : Ptr) (h : Int) :
    ∀ (ws : List Int) (m : Machine) (f : file_t),
      storage_find m.storage p = .ok file → deref m.mem file = some f →
      f.locked_by = h → h ≠ 0 → (∀ w ∈ ws, 0 < w ∧ w ≠ h) →
      ∃ m1, lock_all m p ws = some (m1, ws.map (fun _ => .error .EINPROGRESS)) ∧
        m1.storage = m.storage ∧
        deref m1.mem file = some { f with pending_locks := f.pending_locks ++ ws } := by
  intro ws
  induction ws with
  | nil =>
    intro m f _ hf _ _ _
    refine ⟨m, rfl, rfl, ?_⟩
    rw [hf]
    simp
  | cons w ws ih =>
    intro m f hfind hf hl hh hws
    obtain ⟨hw0, hwh⟩ := hws w (List.mem_cons_self _ _)
    have hp : p ≠ [] := by
      intro e
      simp [storage_find, e] at hfind
    have hstep : storage_lock m p w
        = some ({ m with mem := (store m.mem file
                    { f with pending_locks := f.pending_locks ++ [w] }) },
                .error .EINPROGRESS) := by
      unfold storage_lock
      rw [if_neg (by rintro (h1 | h1); exact hp h1; omega), hfind]
      simp only [hf, Option.bind_eq_bind, Option.some_bind]
      rw [if_pos ⟨by rw [hl]; exact hh, by rw [hl]; exact fun e => hwh e.symm⟩]
      simp [enqueue_user, not_le.mpr hw0, pure]
    obtain ⟨m1, h1, h2, h3⟩ := ih { m with mem := (store m.mem file
        { f with pending_locks := f.pending_locks ++ [w] }) }
      { f with pending_locks := f.pending_locks ++ [w] } hfind
      (by rw [deref_store _ _ (deref_lt hf), if_pos rfl]) hl hh
      (fun x hx => hws x (List.mem_cons_of_mem _ hx))
    refine ⟨m1, ?_, h2, ?_⟩
    · simp only [lock_all, hstep, h1, Option.map_some', List.map_cons]
    · rw [h3]
      simp

theorem unlock_all_hands_over (p : List Char) (file : Ptr) :
    ∀ (q : List Int) (m : Machine) (f : file_t) (h : Int),
      storage_find m.storage p = .ok file → deref m.mem file = some f →
      f.locked_by = h → 0 < h → f.pending_locks = q → (∀ w ∈ q, 0 < w) →
      ∃ m2, unlock_all m p (h :: q) = some (m2, (q ++ [0]).map .ok) ∧
        m2.storage = m.storage ∧
        deref m2.mem file = some { f with pending_locks := [], locked_by := 0, owner := 0 } := by
  intro q
  induction q with
  | nil =>
    intro m f h hfind hf hl hh hq _
    have hp : p ≠ [] := by
      intro e
      simp [storage_find, e] at hfind
    have hstep : storage_unlock m p h
        = some ({ m with mem := (store m.mem file
                    { f with pending_locks := [], locked_by := 0, owner := 0 }) }, .ok 0) := by
      unfold storage_unlock
      rw [if_neg (by rintro (h1 | h1); exact hp h1; omega), hfind]
      simp only [hf, Option.bind_eq_bind, Option.some_bind]
      rw [if_pos hl, hq]
      rfl
    refine ⟨{ m with mem := (store m.mem file
        { f with pending_locks := [], locked_by := 0, owner := 0 }) }, ?_, rfl, ?_⟩
    · simp only [unlock_all, hstep, Option.map_some', List.nil_append, List.map_cons,
        List.map_nil]
    · rw [deref_store _ _ (deref_lt hf), if_pos rfl]
  | cons w q ih =>
    intro m f h hfind hf hl hh hq hpos
    have hp : p ≠ [] := by
      intro e
      simp [storage_find, e] at hfind
    have hstep : storage_unlock m p h
        = some ({ m with mem := (store m.mem file
                    { f with pending_locks := q, locked_by := w, owner := 0 }) }, .ok w) := by
      unfold storage_unlock
      rw [if_neg (by rintro (h1 | h1); exact hp h1; omega), hfind]
      simp only [hf, Option.bind_eq_bind, Option.some_bind]
      rw [if_pos hl, hq]
      rfl
    obtain ⟨m2, h1, h2, h3⟩ := ih { m with mem := (store m.mem file
        { f with pending_locks := q, locked_by := w, owner := 0 }) }
      { f with pending_locks := q, locked_by := w, owner := 0 } w hfind
      (by rw [deref_store _ _ (deref_lt hf), if_pos rfl]) rfl
      (hpos w (List.mem_cons_self _ _)) rfl
      (fun x hx => hpos x (List.mem_cons_of_mem _ hx))
    refine ⟨m2, ?_, h2, h3⟩
    rw [unlock_all, hstep]
    simp only [h1, Option.map_some', List.cons_append, List.map_cons]

theorem next_of_some {m : Machine} {p : Ptr} {f : file_t} (hf : deref m.mem p = some f) :
    next_of (links_at m) (some p) = f.next := by
  simp [next_of, links_at, hf, file_t.links]

/-- In a well-formed state the walk of `get_victim` ends. -/
theorem get_victim_loop_total {m : Machine} (h : WF m) (spare : Option Ptr) :
    ∀ (fuel k : Nat) (start : Option Ptr),
      nth_from (links_at m) m.storage.head k = start → m.mem.length < fuel + k →
      ∃ r, get_victim_loop m.mem spare fuel start = some r := by
  intro fuel
  induction fuel with
  | zero =>
    intro k start hk hlt
    cases start with
    | none => exact ⟨none, by simp [get_victim_loop]⟩
    | some p =>
      have := nth_from_none_of_le (nth_from_head_len h) (Nat.le_of_lt (by omega : m.mem.length < k))
      rw [hk] at this
      cases this
  | succ fuel ih =>
    intro k start hk hlt
    cases start with
    | none => exact ⟨none, by simp [get_victim_loop]⟩
    | some p =>
      obtain ⟨key, hkey⟩ := nth_from_head_stored h k p hk
      obtain ⟨f, hf, _⟩ := wf_live h hkey
      simp only [get_victim_loop, hf]
      split
      · exact ⟨_, rfl⟩
      · refine ih (k + 1) f.next ?_ (by omega)
        rw [nth_from_succ, hk, next_of_some hf]

theorem get_victim_total {m : Machine} (h : WF m) (spare : Option Ptr) :
    ∃ r, get_victim m spare = some r :=
  get_victim_loop_total h spare _ 0 _ rfl (by omega)

/-- The file before a victim is a live one. -/
theorem get_victim_loop_previous {m : Machine} (h : WF m) (spare : Option Ptr) :
    ∀ (fuel : Nat) (start : Option Ptr) (v : Ptr),
      (∀ p, start = some p → (∃ k, (k, p) ∈ m.storage.dictionary) ∧
        ∀ f y, deref m.mem p = some f → f.previous = some y → ∃ g, deref m.mem y = some g) →
      get_victim_loop m.mem spare fuel start = some (some v) →
      ∀ f y, deref m.mem v = some f → f.previous = some y → ∃ g, deref m.mem y = some g := by
  intro fuel
  induction fuel with
  | zero =>
    intro start v _ hg
    cases start <;> simp [get_victim_loop] at hg
  | succ fuel ih =>
    intro start v hs hg
    cases start with
    | none => simp [get_victim_loop] at hg
    | some p =>
      simp only [get_victim_loop] at hg
      obtain ⟨⟨k, hk⟩, hprev⟩ := hs p rfl
      cases hf : deref m.mem p with
      | none => simp [hf] at hg
      | some f =>
        simp only [hf] at hg
        split at hg
        · simp only [Option.some.injEq] at hg
          subst hg
          exact hprev
        · refine ih f.next v ?_ hg
          intro n hn
          refine ⟨h.next_in k p f.links n hk (links_at_some hf) hn, ?_⟩
          intro fn y hfn hy
          have := h.next_prev k p f.links n fn.links hk (links_at_some hf) hn
            (links_at_some hfn)
          have hyp : y = p := by
            have h2 : fn.previous = some p := this
            rw [hy] at h2
            exact Option.some.inj h2
          rw [hyp]
          exact ⟨f, hf⟩

theorem get_victim_previous {m : Machine} (h : WF m) {spare : Option Ptr} {v : Ptr}
    (hg : get_victim m spare = some (some v)) :
    ∀ f y, deref m.mem v = some f → f.previous = some y → ∃ g, deref m.mem y = some g := by
  refine get_victim_loop_previous h spare _ _ v ?_ hg
  intro p hp
  refine ⟨h.head_in p hp, ?_⟩
  intro f y hf hy
  have := h.head_prev p f.links hp (links_at_some hf)
  have h2 : f.previous = none := this
  rw [hy] at h2
  cases h2

/-- The function `file_destroy` returns when the file and its neighbours are live and its
pathname is in the dictionary. -/
theorem file_destroy_total {m : Machine} {file : Ptr} {f : file_t}
    (pl : Option (List Int)) (dealloc : Bool)
    (hf : deref m.mem file = some f)
    (hprev : ∀ y, f.previous = some y → ∃ g, deref m.mem y = some g)
    (hnext : ∀ y, f.next = some y → ∃ g, deref m.mem y = some g)
    (hk : ∃ p, (f.pathname, p) ∈ m.storage.dictionary) :
    ∃ r, file_destroy m file pl dealloc = some r := by
  have hu1 : ∃ r1, unlink_previous m.mem m.storage.head f = some r1 := by
    unfold unlink_previous
    cases hp : f.previous with
    | none => exact ⟨_, rfl⟩
    | some y =>
      obtain ⟨g, hg⟩ := hprev y hp
      simp only [assign_next, hg, Option.map_some']
      exact ⟨_, rfl⟩
  obtain ⟨⟨mem1, head1⟩, hu1⟩ := hu1
  obtain ⟨hl1, _, hd1⟩ := unlink_previous_spec hu1
  have hf1 : deref mem1 file = some f := by
    rw [hd1 file, hf]
    simp only [Option.map_some', Option.some.injEq]
    split_ifs
    · cases f
      rfl
    · rfl
  have hu2 : ∃ r2, unlink_next mem1 m.storage.tail f = some r2 := by
    unfold unlink_next
    cases hn : f.next with
    | none => exact ⟨_, rfl⟩
    | some y =>
      obtain ⟨g, hg⟩ := hnext y hn
      have hg1 : ∃ g1, deref mem1 y = some g1 := by
        rw [hd1 y, hg]
        exact ⟨_, rfl⟩
      obtain ⟨g1, hg1⟩ := hg1
      simp only [assign_previous, hg1, Option.map_some']
      exact ⟨_, rfl⟩
  obtain ⟨⟨mem2, tail2⟩, hu2⟩ := hu2
  obtain ⟨_, _, hd2⟩ := unlink_next_spec hu2
  have hf2 : deref mem2 file = some f := by
    rw [hd2 file, hf1]
    simp only [Option.map_some', Option.some.injEq]
    split_ifs
    · cases f
      rfl
    · rfl
  obtain ⟨p, hp⟩ := hk
  obtain ⟨d', hd'⟩ := icl_hash_delete_some hp
  unfold file_destroy
  simp only [hf, Option.bind_eq_bind, Option.some_bind, hu1, hf1, hu2, hf2, hd']
  exact ⟨_, rfl⟩

/-- The eviction step of `storage_append` returns in a well-formed state. -/
theorem evict_step_total {m : Machine} (h : WF m) {spare : Option Ptr} {v : Ptr}
    (pl : Option (List Int))
    (hv : get_victim m spare = some (some v)) :
    ∃ mem1 m2 out, assign_next m.mem v none = some mem1 ∧
      file_destroy { m with mem := mem1 } v pl false = some (m2, out) := by
  obtain ⟨⟨kv, hkv⟩, fv, hfv, _, _⟩ := get_victim_stored h hv
  have hprev := get_victim_previous h hv fv
  have ha : assign_next m.mem v none = some (store m.mem v { fv with next := none }) := by
    simp [assign_next, hfv]
  obtain ⟨_, hd1⟩ := assign_next_spec ha
  obtain ⟨_, _, hpath⟩ := wf_live h hkv
  have hpath' : fv.pathname = kv := by
    obtain ⟨f', hf', hk'⟩ := wf_live h hkv
    rw [hfv] at hf'
    cases hf'
    exact hk'
  obtain ⟨⟨m2, out⟩, hd⟩ := file_destroy_total
    (m := { m with mem := store m.mem v { fv with next := none } })
    (f := { fv with next := none }) pl false
    (by simp only; rw [hd1 v, hfv]; simp)
    (by
      intro y hy
      obtain ⟨g, hg⟩ := hprev y hfv hy
      simp only
      rw [hd1 y, hg]
      exact ⟨_, rfl⟩)
    (by intro y hy; cases hy)
    ⟨v, by simp only; rw [hpath']; exact hkv⟩
  exact ⟨_, m2, out, ha, hd⟩

theorem append_evict_loop_total {m : Machine} (h : WF m) {file : Ptr} {kf : List Char}
    (hmem : (kf, file) ∈ m.storage.dictionary) (nfs : Nat) (pl : List Int) (fuel : Nat) :
    ∃ r, append_evict_loop file nfs (fuel + 2) m pl none = some r := by
  obtain ⟨f, hf, _⟩ := wf_live h hmem
  simp only [append_evict_loop, hf]
  split
  · obtain ⟨ov, hv⟩ := get_victim_total h (some file)
    rw [hv]
    cases ov with
    | none => exact ⟨_, rfl⟩
    | some v =>
      obtain ⟨mem1, m2, out, ha, hd⟩ := evict_step_total h (some []) hv
      simp only [ha, hd]
      obtain ⟨fv, hfv, _, hne, _, _, hnov, hcells, _, _, _, _, _⟩ :=
        evict_step_spec h hv ha hd
      have hfv' : file ≠ v := fun e => hne (by rw [e])
      have hf2 : deref m2.mem file
          = some { f with next := if fv.previous = some file then none else f.next } := by
        rw [hcells file hfv', hf]
        rfl
      simp only [append_evict_loop, hf2, hnov]
      split <;> exact ⟨_, rfl⟩
  · exact ⟨_, rfl⟩

/-- In a well-formed state `storage_append` returns. -/
theorem storage_append_total {m : Machine} (h : WF m) (pathname new_content : List Char)
    (pl : List Int) (user : Int) :
    ∃ r, storage_append m pathname new_content pl none user = some r := by
  cases hr : storage_append m pathname new_content pl none user with
  | some r => exact ⟨r, rfl⟩
  | none =>
    exfalso
    unfold storage_append at hr
    split at hr
    · cases hr
    · rename_i hgood
      split at hr
      · cases hr
      · rename_i file hfind
        have hmem := (storage_find_ok hfind).1
        obtain ⟨f, hf, _⟩ := wf_live h hmem
        simp only [hf, Option.bind_eq_bind, Option.some_bind] at hr
        split at hr
        · cases hr
        · split at hr
          · cases hr
          · split at hr
            · cases hr
            · obtain ⟨n, hn⟩ : ∃ n, m.storage.dictionary.length + 1 = n + 2 :=
                ⟨m.storage.dictionary.length - 1, by
                  have := List.length_pos_of_mem hmem
                  omega⟩
              rw [hn] at hr
              obtain ⟨⟨m0, r0, pl0, rl0⟩, hl⟩ :=
                append_evict_loop_total h hmem (f.size + new_content.length) pl n
              simp only [hl, Option.some_bind] at hr
              cases r0 with
              | error e => cases hr
              | ok x =>
                simp only at hr
                obtain ⟨f', hf', hcase⟩ := append_evict_loop_spec h hl
                rcases hcase with ⟨rfl, _⟩ | ⟨v, mem1, out, _, hv, ha, hd, _⟩
                · simp [hf] at hr
                · obtain ⟨fv, hfv, _, hne, _, _, _, hcells, _⟩ := evict_step_spec h hv ha hd
                  have hfv' : file ≠ v := fun e => hne (by rw [e])
                  rw [hcells file hfv', hf] at hr
                  simp at hr

/-! ### Runs -/

/-- Every state a run of requests of connected clients ends in is a state of the server. -/
theorem reachable_run {a b : Nat} (reqs : List (Int × Request)) :
    ∀ {m m1 : Machine}, Reachable a b m → (∀ x ∈ reqs, 0 < x.1) → run m reqs = some m1 →
      Reachable a b m1 := by
  induction reqs with
  | nil =>
    intro m m1 hm _ hr
    simp only [run, Option.some.injEq] at hr
    exact hr ▸ hm
  | cons x rest ih =>
    intro m m1 hm hpos hr
    obtain ⟨client, req⟩ := x
    simp only [run] at hr
    cases hw : worker m client req with
    | none => simp [hw] at hr
    | some r =>
      obtain ⟨m2, out⟩ := r
      simp only [hw] at hr
      exact ih (Reachable.step hm (hpos (client, req) (List.mem_cons_self _ _)) hw)
        (fun y hy => hpos y (List.mem_cons_of_mem _ hy)) hr

theorem reachable_state_after (a b : Nat) (reqs : List (Int × Request))
    (hpos : ∀ x ∈ reqs, 0 < x.1) : Reachable a b (state_after a b reqs) := by
  unfold state_after
  cases hr : run (storage_create a b) reqs with
  | none => exact Reachable.init
  | some m => exact reachable_run reqs Reachable.init hpos hr

theorem stored_files_eq {m : Machine} (h : WF m) :
    (stored_files m).length = m.storage.dictionary.length ∧
    ((stored_files m).map file_t.size).sum
      = (m.storage.dictionary.map (fun e => size_at (links_at m) e.2)).sum := by
  unfold stored_files
  have hl : ∀ e ∈ m.storage.dictionary, ∃ f, deref m.mem e.2 = some f :=
    fun e he => (wf_live h (k := e.1) (p := e.2) he).imp (fun f hf => hf.1)
  generalize m.storage.dictionary = d at hl
  induction d with
  | nil => simp
  | cons e rest ih =>
    obtain ⟨f, hf⟩ := hl e (List.mem_cons_self _ _)
    obtain ⟨h1, h2⟩ := ih (fun x hx => hl x (List.mem_cons_of_mem _ hx))
    have hc : List.filterMap (fun e => deref m.mem e.2) (e :: rest)
        = f :: List.filterMap (fun e => deref m.mem e.2) rest :=
      List.filterMap_cons_some hf
    rw [hc]
    simp only [List.length_cons, List.map_cons, List.sum_cons, h1, h2, size_at, links_at, hf,
      Option.map_some', Option.getD_some, file_t.links, true_and]

/-! ### The first write -/

theorem own_store {m : Machine} (h : WF m) {k : List Char} {file : Ptr} {f : file_t}
    (hmem : (k, file) ∈ m.storage.dictionary) (hf : deref m.mem file = some f)
    {p : List Char} {g : Int} (hown : Own p m g) (f1 : file_t) (g1 : Int)
    (h1 : k = p → f1.owner = g1) (h2 : k ≠ p → g1 = g) :
    Own p { m with mem := store m.mem file f1 } g1 := by
  refine ⟨?_, hown.2⟩
  intro file2 f2 hm2 hd2
  simp only at hm2 hd2
  rw [deref_store _ _ (deref_lt hf)] at hd2
  by_cases hfile : file2 = file
  · subst hfile
    rw [if_pos rfl] at hd2
    cases hd2
    obtain ⟨fa, hfa, hka⟩ := wf_live h hmem
    obtain ⟨fb, hfb, hkb⟩ := wf_live h hm2
    rw [hfa] at hfb
    cases hfb
    exact h1 (hka.symm.trans hkb)
  · rw [if_neg hfile] at hd2
    have hkp : k ≠ p := by
      rintro rfl
      exact hfile (keys_unique h.keys_nodup hm2 hmem)
    rw [h2 hkp]
    exact hown.1 file2 f2 hm2 hd2

theorem own_of_cells {m m1 : Machine} {p : List Char} {g : Int} (hown : Own p m g)
    (hsub : ∀ file, (p, file) ∈ m1.storage.dictionary → (p, file) ∈ m.storage.dictionary)
    (hcell : ∀ file, (p, file) ∈ m1.storage.dictionary →
      (deref m1.mem file).map file_t.owner = (deref m.mem file).map file_t.owner) :
    Own p m1 g := by
  refine ⟨?_, fun hp file hm => hown.2 hp file (hsub file hm)⟩
  intro file f1 hm hd
  have hc := hcell file hm
  rw [hd] at hc
  cases hf : deref m.mem file with
  | none => simp [hf] at hc
  | some f =>
    simp only [hf, Option.map_some', Option.some.injEq] at hc
    rw [hc]
    exact hown.1 file f (hsub file hm) hf

theorem file_destroy_dict {m m1 : Machine} {file : Ptr} {k : List Char}
    {pl out : Option (List Int)} {dealloc : Bool} (h : WF m)
    (hk : (k, file) ∈ m.storage.dictionary)
    (hd : file_destroy m file pl dealloc = some (m1, out)) :
    ∀ k1 q, (k1, q) ∈ m1.storage.dictionary ↔ ((k1, q) ∈ m.storage.dictionary ∧ q ≠ file) := by
  obtain ⟨f, hf, _, _, _, hdel, _, _⟩ := file_destroy_spec hd
  obtain ⟨f', hf', hk'⟩ := wf_live h hk
  rw [hf] at hf'
  cases hf'
  obtain ⟨q, hperm⟩ := icl_hash_delete_perm hdel
  have hq : q = file := by
    refine keys_unique h.keys_nodup (hperm.mem_iff.mpr (List.mem_cons_self _ _)) ?_
    rw [hk']
    exact hk
  subst hq
  exact perm_mem_ne (f := f.links) h (links_at_some hf) hperm

theorem own_destroy {m m1 : Machine} {file : Ptr} {k : List Char}
    {pl out : Option (List Int)} {dealloc : Bool} (h : WF m)
    (hk : (k, file) ∈ m.storage.dictionary)
    (hd : file_destroy m file pl dealloc = some (m1, out))
    {p : List Char} {g : Int} (hown : Own p m g) : Own p m1 g := by
  have hdict := file_destroy_dict h hk hd
  obtain ⟨f, hf, hq, _⟩ := file_destroy_spec hd
  refine own_of_cells hown (fun file1 hm => ((hdict _ _).mp hm).1) ?_
  intro file1 hm
  rw [hq file1 ((hdict _ _).mp hm).2]
  cases deref m.mem file1 <;> rfl

theorem own_create {m m1 : Machine} {pn : List Char} {lock_flag : Bool} {user : Int}
    (h : WF m) (hc : open_create m pn lock_flag user = some m1) (hpn : pn ≠ [])
    {p : List Char} {g : Int} (hown : Own p m g) :
    Own p m1 (if pn = p then (if lock_flag then user else 0) else g) := by
  obtain ⟨_, hfind, hnew, hcells, _, hst⟩ := open_create_spec hc
  have hdict : m1.storage.dictionary = (pn, m.mem.length) :: m.storage.dictionary := by
    rw [hst]
  have hnone := icl_hash_find_none.mp hfind
  constructor
  · intro file f hm hd
    rw [hdict, List.mem_cons] at hm
    rcases hm with heq | hm
    · simp only [Prod.mk.injEq] at heq
      obtain ⟨rfl, rfl⟩ := heq
      rw [hnew] at hd
      cases hd
      simp
    · have hne : pn ≠ p := by
        rintro rfl
        exact hnone _ hm
      rw [if_neg hne]
      obtain ⟨f0, hf0, _⟩ := wf_live h hm
      have hlt : file ≠ m.mem.length := Nat.ne_of_lt (deref_lt hf0)
      rw [hcells file hlt, hf0] at hd
      simp only [Option.map_some', Option.some.injEq] at hd
      subst hd
      exact hown.1 file f0 hm hf0
  · intro hp file hm
    rw [hdict, List.mem_cons] at hm
    rcases hm with heq | hm
    · simp only [Prod.mk.injEq] at heq
      exact hpn (heq.1.symm.trans hp)
    · exact hown.2 hp file hm

theorem open_make_room_own {m m1 : Machine} {pl out : Option (List Int)} (h : WF m)
    (hr : open_make_room m pl = some (some m1, out))
    {p : List Char} {g : Int} (hown : Own p m g) : Own p m1 g := by
  unfold open_make_room at hr
  split at hr
  · split at hr
    · cases hr
    · cases hr
    · rename_i victim hv
      cases hd : file_destroy m victim pl true with
      | none => simp [hd] at hr
      | some res =>
        obtain ⟨m2, o2⟩ := res
        simp only [hd, Option.map_some', Option.some.injEq, Prod.mk.injEq] at hr
        obtain ⟨h1, _⟩ := hr
        cases h1
        obtain ⟨⟨k, hk⟩, _⟩ := get_victim_stored h hv
        exact own_destroy h hk hd hown
  · cases hr
    exact hown

theorem storage_open_own {m m1 : Machine} {pn : List Char} {flags : Nat} {user : Int}
    {pl out : Option (List Int)} {r : Except Errno Unit} (h : WF m)
    (hr : storage_open m pn flags pl user = some (m1, r, out))
    {p : List Char} {g : Int} (hown : Own p m g) :
    Own p m1 (if r.toBool = true ∧ pn = p ∧ IS_SET O_CREATE flags = true then
        (if IS_SET O_LOCK flags then user else 0) else g) := by
  unfold storage_open at hr
  split at hr
  · cases hr; simpa [Except.toBool] using hown
  · rename_i hpre
    simp only at hr
    split at hr
    · split at hr
      · cases hr; simpa [Except.toBool] using hown
      · rename_i hcf
        split at hr
        · cases hr
        · cases hr; simpa [Except.toBool] using hown
        · rename_i m2 o2 hroom
          cases hc : open_create m2 pn (IS_SET O_LOCK flags) user with
          | none => simp [hc] at hr
          | some m4 =>
            simp only [hc, Option.map_some', Option.some.injEq, Prod.mk.injEq] at hr
            obtain ⟨rfl, rfl, _⟩ := hr
            have h2 := (open_make_room_inv (a := m.storage.max_file_number)
              (b := m.storage.max_size) ⟨h, rfl, rfl⟩ hroom).1.1
            have hpn : pn ≠ [] := fun e => hpre (Or.inl e)
            have := own_create h2 hc hpn (open_make_room_own h hroom hown)
            have hcf' : IS_SET O_CREATE flags = true := by simpa using hcf
            simpa [Except.toBool, hcf'] using this
    · rename_i file hfind
      split at hr
      · cases hr; simpa [Except.toBool] using hown
      · rename_i hcf
        have hcf' : IS_SET O_CREATE flags = false := by simpa using hcf
        split at hr
        · cases hr
        · rename_i f hf
          split at hr
          · cases hr; simpa [Except.toBool] using hown
          · split at hr
            · cases hr
            · cases hr
              simp only [hcf', Bool.false_eq_true, and_false, if_false]
              refine own_store h (storage_find_ok hfind).1 hf hown _ g ?_ (fun _ => rfl)
              intro hk
              have := hown.1 file f (hk ▸ (storage_find_ok hfind).1) hf
              split <;> simpa using this

theorem storage_read_own {m m1 : Machine} {pn : List Char} {user : Int}
    {r : Except Errno (List Char × Nat)} (h : WF m)
    (hr : storage_read m pn user = some (m1, r))
    {p : List Char} {g : Int} (hown : Own p m g) :
    Own p m1 (if r.toBool = true ∧ pn = p then 0 else g) := by
  unfold storage_read at hr
  split at hr
  · cases hr; simpa [Except.toBool] using hown
  · split at hr
    · cases hr; simpa [Except.toBool] using hown
    · rename_i file hfind
      cases hf : deref m.mem file with
      | none => simp [hf] at hr
      | some f =>
        simp only [hf, Option.bind_eq_bind, Option.some_bind] at hr
        split at hr
        · cases hr; simpa [Except.toBool] using hown
        · split at hr
          · cases hr; simpa [Except.toBool] using hown
          · cases hr
            refine own_store h (storage_find_ok hfind).1 hf hown _ _ ?_ ?_
            · intro hk
              simp [Except.toBool, hk]
            · intro hk
              simp [Except.toBool, hk]

theorem storage_lock_own {m m1 : Machine} {pn : List Char} {user : Int}
    {r : Except Errno Unit} (h : WF m)
    (hr : storage_lock m pn user = some (m1, r))
    {p : List Char} {g : Int} (hown : Own p m g) :
    Own p m1 (if r.toBool = true ∧ pn = p then 0 else g) := by
  unfold storage_lock at hr
  split at hr
  · cases hr; simpa [Except.toBool] using hown
  · split at hr
    · cases hr; simpa [Except.toBool] using hown
    · rename_i file hfind
      cases hf : deref m.mem file with
      | none => simp [hf] at hr
      | some f =>
        simp only [hf, Option.bind_eq_bind, Option.some_bind] at hr
        split at hr
        · cases he : enqueue_user f.pending_locks user with
          | none => simp [he] at hr
          | some pl =>
            simp only [he, Option.some_bind] at hr
            cases hr
            refine own_store h (storage_find_ok hfind).1 hf hown _ _ ?_ ?_
            · intro hk
              simpa [Except.toBool] using hown.1 file f (hk ▸ (storage_find_ok hfind).1) hf
            · intro hk
              simp [Except.toBool]
        · cases hr
          refine own_store h (storage_find_ok hfind).1 hf hown _ _ ?_ ?_
          · intro hk
            simp [Except.toBool, hk]
          · intro hk
            simp [Except.toBool, hk]

theorem storage_unlock_own {m m1 : Machine} {pn : List Char} {user : Int}
    {r : Except Errno Int} (h : WF m)
    (hr : storage_unlock m pn user = some (m1, r))
    {p : List Char} {g : Int} (hown : Own p m g) :
    Own p m1 (if r.toBool = true ∧ pn = p then 0 else g) := by
  unfold storage_unlock at hr
  split at hr
  · cases hr; simpa [Except.toBool] using hown
  · split at hr
    · cases hr; simpa [Except.toBool] using hown
    · rename_i file hfind
      cases hf : deref m.mem file with
      | none => simp [hf] at hr
      | some f =>
        simp only [hf, Option.bind_eq_bind, Option.some_bind] at hr
        split at hr
        · cases hr
          refine own_store h (storage_find_ok hfind).1 hf hown _ _ ?_ ?_
          · intro hk
            simp [Except.toBool, hk]
          · intro hk
            simp [Except.toBool, hk]
        · cases hr; simpa [Except.toBool] using hown

theorem storage_close_own {m m1 : Machine} {pn : List Char} {user : Int}
    {r : Except Errno Unit} (h : WF m)
    (hr : storage_close m pn user = some (m1, r))
    {p : List Char} {g : Int} (hown : Own p m g) :
    Own p m1 (if r.toBool = true ∧ pn = p then 0 else g) := by
  unfold storage_close at hr
  split at hr
  · cases hr; simpa [Except.toBool] using hown
  · split at hr
    · cases hr; simpa [Except.toBool] using hown
    · rename_i file hfind
      cases hf : deref m.mem file with
      | none => simp [hf] at hr
      | some f =>
        simp only [hf, Option.bind_eq_bind, Option.some_bind] at hr
        split at hr
        · cases hr
          refine own_store h (storage_find_ok hfind).1 hf hown _ _ ?_ ?_
          · intro hk
            simpa [Except.toBool] using hown.1 file f (hk ▸ (storage_find_ok hfind).1) hf
          · intro hk
            simp [Except.toBool]
        · cases hr
          refine own_store h (storage_find_ok hfind).1 hf hown _ _ ?_ ?_
          · intro hk
            simp [Except.toBool, hk]
          · intro hk
            simp [Except.toBool, hk]

theorem storage_remove_own {m m1 : Machine} {pn : List Char} {user : Int}
    {pl : Option (List Int)} {r : Except Errno Unit × Option (List Int)} (h : WF m)
    (hr : storage_remove m pn pl user = some (m1, r))
    {p : List Char} {g : Int} (hown : Own p m g) : Own p m1 g := by
  unfold storage_remove at hr
  split at hr
  · cases hr; exact hown
  · split at hr
    · cases hr; exact hown
    · rename_i file hfind
      cases hf : deref m.mem file with
      | none => simp [hf] at hr
      | some f =>
        simp only [hf, Option.bind_eq_bind, Option.some_bind] at hr
        split at hr
        · cases hr; exact hown
        · cases hd : file_destroy m file pl true with
          | none => simp [hd] at hr
          | some res =>
            obtain ⟨m2, out⟩ := res
            simp only [hd, Option.some_bind, pure, Option.some.injEq, Prod.mk.injEq] at hr
            obtain ⟨rfl, _⟩ := hr
            exact own_destroy h (storage_find_ok hfind).1 hd hown

theorem storage_read_many_same {m m1 : Machine} {up_to user : Int}
    {r : Except Errno (Int × List Char × Nat)}
    (hr : storage_read_many m up_to user = some (m1, r)) : m1 = m := by
  unfold storage_read_many at hr
  split at hr
  · cases hr; rfl
  · cases hl : read_many_loop m.mem up_to (m.mem.length + 1) m.storage.head 0 with
    | none => simp [hl] at hr
    | some files =>
      simp only [hl, Option.bind_eq_bind, Option.some_bind] at hr
      split at hr
      · cases hr; rfl
      · split at hr
        · cases hr; rfl
        · cases hr; rfl

theorem user_exit_loop_owner (user : Int) :
    ∀ (fuel : Nat) (mem : List (Option file_t)) (start : Option Ptr) (pl : List Int)
      (mem1 : List (Option file_t)) (pl1 : List Int),
      user_exit_loop user fuel mem start pl = some (mem1, pl1) →
        ∀ q, (deref mem1 q).map file_t.owner = (deref mem q).map file_t.owner := by
  intro fuel
  induction fuel with
  | zero =>
    intro mem start pl mem1 pl1 h
    cases start with
    | none =>
      simp only [user_exit_loop, Option.some.injEq, Prod.mk.injEq] at h
      obtain ⟨rfl, _⟩ := h
      exact fun _ => rfl
    | some p => simp [user_exit_loop] at h
  | succ fuel ih =>
    intro mem start pl mem1 pl1 h
    cases start with
    | none =>
      simp only [user_exit_loop, Option.some.injEq, Prod.mk.injEq] at h
      obtain ⟨rfl, _⟩ := h
      exact fun _ => rfl
    | some p =>
      simp only [user_exit_loop] at h
      cases hf : deref mem p with
      | none => simp [hf] at h
      | some f =>
        simp only [hf] at h
        have h2 := ih _ _ _ _ _ h
        intro q
        rw [h2 q, deref_store _ _ (deref_lt hf)]
        by_cases hq : q = p
        · subst hq
          rw [if_pos rfl, hf]
          simp only [Option.map_some', Option.some.injEq]
          by_cases hl : f.locked_by = user <;> simp [hl]
        · rw [if_neg hq]

theorem storage_user_exit_own {m m1 : Machine} {pl : List Int} {user : Int}
    {r : Except Errno Unit × List Int}
    (hr : storage_user_exit m pl user = some (m1, r))
    {p : List Char} {g : Int} (hown : Own p m g) : Own p m1 g := by
  unfold storage_user_exit at hr
  split at hr
  · cases hr; exact hown
  · cases hl : user_exit_loop user (m.mem.length + 1) m.mem m.storage.head pl with
    | none => simp [hl] at hr
    | some res =>
      obtain ⟨mem1, pl1⟩ := res
      simp only [hl, Option.map_some', Option.some.injEq, Prod.mk.injEq] at hr
      obtain ⟨rfl, _⟩ := hr
      exact own_of_cells hown (fun _ hm => hm)
        (fun q _ => user_exit_loop_owner user _ _ _ _ _ _ hl q)

theorem storage_append_own {m m1 : Machine} {pn new_content : List Char}
    {pl pl1 : List Int} {user : Int} {r : Except Errno Unit} {rl1 : Option Ptr}
    (h : WF m)
    (hr : storage_append m pn new_content pl none user = some (m1, r, pl1, rl1))
    {p : List Char} {g : Int} (hown : Own p m g) :
    Own p m1 (if r.toBool = true ∧ pn = p then 0 else g) := by
  rcases storage_append_spec h hr with ⟨rfl, _, _, hc⟩ |
    ⟨file, f, m0, hmem, hf, _, _, _, hloop, hfin⟩
  · rcases hc with ⟨he, _⟩ | ⟨he, _⟩ | ⟨_, _, _, _, _, ⟨he, _⟩ | ⟨he, _⟩⟩ <;>
      (subst he; simpa [Except.toBool] using hown)
  · have hm0 : WF m0 ∧ (pn, file) ∈ m0.storage.dictionary ∧ Own p m0 g := by
      rcases hloop with ⟨rfl, _⟩ | ⟨v, mem1, out, _, hv, ha, hd, _⟩
      · exact ⟨h, hmem, hown⟩
      · obtain ⟨fv, _, _, hne, _, hwf, _, hcells, _, _, hdict, _⟩ :=
          evict_step_spec h hv ha hd
        have hfv : file ≠ v := fun e => hne (by rw [e])
        refine ⟨hwf, (hdict pn file).mpr ⟨hmem, hfv⟩, ?_⟩
        refine own_of_cells hown (fun q hm => ((hdict _ _).mp hm).1) ?_
        intro q hm
        rw [hcells q ((hdict _ _).mp hm).2]
        cases deref m.mem q <;> rfl
    obtain ⟨hwf0, hmem0, hown0⟩ := hm0
    rcases hfin with ⟨e, he, rfl⟩ | ⟨hok, f0, hf0, _, rfl⟩
    · subst he
      simpa [Except.toBool] using hown0
    · subst hok
      have := own_store hwf0 hmem0 hf0 hown0
        { f0 with content := some (f0.content.getD [] ++ new_content),
                  size := f0.size + new_content.length, modified := true, owner := 0 }
        (if pn = p then 0 else g) (fun hk => by simp [hk]) (fun hk => by simp [hk])
      simpa [Except.toBool, written, Own] using this

theorem worker_append_own {m m2 : Machine} {client : Int} {pn new_content : List Char}
    {ev : List Event} (h : WF m)
    (hw : worker_append m client pn new_content = some (m2, ev))
    {p : List Char} {g : Int} (hown : Own p m g) :
    Own p m2 (if answered_ok client ev = true ∧ pn = p then 0 else g) := by
  obtain ⟨m1, r, pl, rl, hr, hst, hcase⟩ := worker_append_spec h hw
  have h1 := storage_append_own h hr hown
  rcases hcase with ⟨e, rfl, rfl, rfl⟩ | ⟨rfl, hhead, hrl⟩
  · have hne := send_response_ok_ne client e
    simpa [Except.toBool, answered_ok, hne] using h1
  · have hans : answered_ok client ev = true := by simp [answered_ok, hhead]
    rw [hans]
    simp only [Except.toBool, true_and] at h1 ⊢
    rcases hrl with ⟨_, rfl⟩ | ⟨v, _, hv, hmem2⟩
    · exact h1
    · refine own_of_cells h1 (fun q hm => by rw [← hst]; exact hm) ?_
      intro q hm
      rw [hst] at hm
      have hq : q ≠ v := by
        rintro rfl
        exact hv _ hm
      rw [hmem2, deref_dealloc, if_neg hq]

theorem answered_ok_error (client : Int) (e : Errno) (rest : List Event) :
    answered_ok client (SEND_RESPONSE client (error_code e) :: rest) = false := by
  simp [answered_ok, send_response_ok_ne client e]

theorem answered_ok_ok (client : Int) (rest : List Event) :
    answered_ok client (SEND_RESPONSE client RESPONSE_OK :: rest) = true := by
  simp [answered_ok]

theorem worker_own {m m1 : Machine} {client : Int} {req : Request} {out : List Event}
    (h : WF m) (hw : worker m client req = some (m1, out))
    {p : List Char} {g : Int} (hown : Own p m g) :
    Own p m1 (first_writer_step p client req out g) := by
  cases req with
  | open_file payload flags_buffer =>
    simp only [worker] at hw
    split at hw
    · cases hw
      have := answered_ok_error client .EINVAL [.relay (fmt_04d client)]
      simp only [error_code] at this
      simpa [first_writer_step, this] using hown
    · rename_i flags hflags
      cases ho : storage_open m (c_str payload) flags.toNat (some []) client with
      | none => simp [ho] at hw
      | some res =>
        obtain ⟨m2, r, o⟩ := res
        have hi := storage_open_own h ho hown
        simp only [ho, Option.map_some', Option.some.injEq] at hw
        cases r with
        | error e =>
          simp only [Prod.mk.injEq] at hw
          obtain ⟨rfl, rfl⟩ := hw
          simpa [first_writer_step, answered_ok_error, Except.toBool] using hi
        | ok v =>
          simp only [Prod.mk.injEq] at hw
          obtain ⟨rfl, rfl⟩ := hw
          simp only [first_writer_step, List.singleton_append, List.cons_append,
            answered_ok_ok, if_true, hflags]
          simp only [Except.toBool, true_and] at hi
          by_cases hp : c_str payload = p
          · simp only [hp, if_true, true_and] at hi ⊢
            exact hi
          · simp only [hp, if_false, false_and] at hi ⊢
            exact hi
  | read_file payload =>
    simp only [worker] at hw
    cases ho : storage_read m (c_str payload) client with
    | none => simp [ho] at hw
    | some res =>
      obtain ⟨m2, r⟩ := res
      have hi := storage_read_own h ho hown
      simp only [ho, Option.map_some', Option.some.injEq] at hw
      cases r with
      | error e =>
        simp only [Prod.mk.injEq] at hw
        obtain ⟨rfl, rfl⟩ := hw
        simpa [first_writer_step, answered_ok_error, Except.toBool] using hi
      | ok v =>
        simp only [Prod.mk.injEq] at hw
        obtain ⟨rfl, rfl⟩ := hw
        simpa [first_writer_step, answered_ok_ok, Except.toBool] using hi
  | read_n_files n_buffer =>
    simp only [worker] at hw
    split at hw
    · cases hw
      simpa [first_writer_step] using hown
    · rename_i n _
      cases ho : storage_read_many m n client with
      | none => simp [ho] at hw
      | some res =>
        obtain ⟨m2, r⟩ := res
        have hi := storage_read_many_same ho
        subst hi
        simp only [ho, Option.map_some', Option.some.injEq] at hw
        split at hw <;> (cases hw; simpa [first_writer_step] using hown)
  | write_file payload content =>
    simp only [worker] at hw
    split at hw
    · cases hw
    · cases hw
      have := answered_ok_error client .EACCES [.relay (fmt_04d client)]
      simp only [error_code] at this
      simpa [first_writer_step, this] using hown
    · cases ho : worker_append m client (c_str payload) content with
      | none => simp [ho] at hw
      | some res =>
        obtain ⟨m2, r⟩ := res
        have hi := worker_append_own h ho hown
        simp only [ho, Option.map_some', Option.some.injEq, Prod.mk.injEq] at hw
        obtain ⟨rfl, rfl⟩ := hw
        obtain ⟨_, _, _, _, _, _, hcase⟩ := worker_append_spec h ho
        have hne : r ≠ [] := by
          rcases hcase with ⟨e, _, _, rfl⟩ | ⟨_, hhead, _⟩
          · simp
          · intro e
            simp [e] at hhead
        have hans : answered_ok client (r ++ [.relay (fmt_04d client)])
            = answered_ok client r := by
          cases r with
          | nil => exact absurd rfl hne
          | cons x xs => simp [answered_ok]
        simp only [first_writer_step, hans]
        by_cases ha : answered_ok client r = true
        · simpa [ha] using hi
        · simpa [ha] using hi
  | append_to_file payload content =>
    simp only [worker] at hw
    cases ho : worker_append m client (c_str payload) content with
    | none => simp [ho] at hw
    | some res =>
      obtain ⟨m2, r⟩ := res
      have hi := worker_append_own h ho hown
      simp only [ho, Option.map_some', Option.some.injEq, Prod.mk.injEq] at hw
      obtain ⟨rfl, rfl⟩ := hw
      obtain ⟨_, _, _, _, _, _, hcase⟩ := worker_append_spec h ho
      have hne : r ≠ [] := by
        rcases hcase with ⟨e, _, _, rfl⟩ | ⟨_, hhead, _⟩
        · simp
        · intro e
          simp [e] at hhead
      have hans : answered_ok client (r ++ [.relay (fmt_04d client)])
          = answered_ok client r := by
        cases r with
        | nil => exact absurd rfl hne
        | cons x xs => simp [answered_ok]
      simp only [first_writer_step, hans]
      by_cases ha : answered_ok client r = true
      · simpa [ha] using hi
      · simpa [ha] using hi
  | lock_file payload =>
    simp only [worker] at hw
    cases ho : storage_lock m (c_str payload) client with
    | none => simp [ho] at hw
    | some res =>
      obtain ⟨m2, r⟩ := res
      have hi := storage_lock_own h ho hown
      simp only [ho, Option.map_some', Option.some.injEq] at hw
      cases r with
      | error e =>
        cases e <;>
          (simp only [Prod.mk.injEq] at hw
           obtain ⟨rfl, rfl⟩ := hw
           simpa [first_writer_step, answered_ok_error, Except.toBool] using hi)
      | ok v =>
        simp only [Prod.mk.injEq] at hw
        obtain ⟨rfl, rfl⟩ := hw
        simpa [first_writer_step, answered_ok_ok, Except.toBool] using hi
  | unlock_file payload =>
    simp only [worker] at hw
    cases ho : storage_unlock m (c_str payload) client with
    | none => simp [ho] at hw
    | some res =>
      obtain ⟨m2, r⟩ := res
      have hi := storage_unlock_own h ho hown
      simp only [ho, Option.map_some', Option.some.injEq] at hw
      cases r with
      | error e =>
        simp only [Prod.mk.injEq] at hw
        obtain ⟨rfl, rfl⟩ := hw
        simpa [first_writer_step, answered_ok_error, Except.toBool] using hi
      | ok v =>
        simp only [Prod.mk.injEq] at hw
        obtain ⟨rfl, rfl⟩ := hw
        simpa [first_writer_step, answered_ok_ok, Except.toBool] using hi
  | close_file payload =>
    simp only [worker] at hw
    cases ho : storage_close m (c_str payload) client with
    | none => simp [ho] at hw
    | some res =>
      obtain ⟨m2, r⟩ := res
      have hi := storage_close_own h ho hown
      simp only [ho, Option.map_some', Option.some.injEq] at hw
      cases r with
      | error e =>
        simp only [Prod.mk.injEq] at hw
        obtain ⟨rfl, rfl⟩ := hw
        simpa [first_writer_step, answered_ok_error, Except.toBool] using hi
      | ok v =>
        simp only [Prod.mk.injEq] at hw
        obtain ⟨rfl, rfl⟩ := hw
        simpa [first_writer_step, answered_ok_ok, Except.toBool] using hi
  | remove_file payload =>
    simp only [worker] at hw
    cases ho : storage_remove m (c_str payload) (some []) client with
    | none => simp [ho] at hw
    | some res =>
      obtain ⟨m2, r⟩ := res
      have hi := storage_remove_own h ho hown
      simp only [ho, Option.map_some', Option.some.injEq] at hw
      split at hw <;> (cases hw; simpa [first_writer_step] using hi)
  | other payload =>
    simp only [worker, Option.some.injEq, Prod.mk.injEq] at hw
    obtain ⟨rfl, rfl⟩ := hw
    simpa [first_writer_step] using hown
  | client_left =>
    simp only [worker] at hw
    split at hw
    · cases hw
    · cases hw
    · rename_i m2 pending_clients ho
      simp only [Option.some.injEq, Prod.mk.injEq] at hw
      obtain ⟨rfl, rfl⟩ := hw
      simpa [first_writer_step] using storage_user_exit_own ho hown

theorem first_writer_own (p : List Char) :
    ∀ (T : List (Int × Request)) (m : Machine) (g : Int) (m1 : Machine) (g1 : Int),
      WF m → Own p m g → first_writer p m T g = some (m1, g1) → WF m1 ∧ Own p m1 g1 := by
  intro T
  induction T with
  | nil =>
    intro m g m1 g1 h hown hr
    simp only [first_writer, Option.some.injEq, Prod.mk.injEq] at hr
    obtain ⟨rfl, rfl⟩ := hr
    exact ⟨h, hown⟩
  | cons x rest ih =>
    intro m g m1 g1 h hown hr
    obtain ⟨client, req⟩ := x
    simp only [first_writer] at hr
    cases hw : worker m client req with
    | none => simp [hw] at hr
    | some res =>
      obtain ⟨m2, out⟩ := res
      simp only [hw] at hr
      have h2 : WF m2 := (worker_inv (a := m.storage.max_file_number)
        (b := m.storage.max_size) ⟨h, rfl, rfl⟩ hw).1
      exact ih m2 _ m1 g1 h2 (worker_own h hw hown) hr

theorem storage_can_write_own {m : Machine} (h : WF m) {p : List Char} {g : Int}
    (hown : Own p m g) (u : Int) (hu : 0 < u) :
    (storage_can_write m p u = some true ∧
        (∃ file, (p, file) ∈ m.storage.dictionary) ∧ g = u) ∨
    (storage_can_write m p u = some false ∧
        ¬ ((∃ file, (p, file) ∈ m.storage.dictionary) ∧ g = u)) := by
  unfold storage_can_write
  split
  · rename_i hpre
    rcases hpre with hp | hle
    · have := hown.2 hp
      exact Or.inr ⟨rfl, fun hx => hx.1.elim this⟩
    · omega
  · rename_i hpre
    have hp : p ≠ [] := fun e => hpre (Or.inl e)
    split
    · rename_i e hfind
      have := (storage_find_error hfind hp).2
      exact Or.inr ⟨rfl, fun hx => hx.1.elim this⟩
    · rename_i file hfind
      have hmem := (storage_find_ok hfind).1
      obtain ⟨f, hf, _⟩ := wf_live h hmem
      have hg := hown.1 file f hmem hf
      by_cases hgu : g = u
      · refine Or.inl ⟨?_, ⟨file, hmem⟩, hgu⟩
        simp [hf, hg, hgu]
      · refine Or.inr ⟨?_, fun hx => hgu hx.2⟩
        simp [hf, hg, hgu]

/-! ### The sequence and the pointer `tail` -/

theorem sequence_from_chain {mem : List (Option file_t)} :
    ∀ (l : List Ptr) (start : Option Ptr) (fuel : Nat), is_chain mem start l →
      l.length ≤ fuel → sequence_from mem fuel start = l := by
  intro l
  induction l with
  | nil =>
    intro start fuel hc _
    simp only [is_chain] at hc
    subst hc
    cases fuel <;> rfl
  | cons x l ih =>
    intro start fuel hc hlen
    obtain ⟨rfl, f, hf, hc'⟩ := hc
    cases fuel with
    | zero => simp at hlen
    | succ fuel =>
      simp only [sequence_from, hf]
      rw [ih f.next fuel hc' (by simpa using hlen)]

theorem get_victim_loop_chain {mem : List (Option file_t)} (spare : Option Ptr) :
    ∀ (l : List Ptr) (start : Option Ptr) (fuel : Nat), is_chain mem start l →
      l.length < fuel →
      get_victim_loop mem spare fuel start = some (l.find? (is_victim mem spare)) := by
  intro l
  induction l with
  | nil =>
    intro start fuel hc _
    simp only [is_chain] at hc
    subst hc
    cases fuel <;> rfl
  | cons x l ih =>
    intro start fuel hc hlen
    obtain ⟨rfl, f, hf, hc'⟩ := hc
    cases fuel with
    | zero => simp at hlen
    | succ fuel =>
      simp only [get_victim_loop, hf]
      by_cases hv : some x ≠ spare ∧ f.modified = true
      · rw [if_pos hv]
        have : is_victim mem spare x = true := by
          simp [is_victim, hf, hv.1, hv.2]
        simp [List.find?_cons, this]
      · rw [if_neg hv]
        have : is_victim mem spare x = false := by
          simp only [is_victim, hf, Option.map_some', Option.getD_some]
          by_cases h1 : some x ≠ spare
          · have : f.modified = false := by
              cases hm : f.modified
              · rfl
              · exact absurd ⟨h1, hm⟩ hv
            simp [this]
          · simp [h1]
        rw [ih f.next fuel hc' (by simpa using hlen)]
        simp [List.find?_cons, this]

theorem chain_of_walk {m : Machine} :
    ∀ (n : Nat) (start : Option Ptr),
      nth_from (links_at m) start n = none →
      (∀ j x, nth_from (links_at m) start j = some x → ∃ f, deref m.mem x = some f) →
      ∃ l, is_chain m.mem start l ∧ l.length ≤ n ∧
        ∀ i, l[i]? = nth_from (links_at m) start i := by
  intro n
  induction n with
  | zero =>
    intro start h0 _
    have hs : start = none := h0
    subst hs
    refine ⟨[], rfl, Nat.le_refl _, ?_⟩
    intro i
    simp only [List.getElem?_nil]
    exact (@nth_from_none_of_le (links_at m) none 0 i rfl
      (Nat.zero_le i)).symm
  | succ n ih =>
    intro start hn hlive
    cases start with
    | none =>
      refine ⟨[], rfl, Nat.zero_le _, ?_⟩
      intro i
      simp only [List.getElem?_nil]
      exact (@nth_from_none_of_le (links_at m) none 0 i rfl
        (Nat.zero_le i)).symm
    | some p =>
      obtain ⟨f, hf⟩ := hlive 0 p rfl
      have hstep : ∀ k, nth_from (links_at m) (some p) (k + 1)
          = nth_from (links_at m) f.next k := by
        intro k
        unfold nth_from
        rw [Function.iterate_succ_apply, next_of_some hf]
      obtain ⟨l, hl, hlen, hget⟩ := ih f.next (by rw [← hstep]; exact hn)
        (fun j x hj => hlive (j + 1) x (by rw [hstep]; exact hj))
      refine ⟨p :: l, ⟨rfl, f, hf, hl⟩, by simpa using hlen, ?_⟩
      intro i
      cases i with
      | zero => simp [nth_from]
      | succ i =>
        rw [hstep]
        simpa using hget i

theorem wf_chain {m : Machine} (h : WF m) :
    ∃ ch, is_chain m.mem m.storage.head ch ∧ ch.Nodup ∧
      (∀ x ∈ ch, ∃ k, (k, x) ∈ m.storage.dictionary) ∧ sequence m = ch ∧
      ch.length ≤ m.mem.length := by
  obtain ⟨ch, hc, hlen, hget⟩ := chain_of_walk (m := m) m.mem.length m.storage.head
    (nth_from_head_len h) (fun j x hj => by
      obtain ⟨k, hk⟩ := nth_from_head_stored h j x hj
      obtain ⟨f, hf, _⟩ := wf_live h hk
      exact ⟨f, hf⟩)
  refine ⟨ch, hc, ?_, ?_, ?_, hlen⟩
  · rw [List.nodup_iff_getElem?_ne_getElem?]
    intro i j hij hj heq
    obtain ⟨x, hjv⟩ : ∃ x, ch[j]? = some x := ⟨ch[j], List.getElem?_eq_getElem hj⟩
    rw [hget i] at heq
    rw [hget j] at hjv heq
    rw [hjv] at heq
    exact nth_from_head_inj h i j x hij heq hjv
  · intro x hx
    obtain ⟨i, hi⟩ := List.getElem?_of_mem hx
    rw [hget i] at hi
    exact nth_from_head_stored h i x hi
  · exact sequence_from_chain ch _ _ hc (Nat.le_succ_of_le hlen)

theorem chain_split {mem : List (Option file_t)} {v : Ptr} :
    ∀ (l : List Ptr) (start : Option Ptr), is_chain mem start l → v ∈ l →
      start = some v ∨ ∃ l1 y g l2, l = l1 ++ y :: v :: l2 ∧ deref mem y = some g ∧
        g.next = some v := by
  intro l
  induction l with
  | nil => intro start _ hv; cases hv
  | cons x l ih =>
    intro start hc hv
    obtain ⟨rfl, f, hf, hc'⟩ := hc
    by_cases hx : x = v
    · exact Or.inl (by rw [hx])
    · have hv' : v ∈ l := by
        rcases List.mem_cons.mp hv with e | e
        · exact absurd e.symm hx
        · exact e
      rcases ih f.next hc' hv' with hn | ⟨l1, y, g, l2, hl, hy, hg⟩
      · cases l with
        | nil => cases hv'
        | cons z l' =>
          have hz : f.next = some z := hc'.1
          rw [hz] at hn
          cases hn
          exact Or.inr ⟨[], x, f, l', rfl, hf, hz⟩
      · exact Or.inr ⟨x :: l1, y, g, l2, by rw [hl]; rfl, hy, hg⟩

/-- Cells whose `next` is the same carry the same chain. -/
theorem chain_congr {mem mem1 : List (Option file_t)} :
    ∀ (l : List Ptr) (start : Option Ptr), is_chain mem start l →
      (∀ q ∈ l, ∀ g, deref mem q = some g → ∃ g1, deref mem1 q = some g1 ∧ g1.next = g.next) →
      is_chain mem1 start l := by
  intro l
  induction l with
  | nil => intro start hc _; exact hc
  | cons x l ih =>
    intro start hc hcell
    obtain ⟨rfl, f, hf, hc'⟩ := hc
    obtain ⟨g1, hg1, hn⟩ := hcell x (List.mem_cons_self _ _) f hf
    refine ⟨rfl, g1, hg1, ?_⟩
    rw [hn]
    exact ih f.next hc' (fun q hq => hcell q (List.mem_cons_of_mem _ hq))

/-- After `file_destroy` of a stored file `v`, a chain that does not start at `v` is the same
chain without `v`. -/
theorem chain_after_destroy {m : Machine} (h : WF m) {kv : List Char} {v : Ptr} {fv : file_t}
    (hkv : (kv, v) ∈ m.storage.dictionary) (hfv : deref m.mem v = some fv)
    {mem1 : List (Option file_t)}
    (hcells : ∀ q, q ≠ v → ∀ g, deref m.mem q = some g → ∃ g1, deref mem1 q = some g1 ∧
      g1.next = if fv.previous = some q then fv.next else g.next) :
    ∀ (l : List Ptr) (start : Option Ptr), is_chain m.mem start l →
      (∀ x ∈ l, ∃ k, (k, x) ∈ m.storage.dictionary) → l.Nodup → start ≠ some v →
      is_chain mem1 start (l.erase v) := by
  intro l
  induction l with
  | nil => intro start hc _ _ _; exact hc
  | cons x l ih =>
    intro start hc hst hnd hsv
    obtain ⟨rfl, f, hf, hc'⟩ := hc
    have hxv : x ≠ v := fun e => hsv (by rw [e])
    obtain ⟨kx, hkx⟩ := hst x (List.mem_cons_self _ _)
    obtain ⟨g1, hg1, hn1⟩ := hcells x hxv f hf
    have herase : (x :: l).erase v = x :: l.erase v := by
      simp [List.erase_cons, hxv]
    rw [herase]
    refine ⟨rfl, g1, hg1, ?_⟩
    rw [hn1]
    by_cases hp : fv.previous = some x
    · rw [if_pos hp]
      have hnext : f.next = some v :=
        h.prev_next kv v fv.links kx x f.links hkv (links_at_some hfv) hp (by simp) hkx
          (links_at_some hf)
      cases l with
      | nil =>
        have : f.next = none := hc'
        rw [this] at hnext
        cases hnext
      | cons z l2 =>
        obtain ⟨hz, fz, hfz, hc2⟩ := hc'
        rw [hnext] at hz
        cases hz
        rw [hfv] at hfz
        cases hfz
        have hnd' := hnd
        simp only [List.nodup_cons, List.mem_cons, not_or] at hnd'
        obtain ⟨⟨_, hx2⟩, hv2, _⟩ := hnd'
        have : (v :: l2).erase v = l2 := by simp
        rw [this]
        refine chain_congr l2 _ hc2 ?_
        intro q hq g hg
        have hqv : q ≠ v := fun e => hv2 (e ▸ hq)
        have hqx : q ≠ x := fun e => hx2 (e ▸ hq)
        obtain ⟨g2, hg2, hn2⟩ := hcells q hqv g hg
        refine ⟨g2, hg2, ?_⟩
        rw [hn2, if_neg]
        rw [hp]
        intro e
        exact hqx (Option.some.inj e).symm
    · rw [if_neg hp]
      refine ih f.next hc' (fun y hy => hst y (List.mem_cons_of_mem _ hy))
        (List.nodup_cons.mp hnd).2 ?_
      intro hnv
      have := h.next_prev kx x f.links v fv.links hkx (links_at_some hf) hnv
        (links_at_some hfv)
      exact hp this

theorem chain_none {mem : List (Option file_t)} {l : List Ptr} (h : is_chain mem none l) :
    l = [] := by
  cases l with
  | nil => rfl
  | cons x l => cases h.1

/-- The sequence after `file_destroy` of one of its files: the file is gone, the others stay
in their order. -/
theorem sequence_after_destroy {m m1 : Machine} {v : Ptr} {kv : List Char}
    {pl out : Option (List Int)} {dealloc : Bool} (h : WF m)
    (hkv : (kv, v) ∈ m.storage.dictionary) (hv : v ∈ sequence m)
    (hd : file_destroy m v pl dealloc = some (m1, out)) :
    is_chain m1.mem m1.storage.head ((sequence m).erase v) ∧
      sequence m1 = (sequence m).erase v := by
  obtain ⟨ch, hch, hnd, hst, hseq, hlen⟩ := wf_chain h
  rw [hseq] at hv ⊢
  obtain ⟨fv, hfv, hq, _, hlen1, _, hstor, _⟩ := file_destroy_spec hd
  have hcells : ∀ q, q ≠ v → ∀ g, deref m.mem q = some g → ∃ g1, deref m1.mem q = some g1 ∧
      g1.next = if fv.previous = some q then fv.next else g.next := by
    intro q hqv g hg
    rw [hq q hqv, hg]
    exact ⟨_, rfl, rfl⟩
  have hhead : m1.storage.head = if fv.previous = none then fv.next else m.storage.head := by
    rw [hstor]
  have hchain : is_chain m1.mem m1.storage.head (ch.erase v) := by
    rw [hhead]
    by_cases hh : m.storage.head = some v
    · have hp : fv.previous = none := h.head_prev v fv.links hh (links_at_some hfv)
      rw [if_pos hp]
      cases ch with
      | nil => cases hv
      | cons x l =>
        obtain ⟨hx, fx, hfx, hc2⟩ := hch
        rw [hh] at hx
        cases hx
        rw [hfv] at hfx
        cases hfx
        have : (v :: l).erase v = l := by simp
        rw [this]
        refine chain_congr l _ hc2 ?_
        intro q hql g hg
        have hqv : q ≠ v := fun e => (List.nodup_cons.mp hnd).1 (e ▸ hql)
        obtain ⟨g1, hg1, hn1⟩ := hcells q hqv g hg
        refine ⟨g1, hg1, ?_⟩
        rw [hn1, if_neg]
        rw [hp]
        simp
    · rcases chain_split ch _ hch hv with hs | ⟨l1, y, g, l2, hl, hy, hg⟩
      · exact absurd hs hh
      · have hyin : y ∈ ch := by rw [hl]; simp
        obtain ⟨ky, hky⟩ := hst y hyin
        have hp : fv.previous = some y :=
          h.next_prev ky y g.links v fv.links hky (links_at_some hy) hg (links_at_some hfv)
        rw [if_neg (by rw [hp]; simp)]
        exact chain_after_destroy h hkv hfv hcells ch _ hch hst hnd hh
  refine ⟨hchain, ?_⟩
  refine sequence_from_chain _ _ _ hchain ?_
  rw [hlen1]
  exact Nat.le_succ_of_le (Nat.le_trans (List.length_erase_le _ _) hlen)

theorem chain_add {mem mem1 : List (Option file_t)} {t new : Ptr} {ft : file_t}
    (hft : deref mem t = some ft) (hnext : ft.next = none)
    (hcells : ∀ q, q ≠ new → ∀ g, deref mem q = some g → ∃ g1, deref mem1 q = some g1 ∧
      g1.next = if t = q then some new else g.next)
    (hnew : ∃ fn, deref mem1 new = some fn ∧ fn.next = none) :
    ∀ (l : List Ptr) (start : Option Ptr), is_chain mem start l → t ∈ l →
      (∀ x ∈ l, x ≠ new) → is_chain mem1 start (l ++ [new]) := by
  intro l
  induction l with
  | nil => intro start _ ht; cases ht
  | cons x l ih =>
    intro start hc ht hne
    obtain ⟨rfl, f, hf, hc'⟩ := hc
    obtain ⟨g1, hg1, hn1⟩ := hcells x (hne x (List.mem_cons_self _ _)) f hf
    refine ⟨rfl, g1, hg1, ?_⟩
    rw [hn1]
    by_cases hx : t = x
    · subst hx
      rw [if_pos rfl]
      rw [hft] at hf
      cases hf
      rw [hnext] at hc'
      rw [chain_none hc']
      obtain ⟨fn, hfn, hfnn⟩ := hnew
      exact ⟨rfl, fn, hfn, hfnn⟩
    · rw [if_neg hx]
      have ht' : t ∈ l := by
        rcases List.mem_cons.mp ht with e | e
        · exact absurd e hx
        · exact e
      exact ih f.next hc' ht' (fun y hy => hne y (List.mem_cons_of_mem _ hy))

/-- The sequence after the creation of a file: the files are met in the same order, and the
new file comes last when `tail` was the last of them. -/
theorem sequence_after_create {m m1 : Machine} {pn : List Char} {lock_flag : Bool}
    {user : Int} (h : WF m) (hc : open_create m pn lock_flag user = some m1) :
    (sequence m1).filter (fun q => decide (q ≠ m.mem.length)) = sequence m ∧
    ((m.storage.head = none ∨ ∃ t, m.storage.tail = some t ∧ t ∈ sequence m) →
      sequence m1 = sequence m ++ [m.mem.length]) := by
  obtain ⟨ch, hch, hnd, hst, hseq, hlen⟩ := wf_chain h
  obtain ⟨_, _, hnew, hcells, hlen1, hstor⟩ := open_create_spec hc
  rw [hseq]
  have hhead : m1.storage.head
      = if m.storage.head = none then some m.mem.length else m.storage.head := by
    rw [hstor]
  have hlt : ∀ x ∈ ch, x ≠ m.mem.length := by
    intro x hx
    obtain ⟨k, hk⟩ := hst x hx
    obtain ⟨f, hf, _⟩ := wf_live h hk
    exact Nat.ne_of_lt (deref_lt hf)
  have hfilter : ch.filter (fun q => decide (q ≠ m.mem.length)) = ch := by
    rw [List.filter_eq_self]
    intro x hx
    simpa using hlt x hx
  have htl : m.storage.tail ≠ some m.mem.length := by
    intro e
    exact Nat.lt_irrefl _ (h.tail_lt _ e)
  have hnewnext : ∃ fn, deref m1.mem m.mem.length = some fn ∧ fn.next = none := by
    refine ⟨_, hnew, ?_⟩
    simp only
    rw [if_neg]
    intro hx
    exact htl hx.2
  have hfuel : ch.length + 1 ≤ m1.mem.length + 1 := by
    rw [hlen1]
    omega
  by_cases hh : m.storage.head = none
  · -- the storage was empty
    rw [hh] at hch
    have hnil := chain_none hch
    subst hnil
    have hc1 : is_chain m1.mem m1.storage.head [m.mem.length] := by
      rw [hhead, if_pos hh]
      obtain ⟨fn, hfn, hfnn⟩ := hnewnext
      exact ⟨rfl, fn, hfn, hfnn⟩
    have hs1 : sequence m1 = [m.mem.length] :=
      sequence_from_chain _ _ _ hc1 (by simp)
    rw [hs1]
    exact ⟨by simp, fun _ => rfl⟩
  · by_cases ht : ∃ t, m.storage.tail = some t ∧ t ∈ ch
    · obtain ⟨t, htail, htin⟩ := ht
      obtain ⟨kt, hkt⟩ := hst t htin
      obtain ⟨ft, hft, _⟩ := wf_live h hkt
      have hftn : ft.next = none := h.tail_next kt t ft.links htail hkt (links_at_some hft)
      have hc1 : is_chain m1.mem m1.storage.head (ch ++ [m.mem.length]) := by
        rw [hhead, if_neg hh]
        refine chain_add hft hftn ?_ hnewnext ch _ hch htin hlt
        intro q hq g hg
        rw [hcells q hq, hg]
        refine ⟨_, rfl, ?_⟩
        simp only [htail, Option.some.injEq, ne_eq, hh, not_false_eq_true, true_and]
      have hs1 : sequence m1 = ch ++ [m.mem.length] :=
        sequence_from_chain _ _ _ hc1 (by simpa using hfuel)
      rw [hs1]
      refine ⟨?_, fun _ => rfl⟩
      rw [List.filter_append, hfilter]
      simp
    · have hc1 : is_chain m1.mem m1.storage.head ch := by
        rw [hhead, if_neg hh]
        refine chain_congr ch _ hch ?_
        intro q hq g hg
        rw [hcells q (hlt q hq), hg]
        refine ⟨_, rfl, ?_⟩
        simp only
        rw [if_neg]
        intro hx
        exact ht ⟨q, hx.2, hq⟩
      have hs1 : sequence m1 = ch :=
        sequence_from_chain _ _ _ hc1 (by omega)
      rw [hs1]
      refine ⟨hfilter, ?_⟩
      rintro (hx | hx)
      · exact absurd hx hh
      · exact absurd hx ht

theorem tail_live_store {m : Machine} {file : Ptr} {f : file_t}
    (hf : deref m.mem file = some f) (htl : tail_live m) (f1 : file_t) :
    tail_live { m with mem := store m.mem file f1 } := by
  intro t ht
  obtain ⟨g, hg⟩ := htl t ht
  simp only
  rw [deref_store _ _ (deref_lt hf)]
  by_cases e : t = file
  · exact ⟨f1, by rw [if_pos e]⟩
  · exact ⟨g, by rw [if_neg e]; exact hg⟩

theorem tail_live_of_cells {m m1 : Machine} (htl : tail_live m)
    (htail : m1.storage.tail = m.storage.tail)
    (hcell : ∀ q g, deref m.mem q = some g → ∃ g1, deref m1.mem q = some g1) :
    tail_live m1 := by
  intro t ht
  rw [htail] at ht
  obtain ⟨g, hg⟩ := htl t ht
  exact hcell t g hg

theorem file_destroy_previous_live {m : Machine} {file : Ptr} {f : file_t}
    {pl : Option (List Int)} {dealloc : Bool} {r : Machine × Option (List Int)}
    (hd : file_destroy m file pl dealloc = some r) (hf : deref m.mem file = some f) :
    ∀ y, f.previous = some y → ∃ g, deref m.mem y = some g := by
  intro y hy
  unfold file_destroy at hd
  simp only [hf, Option.bind_eq_bind, Option.some_bind] at hd
  cases hu : unlink_previous m.mem m.storage.head f with
  | none => simp [hu] at hd
  | some r1 =>
    unfold unlink_previous at hu
    simp only [hy] at hu
    cases hg : deref m.mem y with
    | none => simp [assign_next, hg] at hu
    | some g => exact ⟨g, rfl⟩

theorem tail_live_destroy {m m1 : Machine} {file : Ptr} {k : List Char}
    {pl out : Option (List Int)} (h : WF m)
    (hk : (k, file) ∈ m.storage.dictionary)
    (hd : file_destroy m file pl true = some (m1, out)) (htl : tail_live m) :
    tail_live m1 := by
  obtain ⟨f, hf, hq, _, _, _, hstor, _⟩ := file_destroy_spec hd
  have htail : m1.storage.tail = if f.next = none then f.previous else m.storage.tail := by
    rw [hstor]
  have hkeep : ∀ q, q ≠ file → ∀ g, deref m.mem q = some g → ∃ g1, deref m1.mem q = some g1 := by
    intro q hqf g hg
    rw [hq q hqf, hg]
    exact ⟨_, rfl⟩
  intro t ht
  rw [htail] at ht
  by_cases hn : f.next = none
  · rw [if_pos hn] at ht
    obtain ⟨g, hg⟩ := file_destroy_previous_live hd hf t ht
    refine hkeep t ?_ g hg
    rintro rfl
    have := h.prev_next k t f.links k t f.links hk (links_at_some hf) ht (by simp) hk
      (links_at_some hf)
    have h2 : f.next = some t := this
    rw [hn] at h2
    cases h2
  · rw [if_neg hn] at ht
    obtain ⟨g, hg⟩ := htl t ht
    refine hkeep t ?_ g hg
    rintro rfl
    exact hn (h.tail_next k t f.links ht hk (links_at_some hf))

/-- The victim `get_victim` returns is the first file of the sequence that passes its test. -/
theorem get_victim_eq {m : Machine} (h : WF m) (spare : Option Ptr) :
    get_victim m spare = some ((sequence m).find? (is_victim m.mem spare)) := by
  obtain ⟨ch, hch, _, _, hseq, hlen⟩ := wf_chain h
  rw [hseq]
  exact get_victim_loop_chain spare ch _ _ hch (Nat.lt_succ_of_le hlen)

theorem victim_in_sequence {m : Machine} (h : WF m) {spare : Option Ptr} {v : Ptr}
    (hv : get_victim m spare = some (some v)) : v ∈ sequence m := by
  rw [get_victim_eq h spare] at hv
  simp only [Option.some.injEq] at hv
  exact List.mem_of_find?_eq_some hv

theorem sequence_previous_ne {m : Machine} (h : WF m) {v : Ptr} {fv : file_t}
    (hv : v ∈ sequence m) (hfv : deref m.mem v = some fv) : fv.previous ≠ some v := by
  obtain ⟨ch, hch, hnd, hst, hseq, _⟩ := wf_chain h
  rw [hseq] at hv
  rcases chain_split ch _ hch hv with hs | ⟨l1, y, g, l2, hl, hy, hg⟩
  · have : fv.previous = none := h.head_prev v fv.links hs (links_at_some hfv)
    rw [this]
    simp
  · have hyin : y ∈ ch := by rw [hl]; simp
    obtain ⟨ky, hky⟩ := hst y hyin
    have hp : fv.previous = some y :=
      h.next_prev ky y g.links v fv.links hky (links_at_some hy) hg (links_at_some hfv)
    rw [hp]
    intro e
    have hyv : y = v := Option.some.inj e
    rw [hl, hyv] at hnd
    have := (List.nodup_append.mp hnd).2.1
    simp at this

theorem storage_append_tail {m m1 : Machine} {pn new_content : List Char}
    {pl pl1 : List Int} {user : Int} {r : Except Errno Unit} {rl1 : Option Ptr}
    (h : WF m)
    (hr : storage_append m pn new_content pl none user = some (m1, r, pl1, rl1))
    (htl : tail_live m) :
    tail_live m1 ∧ ∀ v, rl1 = some v → m1.storage.tail ≠ some v := by
  rcases storage_append_spec h hr with ⟨rfl, _, rfl, _⟩ |
    ⟨file, f, m0, hmem, hf, _, _, _, hloop, hfin⟩
  · exact ⟨htl, fun v hv => by cases hv⟩
  · have hm0 : tail_live m0 ∧ ∀ v, rl1 = some v → m0.storage.tail ≠ some v := by
      rcases hloop with ⟨rfl, _, rfl, _⟩ | ⟨v, mem1, out, _, hv, ha, hd, _, rfl, _⟩
      · exact ⟨htl, fun v hv => by cases hv⟩
      · obtain ⟨fv, hfv, _, _, _, _, _, hcells, hvcell, _, _, hstor, _⟩ :=
          evict_step_spec h hv ha hd
        have htail : m0.storage.tail = fv.previous := by rw [hstor]
        constructor
        · intro t ht
          rw [htail] at ht
          obtain ⟨g, hg⟩ := get_victim_previous h hv fv t hfv ht
          by_cases e : t = v
          · rw [e]
            exact ⟨_, hvcell⟩
          · rw [hcells t e, hg]
            exact ⟨_, rfl⟩
        · intro v' hv'
          cases hv'
          rw [htail]
          exact sequence_previous_ne h (victim_in_sequence h hv) hfv
    rcases hfin with ⟨e, _, rfl⟩ | ⟨_, f0, hf0, _, rfl⟩
    · exact hm0
    · refine ⟨?_, hm0.2⟩
      intro t ht
      have ht0 : m0.storage.tail = some t := ht
      obtain ⟨g, hg⟩ := hm0.1 t ht0
      unfold written
      simp only
      rw [deref_store _ _ (deref_lt hf0)]
      by_cases e : t = file
      · exact ⟨_, by rw [if_pos e]⟩
      · exact ⟨g, by rw [if_neg e]; exact hg⟩

theorem worker_append_tail_live {m m2 : Machine} {client : Int} {pn new_content : List Char}
    {ev : List Event} (h : WF m)
    (hw : worker_append m client pn new_content = some (m2, ev)) (htl : tail_live m) :
    tail_live m2 := by
  obtain ⟨m1, r, pl, rl, hr, hst, hcase⟩ := worker_append_spec h hw
  obtain ⟨h1, h2⟩ := storage_append_tail h hr htl
  rcases hcase with ⟨e, _, rfl, _⟩ | ⟨_, _, hrl⟩
  · exact h1
  · rcases hrl with ⟨_, rfl⟩ | ⟨v, hv, _, hmem2⟩
    · exact h1
    · intro t ht
      rw [hst] at ht
      obtain ⟨g, hg⟩ := h1 t ht
      have htv : t ≠ v := by
        rintro rfl
        exact h2 t hv ht
      exact ⟨g, by rw [hmem2, deref_dealloc, if_neg htv]; exact hg⟩

theorem open_create_tail_live {m m1 : Machine} {pn : List Char} {lock_flag : Bool}
    {user : Int} (hc : open_create m pn lock_flag user = some m1) : tail_live m1 := by
  obtain ⟨_, _, hnew, _, _, hstor⟩ := open_create_spec hc
  intro t ht
  rw [hstor] at ht
  simp only [Option.some.injEq] at ht
  subst ht
  exact ⟨_, hnew⟩

theorem storage_open_tail_live {m m1 : Machine} {pn : List Char} {flags : Nat} {user : Int}
    {pl : Option (List Int)} {r : Except Errno Unit × Option (List Int)}
    (hr : storage_open m pn flags pl user = some (m1, r)) (htl : tail_live m) :
    tail_live m1 := by
  unfold storage_open at hr
  split at hr
  · cases hr; exact htl
  · simp only at hr
    split at hr
    · split at hr
      · cases hr; exact htl
      · split at hr
        · cases hr
        · cases hr; exact htl
        · rename_i m2 o2 hroom
          cases hc : open_create m2 pn (IS_SET O_LOCK flags) user with
          | none => simp [hc] at hr
          | some m4 =>
            simp only [hc, Option.map_some', Option.some.injEq, Prod.mk.injEq] at hr
            obtain ⟨rfl, _⟩ := hr
            exact open_create_tail_live hc
    · rename_i file hfind
      split at hr
      · cases hr; exact htl
      · split at hr
        · cases hr
        · rename_i f hf
          split at hr
          · cases hr; exact htl
          · split at hr
            · cases hr
            · cases hr
              exact tail_live_store hf htl _

theorem storage_read_tail_live {m m1 : Machine} {pn : List Char} {user : Int}
    {r : Except Errno (List Char × Nat)}
    (hr : storage_read m pn user = some (m1, r)) (htl : tail_live m) : tail_live m1 := by
  unfold storage_read at hr
  split at hr
  · cases hr; exact htl
  · split at hr
    · cases hr; exact htl
    · rename_i file hfind
      cases hf : deref m.mem file with
      | none => simp [hf] at hr
      | some f =>
        simp only [hf, Option.bind_eq_bind, Option.some_bind] at hr
        split at hr
        · cases hr; exact htl
        · split at hr
          · cases hr; exact htl
          · cases hr
            exact tail_live_store hf htl _

theorem storage_lock_tail_live {m m1 : Machine} {pn : List Char} {user : Int}
    {r : Except Errno Unit}
    (hr : storage_lock m pn user = some (m1, r)) (htl : tail_live m) : tail_live m1 := by
  unfold storage_lock at hr
  split at hr
  · cases hr; exact htl
  · split at hr
    · cases hr; exact htl
    · rename_i file hfind
      cases hf : deref m.mem file with
      | none => simp [hf] at hr
      | some f =>
        simp only [hf, Option.bind_eq_bind, Option.some_bind] at hr
        split at hr
        · cases he : enqueue_user f.pending_locks user with
          | none => simp [he] at hr
          | some pl =>
            simp only [he, Option.some_bind] at hr
            cases hr
            exact tail_live_store hf htl _
        · cases hr
          exact tail_live_store hf htl _

theorem storage_unlock_tail_live {m m1 : Machine} {pn : List Char} {user : Int}
    {r : Except Errno Int}
    (hr : storage_unlock m pn user = some (m1, r)) (htl : tail_live m) : tail_live m1 := by
  unfold storage_unlock at hr
  split at hr
  · cases hr; exact htl
  · split at hr
    · cases hr; exact htl
    · rename_i file hfind
      cases hf : deref m.mem file with
      | none => simp [hf] at hr
      | some f =>
        simp only [hf, Option.bind_eq_bind, Option.some_bind] at hr
        split at hr
        · cases hr
          exact tail_live_store hf htl _
        · cases hr; exact htl

theorem storage_close_tail_live {m m1 : Machine} {pn : List Char} {user : Int}
    {r : Except Errno Unit}
    (hr : storage_close m pn user = some (m1, r)) (htl : tail_live m) : tail_live m1 := by
  unfold storage_close at hr
  split at hr
  · cases hr; exact htl
  · split at hr
    · cases hr; exact htl
    · rename_i file hfind
      cases hf : deref m.mem file with
      | none => simp [hf] at hr
      | some f =>
        simp only [hf, Option.bind_eq_bind, Option.some_bind] at hr
        split at hr
        · cases hr
          exact tail_live_store hf htl _
        · cases hr
          exact tail_live_store hf htl _

theorem storage_remove_tail_live {m m1 : Machine} {pn : List Char} {user : Int}
    {pl : Option (List Int)} {r : Except Errno Unit × Option (List Int)} (h : WF m)
    (hr : storage_remove m pn pl user = some (m1, r)) (htl : tail_live m) :
    tail_live m1 := by
  unfold storage_remove at hr
  split at hr
  · cases hr; exact htl
  · split at hr
    · cases hr; exact htl
    · rename_i file hfind
      cases hf : deref m.mem file with
      | none => simp [hf] at hr
      | some f =>
        simp only [hf, Option.bind_eq_bind, Option.some_bind] at hr
        split at hr
        · cases hr; exact htl
        · cases hd : file_destroy m file pl true with
          | none => simp [hd] at hr
          | some res =>
            obtain ⟨m2, out⟩ := res
            simp only [hd, Option.some_bind, pure, Option.some.injEq, Prod.mk.injEq] at hr
            obtain ⟨rfl, _⟩ := hr
            exact tail_live_destroy h (storage_find_ok hfind).1 hd htl

theorem storage_user_exit_tail_live {m m1 : Machine} {pl : List Int} {user : Int}
    {r : Except Errno Unit × List Int}
    (hr : storage_user_exit m pl user = some (m1, r)) (htl : tail_live m) :
    tail_live m1 := by
  unfold storage_user_exit at hr
  split at hr
  · cases hr; exact htl
  · cases hl : user_exit_loop user (m.mem.length + 1) m.mem m.storage.head pl with
    | none => simp [hl] at hr
    | some res =>
      obtain ⟨mem1, pl1⟩ := res
      simp only [hl, Option.map_some', Option.some.injEq, Prod.mk.injEq] at hr
      obtain ⟨rfl, _⟩ := hr
      refine tail_live_of_cells htl rfl ?_
      intro q g hg
      have := (user_exit_loop_links user _ _ _ _ _ _ hl).2 q
      rw [hg] at this
      simp only
      cases hq : deref mem1 q with
      | none => simp [hq] at this
      | some g1 => exact ⟨g1, rfl⟩

theorem worker_tail_live {m m1 : Machine} {client : Int} {req : Request} {out : List Event}
    (h : WF m) (hw : worker m client req = some (m1, out)) (htl : tail_live m) :
    tail_live m1 := by
  cases req with
  | open_file payload flags_buffer =>
    simp only [worker] at hw
    split at hw
    · cases hw; exact htl
    · rename_i flags _
      cases ho : storage_open m (c_str payload) flags.toNat (some []) client with
      | none => simp [ho] at hw
      | some res =>
        obtain ⟨m2, r⟩ := res
        have hi := storage_open_tail_live ho htl
        simp only [ho, Option.map_some', Option.some.injEq] at hw
        split at hw <;> (cases hw; exact hi)
  | read_file payload =>
    simp only [worker] at hw
    cases ho : storage_read m (c_str payload) client with
    | none => simp [ho] at hw
    | some res =>
      obtain ⟨m2, r⟩ := res
      have hi := storage_read_tail_live ho htl
      simp only [ho, Option.map_some', Option.some.injEq] at hw
      split at hw <;> (cases hw; exact hi)
  | read_n_files n_buffer =>
    simp only [worker] at hw
    split at hw
    · cases hw; exact htl
    · rename_i n _
      cases ho : storage_read_many m n client with
      | none => simp [ho] at hw
      | some res =>
        obtain ⟨m2, r⟩ := res
        have hi := storage_read_many_same ho
        subst hi
        simp only [ho, Option.map_some', Option.some.injEq] at hw
        split at hw <;> (cases hw; exact htl)
  | write_file payload content =>
    simp only [worker] at hw
    split at hw
    · cases hw
    · cases hw; exact htl
    · cases ho : worker_append m client (c_str payload) content with
      | none => simp [ho] at hw
      | some res =>
        obtain ⟨m2, r⟩ := res
        have hi := worker_append_tail_live h ho htl
        simp only [ho, Option.map_some', Option.some.injEq, Prod.mk.injEq] at hw
        obtain ⟨rfl, _⟩ := hw
        exact hi
  | append_to_file payload content =>
    simp only [worker] at hw
    cases ho : worker_append m client (c_str payload) content with
    | none => simp [ho] at hw
    | some res =>
      obtain ⟨m2, r⟩ := res
      have hi := worker_append_tail_live h ho htl
      simp only [ho, Option.map_some', Option.some.injEq, Prod.mk.injEq] at hw
      obtain ⟨rfl, _⟩ := hw
      exact hi
  | lock_file payload =>
    simp only [worker] at hw
    cases ho : storage_lock m (c_str payload) client with
    | none => simp [ho] at hw
    | some res =>
      obtain ⟨m2, r⟩ := res
      have hi := storage_lock_tail_live ho htl
      simp only [ho, Option.map_some', Option.some.injEq] at hw
      split at hw <;> (cases hw; exact hi)
  | unlock_file payload =>
    simp only [worker] at hw
    cases ho : storage_unlock m (c_str payload) client with
    | none => simp [ho] at hw
    | some res =>
      obtain ⟨m2, r⟩ := res
      have hi := storage_unlock_tail_live ho htl
      simp only [ho, Option.map_some', Option.some.injEq] at hw
      split at hw <;> (cases hw; exact hi)
  | close_file payload =>
    simp only [worker] at hw
    cases ho : storage_close m (c_str payload) client with
    | none => simp [ho] at hw
    | some res =>
      obtain ⟨m2, r⟩ := res
      have hi := storage_close_tail_live ho htl
      simp only [ho, Option.map_some', Option.some.injEq] at hw
      split at hw <;> (cases hw; exact hi)
  | remove_file payload =>
    simp only [worker] at hw
    cases ho : storage_remove m (c_str payload) (some []) client with
    | none => simp [ho] at hw
    | some res =>
      obtain ⟨m2, r⟩ := res
      have hi := storage_remove_tail_live h ho htl
      simp only [ho, Option.map_some', Option.some.injEq] at hw
      split at hw <;> (cases hw; exact hi)
  | other payload =>
    simp only [worker, Option.some.injEq, Prod.mk.injEq] at hw
    obtain ⟨rfl, _⟩ := hw
    exact htl
  | client_left =>
    simp only [worker] at hw
    split at hw
    · cases hw
    · cases hw
    · rename_i m2 pending_clients ho
      simp only [Option.some.injEq, Prod.mk.injEq] at hw
      obtain ⟨rfl, _⟩ := hw
      exact storage_user_exit_tail_live ho htl

theorem reachable_tail_live {a b : Nat} {m : Machine} (h : Reachable a b m) :
    tail_live m := by
  induction h with
  | init =>
    intro t ht
    simp [storage_create] at ht
  | step hreach _ hw ih => exact worker_tail_live (reachable_inv hreach).1 hw ih

theorem link_last_total {mem : List (Option file_t)} (head tail : Option Ptr) {file : Ptr}
    {f : file_t} (hf : deref mem file = some f)
    (htail : ∀ t, tail = some t → ∃ g, deref mem t = some g) :
    ∃ r, link_last mem head tail file = some r := by
  unfold link_last
  cases head with
  | none => exact ⟨_, rfl⟩
  | some x =>
    simp only
    cases ha : assign_previous mem file tail with
    | none => simp [assign_previous, hf] at ha
    | some mem0 =>
      simp only [Option.some_bind]
      cases tail with
      | none => exact ⟨_, rfl⟩
      | some t =>
        simp only
        obtain ⟨g, hg⟩ := htail t rfl
        have : ∃ g1, deref mem0 t = some g1 := by
          rw [(assign_previous_spec ha).2 t, hg]
          exact ⟨_, rfl⟩
        obtain ⟨g1, hg1⟩ := this
        simp only [assign_next, hg1, Option.map_some']
        exact ⟨_, rfl⟩

theorem storage_add_total {m : Machine} {file : Ptr} {f : file_t}
    (hf : deref m.mem file = some f)
    (htail : ∀ t, m.storage.tail = some t → ∃ g, deref m.mem t = some g)
    (habs : icl_hash_find m.storage.dictionary f.pathname = none) :
    ∃ m1, storage_add m file = some m1 := by
  obtain ⟨⟨mem1, head1⟩, hl⟩ := link_last_total m.storage.head m.storage.tail hf htail
  obtain ⟨_, _, hd⟩ := link_last_spec hl
  have hf1 := hd file
  rw [hf] at hf1
  simp only [Option.map_some'] at hf1
  unfold storage_add
  simp only [hl, Option.bind_eq_bind, Option.some_bind, hf1, icl_hash_insert, habs]
  exact ⟨_, rfl⟩

/-- The creation in `storage_open` returns when `tail` is not dangling, the pathname is not
stored and the user is a descriptor. -/
theorem open_create_total {m : Machine} (htl : tail_live m) {pn : List Char}
    (habs : icl_hash_find m.storage.dictionary pn = none) (lock_flag : Bool) {user : Int}
    (hu : 0 < user) : ∃ m1, open_create m pn lock_flag user = some m1 := by
  unfold open_create file_create
  simp only [Option.bind_eq_bind]
  have hd : deref (m.mem ++ [some (new_file pn)]) m.mem.length = some (new_file pn) := by
    rw [deref_append, if_pos rfl]
  rw [hd]
  simp only [Option.some_bind]
  have hlt : m.mem.length < (m.mem ++ [some (new_file pn)]).length := by simp
  have hen : ∀ l : List Int, enqueue_user l user = some (l ++ [user]) := by
    intro l
    unfold enqueue_user
    rw [if_neg (by omega)]
  rw [hen]
  simp only [Option.some_bind]
  have key : ∀ F : file_t, F.pathname = pn →
      ∃ m1, storage_add { m with mem := store (m.mem ++ [some (new_file pn)]) m.mem.length F }
        m.mem.length = some m1 := by
    intro F hF
    refine storage_add_total (f := F) ?_ ?_ ?_
    · simp only
      rw [deref_store _ _ hlt, if_pos rfl]
    · intro t ht
      obtain ⟨g, hg⟩ := htl t ht
      have htne : t ≠ m.mem.length := Nat.ne_of_lt (deref_lt hg)
      simp only
      rw [deref_store _ _ hlt, if_neg htne, deref_append, if_neg htne]
      exact ⟨g, hg⟩
    · simp only
      rw [hF]
      exact habs
  exact key _ (by cases lock_flag <;> rfl)

theorem storage_find_absent {s : storage_t} {pn : List Char} (hp : pn ≠ [])
    (habs : ∀ q, (pn, q) ∉ s.dictionary) : storage_find s pn = .error .ENOENT := by
  unfold storage_find
  rw [if_neg hp, icl_hash_find_none.mpr habs]

theorem read_many_loop_chain {mem : List (Option file_t)} (up_to : Int) :
    ∀ (l : List Ptr) (start : Option Ptr) (fuel : Nat) (count : Int),
      is_chain mem start l → l.length < fuel → (0 < up_to → count ≤ up_to) →
      read_many_loop mem up_to fuel start count
        = some (if 0 < up_to then
            ((l.filterMap (deref mem)).filter (fun f => decide (0 < f.size))).take
              (up_to - count).toNat
          else (l.filterMap (deref mem)).filter (fun f => decide (0 < f.size))) := by
  intro l
  induction l with
  | nil =>
    intro start fuel count hc _ _
    simp only [is_chain] at hc
    subst hc
    cases fuel <;> simp [read_many_loop]
  | cons x l ih =>
    intro start fuel count hc hlen hcount
    obtain ⟨rfl, f, hf, hc'⟩ := hc
    cases fuel with
    | zero => simp at hlen
    | succ fuel =>
      have hlen' : l.length < fuel := by simpa using hlen
      simp only [read_many_loop]
      by_cases hpos : 0 < up_to
      · have hle := hcount hpos
        by_cases heq : count = up_to
        · have hcond : ¬ (count ≠ up_to ∨ up_to ≤ 0) := by
            rintro (h1 | h1)
            · exact h1 heq
            · omega
          rw [if_neg hcond, if_pos hpos, heq]
          simp
        · have hcond : count ≠ up_to ∨ up_to ≤ 0 := Or.inl heq
          rw [if_pos hcond, hf]
          simp only [List.filterMap_cons, hf]
          by_cases hs : f.size = 0
          · rw [if_pos hs, ih f.next fuel count hc' hlen' hcount, if_pos hpos, if_pos hpos]
            simp [List.filter_cons, hs]
          · rw [if_neg hs, ih f.next fuel (count + 1) hc' hlen' (fun _ => by omega),
              if_pos hpos, if_pos hpos]
            have h0 : 0 < f.size := Nat.pos_of_ne_zero hs
            have hn : (up_to - count).toNat = (up_to - (count + 1)).toNat + 1 := by omega
            simp [List.filter_cons, h0, hn]
      · have hcond : count ≠ up_to ∨ up_to ≤ 0 := Or.inr (by omega)
        rw [if_pos hcond, hf]
        simp only [List.filterMap_cons, hf]
        by_cases hs : f.size = 0
        · rw [if_pos hs, ih f.next fuel count hc' hlen' hcount, if_neg hpos, if_neg hpos]
          simp [List.filter_cons, hs]
        · rw [if_neg hs, ih f.next fuel (count + 1) hc' hlen' (fun h => absurd h hpos),
            if_neg hpos, if_neg hpos]
          have h0 : 0 < f.size := Nat.pos_of_ne_zero hs
          simp [List.filter_cons, h0]

theorem read_many_fill_blocks :
    ∀ (files : List file_t),
      (∀ f ∈ files, 0 < f.size ∧ (f.content.getD []).length = f.size) →
      read_many_fill files = some (files.flatMap read_many_block) := by
  intro files
  induction files with
  | nil => intro _; rfl
  | cons f rest ih =>
    intro h
    obtain ⟨hpos, hlen⟩ := h f (List.mem_cons_self _ _)
    have hc : f.content ≠ none := by
      intro e
      rw [e] at hlen
      simp at hlen
      omega
    have hcopy : storage_copy f 0 = some (f.content.getD []) := by
      unfold storage_copy
      rw [if_neg (fun hx => hc hx.1)]
      simp [← hlen]
    simp only [read_many_fill, hcopy, ih (fun g hg => h g (List.mem_cons_of_mem _ hg)),
      List.flatMap_cons, read_many_block]
    rw [← hlen]
    simp

theorem read_many_loop_selected {m : Machine} (h : WF m) (N : Int) :
    read_many_loop m.mem N (m.mem.length + 1) m.storage.head 0
      = some (read_many_selected m N) := by
  obtain ⟨ch, hch, _, _, hseq, hlen⟩ := wf_chain h
  rw [read_many_loop_chain N ch _ _ 0 hch (Nat.lt_succ_of_le hlen) (fun hp => le_of_lt hp)]
  unfold read_many_selected sequence_files
  rw [hseq]
  simp

theorem sequence_files_content {m : Machine} (h : WF m) :
    ∀ f ∈ sequence_files m, (f.content.getD []).length = f.size := by
  obtain ⟨ch, _, _, hst, hseq, _⟩ := wf_chain h
  intro f hf
  unfold sequence_files at hf
  rw [hseq, List.mem_filterMap] at hf
  obtain ⟨q, hq, hd⟩ := hf
  obtain ⟨k, hk⟩ := hst q hq
  exact wf_content_len h hk hd

theorem read_many_selected_sub (m : Machine) (N : Int) :
    ∀ f ∈ read_many_selected m N, f ∈ sequence_files m ∧ 0 < f.size := by
  intro f hf
  unfold read_many_selected at hf
  simp only at hf
  have hmem : f ∈ (sequence_files m).filter (fun f => decide (0 < f.size)) := by
    split at hf
    · exact List.mem_of_mem_take hf
    · exact hf
  rw [List.mem_filter] at hmem
  exact ⟨hmem.1, by simpa using hmem.2⟩

/-- The owner invariant for the empty pathname, along a run. -/
theorem reachable_own_nil {a b : Nat} {m : Machine} (h : Reachable a b m) :
    ∃ g, Own [] m g := by
  induction h with
  | init => exact ⟨0, by constructor <;> simp [storage_create]⟩
  | step hreach _ hw ih =>
    obtain ⟨g, hg⟩ := ih
    exact ⟨_, worker_own (reachable_inv hreach).1 hw hg⟩

/-- The empty pathname is never stored. -/
theorem reachable_key_ne {a b : Nat} {m : Machine} (h : Reachable a b m) {p : List Char}
    {file : Ptr} (hmem : (p, file) ∈ m.storage.dictionary) : p ≠ [] := by
  obtain ⟨g, hg⟩ := reachable_own_nil h
  rintro rfl
  exact hg.2 rfl file hmem

/-- Every failure of `storage_open` leaves the state and the out-parameter as they were. -/
theorem storage_open_error_same {m m1 : Machine} {pn : List Char} {flags : Nat} {user : Int}
    {pl out : Option (List Int)} {e : Errno}
    (hr : storage_open m pn flags pl user = some (m1, .error e, out)) :
    m1 = m ∧ out = pl := by
  unfold storage_open at hr
  split at hr
  · cases hr; exact ⟨rfl, rfl⟩
  · simp only at hr
    split at hr
    · split at hr
      · cases hr; exact ⟨rfl, rfl⟩
      · split at hr
        · cases hr
        · cases hr; exact ⟨rfl, rfl⟩
        · rename_i m2 o2 hroom
          cases hc : open_create m2 pn (IS_SET O_LOCK flags) user with
          | none => simp [hc] at hr
          | some m4 => simp [hc] at hr
    · split at hr
      · cases hr; exact ⟨rfl, rfl⟩
      · split at hr
        · cases hr
        · split at hr
          · cases hr; exact ⟨rfl, rfl⟩
          · split at hr
            · cases hr
            · cases hr

/-- The results of `storage_open` on a pathname that is not stored. -/
theorem storage_open_absent {m : Machine} {pn : List Char} (hp : pn ≠ [])
    (habs : ∀ q, (pn, q) ∉ m.storage.dictionary) (flags : Nat) (pl : Option (List Int))
    {user : Int} (hu : 0 < user) :
    (IS_SET O_CREATE flags = false →
      storage_open m pn flags pl user = some (m, .error .ENOENT, pl)) ∧
    (IS_SET O_CREATE flags = true → ∀ m1 r out,
      storage_open m pn flags pl user = some (m1, r, out) →
        r = .ok () ∨ r = .error .ENOMEM) := by
  have hpre : ¬ (pn = [] ∨ user ≤ 0) := by
    rintro (h1 | h1)
    · exact hp h1
    · omega
  have hfind := storage_find_absent hp habs
  constructor
  · intro hc
    unfold storage_open
    rw [if_neg hpre]
    simp [hfind, hc]
  · intro hc m1 r out hr
    unfold storage_open at hr
    rw [if_neg hpre] at hr
    simp only [hfind, hc, Bool.not_true, Bool.false_eq_true, if_false] at hr
    split at hr
    · cases hr
    · cases hr
      exact Or.inr rfl
    · rename_i m2 o2 hroom
      cases hcr : open_create m2 pn (IS_SET O_LOCK flags) user with
      | none => simp [hcr] at hr
      | some m4 =>
        simp only [hc, hcr, Option.map_some', Option.some.injEq, Prod.mk.injEq] at hr
        exact Or.inl hr.2.1.symm

/-- The results of `storage_open` on a stored pathname. -/
theorem storage_open_present {m : Machine} (h : WF m) {pn : List Char} (hp : pn ≠ [])
    {file : Ptr} {f : file_t} (hmem : (pn, file) ∈ m.storage.dictionary)
    (hf : deref m.mem file = some f) (flags : Nat) (pl : Option (List Int))
    {user : Int} (hu : 0 < user) :
    (IS_SET O_CREATE flags = true →
      storage_open m pn flags pl user = some (m, .error .EEXIST, pl)) ∧
    (IS_SET O_CREATE flags = false → IS_SET O_LOCK flags = true → f.locked_by ≠ 0 →
      storage_open m pn flags pl user = some (m, .error .EACCES, pl)) ∧
    (IS_SET O_CREATE flags = false → ¬ (IS_SET O_LOCK flags = true ∧ f.locked_by ≠ 0) →
      ∃ m1, storage_open m pn flags pl user = some (m1, .ok (), pl)) := by
  have hpre : ¬ (pn = [] ∨ user ≤ 0) := by
    rintro (h1 | h1)
    · exact hp h1
    · omega
  have hfind := storage_find_of_mem h hmem hp
  have hen : ∀ l : List Int, enqueue_user l user = some (l ++ [user]) := by
    intro l
    unfold enqueue_user
    rw [if_neg (by omega)]
  refine ⟨?_, ?_, ?_⟩
  · intro hc
    unfold storage_open
    rw [if_neg hpre]
    simp [hfind, hc]
  · intro hc hl hlk
    unfold storage_open
    rw [if_neg hpre]
    simp [hfind, hc, hf, hl, hlk]
  · intro hc hno
    unfold storage_open
    rw [if_neg hpre]
    simp only [hfind, hc, Bool.false_eq_true, if_false, hf]
    rw [if_neg hno, hen]
    exact ⟨_, rfl⟩

theorem dequeue_front (l : List Int) : dequeue_user l (-1) = (l.tail, l.headD 0) := by
  cases l with
  | nil => rfl
  | cons x rest => simp [dequeue_user]

/-- The predecessor of a file of the sequence is live. -/
theorem sequence_previous_live {m : Machine} (h : WF m) {v : Ptr} {fv : file_t}
    (hv : v ∈ sequence m) (hfv : deref m.mem v = some fv) :
    ∀ y, fv.previous = some y → ∃ g, deref m.mem y = some g := by
  obtain ⟨ch, hch, _, hst, hseq, _⟩ := wf_chain h
  rw [hseq] at hv
  intro y hy
  rcases chain_split ch _ hch hv with hs | ⟨l1, y1, g, l2, hl, hy1, hg⟩
  · have hp : fv.previous = none := h.head_prev v fv.links hs (links_at_some hfv)
    rw [hy] at hp
    cases hp
  · have hyin : y1 ∈ ch := by rw [hl]; simp
    obtain ⟨ky, hky⟩ := hst y1 hyin
    have hp : fv.previous = some y1 :=
      h.next_prev ky y1 g.links v fv.links hky (links_at_some hy1) hg (links_at_some hfv)
    rw [hy] at hp
    cases hp
    exact ⟨g, hy1⟩

/-- A stored file is not larger than the storage. -/
theorem stored_size_le {m : Machine} (h : WF m) {k : List Char} {file : Ptr} {f : file_t}
    (hmem : (k, file) ∈ m.storage.dictionary) (hf : deref m.mem file = some f) :
    f.size ≤ m.storage.size := by
  rw [h.size_eq]
  have hin : size_at (links_at m) file
      ∈ m.storage.dictionary.map (fun e => size_at (links_at m) e.2) :=
    List.mem_map.mpr ⟨(k, file), hmem, rfl⟩
  have hsz : size_at (links_at m) file = f.size := by
    simp [size_at, links_at_some hf, file_t.links]
  rw [← hsz]
  exact List.single_le_sum (fun x _ => Nat.zero_le x) _ hin

theorem exit_file_next (user : Int) (f : file_t) : (exit_file user f).next = f.next := by
  unfold exit_file
  by_cases hl : f.locked_by = user <;> simp [hl]

/-- One turn of the loop of `storage_user_exit`. -/
theorem user_exit_loop_step (user : Int) (fuel : Nat) (mem : List (Option file_t)) (x : Ptr)
    (pl : List Int) {f : file_t} (hf : deref mem x = some f) :
    user_exit_loop user (fuel + 1) mem (some x) pl
      = user_exit_loop user fuel (store mem x (exit_file user f)) f.next
          (pl ++ exit_holders user [f]) := by
  simp only [user_exit_loop, hf, exit_file, exit_holders]
  by_cases hl : f.locked_by = user
  · by_cases hw : 0 < (dequeue_user f.pending_locks (-1)).2
    · have he : enqueue_user pl (dequeue_user f.pending_locks (-1)).2
          = some (pl ++ [(dequeue_user f.pending_locks (-1)).2]) := by
        unfold enqueue_user
        rw [if_neg (by omega)]
      simp [hl, hw, he]
    · simp [hl, hw]
  · simp [hl]

theorem exit_holders_cons (user : Int) (f : file_t) (rest : List file_t) :
    exit_holders user (f :: rest) = exit_holders user [f] ++ exit_holders user rest := by
  simp only [exit_holders]
  split <;> simp

/-- The loop of `storage_user_exit` along a chain of distinct files: every file of the chain
gets the body of the loop once, the other cells stay, and the new holders are added to the
list. -/
theorem user_exit_loop_chain (user : Int) :
    ∀ (l : List Ptr) (start : Option Ptr) (fuel : Nat) (mem : List (Option file_t))
      (pl : List Int),
      is_chain mem start l → l.Nodup → l.length < fuel →
      ∃ mem1, user_exit_loop user fuel mem start pl
          = some (mem1, pl ++ exit_holders user (l.filterMap (deref mem))) ∧
        ∀ q, deref mem1 q
          = if q ∈ l then (deref mem q).map (exit_file user) else deref mem q := by
  intro l
  induction l with
  | nil =>
    intro start fuel mem pl hc _ _
    simp only [is_chain] at hc
    subst hc
    refine ⟨mem, ?_, fun q => by simp⟩
    cases fuel <;> simp [user_exit_loop, exit_holders]
  | cons x l ih =>
    intro start fuel mem pl hc hnd hlen
    obtain ⟨rfl, f, hf, hc'⟩ := hc
    cases fuel with
    | zero => simp at hlen
    | succ fuel =>
      have hlen' : l.length < fuel := by simpa using hlen
      obtain ⟨hxl, hnd'⟩ := List.nodup_cons.mp hnd
      have hx : x < mem.length := deref_lt hf
      have hchain : is_chain (store mem x (exit_file user f)) f.next l := by
        refine chain_congr l _ hc' ?_
        intro q hq g hg
        have hqx : q ≠ x := fun e => hxl (e ▸ hq)
        exact ⟨g, by rw [deref_store _ _ hx, if_neg hqx]; exact hg, rfl⟩
      have hfm : l.filterMap (deref (store mem x (exit_file user f)))
          = l.filterMap (deref mem) := by
        apply List.filterMap_congr
        intro q hq
        have hqx : q ≠ x := fun e => hxl (e ▸ hq)
        rw [deref_store _ _ hx, if_neg hqx]
      obtain ⟨mem1, hr, hcells⟩ := ih f.next fuel (store mem x (exit_file user f))
        (pl ++ exit_holders user [f]) hchain hnd' hlen'
      refine ⟨mem1, ?_, ?_⟩
      · rw [user_exit_loop_step user fuel mem x pl hf, hr, hfm]
        simp only [List.filterMap_cons, hf]
        rw [exit_holders_cons user f (List.filterMap (deref mem) l), List.append_assoc]
      · intro q
        rw [hcells q, deref_store _ _ hx]
        by_cases hqx : q = x
        · subst hqx
          simp [hxl, hf]
        · simp [hqx]

theorem same_file_refl (f : file_t) : same_file f f := by
  unfold same_file
  cases f
  rfl

theorem same_file_trans {f2 f1 f : file_t} (h2 : same_file f2 f1) (h1 : same_file f1 f) :
    same_file f2 f := by
  unfold same_file at *
  rw [h2, h1]

theorem same_file_links {f1 f : file_t} (p n : Option Ptr)
    (h : f1 = { f with previous := p, next := n }) : same_file f1 f := by
  unfold same_file
  rw [h]

/-- A store into the cell of a stored file, seen from the dictionary. -/
theorem files_store {m : Machine} (h : WF m) {k0 : List Char} {file : Ptr} {f0 : file_t}
    (hmem : (k0, file) ∈ m.storage.dictionary) (hf : deref m.mem file = some f0)
    (g : file_t) :
    ∀ k q f1, (k, q) ∈ m.storage.dictionary → deref (store m.mem file g) q = some f1 →
      (q ≠ file ∧ deref m.mem q = some f1) ∨ (q = file ∧ k = k0 ∧ f1 = g) := by
  intro k q f1 hk hd
  rw [deref_store _ _ (deref_lt hf)] at hd
  by_cases hq : q = file
  · subst hq
    rw [if_pos rfl] at hd
    cases hd
    obtain ⟨fa, hfa, hka⟩ := wf_live h hmem
    obtain ⟨fb, hfb, hkb⟩ := wf_live h hk
    rw [hfa] at hfb
    cases hfb
    exact Or.inr ⟨rfl, hkb.symm.trans hka, rfl⟩
  · rw [if_neg hq] at hd
    exact Or.inl ⟨hq, hd⟩

/-- The files after a request that stores one new value into the cell of a stored file. -/
theorem files_of_store {m : Machine} (h : WF m) {k0 : List Char} {file : Ptr} {f0 : file_t}
    (hmem : (k0, file) ∈ m.storage.dictionary) (hf : deref m.mem file = some f0)
    (g : file_t) {P : List Char → file_t → file_t → Prop} {C : List Char → file_t → Prop}
    (hP : P k0 f0 g ∨ g = f0) :
    files_step P C m { m with mem := store m.mem file g } := by
  intro k q f1 hk hd
  left
  rcases files_store h hmem hf g k q f1 hk hd with ⟨_, hq⟩ | ⟨rfl, rfl, rfl⟩
  · exact ⟨f1, hk, hq, Or.inl (same_file_refl _)⟩
  · rcases hP with hP | hP
    · exact ⟨f0, hk, hf, Or.inr ⟨_, hP, same_file_refl _⟩⟩
    · exact ⟨f0, hk, hf, Or.inl (by rw [hP]; exact same_file_refl _)⟩

/-- The files after a request that changes links only. -/
theorem files_of_cells {m m1 : Machine}
    (hsub : ∀ k q, (k, q) ∈ m1.storage.dictionary → (k, q) ∈ m.storage.dictionary)
    (hcell : ∀ k q f1, (k, q) ∈ m1.storage.dictionary → deref m1.mem q = some f1 →
      ∃ f, deref m.mem q = some f ∧ same_file f1 f)
    {P : List Char → file_t → file_t → Prop} {C : List Char → file_t → Prop} :
    files_step P C m m1 := by
  intro k q f1 hk hd
  obtain ⟨f, hf, hs⟩ := hcell k q f1 hk hd
  exact Or.inl ⟨f, hsub k q hk, hf, Or.inl hs⟩

theorem files_same (m : Machine) {P : List Char → file_t → file_t → Prop}
    {C : List Char → file_t → Prop} : files_step P C m m :=
  fun _ _ f1 hk hd => Or.inl ⟨f1, hk, hd, Or.inl (same_file_refl _)⟩

theorem storage_read_files {m m1 : Machine} {payload : List Char} {client : Int}
    {r : Except Errno (List Char × Nat)} (h : WF m)
    (hr : storage_read m (c_str payload) client = some (m1, r))
    {C : List Char → file_t → Prop} :
    files_step (fun k => touched client k (.read_file payload)) C m m1 := by
  unfold storage_read at hr
  split at hr
  · cases hr; exact files_same m
  · rename_i hpre
    split at hr
    · cases hr; exact files_same m
    · rename_i file hfind
      cases hf : deref m.mem file with
      | none => simp [hf] at hr
      | some f =>
        simp only [hf, Option.bind_eq_bind, Option.some_bind] at hr
        split at hr
        · cases hr; exact files_same m
        · rename_i hacc
          split at hr
          · cases hr; exact files_same m
          · cases hr
            refine files_of_store h (storage_find_ok hfind).1 hf _ (Or.inl ?_)
            exact ⟨rfl, by omega, hacc, rfl⟩

theorem storage_lock_files {m m1 : Machine} {payload : List Char} {client : Int}
    {r : Except Errno Unit} (h : WF m)
    (hr : storage_lock m (c_str payload) client = some (m1, r))
    {C : List Char → file_t → Prop} :
    files_step (fun k => touched client k (.lock_file payload)) C m m1 := by
  unfold storage_lock at hr
  split at hr
  · cases hr; exact files_same m
  · rename_i hpre
    split at hr
    · cases hr; exact files_same m
    · rename_i file hfind
      cases hf : deref m.mem file with
      | none => simp [hf] at hr
      | some f =>
        simp only [hf, Option.bind_eq_bind, Option.some_bind] at hr
        split at hr
        · rename_i hlk
          cases he : enqueue_user f.pending_locks client with
          | none => simp [he] at hr
          | some pl =>
            simp only [he, Option.some_bind] at hr
            cases hr
            have hpl : pl = f.pending_locks ++ [client] := by
              unfold enqueue_user at he
              split at he
              · cases he
              · exact (Option.some.inj he).symm
            subst hpl
            refine files_of_store h (storage_find_ok hfind).1 hf _ (Or.inl ?_)
            exact ⟨rfl, by omega, Or.inr ⟨hlk.1, hlk.2, rfl⟩⟩
        · rename_i hlk
          cases hr
          refine files_of_store h (storage_find_ok hfind).1 hf _ (Or.inl ?_)
          refine ⟨rfl, by omega, Or.inl ⟨?_, rfl⟩⟩
          by_cases h0 : f.locked_by = 0
          · exact Or.inl h0
          · right
            by_contra hne
            exact hlk ⟨h0, hne⟩

theorem storage_unlock_files {m m1 : Machine} {payload : List Char} {client : Int}
    {r : Except Errno Int} (h : WF m)
    (hr : storage_unlock m (c_str payload) client = some (m1, r))
    {C : List Char → file_t → Prop} :
    files_step (fun k => touched client k (.unlock_file payload)) C m m1 := by
  unfold storage_unlock at hr
  split at hr
  · cases hr; exact files_same m
  · rename_i hpre
    split at hr
    · cases hr; exact files_same m
    · rename_i file hfind
      cases hf : deref m.mem file with
      | none => simp [hf] at hr
      | some f =>
        simp only [hf, Option.bind_eq_bind, Option.some_bind] at hr
        split at hr
        · rename_i hlk
          rw [dequeue_front] at hr
          cases hr
          refine files_of_store h (storage_find_ok hfind).1 hf _ (Or.inl ?_)
          exact ⟨rfl, by omega, hlk, rfl⟩
        · cases hr; exact files_same m

theorem dequeue_member {l : List Int} {user : Int} (hu : 0 ≤ user) :
    dequeue_user l user = if user ∈ l then (l.erase user, user) else (l, 0) := by
  cases l with
  | nil => simp [dequeue_user]
  | cons x rest =>
    simp only [dequeue_user]
    rw [if_neg (by omega)]

theorem storage_close_files {m m1 : Machine} {payload : List Char} {client : Int}
    {r : Except Errno Unit} (h : WF m)
    (hr : storage_close m (c_str payload) client = some (m1, r))
    {C : List Char → file_t → Prop} :
    files_step (fun k => touched client k (.close_file payload)) C m m1 := by
  unfold storage_close at hr
  split at hr
  · cases hr; exact files_same m
  · rename_i hpre
    have hc0 : 0 < client := by omega
    split at hr
    · cases hr; exact files_same m
    · rename_i file hfind
      cases hf : deref m.mem file with
      | none => simp [hf] at hr
      | some f =>
        simp only [hf, Option.bind_eq_bind, Option.some_bind] at hr
        rw [dequeue_member (le_of_lt hc0)] at hr
        by_cases hin : client ∈ f.opened_by
        · rw [if_pos hin] at hr
          simp only at hr
          rw [if_neg (by omega)] at hr
          cases hr
          refine files_of_store h (storage_find_ok hfind).1 hf _ (Or.inl ?_)
          exact ⟨rfl, hc0, hin, rfl⟩
        · rw [if_neg hin] at hr
          simp only [if_true] at hr
          cases hr
          refine files_of_store h (storage_find_ok hfind).1 hf _ (Or.inr ?_)
          cases f
          rfl

theorem files_destroy {m m1 : Machine} {file : Ptr} {k0 : List Char}
    {pl out : Option (List Int)} {dealloc : Bool} (h : WF m)
    (hk : (k0, file) ∈ m.storage.dictionary)
    (hd : file_destroy m file pl dealloc = some (m1, out))
    {P : List Char → file_t → file_t → Prop} {C : List Char → file_t → Prop} :
    files_step P C m m1 := by
  have hdict := file_destroy_dict h hk hd
  obtain ⟨f, hf, hq, _⟩ := file_destroy_spec hd
  refine files_of_cells (fun k q hm => ((hdict k q).mp hm).1) ?_
  intro k q f1 hm hd1
  rw [hq q ((hdict k q).mp hm).2] at hd1
  cases hg : deref m.mem q with
  | none => simp [hg] at hd1
  | some g =>
    simp only [hg, Option.map_some', Option.some.injEq] at hd1
    exact ⟨g, rfl, same_file_links _ _ hd1.symm⟩

theorem storage_remove_files {m m1 : Machine} {pn : List Char} {user : Int}
    {pl : Option (List Int)} {r : Except Errno Unit × Option (List Int)} (h : WF m)
    (hr : storage_remove m pn pl user = some (m1, r))
    {P : List Char → file_t → file_t → Prop} {C : List Char → file_t → Prop} :
    files_step P C m m1 := by
  unfold storage_remove at hr
  split at hr
  · cases hr; exact files_same m
  · split at hr
    · cases hr; exact files_same m
    · rename_i file hfind
      cases hf : deref m.mem file with
      | none => simp [hf] at hr
      | some f =>
        simp only [hf, Option.bind_eq_bind, Option.some_bind] at hr
        split at hr
        · cases hr; exact files_same m
        · cases hd : file_destroy m file pl true with
          | none => simp [hd] at hr
          | some res =>
            obtain ⟨m2, out⟩ := res
            simp only [hd, Option.some_bind, pure, Option.some.injEq, Prod.mk.injEq] at hr
            obtain ⟨rfl, _⟩ := hr
            exact files_destroy h (storage_find_ok hfind).1 hd

/-- The function `storage_user_exit` in a well-formed state, for a descriptor: it returns,
every file of the sequence gets the body of its loop, nothing else changes, and the new
holders are added to the caller's list. -/
theorem storage_user_exit_spec {m : Machine} (h : WF m) {user : Int} (hu : 0 < user)
    (pl : List Int) :
    ∃ m1, storage_user_exit m pl user
        = some (m1, .ok (), pl ++ exit_holders user (sequence_files m)) ∧
      m1.storage = m.storage ∧
      ∀ q, deref m1.mem q
        = if q ∈ sequence m then (deref m.mem q).map (exit_file user) else deref m.mem q := by
  obtain ⟨ch, hch, hnd, _, hseq, hlen⟩ := wf_chain h
  obtain ⟨mem1, hr, hcells⟩ := user_exit_loop_chain user ch m.storage.head
    (m.mem.length + 1) m.mem pl hch hnd (Nat.lt_succ_of_le hlen)
  refine ⟨{ m with mem := mem1 }, ?_, rfl, ?_⟩
  · unfold storage_user_exit
    rw [if_neg (by omega), hr]
    unfold sequence_files
    rw [hseq]
    rfl
  · rw [hseq]
    exact hcells

theorem storage_user_exit_files {m m1 : Machine} {pl : List Int} {client : Int}
    {r : Except Errno Unit × List Int} (h : WF m)
    (hr : storage_user_exit m pl client = some (m1, r))
    {C : List Char → file_t → Prop} :
    files_step (fun k => touched client k .client_left) C m m1 := by
  by_cases hu : 0 < client
  · obtain ⟨m2, hr2, hst, hcells⟩ := storage_user_exit_spec h hu pl
    rw [hr2] at hr
    simp only [Option.some.injEq, Prod.mk.injEq] at hr
    obtain ⟨rfl, _⟩ := hr
    intro k q f1 hk hd
    rw [hst] at hk
    rw [hcells q] at hd
    left
    by_cases hq : q ∈ sequence m
    · rw [if_pos hq] at hd
      cases hf : deref m.mem q with
      | none => simp [hf] at hd
      | some f =>
        simp only [hf, Option.map_some', Option.some.injEq] at hd
        exact ⟨f, hk, rfl, Or.inr ⟨_, ⟨hu, rfl⟩, by rw [← hd]; exact same_file_refl _⟩⟩
    · rw [if_neg hq] at hd
      exact ⟨f1, hk, hd, Or.inl (same_file_refl _)⟩
  · unfold storage_user_exit at hr
    rw [if_pos (by omega)] at hr
    cases hr
    exact files_same m

theorem open_make_room_files {m m1 : Machine} {pl out : Option (List Int)} (h : WF m)
    (hr : open_make_room m pl = some (some m1, out))
    {P : List Char → file_t → file_t → Prop} {C : List Char → file_t → Prop} :
    files_step P C m m1 := by
  unfold open_make_room at hr
  split at hr
  · split at hr
    · cases hr
    · cases hr
    · rename_i victim hv
      cases hd : file_destroy m victim pl true with
      | none => simp [hd] at hr
      | some res =>
        obtain ⟨m2, o2⟩ := res
        simp only [hd, Option.map_some', Option.some.injEq, Prod.mk.injEq] at hr
        obtain ⟨h1, _⟩ := hr
        cases h1
        obtain ⟨⟨k, hk⟩, _⟩ := get_victim_stored h hv
        exact files_destroy h hk hd
  · cases hr
    exact files_same m

theorem storage_open_files {m m1 : Machine} {payload : List Char}
    (flags_buffer : List Char) {flags : Nat}
    {client : Int} {pl : Option (List Int)} {r : Except Errno Unit × Option (List Int)}
    (h : WF m)
    (hr : storage_open m (c_str payload) flags pl client = some (m1, r)) :
    files_step (fun k => touched client k (.open_file payload flags_buffer))
      (fun k => created client k (.open_file payload flags_buffer)) m m1 := by
  unfold storage_open at hr
  split at hr
  · cases hr; exact files_same m
  · rename_i hpre
    have hc0 : 0 < client := by omega
    have hp : c_str payload ≠ [] := fun e => hpre (Or.inl e)
    simp only at hr
    split at hr
    · rename_i e hfind
      have habs := (storage_find_error hfind hp).2
      split at hr
      · cases hr; exact files_same m
      · split at hr
        · cases hr
        · cases hr; exact files_same m
        · rename_i m2 o2 hroom
          cases hc : open_create m2 (c_str payload) (IS_SET O_LOCK flags) client with
          | none => simp [hc] at hr
          | some m4 =>
            simp only [hc, Option.map_some', Option.some.injEq, Prod.mk.injEq] at hr
            obtain ⟨rfl, _⟩ := hr
            have h2 := (open_make_room_inv (a := m.storage.max_file_number)
              (b := m.storage.max_size) ⟨h, rfl, rfl⟩ hroom).1.1
            have hstep2 : files_step (fun _ _ _ => False) (fun _ _ => False) m m2 :=
              open_make_room_files h hroom
            obtain ⟨_, _, hnew, hcells, _, hst⟩ := open_create_spec hc
            intro k q f1 hk hd
            rw [hst] at hk
            simp only [List.mem_cons, Prod.mk.injEq] at hk
            rcases hk with ⟨rfl, rfl⟩ | hk
            · right
              refine ⟨habs, ?_⟩
              rw [hnew] at hd
              cases hd
              cases hl : IS_SET O_LOCK flags
              · refine ⟨{ new_file (c_str payload) with opened_by := [client] },
                  ⟨rfl, hp, hc0, Or.inl rfl⟩, ?_⟩
                simp [same_file, new_file]
              · refine ⟨{ new_file (c_str payload) with
                    owner := client, locked_by := client, opened_by := [client] },
                  ⟨rfl, hp, hc0, Or.inr rfl⟩, ?_⟩
                simp [same_file, new_file]
            · left
              obtain ⟨f2, hf2, _⟩ := wf_live h2 hk
              have hq : q ≠ m2.mem.length := Nat.ne_of_lt (deref_lt hf2)
              rw [hcells q hq, hf2] at hd
              simp only [Option.map_some', Option.some.injEq] at hd
              have hs12 : same_file f1 f2 := same_file_links f2.previous _ (by
                rw [← hd])
              rcases hstep2 k q f2 hk hf2 with ⟨f, hkm, hf, hs | ⟨_, hF, _⟩⟩ | ⟨_, _, hF, _⟩
              · exact ⟨f, hkm, hf, Or.inl (same_file_trans hs12 hs)⟩
              · exact hF.elim
              · exact hF.elim
    · rename_i file hfind
      split at hr
      · cases hr; exact files_same m
      · split at hr
        · cases hr
        · rename_i f hf
          split at hr
          · cases hr; exact files_same m
          · rename_i hlk
            split at hr
            · cases hr
            · rename_i ob he
              cases hr
              refine files_of_store h (storage_find_ok hfind).1 hf _ (Or.inl ?_)
              refine ⟨rfl, hc0, ?_⟩
              unfold enqueue_user at he
              rw [if_neg (by omega)] at he
              cases he
              cases hl : IS_SET O_LOCK flags
              · left
                simp
              · right
                have h0 : f.locked_by = 0 := by
                  by_contra hne
                  exact hlk ⟨by simp [hl], hne⟩
                exact ⟨h0, by simp⟩

theorem storage_append_files {m m1 : Machine} {pn new_content : List Char}
    {pl pl1 : List Int} {user : Int} {r : Except Errno Unit} {rl1 : Option Ptr}
    (h : WF m)
    (hr : storage_append m pn new_content pl none user = some (m1, r, pl1, rl1))
    {P : List Char → file_t → file_t → Prop} {C : List Char → file_t → Prop}
    (hP : ∀ f, 0 < user → ¬ no_access f user → new_content ≠ [] →
      P pn f { f with content := some (f.content.getD [] ++ new_content),
                      size := f.size + new_content.length, modified := true, owner := 0 }) :
    files_step P C m m1 := by
  rcases storage_append_spec h hr with ⟨rfl, _, _, _⟩ |
    ⟨file, f, m0, hmem, hf, hpre, hacc, _, hloop, hfin⟩
  · exact files_same _
  · have hu : 0 < user := by
      by_contra hx
      exact hpre (Or.inr (Or.inr (by omega)))
    have hne : new_content ≠ [] := by
      intro e
      exact hpre (Or.inr (Or.inl (by rw [e]; rfl)))
    -- the state the eviction loop ends in
    have hm0 : WF m0 ∧ (pn, file) ∈ m0.storage.dictionary ∧
        (∀ k q, (k, q) ∈ m0.storage.dictionary → (k, q) ∈ m.storage.dictionary) ∧
        (∀ k q g0, (k, q) ∈ m0.storage.dictionary → deref m0.mem q = some g0 →
          ∃ g, deref m.mem q = some g ∧ same_file g0 g) := by
      rcases hloop with ⟨rfl, _⟩ | ⟨v, mem1, out, _, hv, ha, hd, _⟩
      · exact ⟨h, hmem, fun _ _ hk => hk, fun _ _ g0 _ hg => ⟨g0, hg, same_file_refl _⟩⟩
      · obtain ⟨fv, _, _, hnv, _, hwf, _, hcells, _, _, hdict, _⟩ :=
          evict_step_spec h hv ha hd
        have hfv : file ≠ v := fun e => hnv (by rw [e])
        refine ⟨hwf, (hdict pn file).mpr ⟨hmem, hfv⟩, fun k q hk => ((hdict k q).mp hk).1, ?_⟩
        intro k q g0 hk hg0
        rw [hcells q ((hdict k q).mp hk).2] at hg0
        cases hg : deref m.mem q with
        | none => simp [hg] at hg0
        | some g =>
          simp only [hg, Option.map_some', Option.some.injEq] at hg0
          exact ⟨g, rfl, same_file_links g.previous _ hg0.symm⟩
    obtain ⟨hwf0, hmem0, hsub0, hcell0⟩ := hm0
    rcases hfin with ⟨e, _, rfl⟩ | ⟨_, f0, hf0, hf0eq, rfl⟩
    · exact files_of_cells hsub0 hcell0
    · intro k q f1 hk hd
      left
      have hk0 : (k, q) ∈ m0.storage.dictionary := hk
      have hd0 : deref (store m0.mem file
          { f0 with content := some (f0.content.getD [] ++ new_content),
                    size := f0.size + new_content.length, modified := true,
                    owner := 0 }) q = some f1 := hd
      rcases files_store hwf0 hmem0 hf0 _ k q f1 hk0 hd0 with ⟨_, hq⟩ | ⟨rfl, rfl, rfl⟩
      · obtain ⟨g, hg, hs⟩ := hcell0 k q f1 hk0 hq
        exact ⟨g, hsub0 k q hk0, hg, Or.inl hs⟩
      · refine ⟨f, hmem, hf, Or.inr ⟨_, hP f hu hacc hne, ?_⟩⟩
        unfold same_file
        rw [hf0eq]

theorem worker_append_files {m m2 : Machine} {client : Int} {pn new_content : List Char}
    {ev : List Event} (h : WF m)
    (hw : worker_append m client pn new_content = some (m2, ev))
    {P : List Char → file_t → file_t → Prop} {C : List Char → file_t → Prop}
    (hP : ∀ f, 0 < client → ¬ no_access f client → new_content ≠ [] →
      P pn f { f with content := some (f.content.getD [] ++ new_content),
                      size := f.size + new_content.length, modified := true, owner := 0 }) :
    files_step P C m m2 := by
  obtain ⟨m1, r, pl, rl, hr, hst, hcase⟩ := worker_append_spec h hw
  have h1 : files_step P C m m1 := storage_append_files h hr hP
  rcases hcase with ⟨e, _, rfl, _⟩ | ⟨_, _, hrl⟩
  · exact h1
  · rcases hrl with ⟨_, rfl⟩ | ⟨v, _, hv, hmem2⟩
    · exact h1
    · intro k q f1 hk hd
      rw [hst] at hk
      have hq : q ≠ v := by
        rintro rfl
        exact hv _ hk
      rw [hmem2, deref_dealloc, if_neg hq] at hd
      exact h1 k q f1 hk hd

/-- Every stored file after a request handled by a worker is a file stored before, the same
but for the links or changed as `touched` says, or the file the request created. -/
theorem worker_files {m m1 : Machine} {client : Int} {req : Request} {out : List Event}
    (h : WF m) (hw : worker m client req = some (m1, out)) :
    files_step (fun k => touched client k req) (fun k => created client k req) m m1 := by
  cases req with
  | open_file payload flags_buffer =>
    simp only [worker] at hw
    split at hw
    · cases hw; exact files_same m
    · rename_i flags _
      cases ho : storage_open m (c_str payload) flags.toNat (some []) client with
      | none => simp [ho] at hw
      | some res =>
        obtain ⟨m2, r⟩ := res
        have hi := storage_open_files flags_buffer h ho
        simp only [ho, Option.map_some', Option.some.injEq] at hw
        split at hw <;> (cases hw; exact hi)
  | read_file payload =>
    simp only [worker] at hw
    cases ho : storage_read m (c_str payload) client with
    | none => simp [ho] at hw
    | some res =>
      obtain ⟨m2, r⟩ := res
      have hi := storage_read_files (C := fun k => created client k (.read_file payload)) h ho
      simp only [ho, Option.map_some', Option.some.injEq] at hw
      split at hw <;> (cases hw; exact hi)
  | read_n_files n_buffer =>
    simp only [worker] at hw
    split at hw
    · cases hw; exact files_same m
    · rename_i n _
      cases ho : storage_read_many m n client with
      | none => simp [ho] at hw
      | some res =>
        obtain ⟨m2, r⟩ := res
        have hi := storage_read_many_same ho
        subst hi
        simp only [ho, Option.map_some', Option.some.injEq] at hw
        split at hw <;> (cases hw; exact files_same _)
  | write_file payload content =>
    simp only [worker] at hw
    split at hw
    · cases hw
    · cases hw; exact files_same m
    · cases ho : worker_append m client (c_str payload) content with
      | none => simp [ho] at hw
      | some res =>
        obtain ⟨m2, r⟩ := res
        simp only [ho, Option.map_some', Option.some.injEq, Prod.mk.injEq] at hw
        obtain ⟨rfl, _⟩ := hw
        exact worker_append_files h ho (fun f h1 h2 h3 => ⟨rfl, h1, h2, h3, rfl⟩)
  | append_to_file payload content =>
    simp only [worker] at hw
    cases ho : worker_append m client (c_str payload) content with
    | none => simp [ho] at hw
    | some res =>
      obtain ⟨m2, r⟩ := res
      simp only [ho, Option.map_some', Option.some.injEq, Prod.mk.injEq] at hw
      obtain ⟨rfl, _⟩ := hw
      exact worker_append_files h ho (fun f h1 h2 h3 => ⟨rfl, h1, h2, h3, rfl⟩)
  | lock_file payload =>
    simp only [worker] at hw
    cases ho : storage_lock m (c_str payload) client with
    | none => simp [ho] at hw
    | some res =>
      obtain ⟨m2, r⟩ := res
      have hi := storage_lock_files (C := fun k => created client k (.lock_file payload)) h ho
      simp only [ho, Option.map_some', Option.some.injEq] at hw
      split at hw <;> (cases hw; exact hi)
  | unlock_file payload =>
    simp only [worker] at hw
    cases ho : storage_unlock m (c_str payload) client with
    | none => simp [ho] at hw
    | some res =>
      obtain ⟨m2, r⟩ := res
      have hi := storage_unlock_files
        (C := fun k => created client k (.unlock_file payload)) h ho
      simp only [ho, Option.map_some', Option.some.injEq] at hw
      split at hw <;> (cases hw; exact hi)
  | close_file payload =>
    simp only [worker] at hw
    cases ho : storage_close m (c_str payload) client with
    | none => simp [ho] at hw
    | some res =>
      obtain ⟨m2, r⟩ := res
      have hi := storage_close_files
        (C := fun k => created client k (.close_file payload)) h ho
      simp only [ho, Option.map_some', Option.some.injEq] at hw
      split at hw <;> (cases hw; exact hi)
  | remove_file payload =>
    simp only [worker] at hw
    cases ho : storage_remove m (c_str payload) (some []) client with
    | none => simp [ho] at hw
    | some res =>
      obtain ⟨m2, r⟩ := res
      have hi := storage_remove_files
        (P := fun k => touched client k (.remove_file payload))
        (C := fun k => created client k (.remove_file payload)) h ho
      simp only [ho, Option.map_some', Option.some.injEq] at hw
      split at hw <;> (cases hw; exact hi)
  | other payload =>
    simp only [worker, Option.some.injEq, Prod.mk.injEq] at hw
    obtain ⟨rfl, _⟩ := hw
    exact files_same _
  | client_left =>
    simp only [worker] at hw
    split at hw
    · cases hw
    · cases hw
    · rename_i m2 pending_clients ho
      simp only [Option.some.injEq, Prod.mk.injEq] at hw
      obtain ⟨rfl, _⟩ := hw
      exact storage_user_exit_files h ho

/-- One request keeps a property of the stored files that the links do not matter for, that
a created file has, and that the change of the request keeps. -/
theorem step_all_files {Q : List Char → file_t → Prop} {m m1 : Machine} {client : Int}
    {req : Request} {out : List Event} (h : WF m)
    (hw : worker m client req = some (m1, out))
    (hlinks : ∀ k f1 f, same_file f1 f → Q k f → Q k f1)
    (hcreate : ∀ k g, created client k req g → Q k g)
    (htouch : ∀ k q f g, (k, q) ∈ m.storage.dictionary → deref m.mem q = some f →
      touched client k req f g → Q k f → Q k g)
    (hQ : all_files Q m) : all_files Q m1 := by
  intro k q f1 hk hd
  rcases worker_files h hw k q f1 hk hd with
    ⟨f, hkm, hf, hs | ⟨g, hg, hs⟩⟩ | ⟨_, g, hg, hs⟩
  · exact hlinks k f1 f hs (hQ k q f hkm hf)
  · exact hlinks k f1 g hs (htouch k q f g hkm hf hg (hQ k q f hkm hf))
  · exact hlinks k f1 g hs (hcreate k g hg)

theorem dequeue_user_sub (l : List Int) (user : Int) :
    ∀ x ∈ (dequeue_user l user).1, x ∈ l := by
  intro x hx
  cases l with
  | nil => simp [dequeue_user] at hx
  | cons y rest =>
    simp only [dequeue_user] at hx
    split at hx
    · exact List.mem_cons_of_mem _ hx
    · split at hx
      · exact List.mem_of_mem_erase hx
      · exact hx

theorem exit_file_pending_sub (user : Int) (f : file_t) :
    ∀ x ∈ (exit_file user f).pending_locks, x ∈ f.pending_locks := by
  intro x hx
  unfold exit_file at hx
  simp only at hx
  have h1 := dequeue_user_sub _ user x hx
  split at h1
  · exact dequeue_user_sub _ _ x h1
  · exact h1

theorem step_waiters_positive {m m1 : Machine} {client : Int} {req : Request}
    {out : List Event} (h : WF m) (hw : worker m client req = some (m1, out))
    (hQ : all_files waiters_positive m) : all_files waiters_positive m1 := by
  refine step_all_files h hw ?_ ?_ ?_ hQ
  · intro k f1 f hs hq
    unfold same_file at hs
    rw [hs]
    exact hq
  · intro k g hg
    cases req <;> simp only [created] at hg
    obtain ⟨_, hk, _, hg | hg⟩ := hg <;> (rw [hg]; exact ⟨hk, by simp [new_file]⟩)
  · intro k q f g _ _ ht hq
    refine ⟨hq.1, ?_⟩
    cases req <;> simp only [touched] at ht
    · obtain ⟨_, _, ht | ⟨_, ht⟩⟩ := ht <;> (rw [ht]; exact hq.2)
    · obtain ⟨_, _, _, ht⟩ := ht
      rw [ht]; exact hq.2
    · obtain ⟨_, _, _, _, ht⟩ := ht
      rw [ht]; exact hq.2
    · obtain ⟨_, _, _, _, ht⟩ := ht
      rw [ht]; exact hq.2
    · obtain ⟨_, hc, ⟨_, ht⟩ | ⟨_, _, ht⟩⟩ := ht
      · rw [ht]; exact hq.2
      · rw [ht]
        intro x hx
        simp only [List.mem_append, List.mem_singleton] at hx
        rcases hx with hx | hx
        · exact hq.2 x hx
        · rw [hx]; exact hc
    · obtain ⟨_, _, _, ht⟩ := ht
      rw [ht]
      intro x hx
      exact hq.2 x (List.mem_of_mem_tail hx)
    · obtain ⟨_, _, _, ht⟩ := ht
      rw [ht]; exact hq.2
    · obtain ⟨_, ht⟩ := ht
      rw [ht]
      intro x hx
      exact hq.2 x (exit_file_pending_sub client f x hx)

theorem reachable_waiters_positive {a b : Nat} {m : Machine} (h : Reachable a b m) :
    all_files waiters_positive m := by
  induction h with
  | init =>
    intro k q f hk _
    simp [storage_create] at hk
  | step hreach _ hw ih => exact step_waiters_positive (reachable_inv hreach).1 hw ih

theorem exit_holders_eq (user : Int) :
    ∀ (files : List file_t), (∀ f ∈ files, ∀ x ∈ f.pending_locks, 0 < x) →
      exit_holders user files
        = (files.filter (fun f => decide (f.locked_by = user ∧ f.pending_locks ≠ []))).map
            (fun f => f.pending_locks.headD 0) := by
  intro files
  induction files with
  | nil => intro _; rfl
  | cons f rest ih =>
    intro hpos
    have ih' := ih (fun g hg => hpos g (List.mem_cons_of_mem _ hg))
    have hf := hpos f (List.mem_cons_self _ _)
    simp only [exit_holders, dequeue_front]
    have hiff : 0 < f.pending_locks.headD 0 ↔ f.pending_locks ≠ [] := by
      cases hp : f.pending_locks with
      | nil => simp
      | cons x t =>
        simp only [List.headD_cons, ne_eq, reduceCtorEq, not_false_eq_true, iff_true]
        exact hf x (by rw [hp]; exact List.mem_cons_self _ _)
    by_cases hc : f.locked_by = user ∧ f.pending_locks ≠ []
    · rw [if_pos ⟨hc.1, hiff.mpr hc.2⟩, ih']
      simp [List.filter_cons, hc.1, hc.2]
    · rw [if_neg (fun hx => hc ⟨hx.1, hiff.mp hx.2⟩), ih']
      have : decide (f.locked_by = user ∧ f.pending_locks ≠ []) = false := by simpa using hc
      simp only [List.filter_cons, this]
      rfl

theorem dequeue_user_once {l : List Int} {user : Int} (hu : 0 ≤ user)
    (hc : l.count user ≤ 1) : user ∉ (dequeue_user l user).1 := by
  rw [dequeue_member hu]
  by_cases hin : user ∈ l
  · rw [if_pos hin]
    simp only
    rw [← List.count_eq_zero, List.count_erase_self]
    omega
  · rw [if_neg hin]
    exact hin

theorem target_file_of_mem {m : Machine} (h : WF m) {k : List Char} {q : Ptr} {f : file_t}
    (hk : (k, q) ∈ m.storage.dictionary) (hf : deref m.mem q = some f) (hne : k ≠ []) :
    target_file m k = some f := by
  unfold target_file
  rw [storage_find_of_mem h hk hne]
  exact hf

theorem exit_file_fields (user : Int) (f : file_t) :
    (exit_file user f).opened_by = (dequeue_user f.opened_by user).1 ∧
    (exit_file user f).locked_by
      = (if f.locked_by = user then f.pending_locks.headD 0 else f.locked_by) ∧
    (exit_file user f).pending_locks
      = (dequeue_user (if f.locked_by = user then f.pending_locks.tail
          else f.pending_locks) user).1 := by
  by_cases hl : f.locked_by = user
  · simp only [exit_file, hl, if_true, dequeue_front]
    exact ⟨trivial, trivial, trivial⟩
  · simp only [exit_file, hl, if_false]
    exact ⟨trivial, trivial, trivial⟩

theorem dequeue_user_nodup {l : List Int} {user : Int} (hu : 0 ≤ user) (hnd : l.Nodup) :
    (dequeue_user l user).1.Nodup ∧
      ∀ x ∈ (dequeue_user l user).1, x ≠ user ∧ x ∈ l := by
  rw [dequeue_member hu]
  by_cases hin : user ∈ l
  · rw [if_pos hin]
    refine ⟨hnd.erase _, fun x hx => ?_⟩
    exact (List.Nodup.mem_erase_iff hnd).mp hx
  · rw [if_neg hin]
    exact ⟨hnd, fun x hx => ⟨fun e => hin (e ▸ hx), hx⟩⟩

theorem dequeue_user_keeps {l : List Int} {user x : Int} (hu : 0 ≤ user) (hx : x ∈ l)
    (hne : x ≠ user) : x ∈ (dequeue_user l user).1 := by
  rw [dequeue_member hu]
  split
  · exact (List.mem_erase_of_ne hne).mpr hx
  · exact hx

/-- The change of a request keeps the waiting queue of the file in order, when the request
keeps the discipline of the waiting queue. -/
theorem touched_queue_inv {client : Int} {k : List Char} {req : Request} {f g : file_t}
    (ht : touched client k req f g)
    (hlock : ∀ payload, req = .lock_file payload →
      client ∈ f.opened_by ∧ client ∉ f.pending_locks)
    (hclose : ∀ payload, req = .close_file payload → client ∉ f.pending_locks)
    (hq : queue_inv k f) : queue_inv k g := by
  obtain ⟨hk, hsub, hnd⟩ := hq
  refine ⟨hk, ?_⟩
  cases req <;> simp only [touched] at ht
  · -- open
    obtain ⟨_, _, ht | ⟨_, ht⟩⟩ := ht <;>
      (rw [ht]
       exact ⟨fun x hx => List.mem_append_left _ (hsub x hx), hnd⟩)
  · obtain ⟨_, _, _, ht⟩ := ht
    rw [ht]; exact ⟨hsub, hnd⟩
  · obtain ⟨_, _, _, _, ht⟩ := ht
    rw [ht]; exact ⟨hsub, hnd⟩
  · obtain ⟨_, _, _, _, ht⟩ := ht
    rw [ht]; exact ⟨hsub, hnd⟩
  · -- lock
    rename_i payload
    obtain ⟨hin, hnot⟩ := hlock payload rfl
    obtain ⟨_, _, ⟨_, ht⟩ | ⟨_, _, ht⟩⟩ := ht
    · rw [ht]; exact ⟨hsub, hnd⟩
    · rw [ht]
      constructor
      · intro x hx
        simp only [List.mem_append, List.mem_singleton] at hx
        rcases hx with hx | hx
        · exact hsub x hx
        · rw [hx]; exact hin
      · exact List.Nodup.append hnd (List.nodup_singleton _) (by
          intro x hx1 hx2
          simp only [List.mem_singleton] at hx2
          exact hnot (hx2 ▸ hx1))
  · -- unlock
    obtain ⟨_, _, _, ht⟩ := ht
    rw [ht]
    exact ⟨fun x hx => hsub x (List.mem_of_mem_tail hx), hnd.sublist (List.tail_sublist _)⟩
  · -- close
    rename_i payload
    have hnot := hclose payload rfl
    obtain ⟨_, _, _, ht⟩ := ht
    rw [ht]
    refine ⟨fun x hx => ?_, hnd⟩
    have hne : x ≠ client := fun e => hnot (e ▸ hx)
    exact (List.mem_erase_of_ne hne).mpr (hsub x hx)
  · -- the client leaves
    obtain ⟨hc, ht⟩ := ht
    obtain ⟨ho, _, hp⟩ := exit_file_fields client f
    rw [ht]
    have hnd' : (if f.locked_by = client then f.pending_locks.tail
        else f.pending_locks).Nodup := by
      split
      · exact hnd.sublist (List.tail_sublist _)
      · exact hnd
    have hsub' : ∀ x ∈ (if f.locked_by = client then f.pending_locks.tail
        else f.pending_locks), x ∈ f.pending_locks := by
      intro x hx
      split at hx
      · exact List.mem_of_mem_tail hx
      · exact hx
    obtain ⟨h1, h2⟩ := dequeue_user_nodup (le_of_lt hc) hnd'
    rw [hp, ho]
    refine ⟨fun x hx => ?_, h1⟩
    obtain ⟨hne, hx'⟩ := h2 x hx
    exact dequeue_user_keeps (le_of_lt hc) (hsub x (hsub' x hx')) hne

/-- The change of a request keeps the lock of the file in order, when the request keeps the
discipline of the lock. -/
theorem touched_lock_inv {client : Int} {k : List Char} {req : Request} {f g : file_t}
    (ht : touched client k req f g)
    (hlock : ∀ payload, req = .lock_file payload →
      client ∈ f.opened_by ∧ client ∉ f.pending_locks)
    (hclose : ∀ payload, req = .close_file payload →
      f.locked_by ≠ client ∧ client ∉ f.pending_locks)
    (hq : lock_inv k f) : lock_inv k g := by
  obtain ⟨hqueue, hhold, hnw, hfree, hpos⟩ := hq
  refine ⟨touched_queue_inv ht hlock (fun p hp => (hclose p hp).2) hqueue, ?_⟩
  obtain ⟨_, hsub, hnd⟩ := hqueue
  cases req <;> simp only [touched] at ht
  · -- open
    obtain ⟨_, hc, ht | ⟨h0, ht⟩⟩ := ht
    · rw [ht]
      exact ⟨fun hx => List.mem_append_left _ (hhold hx), hnw, hfree, hpos⟩
    · rw [ht]
      have hnil := hfree h0
      refine ⟨fun _ => by simp, ?_, ?_, hpos⟩
      · simp only
        rw [hnil]
        simp
      · intro hx
        simp only at hx
        omega
  · obtain ⟨_, _, _, ht⟩ := ht
    rw [ht]; exact ⟨hhold, hnw, hfree, hpos⟩
  · obtain ⟨_, _, _, _, ht⟩ := ht
    rw [ht]; exact ⟨hhold, hnw, hfree, hpos⟩
  · obtain ⟨_, _, _, _, ht⟩ := ht
    rw [ht]; exact ⟨hhold, hnw, hfree, hpos⟩
  · -- lock
    rename_i payload
    obtain ⟨hin, hnot⟩ := hlock payload rfl
    obtain ⟨_, hc, ⟨_, ht⟩ | ⟨h0, hne, ht⟩⟩ := ht
    · rw [ht]
      refine ⟨fun _ => hin, hnot, ?_, hpos⟩
      intro hx
      simp only at hx
      omega
    · rw [ht]
      refine ⟨hhold, ?_, fun hx => absurd hx h0, ?_⟩
      · simp only [List.mem_append, List.mem_singleton, not_or]
        exact ⟨hnw, hne⟩
      · intro x hx
        simp only [List.mem_append, List.mem_singleton] at hx
        rcases hx with hx | hx
        · exact hpos x hx
        · rw [hx]; exact hc
  · -- unlock
    obtain ⟨_, _, _, ht⟩ := ht
    rw [ht]
    cases hp : f.pending_locks with
    | nil => simp
    | cons x t =>
      have hxin : x ∈ f.pending_locks := by rw [hp]; exact List.mem_cons_self _ _
      have hx0 := hpos x hxin
      rw [hp] at hnd
      refine ⟨fun _ => hsub x hxin, (List.nodup_cons.mp hnd).1, ?_, ?_⟩
      · intro hx
        simp only [List.headD_cons] at hx
        omega
      · intro y hy
        exact hpos y (by rw [hp]; exact List.mem_cons_of_mem _ hy)
  · -- close
    rename_i payload
    obtain ⟨hne, _⟩ := hclose payload rfl
    obtain ⟨_, _, _, ht⟩ := ht
    rw [ht]
    exact ⟨fun hx => (List.mem_erase_of_ne hne).mpr (hhold hx), hnw, hfree, hpos⟩
  · -- the client leaves
    obtain ⟨hc, ht⟩ := ht
    obtain ⟨ho, hl, hp⟩ := exit_file_fields client f
    rw [ht]
    have hsub' : ∀ x ∈ (exit_file client f).pending_locks,
        x ∈ (if f.locked_by = client then f.pending_locks.tail else f.pending_locks) := by
      intro x hx
      rw [hp] at hx
      exact dequeue_user_sub _ _ x hx
    by_cases hlk : f.locked_by = client
    · simp only [hlk, if_true] at hl hsub'
      rw [hl, ho]
      cases hpl : f.pending_locks with
      | nil =>
        rw [hpl] at hsub'
        have hnil : (exit_file client f).pending_locks = [] := by
          cases hx : (exit_file client f).pending_locks with
          | nil => rfl
          | cons y t =>
            have := hsub' y (by rw [hx]; exact List.mem_cons_self _ _)
            simp at this
        rw [hnil]
        simp
      | cons x t =>
        have hxin : x ∈ f.pending_locks := by rw [hpl]; exact List.mem_cons_self _ _
        have hx0 := hpos x hxin
        have hxc : x ≠ client := by
          rintro rfl
          exact hnw (by rw [hlk]; exact hxin)
        rw [hpl] at hnd hsub'
        simp only [List.headD_cons, List.tail_cons] at hsub' ⊢
        refine ⟨fun _ => dequeue_user_keeps (le_of_lt hc) (hsub x hxin) hxc, ?_, ?_, ?_⟩
        · intro hx
          exact (List.nodup_cons.mp hnd).1 (hsub' x hx)
        · intro hx
          omega
        · intro y hy
          exact hpos y (by rw [hpl]; exact List.mem_cons_of_mem _ (hsub' y hy))
    · simp only [hlk, if_false] at hl hsub'
      rw [hl, ho]
      refine ⟨fun hx => dequeue_user_keeps (le_of_lt hc) (hhold hx) hlk, ?_, ?_, ?_⟩
      · intro hx
        exact hnw (hsub' _ hx)
      · intro hx
        have hnil := hfree hx
        rw [hnil] at hsub'
        cases hy : (exit_file client f).pending_locks with
        | nil => rfl
        | cons y t =>
          have := hsub' y (by rw [hy]; exact List.mem_cons_self _ _)
          simp at this
      · intro y hy
        exact hpos y (hsub' y hy)

theorem orderly_waits_lock {m : Machine} (h : WF m) {k : List Char} {q : Ptr} {f g : file_t}
    {client : Int} {req : Request}
    (hk : (k, q) ∈ m.storage.dictionary) (hf : deref m.mem q = some f) (hne : k ≠ [])
    (ht : touched client k req f g) (hD : orderly_waits m client req = true) :
    ∀ payload, req = .lock_file payload →
      client ∈ f.opened_by ∧ client ∉ f.pending_locks := by
  intro payload hreq
  subst hreq
  simp only [touched] at ht
  simp only [orderly_waits, ht.1, target_file_of_mem h hk hf hne, contains_user,
    Bool.and_eq_true, decide_eq_true_eq, Bool.not_eq_true', decide_eq_false_iff_not] at hD
  exact hD

theorem orderly_waits_close {m : Machine} (h : WF m) {k : List Char} {q : Ptr} {f g : file_t}
    {client : Int} {req : Request}
    (hk : (k, q) ∈ m.storage.dictionary) (hf : deref m.mem q = some f) (hne : k ≠ [])
    (ht : touched client k req f g) (hD : orderly_waits m client req = true) :
    ∀ payload, req = .close_file payload → client ∉ f.pending_locks := by
  intro payload hreq
  subst hreq
  simp only [touched] at ht
  simp only [orderly_waits, ht.1, target_file_of_mem h hk hf hne, contains_user,
    Bool.not_eq_true', decide_eq_false_iff_not] at hD
  exact hD

theorem orderly_close {m : Machine} (h : WF m) {k : List Char} {q : Ptr} {f g : file_t}
    {client : Int} {req : Request}
    (hk : (k, q) ∈ m.storage.dictionary) (hf : deref m.mem q = some f) (hne : k ≠ [])
    (ht : touched client k req f g) (hD : orderly m client req = true) :
    ∀ payload, req = .close_file payload →
      f.locked_by ≠ client ∧ client ∉ f.pending_locks := by
  intro payload hreq
  subst hreq
  simp only [touched] at ht
  simp only [orderly, ht.1, target_file_of_mem h hk hf hne, contains_user,
    Bool.and_eq_true, decide_eq_true_eq, Bool.not_eq_true', decide_eq_false_iff_not] at hD
  exact hD

theorem orderly_lock {m : Machine} {client : Int} {payload : List Char}
    (hD : orderly m client (.lock_file payload) = true) :
    orderly_waits m client (.lock_file payload) = true := by
  simpa only [orderly] using hD

/-- A request that keeps the discipline of the waiting queue keeps the waiting queues of the
stored files in order. -/
theorem step_queue_inv {m m1 : Machine} {client : Int} {req : Request}
    {out : List Event} (h : WF m) (hw : worker m client req = some (m1, out))
    (hD : orderly_waits m client req = true)
    (hQ : all_files queue_inv m) : all_files queue_inv m1 := by
  refine step_all_files h hw ?_ ?_ ?_ hQ
  · intro k f1 f hs hq
    unfold same_file at hs
    rw [hs]
    exact hq
  · intro k g hg
    cases req <;> simp only [created] at hg
    obtain ⟨_, hk, _, hg | hg⟩ := hg <;>
      (rw [hg]; exact ⟨hk, by simp [new_file], by simp [new_file]⟩)
  · intro k q f g hk hf ht hq
    exact touched_queue_inv ht (orderly_waits_lock h hk hf hq.1 ht hD)
      (orderly_waits_close h hk hf hq.1 ht hD) hq

/-- A request that keeps the discipline of the lock keeps the locks of the stored files in
order. -/
theorem step_lock_inv {m m1 : Machine} {client : Int} {req : Request}
    {out : List Event} (h : WF m) (hw : worker m client req = some (m1, out))
    (hD : orderly m client req = true)
    (hQ : all_files lock_inv m) : all_files lock_inv m1 := by
  refine step_all_files h hw ?_ ?_ ?_ hQ
  · intro k f1 f hs hq
    unfold same_file at hs
    rw [hs]
    exact hq
  · intro k g hg
    cases req <;> simp only [created] at hg
    obtain ⟨_, hk, hc, hg | hg⟩ := hg
    · rw [hg]
      exact ⟨⟨hk, by simp [new_file], by simp [new_file]⟩, by simp [new_file],
        by simp [new_file], by simp [new_file], by simp [new_file]⟩
    · rw [hg]
      refine ⟨⟨hk, by simp [new_file], by simp [new_file]⟩, by simp [new_file],
        by simp [new_file], ?_, by simp [new_file]⟩
      intro hx
      simp only at hx
      omega
  · intro k q f g hk hf ht hq
    refine touched_lock_inv ht ?_ (orderly_close h hk hf hq.1.1 ht hD) hq
    intro payload hreq
    subst hreq
    exact orderly_waits_lock h hk hf hq.1.1 ht (orderly_lock hD) payload rfl

/-- A disciplined run keeps a property of the stored files that every disciplined request
keeps. -/
theorem run_all_files {D : Machine → Int → Request → Bool}
    {Q : List Char → file_t → Prop} {a b : Nat}
    (hstep : ∀ (m m1 : Machine) (client : Int) (req : Request) (out : List Event),
      WF m → worker m client req = some (m1, out) → D m client req = true →
      all_files Q m → all_files Q m1) :
    ∀ (reqs : List (Int × Request)) (m m1 : Machine), Inv a b m → all_files Q m →
      disciplined D m reqs = true → run m reqs = some m1 → Inv a b m1 ∧ all_files Q m1 := by
  intro reqs
  induction reqs with
  | nil =>
    intro m m1 hi hQ _ hrun
    simp only [run, Option.some.injEq] at hrun
    subst hrun
    exact ⟨hi, hQ⟩
  | cons r rest ih =>
    intro m m1 hi hQ hd hrun
    obtain ⟨client, req⟩ := r
    simp only [run] at hrun
    simp only [disciplined, Bool.and_eq_true] at hd
    cases hw : worker m client req with
    | none => simp [hw] at hrun
    | some r1 =>
      obtain ⟨m2, out⟩ := r1
      simp only [hw] at hrun hd
      exact ih m2 m1 (worker_inv hi hw) (hstep m m2 client req out hi.1 hw hd.1 hQ) hd.2 hrun

theorem all_files_create (Q : List Char → file_t → Prop) (a b : Nat) :
    all_files Q (storage_create a b) := by
  intro k q f hk
  simp [storage_create] at hk

theorem store_self {mem : List (Option file_t)} {p : Ptr} {f : file_t}
    (h : deref mem p = some f) : store mem p f = mem := by
  unfold deref at h
  unfold store
  apply List.ext_getElem?
  intro i
  rw [List.getElem?_set]
  by_cases hi : p = i
  · subst hi
    rw [if_pos rfl]
    rw [List.get?_eq_getElem?] at h
    cases hg : mem[p]? with
    | none => simp [hg] at h
    | some c =>
      rw [hg] at h
      simp only [Option.join] at h
      subst h
      have hlt : p < mem.length := by
        by_contra hn
        have hnone : mem[p]? = none := List.getElem?_eq_none (Nat.le_of_not_lt hn)
        rw [hnone] at hg
        cases hg
      rw [if_pos hlt]
  · rw [if_neg hi]

theorem machine_store_self {m : Machine} {p : Ptr} {f : file_t}
    (h : deref m.mem p = some f) : { m with mem := store m.mem p f } = m := by
  rw [store_self h]

theorem exit_file_bytes (user : Int) (f : file_t) :
    (exit_file user f).modified = f.modified ∧ (exit_file user f).size = f.size ∧
      (exit_file user f).content = f.content ∧ (exit_file user f).owner = f.owner := by
  unfold exit_file
  by_cases hl : f.locked_by = user
  · simp only [hl, if_true]
    exact ⟨trivial, trivial, trivial, trivial⟩
  · simp only [hl, if_false]
    exact ⟨trivial, trivial, trivial, trivial⟩

theorem step_space_inv {m m1 : Machine} {client : Int} {req : Request}
    {out : List Event} (h : WF m) (hw : worker m client req = some (m1, out))
    (hQ : all_files space_inv m) : all_files space_inv m1 := by
  refine step_all_files h hw ?_ ?_ ?_ hQ
  · intro k f1 f hs hq
    unfold same_file at hs
    rw [hs]
    exact hq
  · intro k g hg
    cases req <;> simp only [created] at hg
    obtain ⟨_, hk, _, hg | hg⟩ := hg <;> (rw [hg]; intro _; exact ⟨rfl, rfl⟩)
  · intro k q f g _ _ ht hq
    cases req <;> simp only [touched] at ht
    · obtain ⟨_, _, ht | ⟨_, ht⟩⟩ := ht <;> (rw [ht]; exact hq)
    · obtain ⟨_, _, _, ht⟩ := ht
      rw [ht]; exact hq
    · obtain ⟨_, _, _, _, ht⟩ := ht
      rw [ht]; intro hm; cases hm
    · obtain ⟨_, _, _, _, ht⟩ := ht
      rw [ht]; intro hm; cases hm
    · obtain ⟨_, hc, ⟨_, ht⟩ | ⟨_, _, ht⟩⟩ := ht
      · rw [ht]; exact hq
      · rw [ht]; exact hq
    · obtain ⟨_, _, _, ht⟩ := ht
      rw [ht]; exact hq
    · obtain ⟨_, _, _, ht⟩ := ht
      rw [ht]; exact hq
    · obtain ⟨_, ht⟩ := ht
      obtain ⟨h1, h2, h3, _⟩ := exit_file_bytes client f
      rw [ht]
      unfold space_inv
      rw [h1, h2, h3]
      exact hq

theorem reachable_space_inv {a b : Nat} {m : Machine} (h : Reachable a b m) :
    all_files space_inv m := by
  induction h with
  | init => exact all_files_create _ _ _
  | step hreach _ hw ih => exact step_space_inv (reachable_inv hreach).1 hw ih

theorem str2num_not_digit (l : List Char) (hl : l.length ≤ 1)
    (h : ∀ c ∈ l, c.isDigit = false) : str2num l = none := by
  match l, hl, h with
  | [], _, _ => rfl
  | [c], _, h =>
    have hc : c.isDigit = false := h c (List.mem_singleton_self c)
    unfold str2num
    by_cases h0 : c = Char.ofNat 0
    · subst h0
      rfl
    · have hs : c_str [c] = [c] := by simp [c_str, h0]
      simp only [hs]
      rw [if_neg (by simp)]
      by_cases hsp : isspace c = true
      · simp [List.dropWhile, hsp]
      · have hd : List.dropWhile isspace [c] = [c] := by simp [List.dropWhile, hsp]
        simp only [hd]
        by_cases hm : c = '-'
        · subst hm
          rfl
        · by_cases hpl : c = '+'
          · subst hpl
            rfl
          · simp [hm, hpl, List.takeWhile, hc]
  | _ :: _ :: _, hl, _ => exact absurd hl (by simp)

theorem digit_char (r : Nat) (hr : r < 10) :
    (Char.ofNat (48 + r)).isDigit = true ∧ (Char.ofNat (48 + r)).toNat - 48 = r ∧
    Char.ofNat (48 + r) ≠ Char.ofNat 0 ∧ isspace (Char.ofNat (48 + r)) = false ∧
    Char.ofNat (48 + r) ≠ '-' ∧ Char.ofNat (48 + r) ≠ '+' := by
  interval_cases r <;> decide

theorem dec_digits_spec : ∀ (fuel n : Nat), n < fuel →
    dec_digits fuel n ≠ [] ∧
    (∀ c ∈ dec_digits fuel n, ∃ r, r < 10 ∧ c = Char.ofNat (48 + r)) ∧
    (dec_digits fuel n).foldl (fun a c => 10 * a + (c.toNat - 48)) 0 = n ∧
    (∀ k, n < 10 ^ (k + 1) → (dec_digits fuel n).length ≤ k + 1) := by
  intro fuel
  induction fuel with
  | zero => intro n hn; omega
  | succ fuel ih =>
    intro n hn
    by_cases h10 : n < 10
    · simp only [dec_digits, if_pos h10]
      refine ⟨by simp, ?_, ?_, ?_⟩
      · intro c hc
        simp only [List.mem_singleton] at hc
        exact ⟨n, h10, hc⟩
      · simp only [List.foldl_cons, List.foldl_nil, Nat.mul_zero, Nat.zero_add]
        exact (digit_char n h10).2.1
      · intro k _
        simp
    · simp only [dec_digits, if_neg h10]
      have hlt : n / 10 < fuel := by omega
      obtain ⟨_, h2, h3, h4⟩ := ih (n / 10) hlt
      have hmod : n % 10 < 10 := Nat.mod_lt _ (by decide)
      refine ⟨by simp, ?_, ?_, ?_⟩
      · intro c hc
        simp only [List.mem_append, List.mem_singleton] at hc
        rcases hc with hc | hc
        · exact h2 c hc
        · exact ⟨n % 10, hmod, hc⟩
      · rw [List.foldl_append, h3]
        simp only [List.foldl_cons, List.foldl_nil]
        rw [(digit_char (n % 10) hmod).2.1]
        omega
      · intro k hk
        cases k with
        | zero => omega
        | succ k =>
          have hk' : n / 10 < 10 ^ (k + 1) := by
            rw [Nat.div_lt_iff_lt_mul (by decide)]
            rw [pow_succ] at hk
            exact hk
          have := h4 k hk'
          simp only [List.length_append, List.length_singleton]
          omega

theorem str2num_digits (l : List Char) (hne : l ≠ [])
    (hd : ∀ c ∈ l, ∃ r, r < 10 ∧ c = Char.ofNat (48 + r))
    (hv : l.foldl (fun a c => 10 * a + (c.toNat - 48)) 0 < 2 ^ 63) :
    str2num l = some ((l.foldl (fun a c => 10 * a + (c.toNat - 48)) 0 : Nat) : Int) := by
  have hall : ∀ c ∈ l, c.isDigit = true ∧ c ≠ Char.ofNat 0 ∧ isspace c = false ∧
      c ≠ '-' ∧ c ≠ '+' := by
    intro c hc
    obtain ⟨r, hr, rfl⟩ := hd c hc
    obtain ⟨h1, _, h3, h4, h5, h6⟩ := digit_char r hr
    exact ⟨h1, h3, h4, h5, h6⟩
  have hcs : c_str l = l := by
    unfold c_str
    rw [List.takeWhile_eq_self_iff]
    intro c hc
    simp [(hall c hc).2.1]
  have htake : l.takeWhile Char.isDigit = l := by
    rw [List.takeWhile_eq_self_iff]
    intro c hc
    exact (hall c hc).1
  have hdrop : l.dropWhile Char.isDigit = [] := by
    rw [List.dropWhile_eq_nil_iff]
    intro c hc
    exact (hall c hc).1
  cases l with
  | nil => exact absurd rfl hne
  | cons c rest =>
    obtain ⟨_, _, hsp, hm, hpl⟩ := hall c (List.mem_cons_self _ _)
    have hds : (c :: rest).dropWhile isspace = c :: rest := by
      simp [List.dropWhile, hsp]
    unfold str2num
    simp only [hcs, hds]
    rw [if_neg (by simp)]
    simp [hm, hpl, htake, hdrop]
    simp only [List.foldl_cons, Nat.mul_zero, Nat.zero_add] at hv
    have hv2 : List.foldl (fun a c => 10 * a + (c.toNat - 48)) (c.toNat - 48) rest
        < 9223372036854775808 := lt_of_lt_of_le hv (by norm_num)
    constructor <;> omega

theorem foldl_zeros (k : Nat) :
    (List.replicate k '0').foldl (fun a c => 10 * a + (c.toNat - 48)) 0 = 0 := by
  induction k with
  | zero => rfl
  | succ k ih =>
    rw [List.replicate_succ, List.foldl_cons]
    exact ih

/-- The field `%010ld` of a size below `10^10`: ten characters that `str2num` reads back. -/
theorem fmt_010ld_spec (n : Nat) (hn : n < 10 ^ 10) :
    (fmt_010ld n).length = 10 ∧ str2num (fmt_010ld n) = some (n : Int) := by
  obtain ⟨h1, h2, h3, h4⟩ := dec_digits_spec (n + 1) n (Nat.lt_succ_self n)
  have hlen := h4 9 hn
  have hfold : (fmt_010ld n).foldl (fun a c => 10 * a + (c.toNat - 48)) 0 = n := by
    unfold fmt_010ld
    simp only [List.foldl_append, foldl_zeros]
    exact h3
  constructor
  · unfold fmt_010ld
    simp only [List.length_append, List.length_replicate]
    omega
  · have hv : (fmt_010ld n).foldl (fun a c => 10 * a + (c.toNat - 48)) 0 < 2 ^ 63 := by
      rw [hfold]
      exact lt_trans hn (by norm_num)
    have := str2num_digits (fmt_010ld n) ?_ ?_ hv
    · rw [this, hfold]
    · unfold fmt_010ld
      simp only [ne_eq, List.append_eq_nil, not_and]
      intro _
      exact h1
    · intro c hc
      unfold fmt_010ld at hc
      simp only [List.mem_append, List.mem_replicate] at hc
      rcases hc with ⟨_, hc⟩ | hc
      · exact ⟨0, by decide, hc.trans (by decide)⟩
      · exact h2 c hc

theorem file_destroy_counter {m m1 : Machine} {file : Ptr} {pl out : Option (List Int)}
    {dealloc : Bool} (h : file_destroy m file pl dealloc = some (m1, out)) :
    m1.storage.replacement_counter = m.storage.replacement_counter := by
  obtain ⟨f, _, _, _, _, _, hst, _⟩ := file_destroy_spec h
  rw [hst]

theorem storage_open_counter {m m1 : Machine} {pathname : List Char} {flags : Nat}
    {user : Int} {pl : Option (List Int)} {r : Except Errno Unit × Option (List Int)}
    (hr : storage_open m pathname flags pl user = some (m1, r)) :
    m1.storage.replacement_counter = m.storage.replacement_counter := by
  unfold storage_open at hr
  split at hr
  · cases hr; rfl
  · simp only at hr
    split at hr
    · split at hr
      · cases hr; rfl
      · split at hr
        · cases hr
        · cases hr; rfl
        · rename_i m2 out hroom
          cases hc : open_create m2 pathname (IS_SET O_LOCK flags) user with
          | none => simp [hc] at hr
          | some m4 =>
            simp only [hc, Option.map_some', Option.some.injEq, Prod.mk.injEq] at hr
            obtain ⟨rfl, _⟩ := hr
            obtain ⟨_, _, _, _, _, hst⟩ := open_create_spec hc
            rw [hst]
            simp only
            unfold open_make_room at hroom
            split at hroom
            · split at hroom
              · cases hroom
              · cases hroom
              · rename_i victim hv
                cases hd : file_destroy m victim pl true with
                | none => simp [hd] at hroom
                | some res =>
                  simp only [hd, Option.map_some', Option.some.injEq, Prod.mk.injEq] at hroom
                  obtain ⟨h1, _⟩ := hroom
                  obtain ⟨m3, o3⟩ := res
                  simp only at h1
                  subst h1
                  exact file_destroy_counter hd
            · simp only [Option.some.injEq, Prod.mk.injEq] at hroom
              obtain ⟨rfl, _⟩ := hroom
              rfl
    · split at hr
      · cases hr; rfl
      · split at hr
        · cases hr
        · split at hr
          · cases hr; rfl
          · split at hr
            · cases hr
            · cases hr; rfl

theorem storage_read_counter {m m1 : Machine} {pathname : List Char} {user : Int}
    {r : Except Errno (List Char × Nat)}
    (hr : storage_read m pathname user = some (m1, r)) :
    m1.storage.replacement_counter = m.storage.replacement_counter := by
  unfold storage_read at hr
  split at hr
  · cases hr; rfl
  · split at hr
    · cases hr; rfl
    · rename_i file _
      cases hf : deref m.mem file with
      | none => simp [hf] at hr
      | some f =>
        simp only [hf, Option.bind_eq_bind, Option.some_bind] at hr
        split at hr
        · cases hr; rfl
        · split at hr
          · cases hr; rfl
          · cases hr; rfl

theorem storage_lock_counter {m m1 : Machine} {pathname : List Char} {user : Int}
    {r : Except Errno Unit}
    (hr : storage_lock m pathname user = some (m1, r)) :
    m1.storage.replacement_counter = m.storage.replacement_counter := by
  unfold storage_lock at hr
  split at hr
  · cases hr; rfl
  · split at hr
    · cases hr; rfl
    · rename_i file _
      cases hf : deref m.mem file with
      | none => simp [hf] at hr
      | some f =>
        simp only [hf, Option.bind_eq_bind, Option.some_bind] at hr
        split at hr
        · cases he : enqueue_user f.pending_locks user with
          | none => simp [he] at hr
          | some pl =>
            simp only [he, Option.some_bind, pure, Option.some.injEq, Prod.mk.injEq] at hr
            obtain ⟨rfl, _⟩ := hr
            rfl
        · cases hr; rfl

theorem storage_unlock_counter {m m1 : Machine} {pathname : List Char} {user : Int}
    {r : Except Errno Int}
    (hr : storage_unlock m pathname user = some (m1, r)) :
    m1.storage.replacement_counter = m.storage.replacement_counter := by
  unfold storage_unlock at hr
  split at hr
  · cases hr; rfl
  · split at hr
    · cases hr; rfl
    · rename_i file _
      cases hf : deref m.mem file with
      | none => simp [hf] at hr
      | some f =>
        simp only [hf, Option.bind_eq_bind, Option.some_bind] at hr
        split at hr
        · cases hr; rfl
        · cases hr; rfl

theorem storage_close_counter {m m1 : Machine} {pathname : List Char} {user : Int}
    {r : Except Errno Unit}
    (hr : storage_close m pathname user = some (m1, r)) :
    m1.storage.replacement_counter = m.storage.replacement_counter := by
  unfold storage_close at hr
  split at hr
  · cases hr; rfl
  · split at hr
    · cases hr; rfl
    · rename_i file _
      cases hf : deref m.mem file with
      | none => simp [hf] at hr
      | some f =>
        simp only [hf, Option.bind_eq_bind, Option.some_bind] at hr
        split at hr
        · cases hr; rfl
        · cases hr; rfl

theorem storage_remove_counter {m m1 : Machine} {pathname : List Char} {user : Int}
    {pl : Option (List Int)} {r : Except Errno Unit × Option (List Int)}
    (hr : storage_remove m pathname pl user = some (m1, r)) :
    m1.storage.replacement_counter = m.storage.replacement_counter := by
  unfold storage_remove at hr
  split at hr
  · cases hr; rfl
  · split at hr
    · cases hr; rfl
    · rename_i file hfind
      cases hf : deref m.mem file with
      | none => simp [hf] at hr
      | some f =>
        simp only [hf, Option.bind_eq_bind, Option.some_bind] at hr
        split at hr
        · cases hr; rfl
        · cases hd : file_destroy m file pl true with
          | none => simp [hd] at hr
          | some res =>
            obtain ⟨m2, out⟩ := res
            simp only [hd, Option.some_bind, pure, Option.some.injEq, Prod.mk.injEq] at hr
            obtain ⟨rfl, _⟩ := hr
            exact file_destroy_counter hd

theorem storage_user_exit_counter {m m1 : Machine} {pl : List Int} {user : Int}
    {r : Except Errno Unit × List Int}
    (hr : storage_user_exit m pl user = some (m1, r)) :
    m1.storage.replacement_counter = m.storage.replacement_counter := by
  unfold storage_user_exit at hr
  split at hr
  · cases hr; rfl
  · cases hl : user_exit_loop user (m.mem.length + 1) m.mem m.storage.head pl with
    | none => simp [hl] at hr
    | some res =>
      simp only [hl, Option.map_some', Option.some.injEq, Prod.mk.injEq] at hr
      obtain ⟨rfl, _⟩ := hr
      rfl

theorem append_evict_loop_counter (file : Ptr) (nfs : Nat) :
    ∀ (fuel : Nat) (m m1 : Machine) (pl pl1 : List Int) (rl rl1 : Option Ptr)
      (r : Except Errno Unit),
      append_evict_loop file nfs fuel m pl rl = some (m1, r, pl1, rl1) →
      m1.storage.replacement_counter = m.storage.replacement_counter := by
  intro fuel
  induction fuel with
  | zero =>
    intro m m1 pl pl1 rl rl1 r hl
    simp [append_evict_loop] at hl
  | succ fuel ih =>
    intro m m1 pl pl1 rl rl1 r hl
    simp only [append_evict_loop] at hl
    cases hf : deref m.mem file with
    | none => simp [hf] at hl
    | some f =>
      simp only [hf] at hl
      split at hl
      · split at hl
        · cases hl
        · cases hl; rfl
        · rename_i victim hv
          cases ha : assign_next m.mem victim rl with
          | none => simp [ha] at hl
          | some mem1 =>
            simp only [ha] at hl
            cases hd : file_destroy { m with mem := mem1 } victim (some []) false with
            | none => simp [hd] at hl
            | some res =>
              obtain ⟨m2, tmp⟩ := res
              simp only [hd] at hl
              rw [ih _ _ _ _ _ _ _ hl]
              exact file_destroy_counter (m := { m with mem := mem1 }) hd
      · cases hl; rfl

theorem storage_append_counter {m m1 : Machine} {pathname new_content : List Char}
    {pl pl1 : List Int} {rl rl1 : Option Ptr} {user : Int} {r : Except Errno Unit}
    (hr : storage_append m pathname new_content pl rl user = some (m1, r, pl1, rl1)) :
    m1.storage.replacement_counter = m.storage.replacement_counter := by
  unfold storage_append at hr
  split at hr
  · cases hr; rfl
  · split at hr
    · cases hr; rfl
    · rename_i file hfind
      cases hf : deref m.mem file with
      | none => simp [hf] at hr
      | some f =>
        simp only [hf, Option.bind_eq_bind, Option.some_bind] at hr
        split at hr
        · cases hr; rfl
        · split at hr
          · cases hr; rfl
          · split at hr
            · cases hr; rfl
            · cases hl : append_evict_loop file (f.size + new_content.length)
                  (m.storage.dictionary.length + 1) m pl rl with
              | none => simp [hl] at hr
              | some res =>
                obtain ⟨m2, r2, pl2, rl2⟩ := res
                have hc := append_evict_loop_counter _ _ _ _ _ _ _ _ _ _ hl
                simp only [hl, Option.some_bind] at hr
                cases r2 with
                | error e =>
                  simp only [pure, Option.some.injEq, Prod.mk.injEq] at hr
                  obtain ⟨rfl, _⟩ := hr
                  exact hc
                | ok u =>
                  simp only at hr
                  cases hf1 : deref m2.mem file with
                  | none => simp [hf1] at hr
                  | some f1 =>
                    simp only [hf1, Option.some_bind, pure, Option.some.injEq,
                      Prod.mk.injEq] at hr
                    obtain ⟨rfl, _⟩ := hr
                    exact hc

theorem worker_append_counter {m m1 : Machine} {client : Int}
    {pathname new_content : List Char} {ev : List Event}
    (hw : worker_append m client pathname new_content = some (m1, ev)) :
    m1.storage.replacement_counter = m.storage.replacement_counter := by
  unfold worker_append at hw
  cases ha : storage_append m pathname new_content [] none client with
  | none => simp [ha] at hw
  | some res =>
    obtain ⟨m2, r, pl, rl⟩ := res
    have hc := storage_append_counter ha
    simp only [ha, Option.bind_eq_bind, Option.some_bind] at hw
    cases r with
    | error e =>
      simp only [pure, Option.some.injEq, Prod.mk.injEq] at hw
      obtain ⟨rfl, _⟩ := hw
      exact hc
    | ok u =>
      simp only at hw
      cases hs : send_removed_files client (m2.mem.length + 1) m2.mem rl with
      | none => simp [hs] at hw
      | some res2 =>
        simp only [hs, Option.some_bind, pure, Option.some.injEq, Prod.mk.injEq] at hw
        obtain ⟨rfl, _⟩ := hw
        exact hc

/-- No request handled by a worker changes `replacement_counter`. -/
theorem worker_counter {m m1 : Machine} {client : Int} {req : Request}
    {out : List Event} (hw : worker m client req = some (m1, out)) :
    m1.storage.replacement_counter = m.storage.replacement_counter := by
  cases req with
  | open_file payload flags_buffer =>
    simp only [worker] at hw
    split at hw
    · cases hw; rfl
    · rename_i flags _
      cases ho : storage_open m (c_str payload) flags.toNat (some []) client with
      | none => simp [ho] at hw
      | some res =>
        obtain ⟨m2, r⟩ := res
        have hi := storage_open_counter ho
        simp only [ho, Option.map_some', Option.some.injEq] at hw
        split at hw <;> (cases hw; exact hi)
  | read_file payload =>
    simp only [worker] at hw
    cases ho : storage_read m (c_str payload) client with
    | none => simp [ho] at hw
    | some res =>
      obtain ⟨m2, r⟩ := res
      have hi := storage_read_counter ho
      simp only [ho, Option.map_some', Option.some.injEq] at hw
      split at hw <;> (cases hw; exact hi)
  | read_n_files n_buffer =>
    simp only [worker] at hw
    split at hw
    · cases hw; rfl
    · rename_i n _
      cases ho : storage_read_many m n client with
      | none => simp [ho] at hw
      | some res =>
        obtain ⟨m2, r⟩ := res
        have hi := storage_read_many_same ho
        simp only [ho, Option.map_some', Option.some.injEq] at hw
        split at hw <;> (cases hw; rw [hi])
  | write_file payload content =>
    simp only [worker] at hw
    split at hw
    · cases hw
    · cases hw; rfl
    · cases ho : worker_append m client (c_str payload) content with
      | none => simp [ho] at hw
      | some res =>
        obtain ⟨m2, r⟩ := res
        have hi := worker_append_counter ho
        simp only [ho, Option.map_some', Option.some.injEq, Prod.mk.injEq] at hw
        obtain ⟨rfl, _⟩ := hw
        exact hi
  | append_to_file payload content =>
    simp only [worker] at hw
    cases ho : worker_append m client (c_str payload) content with
    | none => simp [ho] at hw
    | some res =>
      obtain ⟨m2, r⟩ := res
      have hi := worker_append_counter ho
      simp only [ho, Option.map_some', Option.some.injEq, Prod.mk.injEq] at hw
      obtain ⟨rfl, _⟩ := hw
      exact hi
  | lock_file payload =>
    simp only [worker] at hw
    cases ho : storage_lock m (c_str payload) client with
    | none => simp [ho] at hw
    | some res =>
      obtain ⟨m2, r⟩ := res
      have hi := storage_lock_counter ho
      simp only [ho, Option.map_some', Option.some.injEq] at hw
      split at hw <;> (cases hw; exact hi)
  | unlock_file payload =>
    simp only [worker] at hw
    cases ho : storage_unlock m (c_str payload) client with
    | none => simp [ho] at hw
    | some res =>
      obtain ⟨m2, r⟩ := res
      have hi := storage_unlock_counter ho
      simp only [ho, Option.map_some', Option.some.injEq] at hw
      split at hw <;> (cases hw; exact hi)
  | close_file payload =>
    simp only [worker] at hw
    cases ho : storage_close m (c_str payload) client with
    | none => simp [ho] at hw
    | some res =>
      obtain ⟨m2, r⟩ := res
      have hi := storage_close_counter ho
      simp only [ho, Option.map_some', Option.some.injEq] at hw
      split at hw <;> (cases hw; exact hi)
  | remove_file payload =>
    simp only [worker] at hw
    cases ho : storage_remove m (c_str payload) (some []) client with
    | none => simp [ho] at hw
    | some res =>
      obtain ⟨m2, r⟩ := res
      have hi := storage_remove_counter ho
      simp only [ho, Option.map_some', Option.some.injEq] at hw
      split at hw <;> (cases hw; exact hi)
  | other payload =>
    simp only [worker, Option.some.injEq, Prod.mk.injEq] at hw
    obtain ⟨rfl, _⟩ := hw
    rfl
  | client_left =>
    simp only [worker] at hw
    split at hw
    · cases hw
    · cases hw
    · rename_i m2 pending_clients ho
      simp only [Option.some.injEq, Prod.mk.injEq] at hw
      obtain ⟨rfl, _⟩ := hw
      exact storage_user_exit_counter ho

theorem fmt_010ld_length_ge (n : Nat) : 10 ≤ (fmt_010ld n).length := by
  unfold fmt_010ld
  simp only [List.length_append, List.length_replicate]
  omega

theorem SEND_FILE_length (f : file_t) (c : List Char) :
    METADATA_LENGTH ≤ (SEND_FILE f c).length := by
  unfold SEND_FILE METADATA_LENGTH
  have h1 := fmt_010ld_length_ge f.pathname.length
  have h2 := fmt_010ld_length_ge f.size
  simp only [List.length_append, List.length_take]
  omega

theorem send_removed_files_data (fd : Int) :
    ∀ (fuel : Nat) (mem mem2 : List (Option file_t)) (p : Option Ptr) (sent : List Event),
      send_removed_files fd fuel mem p = some (mem2, sent) →
      ∃ data : List (List Char), sent = data.map (Event.send fd) ∧
        ∀ d ∈ data, METADATA_LENGTH ≤ d.length := by
  intro fuel
  induction fuel with
  | zero =>
    intro mem mem2 p sent hs
    cases p with
    | none =>
      simp only [send_removed_files, Option.some.injEq, Prod.mk.injEq] at hs
      exact ⟨[], hs.2.symm, by simp⟩
    | some q => simp [send_removed_files] at hs
  | succ fuel ih =>
    intro mem mem2 p sent hs
    cases p with
    | none =>
      simp only [send_removed_files, Option.some.injEq, Prod.mk.injEq] at hs
      exact ⟨[], hs.2.symm, by simp⟩
    | some q =>
      simp only [send_removed_files] at hs
      cases hf : deref mem q with
      | none => simp [hf] at hs
      | some f =>
        simp only [hf] at hs
        cases hc : storage_copy f 0 with
        | none => simp [hc] at hs
        | some c =>
          simp only [hc] at hs
          cases hr : send_removed_files fd fuel (file_dealloc mem q) f.next with
          | none => simp [hr] at hs
          | some res =>
            obtain ⟨mem3, sent3⟩ := res
            simp only [hr, Option.map_some', Option.some.injEq, Prod.mk.injEq] at hs
            obtain ⟨data, hd1, hd2⟩ := ih _ _ _ _ hr
            refine ⟨SEND_FILE f c :: data, ?_, ?_⟩
            · rw [← hs.2, hd1]
              rfl
            · intro d hd
              simp only [List.mem_cons] at hd
              rcases hd with rfl | hd
              · exact SEND_FILE_length f c
              · exact hd2 d hd

theorem read_many_fill_length {files : List file_t} {b : List Char} (hne : files ≠ [])
    (hb : read_many_fill files = some b) : METADATA_LENGTH ≤ b.length := by
  cases files with
  | nil => exact absurd rfl hne
  | cons f rest =>
    simp only [read_many_fill] at hb
    split at hb
    · simp only [Option.some.injEq] at hb
      rw [← hb]
      have h1 := fmt_010ld_length_ge f.pathname.length
      simp only [List.length_append, METADATA_LENGTH]
      omega
    · cases hb

theorem handed_out_getD (f : file_t) :
    (handed_out f (some [])).getD [] = f.pending_locks := by
  unfold handed_out
  by_cases e : f.pending_locks = []
  · simp [e]
  · simp [e]

theorem storage_open_notified {m m1 : Machine} {pathname : List Char} {flags : Nat}
    {user : Int} {r : Except Errno Unit} {out : Option (List Int)} (h : WF m)
    (hr : storage_open m pathname flags (some []) user = some (m1, r, out)) :
    ∀ u ∈ out.getD [], waiting_in m u := by
  unfold storage_open at hr
  split at hr
  · cases hr; simp
  · simp only at hr
    split at hr
    · split at hr
      · cases hr; simp
      · split at hr
        · cases hr
        · cases hr; simp
        · rename_i m2 out2 hroom
          cases hc : open_create m2 pathname (IS_SET O_LOCK flags) user with
          | none => simp [hc] at hr
          | some m4 =>
            simp only [hc, Option.map_some', Option.some.injEq, Prod.mk.injEq] at hr
            obtain ⟨_, _, rfl⟩ := hr
            unfold open_make_room at hroom
            split at hroom
            · split at hroom
              · cases hroom
              · cases hroom
              · rename_i victim hv
                cases hd : file_destroy m victim (some []) true with
                | none => simp [hd] at hroom
                | some res =>
                  simp only [hd, Option.map_some', Option.some.injEq, Prod.mk.injEq] at hroom
                  obtain ⟨_, h2⟩ := hroom
                  obtain ⟨⟨kv, hkv⟩, _⟩ := get_victim_stored h hv
                  obtain ⟨f, hf, _, _, _, _, _, hout⟩ := file_destroy_spec hd
                  intro u hu
                  rw [← h2, hout, handed_out_getD] at hu
                  exact ⟨kv, victim, f, hkv, hf, hu⟩
            · simp only [Option.some.injEq, Prod.mk.injEq] at hroom
              obtain ⟨_, rfl⟩ := hroom
              simp
    · split at hr
      · cases hr; simp
      · split at hr
        · cases hr
        · split at hr
          · cases hr; simp
          · split at hr
            · cases hr
            · cases hr; simp

theorem storage_remove_notified {m m1 : Machine} {pathname : List Char} {user : Int}
    {r : Except Errno Unit} {out : Option (List Int)}
    (hr : storage_remove m pathname (some []) user = some (m1, r, out)) :
    ∀ u ∈ out.getD [], waiting_in m u := by
  unfold storage_remove at hr
  split at hr
  · cases hr; simp
  · split at hr
    · cases hr; simp
    · rename_i file hfind
      cases hf : deref m.mem file with
      | none => simp [hf] at hr
      | some f =>
        simp only [hf, Option.bind_eq_bind, Option.some_bind] at hr
        split at hr
        · cases hr; simp
        · cases hd : file_destroy m file (some []) true with
          | none => simp [hd] at hr
          | some res =>
            obtain ⟨m2, out2⟩ := res
            simp only [hd, Option.some_bind, pure, Option.some.injEq, Prod.mk.injEq] at hr
            obtain ⟨_, _, rfl⟩ := hr
            obtain ⟨f', hf', _, _, _, _, _, hout⟩ := file_destroy_spec hd
            rw [hf] at hf'
            cases hf'
            intro u hu
            rw [hout, handed_out_getD] at hu
            exact ⟨pathname, file, f, (storage_find_ok hfind).1, hf, hu⟩

theorem storage_append_notified {m m1 : Machine} {pathname new_content : List Char}
    {pl1 : List Int} {user : Int} {r : Except Errno Unit} {rl1 : Option Ptr} (h : WF m)
    (hr : storage_append m pathname new_content [] none user = some (m1, r, pl1, rl1)) :
    ∀ u ∈ pl1, waiting_in m u := by
  rcases storage_append_spec h hr with ⟨_, rfl, _, _⟩ |
    ⟨file, f, m0, hmem, hf, _, _, _, hloop, _⟩
  · simp
  · rcases hloop with ⟨_, rfl, _⟩ | ⟨v, mem1, out, _, hv, ha, hd, rfl, _⟩
    · simp
    · obtain ⟨fv, hfv, _, _, hkv, _, _, _, _, _, _, _, hout⟩ := evict_step_spec h hv ha hd
      intro u hu
      simp only [concatenate_lists, List.nil_append] at hu
      rw [hout, handed_out_getD] at hu
      exact ⟨_, v, fv, hkv, hfv, hu⟩

theorem answer_plain (client : Int) (code : Nat) :
    [SEND_RESPONSE client code, Event.relay (fmt_04d client)] = answer client code [] 0 [] :=
  rfl

theorem answer_notify (client : Int) (code : Nat) (others : List Int) (code2 : Nat) :
    [SEND_RESPONSE client code] ++ NOTIFY_PENDING_CLIENTS others code2
        ++ [Event.relay (fmt_04d client)] = answer client code others code2 [] := by
  simp [answer]

/-- What a worker writes for a request, when it returns: nothing for a lockFile that is left
pending; otherwise one response code for the client, notifications of clients that were
waiting for a lock, data blocks for the client, and the descriptor of the client. -/
theorem worker_answer {m m1 : Machine} {client : Int} {req : Request} {out : List Event}
    (h : WF m) (hw : worker m client req = some (m1, out)) (hreq : req ≠ .client_left) :
    (out = [] ∧ ∃ payload, req = .lock_file payload ∧
      storage_lock m (c_str payload) client = some (m1, .error .EINPROGRESS)) ∨
    (∃ code others code2 data, out = answer client code others code2 data ∧
      (∀ u ∈ others, waiting_in m u) ∧ (∀ d ∈ data, METADATA_LENGTH ≤ d.length) ∧
      ∀ payload, req = .lock_file payload →
        storage_lock m (c_str payload) client ≠ some (m1, .error .EINPROGRESS)) := by
  have plain : ∀ code, out = [SEND_RESPONSE client code, Event.relay (fmt_04d client)] →
      (∀ payload, req = .lock_file payload →
        storage_lock m (c_str payload) client ≠ some (m1, .error .EINPROGRESS)) →
      ∃ code others code2 data, out = answer client code others code2 data ∧
      (∀ u ∈ others, waiting_in m u) ∧ (∀ d ∈ data, METADATA_LENGTH ≤ d.length) ∧
      ∀ payload, req = .lock_file payload →
        storage_lock m (c_str payload) client ≠ some (m1, .error .EINPROGRESS) := by
    intro code ho hl
    exact ⟨code, [], 0, [], ho.trans (answer_plain client code), by simp, by simp, hl⟩
  cases req with
  | open_file payload flags_buffer =>
    right
    simp only [worker] at hw
    split at hw
    · simp only [Option.some.injEq, Prod.mk.injEq] at hw
      exact plain _ hw.2.symm (fun _ hp => by cases hp)
    · rename_i flags _
      cases ho : storage_open m (c_str payload) flags.toNat (some []) client with
      | none => simp [ho] at hw
      | some res =>
        obtain ⟨m2, r, o2⟩ := res
        have hn := storage_open_notified h ho
        simp only [ho, Option.map_some', Option.some.injEq] at hw
        cases r with
        | error e =>
          simp only [Prod.mk.injEq] at hw
          exact plain _ hw.2.symm (fun _ hp => by cases hp)
        | ok u =>
          simp only [Prod.mk.injEq] at hw
          exact ⟨RESPONSE_OK, o2.getD [], FILE_NOT_FOUND, [],
            hw.2.symm.trans (answer_notify _ _ _ _), hn, by simp, fun _ hp => by cases hp⟩
  | read_file payload =>
    right
    simp only [worker] at hw
    cases ho : storage_read m (c_str payload) client with
    | none => simp [ho] at hw
    | some res =>
      obtain ⟨m2, r⟩ := res
      simp only [ho, Option.map_some', Option.some.injEq] at hw
      cases r with
      | error e =>
        simp only [Prod.mk.injEq] at hw
        exact plain _ hw.2.symm (fun _ hp => by cases hp)
      | ok res2 =>
        obtain ⟨file_buffer, file_size⟩ := res2
        simp only [Prod.mk.injEq] at hw
        refine ⟨RESPONSE_OK, [], 0,
          [(fmt_010ld file_size).take METADATA_LENGTH ++ file_buffer.take file_size],
          hw.2.symm, by simp, ?_, fun _ hp => by cases hp⟩
        intro d hd
        simp only [List.mem_singleton] at hd
        subst hd
        have := fmt_010ld_length_ge file_size
        simp only [List.length_append, List.length_take, METADATA_LENGTH]
        omega
  | read_n_files n_buffer =>
    right
    simp only [worker] at hw
    split at hw
    · simp only [Option.some.injEq, Prod.mk.injEq] at hw
      exact plain _ hw.2.symm (fun _ hp => by cases hp)
    · rename_i n _
      cases ho : storage_read_many m n client with
      | none => simp [ho] at hw
      | some res =>
        obtain ⟨m2, r⟩ := res
        simp only [ho, Option.map_some', Option.some.injEq] at hw
        cases r with
        | error e =>
          simp only [Prod.mk.injEq] at hw
          exact plain _ hw.2.symm (fun _ hp => by cases hp)
        | ok res2 =>
          obtain ⟨cnt, files_buffer, files_size⟩ := res2
          simp only [Prod.mk.injEq] at hw
          refine ⟨RESPONSE_OK, [], 0,
            [(files_buffer ++ [Char.ofNat 0]).take files_size, END_OF_CONTENT],
            hw.2.symm, by simp, ?_, fun _ hp => by cases hp⟩
          have hlen : METADATA_LENGTH ≤ files_buffer.length ∧ METADATA_LENGTH ≤ files_size := by
            unfold storage_read_many at ho
            split at ho
            · cases ho
            · cases hl : read_many_loop m.mem n (m.mem.length + 1) m.storage.head 0 with
              | none => simp [hl] at ho
              | some files =>
                simp only [hl, Option.bind_eq_bind, Option.some_bind] at ho
                split at ho
                · cases ho
                · rename_i hne
                  split at ho
                  · cases ho
                  · rename_i buffer hfill
                    simp only [pure, Option.some.injEq, Prod.mk.injEq, Except.ok.injEq] at ho
                    obtain ⟨_, _, hb, hs⟩ := ho
                    refine ⟨hb ▸ read_many_fill_length hne hfill, ?_⟩
                    rw [← hs]
                    cases files with
                    | nil => exact absurd rfl hne
                    | cons f rest =>
                      simp only [List.map_cons, List.sum_cons, METADATA_LENGTH]
                      omega
          intro d hd
          simp only [List.mem_cons, List.mem_singleton, List.not_mem_nil, or_false] at hd
          rcases hd with rfl | rfl
          · simp only [List.length_take, List.length_append, List.length_singleton]
            have h1 := hlen.1
            have h2 := hlen.2
            omega
          · decide
  | write_file payload content =>
    right
    simp only [worker] at hw
    split at hw
    · cases hw
    · simp only [Option.some.injEq, Prod.mk.injEq] at hw
      exact plain _ hw.2.symm (fun _ hp => by cases hp)
    · cases ho : worker_append m client (c_str payload) content with
      | none => simp [ho] at hw
      | some res =>
        obtain ⟨m2, ev⟩ := res
        simp only [ho, Option.map_some', Option.some.injEq, Prod.mk.injEq] at hw
        obtain ⟨_, hout⟩ := hw
        unfold worker_append at ho
        cases ha : storage_append m (c_str payload) content [] none client with
        | none => simp [ha] at ho
        | some res2 =>
          obtain ⟨m3, r, pl, rl⟩ := res2
          have hn := storage_append_notified h ha
          simp only [ha, Option.bind_eq_bind, Option.some_bind] at ho
          cases r with
          | error e =>
            simp only [pure, Option.some.injEq, Prod.mk.injEq] at ho
            obtain ⟨_, rfl⟩ := ho
            exact plain _ hout.symm (fun _ hp => by cases hp)
          | ok u =>
            simp only at ho
            cases hs : send_removed_files client (m3.mem.length + 1) m3.mem rl with
            | none => simp [hs] at ho
            | some res3 =>
              obtain ⟨mem4, sent⟩ := res3
              simp only [hs, Option.some_bind, pure, Option.some.injEq, Prod.mk.injEq] at ho
              obtain ⟨_, rfl⟩ := ho
              obtain ⟨data, hd1, hd2⟩ := send_removed_files_data client _ _ _ _ _ hs
              refine ⟨RESPONSE_OK, pl, FILE_NOT_FOUND, data ++ [END_OF_CONTENT], ?_, hn, ?_,
                fun _ hp => by cases hp⟩
              · rw [← hout, hd1]
                simp [answer]
              · intro d hd
                simp only [List.mem_append, List.mem_singleton] at hd
                rcases hd with hd | rfl
                · exact hd2 d hd
                · decide
  | append_to_file payload content =>
    right
    simp only [worker] at hw
    cases ho : worker_append m client (c_str payload) content with
    | none => simp [ho] at hw
    | some res =>
      obtain ⟨m2, ev⟩ := res
      simp only [ho, Option.map_some', Option.some.injEq, Prod.mk.injEq] at hw
      obtain ⟨_, hout⟩ := hw
      unfold worker_append at ho
      cases ha : storage_append m (c_str payload) content [] none client with
      | none => simp [ha] at ho
      | some res2 =>
        obtain ⟨m3, r, pl, rl⟩ := res2
        have hn := storage_append_notified h ha
        simp only [ha, Option.bind_eq_bind, Option.some_bind] at ho
        cases r with
        | error e =>
          simp only [pure, Option.some.injEq, Prod.mk.injEq] at ho
          obtain ⟨_, rfl⟩ := ho
          exact plain _ hout.symm (fun _ hp => by cases hp)
        | ok u =>
          simp only at ho
          cases hs : send_removed_files client (m3.mem.length + 1) m3.mem rl with
          | none => simp [hs] at ho
          | some res3 =>
            obtain ⟨mem4, sent⟩ := res3
            simp only [hs, Option.some_bind, pure, Option.some.injEq, Prod.mk.injEq] at ho
            obtain ⟨_, rfl⟩ := ho
            obtain ⟨data, hd1, hd2⟩ := send_removed_files_data client _ _ _ _ _ hs
            refine ⟨RESPONSE_OK, pl, FILE_NOT_FOUND, data ++ [END_OF_CONTENT], ?_, hn, ?_,
              fun _ hp => by cases hp⟩
            · rw [← hout, hd1]
              simp [answer]
            · intro d hd
              simp only [List.mem_append, List.mem_singleton] at hd
              rcases hd with hd | rfl
              · exact hd2 d hd
              · decide
  | lock_file payload =>
    simp only [worker] at hw
    cases ho : storage_lock m (c_str payload) client with
    | none => simp [ho] at hw
    | some res =>
      obtain ⟨m2, r⟩ := res
      simp only [ho, Option.map_some', Option.some.injEq] at hw
      cases r with
      | error e =>
        by_cases he : e = .EINPROGRESS
        · subst he
          simp only [Prod.mk.injEq] at hw
          obtain ⟨rfl, rfl⟩ := hw
          exact Or.inl ⟨rfl, payload, rfl, ho⟩
        · right
          have hout : m2 = m1 ∧
              [SEND_RESPONSE client (error_code e), Event.relay (fmt_04d client)] = out := by
            cases e <;> first | exact absurd rfl he | simpa using hw
          refine plain _ hout.2.symm ?_
          intro p hp
          cases hp
          rw [ho]
          intro hx
          simp only [Option.some.injEq, Prod.mk.injEq, Except.error.injEq] at hx
          exact he hx.2
      | ok u =>
        right
        simp only [Prod.mk.injEq] at hw
        refine plain _ hw.2.symm ?_
        intro p hp
        cases hp
        rw [ho]
        intro hx
        simp only [Option.some.injEq, Prod.mk.injEq] at hx
        cases hx.2
  | unlock_file payload =>
    right
    simp only [worker] at hw
    cases ho : storage_unlock m (c_str payload) client with
    | none => simp [ho] at hw
    | some res =>
      obtain ⟨m2, r⟩ := res
      simp only [ho, Option.map_some', Option.some.injEq] at hw
      cases r with
      | error e =>
        simp only [Prod.mk.injEq] at hw
        exact plain _ hw.2.symm (fun _ hp => by cases hp)
      | ok pending_client =>
        simp only [Prod.mk.injEq] at hw
        obtain ⟨_, hout⟩ := hw
        by_cases hpc : pending_client = 0
        · rw [if_neg (by simpa using hpc)] at hout
          exact plain _ hout.symm (fun _ hp => by cases hp)
        · rw [if_pos hpc] at hout
          refine ⟨RESPONSE_OK, [pending_client], RESPONSE_OK, [], ?_, ?_, by simp,
            fun _ hp => by cases hp⟩
          · rw [← hout]
            simp [answer, NOTIFY_PENDING_CLIENTS]
          · intro u hu
            simp only [List.mem_singleton] at hu
            subst hu
            unfold storage_unlock at ho
            split at ho
            · cases ho
            · split at ho
              · cases ho
              · rename_i file hfind
                cases hf : deref m.mem file with
                | none => simp [hf] at ho
                | some f =>
                  simp only [hf, Option.bind_eq_bind, Option.some_bind] at ho
                  split at ho
                  · simp only [dequeue_front, pure, Option.some.injEq, Prod.mk.injEq,
                      Except.ok.injEq] at ho
                    obtain ⟨_, hpc2⟩ := ho
                    refine ⟨_, file, f, (storage_find_ok hfind).1, hf, ?_⟩
                    cases hp : f.pending_locks with
                    | nil =>
                      rw [hp] at hpc2
                      exact absurd hpc2.symm hpc
                    | cons x t =>
                      rw [hp] at hpc2
                      simp only [List.headD_cons] at hpc2
                      rw [← hpc2]
                      exact List.mem_cons_self _ _
                  · cases ho
  | close_file payload =>
    right
    simp only [worker] at hw
    cases ho : storage_close m (c_str payload) client with
    | none => simp [ho] at hw
    | some res =>
      obtain ⟨m2, r⟩ := res
      simp only [ho, Option.map_some', Option.some.injEq] at hw
      cases r with
      | error e =>
        simp only [Prod.mk.injEq] at hw
        exact plain _ hw.2.symm (fun _ hp => by cases hp)
      | ok u =>
        simp only [Prod.mk.injEq] at hw
        exact plain _ hw.2.symm (fun _ hp => by cases hp)
  | remove_file payload =>
    right
    simp only [worker] at hw
    cases ho : storage_remove m (c_str payload) (some []) client with
    | none => simp [ho] at hw
    | some res =>
      obtain ⟨m2, r, o2⟩ := res
      have hn := storage_remove_notified ho
      simp only [ho, Option.map_some', Option.some.injEq] at hw
      cases r with
      | error e =>
        simp only [Prod.mk.injEq] at hw
        exact plain _ hw.2.symm (fun _ hp => by cases hp)
      | ok u =>
        simp only [Prod.mk.injEq] at hw
        exact ⟨RESPONSE_OK, o2.getD [], FILE_NOT_FOUND, [],
          hw.2.symm.trans (answer_notify _ _ _ _), hn, by simp, fun _ hp => by cases hp⟩
  | other payload =>
    right
    simp only [worker, Option.some.injEq, Prod.mk.injEq] at hw
    exact plain _ hw.2.symm (fun _ hp => by cases hp)
  | client_left => exact absurd rfl hreq

theorem step_modified_inv {m m1 : Machine} {client : Int} {req : Request}
    {out : List Event} (h : WF m) (hw : worker m client req = some (m1, out))
    (hQ : all_files modified_inv m) : all_files modified_inv m1 := by
  refine step_all_files h hw ?_ ?_ ?_ hQ
  · intro k f1 f hs hq
    unfold same_file at hs
    rw [hs]
    exact hq
  · intro k g hg
    cases req <;> simp only [created] at hg
    obtain ⟨_, hk, _, hg | hg⟩ := hg <;> (rw [hg]; intro hm; cases hm)
  · intro k q f g _ _ ht hq
    cases req <;> simp only [touched] at ht
    · obtain ⟨_, _, ht | ⟨_, ht⟩⟩ := ht <;> (rw [ht]; exact hq)
    · obtain ⟨_, _, _, ht⟩ := ht
      rw [ht]; exact hq
    · obtain ⟨_, _, _, hne, ht⟩ := ht
      rw [ht]
      intro _
      have := List.length_pos.mpr hne
      simp only
      omega
    · obtain ⟨_, _, _, hne, ht⟩ := ht
      rw [ht]
      intro _
      have := List.length_pos.mpr hne
      simp only
      omega
    · obtain ⟨_, hc, ⟨_, ht⟩ | ⟨_, _, ht⟩⟩ := ht
      · rw [ht]; exact hq
      · rw [ht]; exact hq
    · obtain ⟨_, _, _, ht⟩ := ht
      rw [ht]; exact hq
    · obtain ⟨_, _, _, ht⟩ := ht
      rw [ht]; exact hq
    · obtain ⟨_, ht⟩ := ht
      obtain ⟨h1, h2, _, _⟩ := exit_file_bytes client f
      rw [ht]
      unfold modified_inv
      rw [h1, h2]
      exact hq

theorem reachable_modified_inv {a b : Nat} {m : Machine} (h : Reachable a b m) :
    all_files modified_inv m := by
  induction h with
  | init => exact all_files_create _ _ _
  | step hreach _ hw ih => exact step_modified_inv (reachable_inv hreach).1 hw ih

/-- In a well-formed state whose `tail` is live, `storage_open` returns. -/
theorem storage_open_total {m : Machine} (h : WF m) (htl : tail_live m)
    (pathname : List Char) (flags : Nat) (pl : Option (List Int)) (user : Int) :
    ∃ r, storage_open m pathname flags pl user = some r := by
  unfold storage_open
  split
  · exact ⟨_, rfl⟩
  · rename_i hpre
    have hu : 0 < user := by
      by_contra hx
      exact hpre (Or.inr (by omega))
    have hp : pathname ≠ [] := fun e => hpre (Or.inl e)
    simp only
    cases hfind : storage_find m.storage pathname with
    | error e =>
      simp only
      split
      · exact ⟨_, rfl⟩
      · have habs := (storage_find_error hfind hp).2
        have hroom : ∃ r, open_make_room m pl = some r ∧
            ∀ m0 out, r = (some m0, out) → ∃ m1,
              open_create m0 pathname (IS_SET O_LOCK flags) user = some m1 := by
          unfold open_make_room
          split
          · obtain ⟨ov, hv⟩ := get_victim_total h none
            rw [hv]
            cases ov with
            | none =>
              refine ⟨_, rfl, ?_⟩
              intro m0 out hx
              cases hx
            | some v =>
              obtain ⟨⟨kv, hkv⟩, fv, hfv, _, _⟩ := get_victim_stored h hv
              have hkv' : (fv.pathname, v) ∈ m.storage.dictionary := by
                obtain ⟨f', hf', hk'⟩ := wf_live h hkv
                rw [hfv] at hf'
                cases hf'
                rw [hk']
                exact hkv
              obtain ⟨⟨m0, out0⟩, hd⟩ := file_destroy_total (m := m) pl true hfv
                (get_victim_previous h hv fv · hfv)
                (fun y hy => by
                  obtain ⟨ky, hky⟩ := h.next_in kv v fv.links y hkv (links_at_some hfv) hy
                  obtain ⟨g, hg, _⟩ := wf_live h hky
                  exact ⟨g, hg⟩)
                ⟨v, hkv'⟩
              have htl0 : tail_live m0 := tail_live_destroy h hkv hd htl
              have hdict0 := file_destroy_dict h hkv hd
              have habs0 : icl_hash_find m0.storage.dictionary pathname = none :=
                icl_hash_find_none.mpr (fun q hq0 => habs q ((hdict0 _ _).mp hq0).1)
              simp only [hd, Option.map_some']
              refine ⟨_, rfl, ?_⟩
              intro m2 out hx
              simp only [Prod.mk.injEq, Option.some.injEq] at hx
              obtain ⟨rfl, _⟩ := hx
              exact open_create_total htl0 habs0 _ hu
          · refine ⟨_, rfl, ?_⟩
            intro m0 out hx
            simp only [Prod.mk.injEq, Option.some.injEq] at hx
            obtain ⟨rfl, _⟩ := hx
            exact open_create_total htl (icl_hash_find_none.mpr habs) _ hu
        obtain ⟨r, hr, hnext⟩ := hroom
        rw [hr]
        obtain ⟨o1, out⟩ := r
        cases o1 with
        | none => exact ⟨_, rfl⟩
        | some m0 =>
          obtain ⟨m1, hc⟩ := hnext m0 out rfl
          simp only [hc, Option.map_some']
          exact ⟨_, rfl⟩
    | ok file =>
      simp only
      split
      · exact ⟨_, rfl⟩
      · obtain ⟨f, hf, _⟩ := wf_live h (storage_find_ok hfind).1
        simp only [hf]
        split
        · exact ⟨_, rfl⟩
        · have hen : ∀ l : List Int, enqueue_user l user = some (l ++ [user]) := by
            intro l
            unfold enqueue_user
            rw [if_neg (by omega)]
          simp only [hen]
          exact ⟨_, rfl⟩

theorem storage_read_total {m : Machine} (h : WF m) (pathname : List Char) (user : Int) :
    ∃ r, storage_read m pathname user = some r := by
  unfold storage_read
  split
  · exact ⟨_, rfl⟩
  · cases hfind : storage_find m.storage pathname with
    | error e => exact ⟨_, rfl⟩
    | ok file =>
      obtain ⟨f, hf, _⟩ := wf_live h (storage_find_ok hfind).1
      simp only [hf, Option.bind_eq_bind, Option.some_bind]
      split
      · exact ⟨_, rfl⟩
      · split <;> exact ⟨_, rfl⟩

theorem storage_lock_total {m : Machine} (h : WF m) (pathname : List Char) (user : Int) :
    ∃ r, storage_lock m pathname user = some r := by
  unfold storage_lock
  split
  · exact ⟨_, rfl⟩
  · rename_i hpre
    have hu : 0 < user := by
      by_contra hx
      exact hpre (Or.inr (by omega))
    cases hfind : storage_find m.storage pathname with
    | error e => exact ⟨_, rfl⟩
    | ok file =>
      obtain ⟨f, hf, _⟩ := wf_live h (storage_find_ok hfind).1
      simp only [hf, Option.bind_eq_bind, Option.some_bind]
      split
      · have hen : enqueue_user f.pending_locks user = some (f.pending_locks ++ [user]) := by
          unfold enqueue_user
          rw [if_neg (by omega)]
        simp only [hen, Option.some_bind]
        exact ⟨_, rfl⟩
      · exact ⟨_, rfl⟩

theorem storage_unlock_total {m : Machine} (h : WF m) (pathname : List Char) (user : Int) :
    ∃ r, storage_unlock m pathname user = some r := by
  unfold storage_unlock
  split
  · exact ⟨_, rfl⟩
  · cases hfind : storage_find m.storage pathname with
    | error e => exact ⟨_, rfl⟩
    | ok file =>
      obtain ⟨f, hf, _⟩ := wf_live h (storage_find_ok hfind).1
      simp only [hf, Option.bind_eq_bind, Option.some_bind]
      split <;> exact ⟨_, rfl⟩

theorem storage_close_total {m : Machine} (h : WF m) (pathname : List Char) (user : Int) :
    ∃ r, storage_close m pathname user = some r := by
  unfold storage_close
  split
  · exact ⟨_, rfl⟩
  · cases hfind : storage_find m.storage pathname with
    | error e => exact ⟨_, rfl⟩
    | ok file =>
      obtain ⟨f, hf, _⟩ := wf_live h (storage_find_ok hfind).1
      simp only [hf, Option.bind_eq_bind, Option.some_bind]
      split <;> exact ⟨_, rfl⟩

theorem storage_can_write_total {m : Machine} (h : WF m) (pathname : List Char)
    (user : Int) : ∃ r, storage_can_write m pathname user = some r := by
  unfold storage_can_write
  split
  · exact ⟨_, rfl⟩
  · cases hfind : storage_find m.storage pathname with
    | error e => exact ⟨_, rfl⟩
    | ok file =>
      obtain ⟨f, hf, _⟩ := wf_live h (storage_find_ok hfind).1
      simp only [hf, Option.map_some']
      exact ⟨_, rfl⟩

theorem storage_read_many_total {m : Machine} (h : WF m) (up_to user : Int) :
    ∃ r, storage_read_many m up_to user = some r := by
  unfold storage_read_many
  split
  · exact ⟨_, rfl⟩
  · simp only [read_many_loop_selected h, Option.bind_eq_bind, Option.some_bind]
    split
    · exact ⟨_, rfl⟩
    · split <;> exact ⟨_, rfl⟩

/-- In a well-formed state `storage_remove` of a file of the sequence returns. -/
theorem storage_remove_total {m : Machine} (h : WF m) (pathname : List Char)
    (pl : Option (List Int)) (user : Int)
    (hseq : ∀ q, (pathname, q) ∈ m.storage.dictionary → q ∈ sequence m) :
    ∃ r, storage_remove m pathname pl user = some r := by
  unfold storage_remove
  split
  · exact ⟨_, rfl⟩
  · cases hfind : storage_find m.storage pathname with
    | error e => exact ⟨_, rfl⟩
    | ok file =>
      have hmem := (storage_find_ok hfind).1
      obtain ⟨f, hf, hk⟩ := wf_live h hmem
      simp only [hf, Option.bind_eq_bind, Option.some_bind]
      split
      · exact ⟨_, rfl⟩
      · obtain ⟨⟨m0, out0⟩, hd⟩ := file_destroy_total (m := m) pl true hf
          (sequence_previous_live h (hseq file hmem) hf)
          (fun y hy => by
            obtain ⟨ky, hky⟩ := h.next_in pathname file f.links y hmem (links_at_some hf) hy
            obtain ⟨g, hg, _⟩ := wf_live h hky
            exact ⟨g, hg⟩)
          ⟨file, by rw [hk]; exact hmem⟩
        simp only [hd, Option.some_bind]
        exact ⟨_, rfl⟩

/-- In a well-formed state where the written files take space, the `APPEND_TO_FILE` case of
the worker returns. -/
theorem worker_append_total {m : Machine} (h : WF m) (hmod : all_files modified_inv m)
    (client : Int) (pathname new_content : List Char) :
    ∃ r, worker_append m client pathname new_content = some r := by
  obtain ⟨⟨m1, r, pl, rl⟩, ha⟩ := storage_append_total h pathname new_content [] client
  unfold worker_append
  simp only [ha, Option.bind_eq_bind, Option.some_bind]
  cases r with
  | error e => exact ⟨_, rfl⟩
  | ok u =>
    simp only
    have hsend : ∃ r2, send_removed_files client (m1.mem.length + 1) m1.mem rl = some r2 := by
      rcases storage_append_spec h ha with ⟨_, _, _, hc⟩ |
        ⟨file, f, m0, hmem, hf, _, _, _, hloop, hfin⟩
      · rcases hc with ⟨he, _⟩ | ⟨he, _⟩ | ⟨_, _, _, _, _, ⟨he, _⟩ | ⟨he, _⟩⟩ <;> cases he
      · rcases hloop with ⟨_, _, rfl, _⟩ | ⟨v, mem1, out, _, hv, hasg, hd, _, rfl, _⟩
        · exact ⟨_, rfl⟩
        · obtain ⟨fv, hfv, hfmod, hne, hkv, _, _, _, hvcell, _, _, _, _⟩ :=
            evict_step_spec h hv hasg hd
          rcases hfin with ⟨e, he, _⟩ | ⟨_, f0, hf0, _, rfl⟩
          · cases he
          · have hvf : v ≠ file := fun e => hne (by rw [e])
            have hcell : deref (written m0 file f0 new_content).mem v
                = some (destroyed { fv with next := none } (some [])) := by
              unfold written
              simp only
              rw [deref_store _ _ (deref_lt hf0), if_neg hvf, hvcell]
            have hsize := hmod _ _ _ hkv hfv hfmod
            have hlen := wf_content_len h hkv hfv
            have hcont : fv.content ≠ none := by
              intro e
              rw [e] at hlen
              simp at hlen
              omega
            have hcopy : ∃ c, storage_copy (destroyed { fv with next := none } (some [])) 0
                = some c := by
              unfold storage_copy
              rw [if_neg]
              · exact ⟨_, rfl⟩
              · rintro ⟨h1, _⟩
                exact hcont h1
            obtain ⟨c, hcopy⟩ := hcopy
            have hnext : (destroyed { fv with next := none } (some [])).next = none := rfl
            simp only [send_removed_files, hcell, hcopy, hnext]
            cases (written m0 file f0 new_content).mem.length <;>
              simp [send_removed_files]
    obtain ⟨⟨mem2, sent⟩, hs⟩ := hsend
    simp only [hs, Option.some_bind]
    exact ⟨_, rfl⟩

/-- In a state of the server a worker handling a request of a connected client returns,
when a removeFile names a file of the sequence. -/
theorem worker_total {a b : Nat} {m : Machine} (hr : Reachable a b m) (client : Int)
    (hc : 0 < client) (req : Request)
    (hseq : ∀ payload q, req = .remove_file payload →
      (c_str payload, q) ∈ m.storage.dictionary → q ∈ sequence m) :
    ∃ r, worker m client req = some r := by
  have h := (reachable_inv hr).1
  have htl := reachable_tail_live hr
  have hmod := reachable_modified_inv hr
  cases req with
  | open_file payload flags_buffer =>
    simp only [worker]
    split
    · exact ⟨_, rfl⟩
    · rename_i flags _
      obtain ⟨r, ho⟩ := storage_open_total h htl (c_str payload) flags.toNat (some []) client
      simp only [ho, Option.map_some']
      exact ⟨_, rfl⟩
  | read_file payload =>
    obtain ⟨r, ho⟩ := storage_read_total h (c_str payload) client
    simp only [worker, ho, Option.map_some']
    exact ⟨_, rfl⟩
  | read_n_files n_buffer =>
    simp only [worker]
    split
    · exact ⟨_, rfl⟩
    · rename_i n _
      obtain ⟨r, ho⟩ := storage_read_many_total h n client
      simp only [ho, Option.map_some']
      exact ⟨_, rfl⟩
  | write_file payload content =>
    obtain ⟨w, hcw⟩ := storage_can_write_total h (c_str payload) client
    obtain ⟨r, ho⟩ := worker_append_total h hmod client (c_str payload) content
    simp only [worker, hcw]
    cases w with
    | false => exact ⟨_, rfl⟩
    | true =>
      simp only [ho, Option.map_some']
      exact ⟨_, rfl⟩
  | append_to_file payload content =>
    obtain ⟨r, ho⟩ := worker_append_total h hmod client (c_str payload) content
    simp only [worker, ho, Option.map_some']
    exact ⟨_, rfl⟩
  | lock_file payload =>
    obtain ⟨r, ho⟩ := storage_lock_total h (c_str payload) client
    simp only [worker, ho, Option.map_some']
    exact ⟨_, rfl⟩
  | unlock_file payload =>
    obtain ⟨r, ho⟩ := storage_unlock_total h (c_str payload) client
    simp only [worker, ho, Option.map_some']
    exact ⟨_, rfl⟩
  | close_file payload =>
    obtain ⟨r, ho⟩ := storage_close_total h (c_str payload) client
    simp only [worker, ho, Option.map_some']
    exact ⟨_, rfl⟩
  | remove_file payload =>
    obtain ⟨r, ho⟩ := storage_remove_total h (c_str payload) (some []) client
      (fun q hq => hseq payload q rfl hq)
    simp only [worker, ho, Option.map_some']
    exact ⟨_, rfl⟩
  | other payload => exact ⟨_, rfl⟩
  | client_left =>
    obtain ⟨m1, ho, _⟩ := storage_user_exit_spec h hc []
    simp only [worker, ho]
    exact ⟨_, rfl⟩

theorem not_waiting_spec {m : Machine} {client : Int} (h : not_waiting m client = true)
    {k : List Char} {q : Ptr} {f : file_t} (hk : (k, q) ∈ m.storage.dictionary)
    (hf : deref m.mem q = some f) : client ∉ f.pending_locks := by
  unfold not_waiting at h
  rw [List.all_eq_true] at h
  have hin : f ∈ stored_files m := by
    simp only [stored_files, List.mem_filterMap]
    exact ⟨(k, q), hk, hf⟩
  simpa [contains_user] using h f hin

theorem target_file_stored {m : Machine} {k : List Char} {f : file_t}
    (h : target_file m k = some f) :
    ∃ q, (k, q) ∈ m.storage.dictionary ∧ deref m.mem q = some f := by
  unfold target_file at h
  split at h
  · rename_i file hfind
    exact ⟨file, (storage_find_ok hfind).1, h⟩
  · cases h

theorem served_open_orderly {m : Machine} {client : Int} {req : Request}
    (h : served_open m client req = true) : orderly_waits m client req = true := by
  unfold served_open at h
  rw [Bool.and_eq_true] at h
  obtain ⟨hnw, hreq⟩ := h
  cases req with
  | lock_file payload =>
    simp only [orderly_waits]
    simp only at hreq
    cases ht : target_file m (c_str payload) with
    | none => rfl
    | some f =>
      rw [ht] at hreq
      obtain ⟨q, hk, hf⟩ := target_file_stored ht
      have := not_waiting_spec hnw hk hf
      simp only [Bool.and_eq_true, Bool.not_eq_true', contains_user, decide_eq_true_eq,
        decide_eq_false_iff_not] at hreq ⊢
      exact ⟨hreq, this⟩
  | close_file payload =>
    simp only [orderly_waits]
    cases ht : target_file m (c_str payload) with
    | none => rfl
    | some f =>
      obtain ⟨q, hk, hf⟩ := target_file_stored ht
      have := not_waiting_spec hnw hk hf
      simpa [contains_user] using this
  | _ => rfl

/-- The change of a request keeps the waiting queue of the file free of duplicates, when a
client that asks for the lock does not wait for it. -/
theorem touched_nodup {client : Int} {k : List Char} {req : Request} {f g : file_t}
    (ht : touched client k req f g)
    (hlock : ∀ payload, req = .lock_file payload → client ∉ f.pending_locks)
    (hnd : f.pending_locks.Nodup) : g.pending_locks.Nodup := by
  cases req <;> simp only [touched] at ht
  · obtain ⟨_, _, ht | ⟨_, ht⟩⟩ := ht <;> (rw [ht]; exact hnd)
  · obtain ⟨_, _, _, ht⟩ := ht
    rw [ht]; exact hnd
  · obtain ⟨_, _, _, _, ht⟩ := ht
    rw [ht]; exact hnd
  · obtain ⟨_, _, _, _, ht⟩ := ht
    rw [ht]; exact hnd
  · rename_i payload
    have hnot := hlock payload rfl
    obtain ⟨_, _, ⟨_, ht⟩ | ⟨_, _, ht⟩⟩ := ht
    · rw [ht]; exact hnd
    · rw [ht]
      exact List.Nodup.append hnd (List.nodup_singleton _) (by
        intro x hx1 hx2
        simp only [List.mem_singleton] at hx2
        exact hnot (hx2 ▸ hx1))
  · obtain ⟨_, _, _, ht⟩ := ht
    rw [ht]
    exact hnd.sublist (List.tail_sublist _)
  · obtain ⟨_, _, _, ht⟩ := ht
    rw [ht]; exact hnd
  · obtain ⟨hc, ht⟩ := ht
    obtain ⟨_, _, hp⟩ := exit_file_fields client f
    rw [ht, hp]
    have hnd' : (if f.locked_by = client then f.pending_locks.tail
        else f.pending_locks).Nodup := by
      split
      · exact hnd.sublist (List.tail_sublist _)
      · exact hnd
    exact (dequeue_user_nodup (le_of_lt hc) hnd').1

theorem step_nodup_inv {m m1 : Machine} {client : Int} {req : Request}
    {out : List Event} (h : WF m) (hw : worker m client req = some (m1, out))
    (hD : served m client req = true)
    (hQ : all_files nodup_inv m) : all_files nodup_inv m1 := by
  refine step_all_files h hw ?_ ?_ ?_ hQ
  · intro k f1 f hs hq
    unfold same_file at hs
    unfold nodup_inv
    rw [hs]
    exact hq
  · intro k g hg
    cases req <;> simp only [created] at hg
    obtain ⟨_, hk, _, hg | hg⟩ := hg <;> (rw [hg]; simp [nodup_inv, new_file])
  · intro k q f g hk hf ht hq
    exact touched_nodup ht (fun _ _ => not_waiting_spec hD hk hf) hq

/-! ### The claims -/

/-- C1 (the code breaks it): with `max_size = 5`, client 4 creates `/a` and writes four
bytes, creates `/b` and writes two bytes.  The second write evicts `/a`; `storage_append`
overwrites the victim's `next` before `file_destroy` unlinks through it, so afterwards
the dictionary holds `/b` while nothing is reachable from `head`, and removing `/b` then
dereferences the freed file `/a`. -/
theorem C1_append_eviction_truncates_sequence :
    ∃ m : Machine, Reachable 10 5 m ∧
      m.storage.dictionary = [("/b".toList, 1)] ∧ sequence m = [] ∧
      m.storage.head = none ∧ m.storage.tail = none ∧
      (deref m.mem 1).map file_t.previous = some (some 0) ∧ deref m.mem 0 = none ∧
      worker m 4 (.remove_file "/b".toList) = none :=
  ⟨_, reachable_run (m := storage_create 10 5)
      [(4, .open_file "/a".toList ['3']), (4, .write_file "/a".toList "aaaa".toList),
       (4, .open_file "/b".toList ['3']), (4, .write_file "/b".toList "bb".toList)]
      Reachable.init (by decide) rfl,
    by decide, by decide, by decide, by decide, by decide, by decide, by decide⟩

/-- C2: in every state reached from an empty storage created with the limits
`max_file_number` and `max_size`, `file_number` is the number of files the dictionary
holds, `size` is the sum of their sizes, and both respect their limits. -/
theorem C2_counters (max_file_number max_size : Nat) (m : Machine)
    (h : Reachable max_file_number max_size m) :
    m.storage.file_number = m.storage.dictionary.length ∧
    (stored_files m).length = m.storage.dictionary.length ∧
    m.storage.size = ((stored_files m).map file_t.size).sum ∧
    m.storage.file_number ≤ max_file_number ∧ m.storage.size ≤ max_size := by
  obtain ⟨hwf, ha, hb⟩ := reachable_inv h
  obtain ⟨h1, h2⟩ := stored_files_eq hwf
  refine ⟨hwf.file_number_eq, h1, ?_, ?_, ?_⟩
  · rw [h2]
    exact hwf.size_eq
  · rw [← ha]
    exact hwf.file_number_le
  · rw [← hb]
    exact hwf.size_le

/-- C2 at the state of the scenario of C1 (limits 10 and 5, one file of two bytes left). -/
theorem C2_counters_witness :
    Reachable 10 5 (state_after 10 5
      [(4, .open_file "/a".toList ['3']), (4, .write_file "/a".toList "aaaa".toList),
       (4, .open_file "/b".toList ['3']), (4, .write_file "/b".toList "bb".toList)]) ∧
    (state_after 10 5
      [(4, .open_file "/a".toList ['3']), (4, .write_file "/a".toList "aaaa".toList),
       (4, .open_file "/b".toList ['3']), (4, .write_file "/b".toList "bb".toList)]
      ).storage.size = 2 :=
  ⟨reachable_state_after _ _ _ (by decide),
   ((C2_counters 10 5 _ (reachable_state_after _ _ _ (by decide))).2.2.1).trans (by decide)⟩

/-- C3: in a state of the server, for a pathname `p` that is not stored, a client `u ≥ 1`
and non-empty bytes `X`: if `open(p, O_CREATE|O_LOCK)` by `u` returns OK, then `can_write`
admits the following `writeFile(p, X)` of `u`; and if the append of that write is answered
OK, then `read(p)` by `u` returns OK with exactly the bytes `X` and the size `|X|`. -/
theorem C3_write_read_round_trip (a b : Nat) (m : Machine) (h : Reachable a b m)
    (p X : List Char) (u : Int) (pl : Option (List Int)) (hu : 1 ≤ u) (_hX : X ≠ [])
    (hp : ∀ q, (p, q) ∉ m.storage.dictionary)
    (m1 : Machine) (out : Option (List Int))
    (hopen : storage_open m p (O_CREATE ||| O_LOCK) pl u = some (m1, .ok (), out)) :
    storage_can_write m1 p u = some true ∧
    ∀ m2 ev, worker_append m1 u p X = some (m2, ev) →
      ev.head? = some (SEND_RESPONSE u RESPONSE_OK) →
      ∃ m3, storage_read m2 p u = some (m3, .ok (X, X.length)) := by
  have hinv := reachable_inv h
  have hinv1 := storage_open_inv hinv hopen
  obtain ⟨hpne, hupos, _, m0, _, hc⟩ := storage_open_absent_ok hp hopen
  have hlock : IS_SET O_LOCK (O_CREATE ||| O_LOCK) = true := by decide
  rw [hlock] at hc
  obtain ⟨_, _, hcell, _, _, hst⟩ := open_create_spec hc
  have hmem1 : (p, m0.mem.length) ∈ m1.storage.dictionary := by
    rw [hst]
    exact List.mem_cons_self _ _
  have hbad : ¬ (p = [] ∨ u ≤ 0) := by
    rintro (h1 | h1)
    · exact hpne h1
    · omega
  constructor
  · unfold storage_can_write
    rw [if_neg hbad, storage_find_of_mem hinv1.1 hmem1 hpne]
    simp [hcell]
  · intro m2 ev hw hok
    have hinv2 := worker_append_inv hinv1 hw
    obtain ⟨m1', r, pl1, rl, ha, hst2, hcase⟩ := worker_append_spec hinv1.1 hw
    rcases hcase with ⟨e, _, _, rfl⟩ | ⟨rfl, _, hfree⟩
    · simp only [List.head?_cons, Option.some.injEq] at hok
      exact absurd hok (send_response_ok_ne u e)
    · obtain ⟨file, f, nx, hmemf, hf, _, hmemf', hf'⟩ := storage_append_ok_file hinv1.1 ha
      have hfile : file = m0.mem.length := keys_unique hinv1.1.keys_nodup hmemf hmem1
      subst hfile
      rw [hcell] at hf
      cases hf
      have hmem2 : (p, m0.mem.length) ∈ m2.storage.dictionary := by
        rw [hst2]
        exact hmemf'
      have hcell2 : deref m2.mem m0.mem.length = deref m1'.mem m0.mem.length := by
        rcases hfree with ⟨_, rfl⟩ | ⟨v, _, hnotin, hmem⟩
        · rfl
        · rw [hmem, deref_dealloc, if_neg]
          rintro rfl
          exact hnotin p hmemf'
      rw [hf'] at hcell2
      unfold storage_read
      rw [if_neg hbad, storage_find_of_mem hinv2.1 hmem2 hpne]
      simp only [hcell2, Option.bind_eq_bind, Option.some_bind]
      simp [new_file, contains_user, storage_copy, pure]


/-- C3 at the empty storage with limits 10 and 5, pathname `/a`, client 4, bytes `hi`. -/
theorem C3_write_read_round_trip_witness :
    storage_can_write (state_after 10 5 [(4, .open_file "/a".toList ['3'])]) "/a".toList 4
      = some true ∧
    ∃ m3, storage_read (state_after 10 5 [(4, .open_file "/a".toList ['3']),
        (4, .write_file "/a".toList "hi".toList)]) "/a".toList 4
      = some (m3, .ok ("hi".toList, "hi".toList.length)) :=
  have H := C3_write_read_round_trip 10 5 (storage_create 10 5) Reachable.init "/a".toList
    "hi".toList 4 (some []) (by decide) (by decide) (by simp [storage_create])
    (state_after 10 5 [(4, .open_file "/a".toList ['3'])]) (some []) rfl
  ⟨H.1, H.2 (state_after 10 5 [(4, .open_file "/a".toList ['3']),
      (4, .write_file "/a".toList "hi".toList)])
    [SEND_RESPONSE 4 RESPONSE_OK, Event.send 4 END_OF_CONTENT] rfl rfl⟩

/-- C4: the write predicate. After every history of requests handled from the initial
state, `storage_can_write m p u` for a client `u` is true exactly when `p` is stored and the
history gives the first write on `p` to `u`: the last `open` that created `p` was made by
`u` with `O_CREATE|O_LOCK` and no `read`, `write`, `append`, `lock`, `unlock` or `close` of
`p` was answered `OK` since.  In every other case a `writeFile(p)` request of `u` is
answered `FORBIDDEN` and the state is left as it was. -/
theorem C4_write_predicate (a b : Nat) (T : List (Int × Request)) (p : List Char)
    (m : Machine) (g : Int)
    (hrun : first_writer p (storage_create a b) T 0 = some (m, g))
    (u : Int) (hu : 0 < u) :
    (storage_can_write m p u = some true ↔
        ((∃ file, (p, file) ∈ m.storage.dictionary) ∧ g = u)) ∧
    (storage_can_write m p u ≠ some true →
      ∀ payload X, c_str payload = p →
        worker m u (.write_file payload X)
          = some (m, [SEND_RESPONSE u FORBIDDEN, .relay (fmt_04d u)])) := by
  have hown0 : Own p (storage_create a b) 0 := by
    constructor <;> simp [storage_create]
  obtain ⟨h, hown⟩ := first_writer_own p T _ _ _ _ (storage_create_inv a b).1 hown0 hrun
  rcases storage_can_write_own h hown u hu with ⟨ht, hx⟩ | ⟨hfalse, hx⟩
  · exact ⟨⟨fun _ => hx, fun _ => ht⟩, fun hne => absurd ht hne⟩
  · refine ⟨⟨fun ht => ?_, fun hy => absurd hy hx⟩, ?_⟩
    · rw [hfalse] at ht
      cases ht
    · intro _ payload X hp
      simp only [worker, hp, hfalse]

/-- The statement of C4 after `open(/a, O_CREATE|O_LOCK)`, `writeFile`, `readFile` by
client 4: the next `writeFile` is answered `FORBIDDEN`. -/
theorem C4_write_predicate_witness :
    worker (state_after 10 100
        [(4, .open_file "/a".toList ['3']), (4, .write_file "/a".toList "x".toList),
         (4, .read_file "/a".toList)]) 4 (.write_file "/a".toList "y".toList)
      = some (state_after 10 100
        [(4, .open_file "/a".toList ['3']), (4, .write_file "/a".toList "x".toList),
         (4, .read_file "/a".toList)], [SEND_RESPONSE 4 FORBIDDEN, .relay (fmt_04d 4)]) :=
  (C4_write_predicate 10 100
    [(4, .open_file "/a".toList ['3']), (4, .write_file "/a".toList "x".toList),
     (4, .read_file "/a".toList)] "/a".toList _ 0 rfl 4 (by decide)).2
    (by decide) "/a".toList "y".toList rfl

/-- C5 (the code breaks it): `/a` is locked by client 4 and holds `secret`.  For client 5,
which has opened it, `readFile` and `appendToFile` are answered FORBIDDEN, but
`readNFiles` is answered OK with the pathname and the content of `/a`:
`storage_read_many` does not look at `locked_by`. -/
theorem C5_read_many_ignores_lock :
    Reachable 10 100 (state_after 10 100 locked_file_requests) ∧
    (stored_files (state_after 10 100 locked_file_requests)).map
      (fun f => (f.pathname, f.locked_by)) = [("/a".toList, 4)] ∧
    worker (state_after 10 100 locked_file_requests) 5 (.read_file "/a".toList)
      = some (state_after 10 100 locked_file_requests,
          [SEND_RESPONSE 5 FORBIDDEN, .relay (fmt_04d 5)]) ∧
    worker (state_after 10 100 locked_file_requests) 5
        (.append_to_file "/a".toList "x".toList)
      = some (state_after 10 100 locked_file_requests,
          [SEND_RESPONSE 5 FORBIDDEN, .relay (fmt_04d 5)]) ∧
    worker (state_after 10 100 locked_file_requests) 5 (.read_n_files "0000000000".toList)
      = some (state_after 10 100 locked_file_requests,
          [SEND_RESPONSE 5 RESPONSE_OK,
           .send 5 ("0000000002/a0000000006secret".toList ++ [Char.ofNat 0]),
           .send 5 END_OF_CONTENT, .relay (fmt_04d 5)]) :=
  ⟨reachable_state_after _ _ _ (by decide), by decide, by decide, by decide, by decide⟩

/-- C6 (the code breaks it): client 4 has opened `/a` twice.  Its `closeFile` is answered
OK and removes one of the two entries of `opened_by`; client 4 is still in `opened_by`
and its following `readFile` is answered OK with the content. -/
theorem C6_close_after_double_open :
    Reachable 10 100 (state_after 10 100 double_open_requests) ∧
    worker (state_after 10 100 double_open_requests) 4 (.close_file "/a".toList)
      = some (state_after 10 100 (double_open_requests ++ [(4, .close_file "/a".toList)]),
          [SEND_RESPONSE 4 RESPONSE_OK, .relay (fmt_04d 4)]) ∧
    (stored_files (state_after 10 100
        (double_open_requests ++ [(4, .close_file "/a".toList)]))).map
      (fun f => (f.pathname, f.opened_by)) = [("/a".toList, [4])] ∧
    (worker (state_after 10 100 (double_open_requests ++ [(4, .close_file "/a".toList)])) 4
      (.read_file "/a".toList)).map Prod.snd
      = some [SEND_RESPONSE 4 RESPONSE_OK, .send 4 "0000000001x".toList,
              .relay (fmt_04d 4)] :=
  ⟨reachable_state_after _ _ _ (by decide), by decide, by decide, by decide⟩

/-- C10 as stated fails: in the scenario (limits 2 and 10) the answer to the last
`writeFile` does not send `/x`. -/
theorem C10_stream_as_claimed_fails :
    ¬ ∃ m1 ev, worker (state_after 2 10 eviction_requests) 4
        (.write_file "/z".toList "cccccc".toList) = some (m1, ev) ∧
      Event.send 4 "0000000002/x0000000005aaaaa".toList ∈ ev := by
  rintro ⟨m1, ev, hw, hmem⟩
  have h : (worker (state_after 2 10 eviction_requests) 4
      (.write_file "/z".toList "cccccc".toList)).map Prod.snd
      = some [SEND_RESPONSE 4 RESPONSE_OK,
              .send 4 "0000000002/y0000000005bbbbb".toList,
              .send 4 END_OF_CONTENT, .relay (fmt_04d 4)] := by decide
  rw [hw] at h
  simp only [Option.map_some', Option.some.injEq] at h
  subst h
  revert hmem
  decide

/-- C10, amended: in the scenario (limits 2 and 10) `/x` is destroyed by the open of `/z`,
which finds `file_number = max_file_number` and is answered OK with nothing else; the last
`writeFile` is answered OK, then `("/y", "bbbbb")`, then the end-of-stream sentinel, and
leaves `/z` as the only stored file, with content `cccccc`. -/
theorem C10_eviction_during_append :
    (stored_files (state_after 2 10 (eviction_requests.take 8))).map file_t.pathname
      = ["/y".toList, "/x".toList] ∧
    worker (state_after 2 10 (eviction_requests.take 8)) 4 (.open_file "/z".toList ['3'])
      = some (state_after 2 10 eviction_requests,
          [SEND_RESPONSE 4 RESPONSE_OK, .relay (fmt_04d 4)]) ∧
    (stored_files (state_after 2 10 eviction_requests)).map file_t.pathname
      = ["/z".toList, "/y".toList] ∧
    (worker (state_after 2 10 eviction_requests) 4
        (.write_file "/z".toList "cccccc".toList)).map Prod.snd
      = some [SEND_RESPONSE 4 RESPONSE_OK,
              .send 4 "0000000002/y0000000005bbbbb".toList,
              .send 4 END_OF_CONTENT, .relay (fmt_04d 4)] ∧
    (stored_files (state_after 2 10
        (eviction_requests ++ [(4, .write_file "/z".toList "cccccc".toList)]))).map
      (fun f => (f.pathname, f.content, f.size))
      = [("/z".toList, some "cccccc".toList, 6)] :=
  ⟨by decide, by decide, by decide, by decide, by decide⟩

/-- C7 as stated fails: `/c` is locked by client 4 and client 5 is already waiting; client
6 calls `lock` and parks, and the unlock of the holder hands the lock to 5, not to 6. -/
theorem C7_earlier_waiter_comes_first :
    (stored_files (state_after 10 100 (lock_queue_requests ++ [(5, .lock_file "/c".toList)]))
      ).map (fun f => (f.locked_by, f.pending_locks)) = [(4, [5])] ∧
    (lock_all (state_after 10 100 (lock_queue_requests ++ [(5, .lock_file "/c".toList)]))
      "/c".toList [6]).map Prod.snd = some [.error .EINPROGRESS] ∧
    (unlock_all (state_after 10 100 (lock_queue_requests ++
      [(5, .lock_file "/c".toList), (6, .lock_file "/c".toList)])) "/c".toList [4]).map
      Prod.snd = some [.ok 5] :=
  ⟨by decide, rfl, rfl⟩

/-- C7, amended: for a stored file `p` locked by a client `h` on which no client is
waiting, and clients `w1, …, wk` other than `h` that call `lock(p)` in that order, each
call parks (`EINPROGRESS`), and the following unlocks by `h`, `w1`, …, `wk` succeed and
report `w1`, then `w2`, …, then `wk` as the new holder, the last one reporting `0` and
leaving the file unlocked with nobody waiting. -/
theorem C7_lock_queue_in_arrival_order (m : Machine) (p : List Char) (file : Ptr)
    (f : file_t) (h : Int) (ws : List Int)
    (hfind : storage_find m.storage p = .ok file) (hf : deref m.mem file = some f)
    (hl : f.locked_by = h) (hh : 0 < h) (hq : f.pending_locks = [])
    (hws : ∀ w ∈ ws, 0 < w ∧ w ≠ h) :
    ∃ m1, lock_all m p ws = some (m1, ws.map (fun _ => .error .EINPROGRESS)) ∧
      ∃ m2, unlock_all m1 p (h :: ws) = some (m2, (ws ++ [0]).map .ok) ∧
        ∃ f2, deref m2.mem file = some f2 ∧ f2.locked_by = 0 ∧ f2.pending_locks = [] := by
  obtain ⟨m1, h1, hs1, hc1⟩ := lock_all_parks p file h ws m f hfind hf hl (ne_of_gt hh) hws
  rw [hq, List.nil_append] at hc1
  obtain ⟨m2, h2, _, hc2⟩ := unlock_all_hands_over p file ws m1 _ h (hs1 ▸ hfind) hc1 hl hh
    rfl (fun w hw => (hws w hw).1)
  exact ⟨m1, h1, m2, h2, _, hc2, rfl, rfl⟩

/-- C7 (amended) for `/c` locked by client 4, with the clients 5 and 6 calling `lock`. -/
theorem C7_lock_queue_in_arrival_order_witness :
    ∃ m1, lock_all (state_after 10 100 lock_queue_requests) "/c".toList [5, 6]
        = some (m1, [.error .EINPROGRESS, .error .EINPROGRESS]) ∧
      ∃ m2, unlock_all m1 "/c".toList [4, 5, 6] = some (m2, [.ok 5, .ok 6, .ok 0]) ∧
        ∃ f2, deref m2.mem 0 = some f2 ∧ f2.locked_by = 0 ∧ f2.pending_locks = [] :=
  C7_lock_queue_in_arrival_order (state_after 10 100 lock_queue_requests) "/c".toList 0
    _ 4 [5, 6] rfl rfl rfl (by decide) rfl (by decide)

/-- C8: append applies in full or not at all. In every reachable state, for a stored file
`p` with content `C` (of length `size`), a buffer `B` and a client `u`, `storage_append`
returns, `p` is still stored at the same file, and either the result is OK and the file has
content `C ++ B`, size `|C| + |B|`, `modified = 1`, `owner = 0` and the same `opened_by`,
`locked_by` and `pending_locks`, or the result is an error and the content, size, `modified`
and `owner` of the file are as before. -/
theorem C8_append_in_full_or_not_at_all (a b : Nat) (m : Machine) (h : Reachable a b m)
    (p : List Char) (file : Ptr) (f : file_t)
    (hmem : (p, file) ∈ m.storage.dictionary) (hf : deref m.mem file = some f)
    (B : List Char) (u : Int) (pl : List Int) :
    (f.content.getD []).length = f.size ∧
    ∃ m1 r pl1 rl1, storage_append m p B pl none u = some (m1, r, pl1, rl1) ∧
      (p, file) ∈ m1.storage.dictionary ∧
      ∃ f1, deref m1.mem file = some f1 ∧
        ((r = .ok () ∧ f1.content = some (f.content.getD [] ++ B) ∧
            f1.size = f.size + B.length ∧ f1.modified = true ∧ f1.owner = 0 ∧
            f1.opened_by = f.opened_by ∧ f1.locked_by = f.locked_by ∧
            f1.pending_locks = f.pending_locks) ∨
         (∃ e, r = .error e ∧ f1.content = f.content ∧ f1.size = f.size ∧
            f1.modified = f.modified ∧ f1.owner = f.owner)) := by
  have hwf := (reachable_inv h).1
  refine ⟨wf_content_len hwf hmem hf, ?_⟩
  obtain ⟨⟨m1, r, pl1, rl1⟩, hr⟩ := storage_append_total hwf p B pl u
  refine ⟨m1, r, pl1, rl1, hr, ?_⟩
  rcases storage_append_spec hwf hr with ⟨rfl, _, _, hc⟩ |
    ⟨file', f', m0, hmem', hf', _, _, _, hloop, hfin⟩
  · refine ⟨hmem, f, hf, Or.inr ?_⟩
    rcases hc with ⟨he, _⟩ | ⟨he, _⟩ | ⟨_, _, _, _, _, ⟨he, _⟩ | ⟨he, _⟩⟩ <;>
      exact ⟨_, he, rfl, rfl, rfl, rfl⟩
  · have hfile : file' = file := keys_unique hwf.keys_nodup hmem' hmem
    subst hfile
    rw [hf] at hf'
    cases hf'
    have hm0 : (p, file') ∈ m0.storage.dictionary ∧
        ∃ nx, deref m0.mem file' = some { f with next := nx } := by
      rcases hloop with ⟨rfl, _⟩ | ⟨v, mem1, out, _, hv, ha, hd, _⟩
      · exact ⟨hmem, f.next, hf⟩
      · obtain ⟨fv, _, _, hne, _, _, _, hcells, _, _, hdict, _⟩ :=
          evict_step_spec hwf hv ha hd
        have hfv' : file' ≠ v := fun e => hne (by rw [e])
        refine ⟨(hdict p file').mpr ⟨hmem, hfv'⟩,
          if fv.previous = some file' then none else f.next, ?_⟩
        rw [hcells file' hfv', hf]
        rfl
    obtain ⟨hmem0, nx, hcell0⟩ := hm0
    rcases hfin with ⟨e, he, rfl⟩ | ⟨hok, f0, hf0, hf0eq, rfl⟩
    · exact ⟨hmem0, _, hcell0, Or.inr ⟨e, he, rfl, rfl, rfl, rfl⟩⟩
    · have hcell1 : deref (written m0 file' f0 B).mem file' = some
          { f0 with content := some (f0.content.getD [] ++ B),
                    size := f0.size + B.length, modified := true, owner := 0 } := by
        unfold written
        simp only
        rw [deref_store _ _ (deref_lt hf0), if_pos rfl]
      refine ⟨hmem0, _, hcell1, Or.inl ⟨hok, ?_⟩⟩
      rw [hf0eq]
      exact ⟨rfl, rfl, rfl, rfl, rfl, rfl, rfl⟩


/-- The statement of C8 at the file `/a` holding `aaaa` with limit 5, extended by `b`. -/
theorem C8_append_in_full_or_not_at_all_witness :
    Reachable 10 5 (state_after 10 5
        [(4, .open_file "/a".toList ['3']), (4, .write_file "/a".toList "aaaa".toList)]) ∧
      ∃ m1 r pl1 rl1, storage_append (state_after 10 5
          [(4, .open_file "/a".toList ['3']), (4, .write_file "/a".toList "aaaa".toList)])
          "/a".toList "b".toList [] none 4 = some (m1, r, pl1, rl1) ∧
        ("/a".toList, 0) ∈ m1.storage.dictionary :=
  ⟨reachable_state_after _ _ _ (by decide),
    match C8_append_in_full_or_not_at_all 10 5 _ (reachable_state_after 10 5
        [(4, .open_file "/a".toList ['3']), (4, .write_file "/a".toList "aaaa".toList)]
        (by decide)) "/a".toList 0 _ (by decide) rfl "b".toList 4 [] with
    | ⟨_, m1, r, pl1, rl1, h1, h2, _⟩ => ⟨m1, r, pl1, rl1, h1, h2⟩⟩

/-- Eviction at creation. In every reachable state with `file_number = max_file_number`,
for a pathname `p` that is not stored, a flag word with `O_CREATE` and a client `u`:
`get_victim` returns the first file of the sequence from `head` that is modified and is not
`spare`, and never another one; if the sequence holds no modified file `storage_open`
returns `ENOMEM` and the state is the same; otherwise it returns OK with the
`pending_locks` of that first modified file `v` as the list to notify, the dictionary loses
the entry of `v` and nothing else and gains `p`, `v` is freed, every other stored file keeps
all its fields but the links, `p` is the new `tail` (a file without content, opened by `u`,
with no `next`), the other files are met from `head` in the order they had, and `p` comes
last in the sequence when `tail` was its last file before. -/
theorem storage_open_eviction (a b : Nat) (m : Machine) (h : Reachable a b m)
    (hfull : m.storage.file_number = m.storage.max_file_number)
    (p : List Char) (hp : p ≠ []) (habs : ∀ q, (p, q) ∉ m.storage.dictionary)
    (flags : Nat) (hcreate : IS_SET O_CREATE flags = true) (u : Int) (hu : 0 < u) :
    (∀ spare, get_victim m spare = some ((sequence m).find? (is_victim m.mem spare))) ∧
    (∀ spare v, get_victim m spare = some (some v) →
      some v ≠ spare ∧ ∃ fv, deref m.mem v = some fv ∧ fv.modified = true) ∧
    ((sequence m).find? (is_victim m.mem none) = none →
      storage_open m p flags (some []) u = some (m, .error .ENOMEM, some [])) ∧
    (∀ v, (sequence m).find? (is_victim m.mem none) = some v →
      ∃ fv m1, deref m.mem v = some fv ∧
        storage_open m p flags (some []) u = some (m1, .ok (), some fv.pending_locks) ∧
        (∀ k q, (k, q) ∈ m1.storage.dictionary ↔
          ((k = p ∧ q = m.mem.length) ∨ ((k, q) ∈ m.storage.dictionary ∧ q ≠ v))) ∧
        deref m1.mem v = none ∧
        (∀ k q f, (k, q) ∈ m.storage.dictionary → q ≠ v → deref m.mem q = some f →
          ∃ f1, deref m1.mem q = some f1 ∧
            f1 = { f with previous := f1.previous, next := f1.next }) ∧
        m1.storage.tail = some m.mem.length ∧
        (∃ fn, deref m1.mem m.mem.length = some fn ∧ fn.pathname = p ∧ fn.content = none ∧
          fn.size = 0 ∧ fn.opened_by = [u] ∧ fn.next = none) ∧
        (sequence m1).filter (fun q => decide (q ≠ m.mem.length)) = (sequence m).erase v ∧
        (m.storage.tail = (sequence m).getLast? →
          sequence m1 = (sequence m).erase v ++ [m.mem.length])) := by
  have hwf := (reachable_inv h).1
  have htl := reachable_tail_live h
  have hpre : ¬ (p = [] ∨ u ≤ 0) := by
    rintro (h1 | h1)
    · exact hp h1
    · omega
  have hfind := storage_find_absent hp habs
  refine ⟨get_victim_eq hwf, ?_, ?_, ?_⟩
  · intro spare v hv
    obtain ⟨_, fv, hfv, hmod, hne⟩ := get_victim_stored hwf hv
    exact ⟨hne, fv, hfv, hmod⟩
  · intro hnone
    have hv : get_victim m none = some none := by
      rw [get_victim_eq hwf, hnone]
    unfold storage_open
    rw [if_neg hpre]
    simp only [hfind, hcreate, open_make_room, hfull, hv]
    rfl
  · intro v hsome
    have hv : get_victim m none = some (some v) := by
      rw [get_victim_eq hwf, hsome]
    have hvseq : v ∈ sequence m := List.mem_of_find?_eq_some hsome
    obtain ⟨⟨kv, hkv⟩, fv, hfv, _, _⟩ := get_victim_stored hwf hv
    have hkv' : (fv.pathname, v) ∈ m.storage.dictionary := by
      obtain ⟨f', hf', hk'⟩ := wf_live hwf hkv
      rw [hfv] at hf'
      cases hf'
      rw [hk']
      exact hkv
    obtain ⟨⟨m0, out0⟩, hd⟩ := file_destroy_total (m := m) (some []) true hfv
      (get_victim_previous hwf hv fv · hfv)
      (fun y hy => by
        obtain ⟨ky, hky⟩ := hwf.next_in kv v fv.links y hkv (links_at_some hfv) hy
        obtain ⟨g, hg, _⟩ := wf_live hwf hky
        exact ⟨g, hg⟩)
      ⟨v, hkv'⟩
    obtain ⟨fv', hfv', hq, hfile, hlen0, _, hstor0, hout⟩ := file_destroy_spec hd
    rw [hfv] at hfv'
    cases hfv'
    have hwf0 : WF m0 := file_destroy_wf (wfs_weaken _ hwf) hkv hd
    have htl0 : tail_live m0 := tail_live_destroy hwf hkv hd htl
    have hdict0 := file_destroy_dict hwf hkv hd
    have habs0 : icl_hash_find m0.storage.dictionary p = none :=
      icl_hash_find_none.mpr (fun q hq0 => habs q ((hdict0 _ _).mp hq0).1)
    obtain ⟨m1, hc1⟩ := open_create_total htl0 habs0 (IS_SET O_LOCK flags) hu
    obtain ⟨_, _, hnew, hcells, _, hstor1⟩ := open_create_spec hc1
    have hout' : out0 = some fv.pending_locks := by
      rw [hout]
      unfold handed_out
      by_cases e : fv.pending_locks = []
      · simp [e]
      · simp [e]
    have hvlt : v ≠ m.mem.length := Nat.ne_of_lt (deref_lt hfv)
    have hopen : storage_open m p flags (some []) u
        = some (m1, .ok (), some fv.pending_locks) := by
      unfold storage_open
      rw [if_neg hpre]
      simp [hfind, hcreate, open_make_room, hfull, hv, hd, hc1, hout']
    have hseq0 := (sequence_after_destroy hwf hkv hvseq hd).2
    obtain ⟨hfil, hlast⟩ := sequence_after_create hwf0 hc1
    rw [hlen0] at hnew hcells hstor1 hfil hlast
    refine ⟨fv, m1, hfv, hopen, ?_, ?_, ?_, ?_, ?_, ?_, ?_⟩
    · intro k q
      rw [hstor1]
      simp only [List.mem_cons, Prod.mk.injEq]
      rw [hdict0 k q]
    · rw [hcells v hvlt]
      simp only [if_true] at hfile
      rw [hfile]
      rfl
    · intro k q f hkq hqv hf
      obtain ⟨f', hf', _⟩ := wf_live hwf hkq
      have hqlt : q ≠ m.mem.length := Nat.ne_of_lt (deref_lt hf')
      rw [hcells q hqlt, hq q hqv, hf]
      exact ⟨_, rfl, rfl⟩
    · rw [hstor1]
    · refine ⟨_, hnew, rfl, rfl, rfl, rfl, ?_⟩
      simp only
      rw [if_neg]
      intro hx
      have := hwf0.tail_lt _ hx.2
      rw [hlen0] at this
      exact Nat.lt_irrefl _ this
    · rw [hfil, hseq0]
    · intro hcons
      rw [hlast, hseq0]
      -- `tail` of the state after the removal is a file of its sequence
      rw [hseq0]
      have hhead0 : m0.storage.head
          = if fv.previous = none then fv.next else m.storage.head := by rw [hstor0]
      have htail0 : m0.storage.tail
          = if fv.next = none then fv.previous else m.storage.tail := by rw [hstor0]
      obtain ⟨ch, hch, hnd, hst, hseq, _⟩ := wf_chain hwf
      rw [hseq] at hvseq hcons ⊢
      by_cases hn : fv.next = none
      · rw [htail0, if_pos hn]
        cases hpv : fv.previous with
        | none =>
          left
          rw [hhead0, if_pos hpv, hn]
        | some y =>
          right
          refine ⟨y, rfl, ?_⟩
          rcases chain_split ch _ hch hvseq with hs | ⟨l1, y', g, l2, hl, hy, hg⟩
          · have := hwf.head_prev v fv.links hs (links_at_some hfv)
            have h2 : fv.previous = none := this
            rw [hpv] at h2
            cases h2
          · have hyin : y' ∈ ch := by rw [hl]; simp
            obtain ⟨ky, hky⟩ := hst y' hyin
            have hp2 : fv.previous = some y' :=
              hwf.next_prev ky y' g.links v fv.links hky (links_at_some hy) hg
                (links_at_some hfv)
            rw [hpv] at hp2
            cases hp2
            have hne : y ≠ v := by
              intro e
              have := sequence_previous_ne hwf (hseq ▸ hvseq) hfv
              exact this (by rw [hpv, e])
            exact (List.mem_erase_of_ne hne).mpr hyin
      · right
        rw [htail0, if_neg hn, hcons]
        cases hl : ch.getLast? with
        | none =>
          rw [List.getLast?_eq_none_iff] at hl
          rw [hl] at hvseq
          cases hvseq
        | some t =>
          refine ⟨t, rfl, ?_⟩
          have htin : t ∈ ch := List.mem_of_mem_getLast? hl
          have hne : t ≠ v := by
            rintro rfl
            exact hn (hwf.tail_next kv t fv.links (hcons.trans hl) hkv (links_at_some hfv))
          exact (List.mem_erase_of_ne hne).mpr htin

/-- Eviction at creation in a storage of two files `/x`, `/y`, both written, and `/z`. -/
theorem storage_open_eviction_example :
    ∃ fv m1, deref (state_after 2 10 full_storage_requests).mem 0 = some fv ∧
      storage_open (state_after 2 10 full_storage_requests) "/z".toList 3 (some []) 4
        = some (m1, .ok (), some fv.pending_locks) ∧
      m1.storage.tail = some 2 ∧ sequence m1 = [1, 2] :=
  match (storage_open_eviction 2 10 (state_after 2 10 full_storage_requests)
      (reachable_state_after _ _ _ (by decide)) (by decide) "/z".toList (by decide)
      (icl_hash_find_none.mp (by decide)) 3 (by decide) 4 (by decide)).2.2.2 0
      (by decide) with
  | ⟨fv, m1, h1, h2, _, _, _, h3, _, _, h4⟩ => ⟨fv, m1, h1, h2, h3, h4 (by decide)⟩

/-- C11 (the code breaks it): client 4 has stored `/a` holding `secret`.  Its `readNFiles(0)`
is answered OK, and the bytes that follow the code are the block of `/a`, then a zero byte,
then the sentinel: the worker writes `files_size` bytes, which counts the terminator of the
buffer.  The bytes are not the blocks followed by the sentinel, and `receive_files`, which
reads the blocks up to a zero length, leaves the last byte of the response unread (it
leaves none on the response the claim describes). -/
theorem C11_read_many_sends_terminator :
    Reachable 10 100 (state_after 10 100 one_file_requests) ∧
    worker (state_after 10 100 one_file_requests) 4 (.read_n_files "0000000000".toList)
      = some (state_after 10 100 one_file_requests,
          [SEND_RESPONSE 4 RESPONSE_OK,
           .send 4 ("0000000002/a0000000006secret".toList ++ [Char.ofNat 0]),
           .send 4 END_OF_CONTENT, .relay (fmt_04d 4)]) ∧
    sent_to 4 [SEND_RESPONSE 4 RESPONSE_OK,
           .send 4 ("0000000002/a0000000006secret".toList ++ [Char.ofNat 0]),
           .send 4 END_OF_CONTENT, .relay (fmt_04d 4)]
      = "1".toList ++ "0000000002/a0000000006secret".toList ++ [Char.ofNat 0]
          ++ "0000000000".toList ∧
    sent_to 4 [SEND_RESPONSE 4 RESPONSE_OK,
           .send 4 ("0000000002/a0000000006secret".toList ++ [Char.ofNat 0]),
           .send 4 END_OF_CONTENT, .relay (fmt_04d 4)]
      ≠ "1".toList ++ "0000000002/a0000000006secret".toList ++ "0000000000".toList ∧
    receive_files 3 ("0000000002/a0000000006secret".toList ++ [Char.ofNat 0]
          ++ "0000000000".toList) = some (1, ['0']) ∧
    receive_files 3 ("0000000002/a0000000006secret".toList ++ "0000000000".toList)
      = some (1, []) :=
  ⟨reachable_state_after _ _ _ (by decide), by decide, by decide, by decide, by decide,
    by decide⟩

/-- C12: `read_many(N)` for a client `u ≥ 1` in a reachable state. The files selected are the
files of the sequence from `head` with `size > 0`, in its order: the first `N` when `N > 0`,
all when `N ≤ 0`; every one has `size > 0`, and there are at most `N` when `N > 0`.  No file
is selected exactly when the sequence has no file with `size > 0`, and then
`storage_read_many` fails with `ENODATA`; otherwise it returns the number of selected files,
a buffer holding for each of them, in order, the pathname and the content, and the size of
that buffer. -/
theorem C12_read_many (a b : Nat) (m : Machine) (h : Reachable a b m) (N : Int) (u : Int)
    (hu : 0 < u) :
    (∀ f ∈ read_many_selected m N, 0 < f.size) ∧
    (0 < N → (read_many_selected m N).length ≤ N.toNat) ∧
    (read_many_selected m N = [] ↔ ∀ f ∈ sequence_files m, f.size = 0) ∧
    (read_many_selected m N = [] → storage_read_many m N u = some (m, .error .ENODATA)) ∧
    (read_many_selected m N ≠ [] →
      storage_read_many m N u = some (m, .ok (((read_many_selected m N).length : Int),
        (read_many_selected m N).flatMap read_many_block,
        ((read_many_selected m N).map (fun f =>
          METADATA_LENGTH + f.pathname.length + METADATA_LENGTH + f.size)).sum + 1))) := by
  have hwf := (reachable_inv h).1
  have hloop := read_many_loop_selected hwf N
  have hfill := read_many_fill_blocks (read_many_selected m N) (fun f hf =>
    ⟨(read_many_selected_sub m N f hf).2,
      sequence_files_content hwf f (read_many_selected_sub m N f hf).1⟩)
  have hnu : ¬ u ≤ 0 := by omega
  refine ⟨fun f hf => (read_many_selected_sub m N f hf).2, ?_, ?_, ?_, ?_⟩
  · intro hN
    unfold read_many_selected
    simp only [if_pos hN]
    exact List.length_take_le _ _
  · unfold read_many_selected
    simp only
    constructor
    · intro he f hf
      by_contra hs
      have hin : f ∈ (sequence_files m).filter (fun f => decide (0 < f.size)) := by
        rw [List.mem_filter]
        exact ⟨hf, by simpa using Nat.pos_of_ne_zero hs⟩
      split at he
      · rename_i hN
        have hN1 : N.toNat ≠ 0 := by omega
        cases hl : (sequence_files m).filter (fun f => decide (0 < f.size)) with
        | nil => rw [hl] at hin; cases hin
        | cons g rest =>
          rw [hl] at he
          obtain ⟨k, hk⟩ := Nat.exists_eq_succ_of_ne_zero hN1
          rw [hk] at he
          simp at he
      · rw [he] at hin
        cases hin
    · intro hall
      have hnil : (sequence_files m).filter (fun f => decide (0 < f.size)) = [] := by
        rw [List.filter_eq_nil_iff]
        intro f hf
        have := hall f hf
        simp [this]
      rw [hnil]
      simp
  · intro he
    unfold storage_read_many
    rw [if_neg hnu, hloop]
    simp [he]
  · intro hne
    unfold storage_read_many
    rw [if_neg hnu, hloop]
    simp [hne, hfill]

/-- The statement of C12 at a storage holding `/a` with `secret`, for `N = 0`. -/
theorem C12_read_many_witness :
    storage_read_many (state_after 10 100 one_file_requests) 0 4
      = some (state_after 10 100 one_file_requests,
          .ok (1, "0000000002/a0000000006secret".toList, 29)) :=
  ((C12_read_many 10 100 (state_after 10 100 one_file_requests)
    (reachable_state_after _ _ _ (by decide)) 0 4 (by decide)).2.2.2.2 (by decide)).trans
    rfl

/-- C13: for a stored file `p` and a client `u ≥ 1` in a reachable state, `storage_read`
returns, and its result is `EACCES` (answered `FORBIDDEN`) if and only if `u` is not in
`opened_by` of `p` or `p` is locked by a client other than `u`; in that case the state and
the file, `owner` included, are as before, and the worker answers `FORBIDDEN`. -/
theorem C13_read_forbidden (a b : Nat) (m : Machine) (h : Reachable a b m)
    (p : List Char) (file : Ptr) (f : file_t)
    (hmem : (p, file) ∈ m.storage.dictionary) (hf : deref m.mem file = some f)
    (u : Int) (hu : 1 ≤ u) :
    ∃ m1 r, storage_read m p u = some (m1, r) ∧
      (r = .error .EACCES ↔ (u ∉ f.opened_by ∨ (f.locked_by ≠ 0 ∧ f.locked_by ≠ u))) ∧
      (r = .error .EACCES → m1 = m ∧ deref m1.mem file = some f ∧
        ∀ payload, c_str payload = p →
          worker m u (.read_file payload)
            = some (m, [SEND_RESPONSE u FORBIDDEN, .relay (fmt_04d u)])) := by
  have hwf := (reachable_inv h).1
  have hp := reachable_key_ne h hmem
  have hfind := storage_find_of_mem hwf hmem hp
  have hpre : ¬ (p = [] ∨ u ≤ 0) := by
    rintro (h1 | h1)
    · exact hp h1
    · omega
  by_cases hacc : (f.locked_by ≠ 0 ∧ f.locked_by ≠ u) ∨ (!contains_user f.opened_by u) = true
  · have hr : storage_read m p u = some (m, .error .EACCES) := by
      unfold storage_read
      rw [if_neg hpre, hfind]
      simp only [hf, Option.bind_eq_bind, Option.some_bind]
      rw [if_pos hacc]
      rfl
    refine ⟨m, _, hr, ⟨fun _ => ?_, fun _ => rfl⟩, fun _ => ⟨rfl, hf, ?_⟩⟩
    · rcases hacc with h1 | h1
      · exact Or.inr h1
      · left
        simpa [contains_user] using h1
    · intro payload hpay
      simp only [worker, hpay, hr, Option.map_some']
      rfl
  · have hnot : ¬ (u ∉ f.opened_by ∨ (f.locked_by ≠ 0 ∧ f.locked_by ≠ u)) := by
      rintro (h1 | h1)
      · exact hacc (Or.inr (by simpa [contains_user] using h1))
      · exact hacc (Or.inl h1)
    cases hc : storage_copy f 0 with
    | none =>
      have hr : storage_read m p u = some (m, .error .ENODATA) := by
        unfold storage_read
        rw [if_neg hpre, hfind]
        simp only [hf, Option.bind_eq_bind, Option.some_bind]
        rw [if_neg hacc]
        simp only [hc]
        rfl
      refine ⟨m, _, hr, ⟨fun e => ?_, fun e => absurd e hnot⟩, fun e => ?_⟩
      · cases e
      · cases e
    | some buffer =>
      have hr : storage_read m p u
          = some ({ m with mem := store m.mem file { f with owner := 0 } },
              .ok (buffer, f.size)) := by
        unfold storage_read
        rw [if_neg hpre, hfind]
        simp only [hf, Option.bind_eq_bind, Option.some_bind]
        rw [if_neg hacc]
        simp only [hc]
        rfl
      refine ⟨_, _, hr, ⟨fun e => ?_, fun e => absurd e hnot⟩, fun e => ?_⟩
      · cases e
      · cases e

/-- The statement of C13 at `/a` locked by client 4 and opened by 4 and 5, for client 5. -/
theorem C13_read_forbidden_witness :
    ∃ m1 r, storage_read (state_after 10 100 locked_file_requests) "/a".toList 5
        = some (m1, r) ∧
      (r = .error .EACCES ↔ ((5 : Int) ∉ [4, 5] ∨ ((4 : Int) ≠ 0 ∧ (4 : Int) ≠ 5))) :=
  match C13_read_forbidden 10 100 (state_after 10 100 locked_file_requests)
      (reachable_state_after _ _ _ (by decide)) "/a".toList 0
      { new_file "/a".toList with
        content := some "secret".toList, size := 6, modified := true, locked_by := 4,
        opened_by := [4, 5] }
      (by decide) (by decide) 5 (by decide) with
  | ⟨m1, r, h1, h2, _⟩ => ⟨m1, r, h1, h2⟩

/-- C14: the failures of open, for a pathname `p`, a flag word and a client `u ≥ 1` in a
reachable state. `storage_open` fails with `ENOENT` (`FILE_NOT_FOUND`) exactly when `p` is
not stored and `O_CREATE` is unset, with `EEXIST` (`ALREADY_EXISTS`) exactly when `p` is
stored and `O_CREATE` is set, and with `EACCES` (`FORBIDDEN`) exactly when `p` is stored,
`O_CREATE` is unset, `O_LOCK` is set and the file is locked; every failure returns the state
it was called in. -/
theorem C14_open_failures (a b : Nat) (m : Machine) (h : Reachable a b m)
    (p : List Char) (hp : p ≠ []) (flags : Nat) (u : Int) (hu : 1 ≤ u)
    (pl : Option (List Int)) :
    ((∃ m1 out, storage_open m p flags pl u = some (m1, .error .ENOENT, out)) ↔
      ((∀ q, (p, q) ∉ m.storage.dictionary) ∧ IS_SET O_CREATE flags = false)) ∧
    ((∃ m1 out, storage_open m p flags pl u = some (m1, .error .EEXIST, out)) ↔
      ((∃ q, (p, q) ∈ m.storage.dictionary) ∧ IS_SET O_CREATE flags = true)) ∧
    ((∃ m1 out, storage_open m p flags pl u = some (m1, .error .EACCES, out)) ↔
      (∃ q f, (p, q) ∈ m.storage.dictionary ∧ deref m.mem q = some f ∧
        IS_SET O_CREATE flags = false ∧ IS_SET O_LOCK flags = true ∧ f.locked_by ≠ 0)) ∧
    (∀ m1 e out, storage_open m p flags pl u = some (m1, .error e, out) →
      m1 = m ∧ out = pl) := by
  have hwf := (reachable_inv h).1
  have hu0 : 0 < u := by omega
  refine ⟨?_, ?_, ?_, fun m1 e out hr => storage_open_error_same hr⟩
  · -- FILE_NOT_FOUND
    constructor
    · rintro ⟨m1, out, hx⟩
      cases hfd : icl_hash_find m.storage.dictionary p with
      | none =>
        have habs := icl_hash_find_none.mp hfd
        refine ⟨habs, ?_⟩
        cases hc : IS_SET O_CREATE flags with
        | false => rfl
        | true =>
          rcases (storage_open_absent (m := m) hp habs flags pl hu0).2 hc _ _ _ hx
            with e | e <;> cases e
      | some file =>
        exfalso
        have hmem := icl_hash_find_mem hfd
        obtain ⟨f, hf, _⟩ := wf_live hwf hmem
        obtain ⟨h1, h2, h3⟩ := storage_open_present hwf hp hmem hf flags pl hu0
        cases hc : IS_SET O_CREATE flags with
        | true =>
          rw [h1 hc] at hx
          simp at hx
        | false =>
          by_cases hlk : IS_SET O_LOCK flags = true ∧ f.locked_by ≠ 0
          · rw [h2 hc hlk.1 hlk.2] at hx
            simp at hx
          · obtain ⟨m2, hr⟩ := h3 hc hlk
            rw [hr] at hx
            simp at hx
    · rintro ⟨habs, hc⟩
      exact ⟨m, pl, (storage_open_absent (m := m) hp habs flags pl hu0).1 hc⟩
  · -- ALREADY_EXISTS
    constructor
    · rintro ⟨m1, out, hx⟩
      cases hfd : icl_hash_find m.storage.dictionary p with
      | none =>
        exfalso
        have habs := icl_hash_find_none.mp hfd
        obtain ⟨h1, h2⟩ := storage_open_absent (m := m) hp habs flags pl hu0
        cases hc : IS_SET O_CREATE flags with
        | false =>
          rw [h1 hc] at hx
          simp at hx
        | true =>
          rcases h2 hc _ _ _ hx with e | e <;> cases e
      | some file =>
        have hmem := icl_hash_find_mem hfd
        refine ⟨⟨file, hmem⟩, ?_⟩
        obtain ⟨f, hf, _⟩ := wf_live hwf hmem
        obtain ⟨h1, h2, h3⟩ := storage_open_present hwf hp hmem hf flags pl hu0
        cases hc : IS_SET O_CREATE flags with
        | true => rfl
        | false =>
          exfalso
          by_cases hlk : IS_SET O_LOCK flags = true ∧ f.locked_by ≠ 0
          · rw [h2 hc hlk.1 hlk.2] at hx
            simp at hx
          · obtain ⟨m2, hr⟩ := h3 hc hlk
            rw [hr] at hx
            simp at hx
    · rintro ⟨⟨file, hmem⟩, hc⟩
      obtain ⟨f, hf, _⟩ := wf_live hwf hmem
      exact ⟨m, pl, (storage_open_present hwf hp hmem hf flags pl hu0).1 hc⟩
  · -- FORBIDDEN
    constructor
    · rintro ⟨m1, out, hx⟩
      cases hfd : icl_hash_find m.storage.dictionary p with
      | none =>
        exfalso
        have habs := icl_hash_find_none.mp hfd
        obtain ⟨h1, h2⟩ := storage_open_absent (m := m) hp habs flags pl hu0
        cases hc : IS_SET O_CREATE flags with
        | false =>
          rw [h1 hc] at hx
          simp at hx
        | true =>
          rcases h2 hc _ _ _ hx with e | e <;> cases e
      | some file =>
        have hmem := icl_hash_find_mem hfd
        obtain ⟨f, hf, _⟩ := wf_live hwf hmem
        obtain ⟨h1, h2, h3⟩ := storage_open_present hwf hp hmem hf flags pl hu0
        cases hc : IS_SET O_CREATE flags with
        | true =>
          exfalso
          rw [h1 hc] at hx
          simp at hx
        | false =>
          by_cases hlk : IS_SET O_LOCK flags = true ∧ f.locked_by ≠ 0
          · exact ⟨file, f, hmem, hf, rfl, hlk.1, hlk.2⟩
          · exfalso
            obtain ⟨m2, hr⟩ := h3 hc hlk
            rw [hr] at hx
            simp at hx
    · rintro ⟨file, f, hmem, hf, hc, hl, hlk⟩
      exact ⟨m, pl, (storage_open_present hwf hp hmem hf flags pl hu0).2.1 hc hl hlk⟩

/-- The statement of C14 at `/a` locked by client 4: `open(/a, O_LOCK)` by client 5. -/
theorem C14_open_failures_witness :
    ∃ m1 out, storage_open (state_after 10 100 locked_file_requests) "/a".toList 2
      (some []) 5 = some (m1, .error .EACCES, out) :=
  (C14_open_failures 10 100 (state_after 10 100 locked_file_requests)
    (reachable_state_after _ _ _ (by decide)) "/a".toList (by decide) 2 5 (by decide)
    (some [])).2.2.1.mpr
    ⟨0, { new_file "/a".toList with
        content := some "secret".toList, size := 6, modified := true, locked_by := 4,
        opened_by := [4, 5] }, by decide, by decide, by decide, by decide, by decide⟩

/-- C20: for a stored file `p` and a client `u ≥ 1` in a reachable state. If `locked_by ≠ u`
(an unlocked file included) `storage_unlock` fails with `EACCES` (`FORBIDDEN`) and returns
the state it was called in.  If `locked_by = u` it returns OK, the new holder is the head
of `pending_locks` (`0` when the queue is empty), `locked_by` is the new holder,
`pending_locks` is the rest of the queue in the same order, `owner` is `0`, and the content,
the size, `modified` and `opened_by` are as before. -/
theorem C20_unlock (a b : Nat) (m : Machine) (h : Reachable a b m)
    (p : List Char) (file : Ptr) (f : file_t)
    (hmem : (p, file) ∈ m.storage.dictionary) (hf : deref m.mem file = some f)
    (u : Int) (hu : 1 ≤ u) :
    (f.locked_by ≠ u → storage_unlock m p u = some (m, .error .EACCES)) ∧
    (f.locked_by = u → ∃ m1 f1,
      storage_unlock m p u = some (m1, .ok (f.pending_locks.headD 0)) ∧
      (p, file) ∈ m1.storage.dictionary ∧ deref m1.mem file = some f1 ∧
      f1.locked_by = f.pending_locks.headD 0 ∧
      f1.pending_locks = f.pending_locks.tail ∧ f1.owner = 0 ∧
      f1.content = f.content ∧ f1.size = f.size ∧ f1.modified = f.modified ∧
      f1.opened_by = f.opened_by) := by
  have hwf := (reachable_inv h).1
  have hp := reachable_key_ne h hmem
  have hfind := storage_find_of_mem hwf hmem hp
  have hpre : ¬ (p = [] ∨ u ≤ 0) := by
    rintro (h1 | h1)
    · exact hp h1
    · omega
  constructor
  · intro hne
    unfold storage_unlock
    rw [if_neg hpre, hfind]
    simp only [hf, Option.bind_eq_bind, Option.some_bind]
    rw [if_neg hne]
    rfl
  · intro heq
    let f1 : file_t :=
      { f with pending_locks := f.pending_locks.tail,
               locked_by := f.pending_locks.headD 0, owner := 0 }
    refine ⟨{ m with mem := store m.mem file f1 }, f1, ?_, hmem, ?_,
      rfl, rfl, rfl, rfl, rfl, rfl, rfl⟩
    · unfold storage_unlock
      rw [if_neg hpre, hfind]
      simp only [hf, Option.bind_eq_bind, Option.some_bind]
      rw [if_pos heq, dequeue_front]
      rfl
    · simp only
      rw [deref_store _ _ (deref_lt hf), if_pos rfl]

/-- The statement of C20 at `/c` locked by client 4 with the clients 5 and 6 waiting. -/
theorem C20_unlock_witness :
    ∃ m1 f1, storage_unlock (state_after 10 100
          (lock_queue_requests ++ [(5, .lock_file "/c".toList), (6, .lock_file "/c".toList)]))
        "/c".toList 4 = some (m1, .ok 5) ∧
      deref m1.mem 0 = some f1 ∧ f1.locked_by = 5 ∧ f1.pending_locks = [6] :=
  match (C20_unlock 10 100 (state_after 10 100
      (lock_queue_requests ++ [(5, .lock_file "/c".toList), (6, .lock_file "/c".toList)]))
      (reachable_state_after _ _ _ (by decide)) "/c".toList 0
      { new_file "/c".toList with
        owner := 4, locked_by := 4, opened_by := [4, 5, 6], pending_locks := [5, 6] }
      (by decide) (by decide) 4 (by decide)).2 rfl with
  | ⟨m1, f1, h1, _, h2, h3, h4, _⟩ => ⟨m1, f1, h1, h2, h3, h4⟩

/-- Removal: for a stored file `p` that is in the sequence from `head`, and a client `u ≥ 1`, in
a reachable state. If `locked_by ≠ u` (unlocked or locked by another client)
`storage_remove` fails with `EACCES` (`FORBIDDEN`) and returns the state it was called in.
If `locked_by = u` it returns OK with the `pending_locks` of the file, in their order, as the
list to notify; the dictionary loses the entry of `p` and nothing else, `file_number` is one
less, `size` is less by the size of the file, the file is freed, every other stored file
keeps all its fields but the links, and the sequence is the former one without the file. -/
theorem storage_remove_in_sequence (a b : Nat) (m : Machine) (h : Reachable a b m)
    (p : List Char) (file : Ptr) (f : file_t)
    (hmem : (p, file) ∈ m.storage.dictionary) (hf : deref m.mem file = some f)
    (hseq : file ∈ sequence m) (u : Int) (hu : 1 ≤ u) :
    (f.locked_by ≠ u →
      storage_remove m p (some []) u = some (m, .error .EACCES, some [])) ∧
    (f.locked_by = u → ∃ m1,
      storage_remove m p (some []) u = some (m1, .ok (), some f.pending_locks) ∧
      (∀ k q, (k, q) ∈ m1.storage.dictionary ↔ ((k, q) ∈ m.storage.dictionary ∧ q ≠ file)) ∧
      (∀ q, (p, q) ∉ m1.storage.dictionary) ∧
      m1.storage.file_number + 1 = m.storage.file_number ∧
      m1.storage.size + f.size = m.storage.size ∧
      deref m1.mem file = none ∧
      (∀ k q g, (k, q) ∈ m.storage.dictionary → q ≠ file → deref m.mem q = some g →
        ∃ g1, deref m1.mem q = some g1 ∧
          g1 = { g with previous := g1.previous, next := g1.next }) ∧
      sequence m1 = (sequence m).erase file) := by
  have hwf := (reachable_inv h).1
  have hp := reachable_key_ne h hmem
  have hfind := storage_find_of_mem hwf hmem hp
  have hpre : ¬ (p = [] ∨ u ≤ 0) := by
    rintro (h1 | h1)
    · exact hp h1
    · omega
  constructor
  · intro hne
    unfold storage_remove
    rw [if_neg hpre, hfind]
    simp only [hf, Option.bind_eq_bind, Option.some_bind]
    rw [if_pos hne]
    rfl
  · intro heq
    have hpath : f.pathname = p := by
      obtain ⟨f', hf', hk'⟩ := wf_live hwf hmem
      rw [hf] at hf'
      cases hf'
      exact hk'
    obtain ⟨⟨m1, out⟩, hd⟩ := file_destroy_total (m := m) (some []) true hf
      (sequence_previous_live hwf hseq hf)
      (fun y hy => by
        obtain ⟨ky, hky⟩ := hwf.next_in p file f.links y hmem (links_at_some hf) hy
        obtain ⟨g, hg, _⟩ := wf_live hwf hky
        exact ⟨g, hg⟩)
      ⟨file, by rw [hpath]; exact hmem⟩
    obtain ⟨f', hf', hq, hfile, _, _, hstor, hout⟩ := file_destroy_spec hd
    rw [hf] at hf'
    cases hf'
    have hdict := file_destroy_dict hwf hmem hd
    have hout' : out = some f.pending_locks := by
      rw [hout]
      unfold handed_out
      by_cases e : f.pending_locks = []
      · simp [e]
      · simp [e]
    have hr : storage_remove m p (some []) u = some (m1, .ok (), some f.pending_locks) := by
      unfold storage_remove
      rw [if_neg hpre, hfind]
      simp only [hf, Option.bind_eq_bind, Option.some_bind]
      rw [if_neg (by simpa using heq)]
      simp [hd, hout']
    have hfn : 1 ≤ m.storage.file_number := by
      rw [hwf.file_number_eq]
      exact List.length_pos_of_mem hmem
    have hsz := stored_size_le hwf hmem hf
    refine ⟨m1, hr, hdict, ?_, ?_, ?_, ?_, ?_, (sequence_after_destroy hwf hmem hseq hd).2⟩
    · intro q hq1
      obtain ⟨hq2, hne⟩ := (hdict _ _).mp hq1
      exact hne (keys_unique hwf.keys_nodup hq2 hmem)
    · rw [hstor]
      simp only
      omega
    · rw [hstor]
      simp only
      omega
    · simpa using hfile
    · intro k q g hkq hqf hg
      rw [hq q hqf, hg]
      exact ⟨_, rfl, rfl⟩

/-- Removal of `/a`, locked by client 4 and opened by 4 and 5: the removal by
client 4. -/
theorem storage_remove_in_sequence_example :
    ∃ m1, storage_remove (state_after 10 100 locked_file_requests) "/a".toList (some []) 4
        = some (m1, .ok (), some []) ∧
      m1.storage.file_number + 1 = 1 ∧ sequence m1 = [] :=
  match (storage_remove_in_sequence 10 100 (state_after 10 100 locked_file_requests)
      (reachable_state_after _ _ _ (by decide)) "/a".toList 0
      { new_file "/a".toList with
        content := some "secret".toList, size := 6, modified := true, locked_by := 4,
        opened_by := [4, 5] }
      (by decide) (by decide) (by decide) 4 (by decide)).2 rfl with
  | ⟨m1, h1, _, _, h2, _, _, _, h3⟩ => ⟨m1, h1, h2, h3⟩

/-- Exit of a client: in a reachable state, for a client `u ≥ 1` that, in every file of the
sequence, occurs at most once in `opened_by` and at most once in `pending_locks` and does not
wait for a lock it holds: `storage_user_exit` returns OK; after it no file of the sequence is
locked by `u` or has `u` in `pending_locks` or in `opened_by`; every file that was locked by
`u` is locked by the former head of its `pending_locks` (unlocked when the queue was empty),
the other files keep their holder; and the list returned is exactly those new holders, in
the order of the sequence. -/
theorem storage_user_exit_clears (a b : Nat) (m : Machine) (h : Reachable a b m) (u : Int) (hu : 1 ≤ u)
    (honce : ∀ f ∈ sequence_files m, f.opened_by.count u ≤ 1 ∧
      f.pending_locks.count u ≤ 1 ∧ (f.locked_by = u → u ∉ f.pending_locks)) :
    ∃ m1, storage_user_exit m [] u = some (m1, .ok (),
        ((sequence_files m).filter
          (fun f => decide (f.locked_by = u ∧ f.pending_locks ≠ []))).map
            (fun f => f.pending_locks.headD 0)) ∧
      m1.storage = m.storage ∧
      ∀ q ∈ sequence m, ∀ f, deref m.mem q = some f →
        ∃ f1, deref m1.mem q = some f1 ∧
          f1.locked_by ≠ u ∧ u ∉ f1.pending_locks ∧ u ∉ f1.opened_by ∧
          (f.locked_by = u → f1.locked_by = f.pending_locks.headD 0) ∧
          (f.locked_by ≠ u → f1.locked_by = f.locked_by) := by
  have hwf := (reachable_inv h).1
  have hu0 : 0 < u := by omega
  obtain ⟨m1, hr, hst, hcells⟩ := storage_user_exit_spec hwf hu0 []
  have hpos : ∀ f ∈ sequence_files m, ∀ x ∈ f.pending_locks, 0 < x := by
    obtain ⟨ch, _, _, hstored, hseq, _⟩ := wf_chain hwf
    intro f hf
    unfold sequence_files at hf
    rw [hseq, List.mem_filterMap] at hf
    obtain ⟨q, hq, hd⟩ := hf
    obtain ⟨k, hk⟩ := hstored q hq
    exact (reachable_waiters_positive h k q f hk hd).2
  refine ⟨m1, ?_, hst, ?_⟩
  · rw [hr, exit_holders_eq u _ hpos]
    rfl
  · intro q hq f hf
    have hfin : f ∈ sequence_files m := by
      unfold sequence_files
      exact List.mem_filterMap.mpr ⟨q, hq, hf⟩
    obtain ⟨ho, hp, hlp⟩ := honce f hfin
    refine ⟨exit_file u f, by rw [hcells q, if_pos hq, hf]; rfl, ?_⟩
    by_cases hl : f.locked_by = u
    · have hnot := hlp hl
      have hhead : f.pending_locks.headD 0 ≠ u := by
        cases hpl : f.pending_locks with
        | nil => simp; omega
        | cons x t =>
          simp only [List.headD_cons]
          rintro rfl
          exact hnot (by rw [hpl]; exact List.mem_cons_self _ _)
      have htail : u ∉ f.pending_locks.tail := fun hx => hnot (List.mem_of_mem_tail hx)
      have hlk : (exit_file u f).locked_by = f.pending_locks.headD 0 := by
        simp only [exit_file, hl, if_true, dequeue_front]
      have hpe : ∀ x ∈ (exit_file u f).pending_locks, x ∈ f.pending_locks.tail := by
        intro x hx
        simp only [exit_file, hl, if_true, dequeue_front] at hx
        exact dequeue_user_sub _ _ _ hx
      have hop : (exit_file u f).opened_by = (dequeue_user f.opened_by u).1 := by
        simp only [exit_file, hl, if_true]
      refine ⟨?_, fun hx => htail (hpe u hx), ?_, fun _ => hlk, fun hx => absurd hl hx⟩
      · rw [hlk]
        exact hhead
      · rw [hop]
        exact dequeue_user_once (le_of_lt hu0) ho
    · have hlk : (exit_file u f).locked_by = f.locked_by := by
        simp only [exit_file, hl, if_false]
      have hpe : (exit_file u f).pending_locks = (dequeue_user f.pending_locks u).1 := by
        simp only [exit_file, hl, if_false]
      have hop : (exit_file u f).opened_by = (dequeue_user f.opened_by u).1 := by
        simp only [exit_file, hl, if_false]
      refine ⟨?_, ?_, ?_, fun hx => absurd hx hl, fun _ => hlk⟩
      · rw [hlk]
        exact hl
      · rw [hpe]
        exact dequeue_user_once (le_of_lt hu0) hp
      · rw [hop]
        exact dequeue_user_once (le_of_lt hu0) ho

/-- Exit of client 4 at `/c` locked by client 4 with the clients 5 and 6
waiting: client 4 leaves. -/
theorem storage_user_exit_clears_example :
    ∃ m1, storage_user_exit (state_after 10 100
          (lock_queue_requests ++ [(5, .lock_file "/c".toList), (6, .lock_file "/c".toList)]))
        [] 4 = some (m1, .ok (), [5]) ∧
      ∃ f1, deref m1.mem 0 = some f1 ∧ f1.locked_by ≠ 4 ∧ (4 : Int) ∉ f1.opened_by := by
  obtain ⟨m1, h1, _, h3⟩ := storage_user_exit_clears 10 100 (state_after 10 100
      (lock_queue_requests ++ [(5, .lock_file "/c".toList), (6, .lock_file "/c".toList)]))
    (reachable_state_after _ _ _ (by decide)) 4 (by decide) (by decide)
  obtain ⟨f1, hf1, hl, _, ho, _⟩ := h3 0 (by decide) _ rfl
  exact ⟨m1, h1, f1, hf1, hl, ho⟩

/-- C16 (amended): in every state reached from an empty storage by a sequence of requests in
which a client asks for the lock of a file only while it has the file open and is not
waiting for that lock, and closes a file only while it neither holds nor waits for its lock,
every stored file with `locked_by = u ≠ 0` has `u` in its `opened_by`. -/
theorem C16_holder_has_open (a b : Nat) (reqs : List (Int × Request)) (m : Machine)
    (hrun : run (storage_create a b) reqs = some m)
    (hord : disciplined orderly (storage_create a b) reqs = true) :
    ∀ f ∈ stored_files m, f.locked_by ≠ 0 → f.locked_by ∈ f.opened_by := by
  intro f hf hl
  obtain ⟨_, hall⟩ := run_all_files (fun m m1 client req out h hw hD hQ =>
      step_lock_inv h hw hD hQ) reqs _ m (storage_create_inv a b)
    (all_files_create lock_inv a b) hord hrun
  simp only [stored_files, List.mem_filterMap] at hf
  obtain ⟨⟨k, q⟩, hk, hd⟩ := hf
  exact (hall k q f hk hd).2.1 hl

/-- C16 as stated fails: a client gets the lock of a file it has not opened, and a client
that closes a file it holds locked keeps the lock. -/
theorem C16_holder_without_open :
    Reachable 10 100 (state_after 10 100
        [(4, .open_file "/a".toList ['1']), (5, .lock_file "/a".toList)]) ∧
      (stored_files (state_after 10 100
          [(4, .open_file "/a".toList ['1']), (5, .lock_file "/a".toList)])).map
        (fun f => (f.pathname, f.locked_by, f.opened_by)) = [("/a".toList, 5, [4])] ∧
      Reachable 10 100 (state_after 10 100
        [(4, .open_file "/a".toList ['3']), (4, .close_file "/a".toList)]) ∧
      (stored_files (state_after 10 100
          [(4, .open_file "/a".toList ['3']), (4, .close_file "/a".toList)])).map
        (fun f => (f.pathname, f.locked_by, f.opened_by)) = [("/a".toList, 4, [])] :=
  ⟨reachable_state_after _ _ _ (by decide), by decide,
    reachable_state_after _ _ _ (by decide), by decide⟩

/-- The statement of C16 (amended) after a lock has been handed over twice: `/c` is locked
by client 6, which has it open. -/
theorem C16_holder_has_open_witness :
    disciplined orderly (storage_create 10 100) handover_requests = true ∧
      (stored_files (state_after 10 100 handover_requests)).map
        (fun f => (f.pathname, f.locked_by, f.opened_by)) = [("/c".toList, 6, [4, 6])] ∧
      ∀ f ∈ stored_files (state_after 10 100 handover_requests),
        f.locked_by ≠ 0 → f.locked_by ∈ f.opened_by :=
  ⟨by decide, by decide,
    C16_holder_has_open 10 100 handover_requests _ (by decide) (by decide)⟩

/-- C17: client 4 creates `/a` with `O_CREATE|O_LOCK` and disconnects. `storage_user_exit`
releases the lock and closes the file for it, and leaves it the `owner` of the file: the
stored file has `owner = 4` and an empty `opened_by`. The same client closing the file
instead clears `owner`. -/
theorem C17_owner_survives_exit :
    Reachable 10 100 (state_after 10 100
        [(4, .open_file "/a".toList ['3']), (4, .client_left)]) ∧
      (stored_files (state_after 10 100
          [(4, .open_file "/a".toList ['3']), (4, .client_left)])).map
        (fun f => (f.pathname, f.owner, f.modified, f.locked_by, f.opened_by))
        = [("/a".toList, 4, false, 0, [])] ∧
      (stored_files (state_after 10 100
          [(4, .open_file "/a".toList ['3']), (4, .close_file "/a".toList)])).map
        (fun f => (f.pathname, f.owner, f.modified, f.locked_by, f.opened_by))
        = [("/a".toList, 0, false, 4, [])] :=
  ⟨reachable_state_after _ _ _ (by decide), by decide, by decide⟩

/-- C30: in every state of the server, every stored file with `size > 0` has `modified = 1`,
and every stored file with `modified = 0` has size `0` and no content: a file that takes
space passes the test `victim->modified` of `get_victim`. -/
theorem C30_space_is_modified (a b : Nat) (m : Machine) (h : Reachable a b m) :
    ∀ f ∈ stored_files m,
      (0 < f.size → f.modified = true) ∧
      (f.modified = false → f.size = 0 ∧ f.content = none) := by
  intro f hf
  simp only [stored_files, List.mem_filterMap] at hf
  obtain ⟨⟨k, q⟩, hk, hd⟩ := hf
  have hq := reachable_space_inv h k q f hk hd
  refine ⟨fun hs => ?_, hq⟩
  cases hm : f.modified with
  | true => rfl
  | false =>
    have := (hq hm).1
    omega

/-- The statement of C30 after client 4 has written `secret` to `/a`, and after it has only
created `/c`. -/
theorem C30_space_is_modified_witness :
    (stored_files (state_after 10 100 locked_file_requests)).map
        (fun f => (f.size, f.modified)) = [(6, true)] ∧
      ∀ f ∈ stored_files (state_after 10 100 locked_file_requests),
        (0 < f.size → f.modified = true) ∧
        (f.modified = false → f.size = 0 ∧ f.content = none) :=
  ⟨by decide, C30_space_is_modified 10 100 _ (reachable_state_after _ _ _ (by decide))⟩

/-- C21: for a stored file `p` and a client `u ≥ 1` in a state of the server.  If the file is
unlocked or locked by `u`, `storage_lock` returns OK and the file is as before but for
`locked_by = u` and `owner = 0` (`pending_locks` included), the worker answers OK, and
locking once more returns OK and changes nothing.  If the file is locked by another client,
`storage_lock` returns `-2` (the request is left pending, nothing is written), and the file is
as before but for `u` appended at the end of `pending_locks` (`locked_by` and `owner`
included). -/
theorem C21_lock (a b : Nat) (m : Machine) (h : Reachable a b m)
    (p : List Char) (file : Ptr) (f : file_t)
    (hmem : (p, file) ∈ m.storage.dictionary) (hf : deref m.mem file = some f)
    (u : Int) (hu : 1 ≤ u) :
    ((f.locked_by = 0 ∨ f.locked_by = u) → ∃ m1,
      storage_lock m p u = some (m1, .ok ()) ∧
      m1 = { m with mem := store m.mem file { f with locked_by := u, owner := 0 } } ∧
      deref m1.mem file = some { f with locked_by := u, owner := 0 } ∧
      storage_lock m1 p u = some (m1, .ok ()) ∧
      ∀ payload, c_str payload = p →
        worker m u (.lock_file payload)
          = some (m1, [SEND_RESPONSE u RESPONSE_OK, .relay (fmt_04d u)])) ∧
    ((f.locked_by ≠ 0 ∧ f.locked_by ≠ u) → ∃ m1 f1,
      storage_lock m p u = some (m1, .error .EINPROGRESS) ∧
      f1 = { f with pending_locks := f.pending_locks ++ [u] } ∧
      m1 = { m with mem := store m.mem file f1 } ∧ deref m1.mem file = some f1 ∧
      ∀ payload, c_str payload = p → worker m u (.lock_file payload) = some (m1, [])) := by
  have hwf := (reachable_inv h).1
  have hp := reachable_key_ne h hmem
  have hfind := storage_find_of_mem hwf hmem hp
  have hlt := deref_lt hf
  have hpre : ¬ (p = [] ∨ u ≤ 0) := by
    rintro (h1 | h1)
    · exact hp h1
    · omega
  constructor
  · intro hfree
    have hno : ¬ (f.locked_by ≠ 0 ∧ f.locked_by ≠ u) := by
      rintro ⟨h1, h2⟩
      rcases hfree with h3 | h3
      · exact h1 h3
      · exact h2 h3
    have hr : storage_lock m p u = some
        ({ m with mem := store m.mem file { f with locked_by := u, owner := 0 } },
          .ok ()) := by
      unfold storage_lock
      rw [if_neg hpre, hfind]
      simp only [hf, Option.bind_eq_bind, Option.some_bind]
      rw [if_neg hno]
      rfl
    have hcell : deref (store m.mem file { f with locked_by := u, owner := 0 }) file
        = some { f with locked_by := u, owner := 0 } := by
      rw [deref_store _ _ hlt, if_pos rfl]
    refine ⟨_, hr, rfl, hcell, ?_, ?_⟩
    · unfold storage_lock
      rw [if_neg hpre]
      simp only [hfind, hcell, Option.bind_eq_bind, Option.some_bind]
      rw [if_neg (by simp)]
      simp only [pure]
      rw [store_self hcell]
    · intro payload hpl
      simp only [worker, hpl, hr, Option.map_some']
  · intro hheld
    have hq : enqueue_user f.pending_locks u = some (f.pending_locks ++ [u]) := by
      unfold enqueue_user
      rw [if_neg (by omega)]
    let f1 : file_t := { f with pending_locks := f.pending_locks ++ [u] }
    have hr : storage_lock m p u = some
        ({ m with mem := store m.mem file f1 }, .error .EINPROGRESS) := by
      unfold storage_lock
      rw [if_neg hpre, hfind]
      simp only [hf, Option.bind_eq_bind, Option.some_bind]
      rw [if_pos hheld]
      simp only [hq, Option.some_bind]
      rfl
    refine ⟨_, f1, hr, rfl, rfl, ?_, ?_⟩
    · show deref (store m.mem file f1) file = some f1
      rw [deref_store _ _ hlt, if_pos rfl]
    · intro payload hpl
      simp only [worker, hpl, hr, Option.map_some']

/-- The statement of C21 at `/c` locked by client 4 with the clients 5 and 6 having it open:
client 4 locks again, and client 5 is left waiting. -/
theorem C21_lock_witness :
    (∃ m1, storage_lock (state_after 10 100 lock_queue_requests) "/c".toList 4
        = some (m1, .ok ()) ∧
      (deref m1.mem 0).map (fun g => (g.locked_by, g.owner, g.pending_locks))
        = some (4, 0, [])) ∧
    (∃ m1, storage_lock (state_after 10 100 lock_queue_requests) "/c".toList 5
        = some (m1, .error .EINPROGRESS) ∧
      (deref m1.mem 0).map (fun g => (g.locked_by, g.owner, g.pending_locks))
        = some (4, 4, [5])) := by
  constructor
  · obtain ⟨m1, h1, _, h3, _⟩ := (C21_lock 10 100 (state_after 10 100 lock_queue_requests)
      (reachable_state_after _ _ _ (by decide)) "/c".toList 0
      { new_file "/c".toList with owner := 4, locked_by := 4, opened_by := [4, 5, 6] }
      (by decide) (by decide) 4 (by decide)).1 (by decide)
    exact ⟨m1, h1, by rw [h3]; rfl⟩
  · obtain ⟨m1, f1, h1, h2, _, h3, _⟩ := (C21_lock 10 100 (state_after 10 100 lock_queue_requests)
      (reachable_state_after _ _ _ (by decide)) "/c".toList 0
      { new_file "/c".toList with owner := 4, locked_by := 4, opened_by := [4, 5, 6] }
      (by decide) (by decide) 5 (by decide)).2 (by decide)
    exact ⟨m1, h1, by rw [h3, h2]; rfl⟩

/-- C22 (amended): for a stored file `p` and a client `u ≥ 1` that is not in `opened_by` of
`p`, in a state of the server: `storage_close` fails with `EINVAL`, the worker answers
`BAD_REQUEST`, and the state, the file included, is as before. -/
theorem C22_close_not_opened (a b : Nat) (m : Machine) (h : Reachable a b m)
    (p : List Char) (file : Ptr) (f : file_t)
    (hmem : (p, file) ∈ m.storage.dictionary) (hf : deref m.mem file = some f)
    (u : Int) (hu : 1 ≤ u) (hno : u ∉ f.opened_by) :
    storage_close m p u = some (m, .error .EINVAL) ∧
    ∀ payload, c_str payload = p →
      worker m u (.close_file payload)
        = some (m, [SEND_RESPONSE u BAD_REQUEST, .relay (fmt_04d u)]) := by
  have hwf := (reachable_inv h).1
  have hp := reachable_key_ne h hmem
  have hfind := storage_find_of_mem hwf hmem hp
  have hpre : ¬ (p = [] ∨ u ≤ 0) := by
    rintro (h1 | h1)
    · exact hp h1
    · omega
  have hdq : dequeue_user f.opened_by u = (f.opened_by, 0) := by
    rw [dequeue_member (by omega), if_neg hno]
  have hr : storage_close m p u = some (m, .error .EINVAL) := by
    unfold storage_close
    rw [if_neg hpre, hfind]
    simp only [hf, Option.bind_eq_bind, Option.some_bind, hdq, if_true, pure]
    rw [store_self hf]
  refine ⟨hr, ?_⟩
  intro payload hpl
  simp only [worker, hpl, hr, Option.map_some']
  rfl

/-- C22 as stated fails: client 5 closes `/a`, which only client 4 has opened; the worker
answers `BAD_REQUEST` (`8`), not `FORBIDDEN` (`5`). -/
theorem C22_close_answers_bad_request :
    Reachable 10 100 (state_after 10 100 one_file_requests) ∧
      (stored_files (state_after 10 100 one_file_requests)).map
        (fun f => (f.pathname, f.opened_by)) = [("/a".toList, [4])] ∧
      worker (state_after 10 100 one_file_requests) 5 (.close_file "/a".toList)
        = some (state_after 10 100 one_file_requests,
            [.send 5 ['8'], .relay "0005".toList]) ∧
      SEND_RESPONSE 5 FORBIDDEN = .send 5 ['5'] :=
  ⟨reachable_state_after _ _ _ (by decide), by decide, by decide, by decide⟩

/-- The statement of C22 (amended) at `/a` opened by client 4 only: client 5 closes it. -/
theorem C22_close_not_opened_witness :
    storage_close (state_after 10 100 one_file_requests) "/a".toList 5
      = some (state_after 10 100 one_file_requests, .error .EINVAL) :=
  (C22_close_not_opened 10 100 (state_after 10 100 one_file_requests)
    (reachable_state_after _ _ _ (by decide)) "/a".toList 0
    { new_file "/a".toList with
      content := some "secret".toList, size := 6, modified := true, locked_by := 4,
      opened_by := [4] }
    (by decide) (by decide) 5 (by decide) (by decide)).1

/-- C29: in a state of the server, for a client `u ≥ 1` and a pathname `p`.  If `p` is a
stored file without content that `u` has open and that is unlocked or locked by `u`,
`storage_read` fails with `ENODATA`, the worker answers `NO_CONTENT`, and the state, `owner`
included, is as before.  So after `open(p, O_CREATE|O_LOCK)` by `u` has created `p`, a
`readFile(p)` of `u` is answered `NO_CONTENT`, changes nothing, and `storage_can_write` still
admits the first `writeFile(p)` of `u`. -/
theorem C29_read_empty (a b : Nat) (m : Machine) (h : Reachable a b m)
    (p : List Char) (u : Int) (hu : 1 ≤ u) :
    (∀ file f, (p, file) ∈ m.storage.dictionary → deref m.mem file = some f →
      f.content = none → u ∈ f.opened_by → (f.locked_by = 0 ∨ f.locked_by = u) →
      storage_read m p u = some (m, .error .ENODATA) ∧
      ∀ payload, c_str payload = p →
        worker m u (.read_file payload)
          = some (m, [SEND_RESPONSE u NO_CONTENT, .relay (fmt_04d u)])) ∧
    (∀ pl m1 out, (∀ q, (p, q) ∉ m.storage.dictionary) →
      storage_open m p (O_CREATE ||| O_LOCK) pl u = some (m1, .ok (), out) →
      storage_read m1 p u = some (m1, .error .ENODATA) ∧
      (∀ payload, c_str payload = p →
        worker m1 u (.read_file payload)
          = some (m1, [SEND_RESPONSE u NO_CONTENT, .relay (fmt_04d u)])) ∧
      storage_can_write m1 p u = some true) := by
  have key : ∀ (m : Machine), WF m → ∀ file f, p ≠ [] →
      (p, file) ∈ m.storage.dictionary → deref m.mem file = some f →
      f.content = none → u ∈ f.opened_by → (f.locked_by = 0 ∨ f.locked_by = u) →
      storage_read m p u = some (m, .error .ENODATA) ∧
      ∀ payload, c_str payload = p →
        worker m u (.read_file payload)
          = some (m, [SEND_RESPONSE u NO_CONTENT, .relay (fmt_04d u)]) := by
    intro m hwf file f hp hmem hf hc hop hlk
    have hfind := storage_find_of_mem hwf hmem hp
    have hpre : ¬ (p = [] ∨ u ≤ 0) := by
      rintro (h1 | h1)
      · exact hp h1
      · omega
    have hacc : ¬ ((f.locked_by ≠ 0 ∧ f.locked_by ≠ u)
        ∨ (!contains_user f.opened_by u) = true) := by
      rintro (⟨h1, h2⟩ | h1)
      · rcases hlk with h3 | h3
        · exact h1 h3
        · exact h2 h3
      · simp [contains_user, hop] at h1
    have hr : storage_read m p u = some (m, .error .ENODATA) := by
      unfold storage_read
      rw [if_neg hpre, hfind]
      simp only [hf, Option.bind_eq_bind, Option.some_bind]
      rw [if_neg hacc]
      simp [storage_copy, hc, pure]
    refine ⟨hr, ?_⟩
    intro payload hpl
    simp only [worker, hpl, hr, Option.map_some']
    rfl
  constructor
  · intro file f hmem hf hc hop hlk
    exact key m (reachable_inv h).1 file f (reachable_key_ne h hmem) hmem hf hc hop hlk
  · intro pl m1 out hp hopen
    have hinv := reachable_inv h
    have hinv1 := storage_open_inv hinv hopen
    obtain ⟨hpne, hupos, _, m0, _, hc⟩ := storage_open_absent_ok hp hopen
    have hlock : IS_SET O_LOCK (O_CREATE ||| O_LOCK) = true := by decide
    rw [hlock] at hc
    obtain ⟨_, _, hcell, _, _, hst⟩ := open_create_spec hc
    have hmem1 : (p, m0.mem.length) ∈ m1.storage.dictionary := by
      rw [hst]
      exact List.mem_cons_self _ _
    have hbad : ¬ (p = [] ∨ u ≤ 0) := by
      rintro (h1 | h1)
      · exact hpne h1
      · omega
    obtain ⟨h1, h2⟩ := key m1 hinv1.1 _ _ hpne hmem1 hcell rfl (by simp) (Or.inr rfl)
    refine ⟨h1, h2, ?_⟩
    unfold storage_can_write
    rw [if_neg hbad, storage_find_of_mem hinv1.1 hmem1 hpne]
    simp [hcell]

/-- The statement of C29 for client 4 and `/a` in the empty storage: after
`open("/a", O_CREATE|O_LOCK)` the read finds no data and the first write is still allowed. -/
theorem C29_read_empty_witness :
    storage_open (storage_create 10 100) "/a".toList (O_CREATE ||| O_LOCK) (some []) 4
        = some (state_after 10 100 [(4, .open_file "/a".toList ['3'])], .ok (), some []) ∧
      storage_read (state_after 10 100 [(4, .open_file "/a".toList ['3'])]) "/a".toList 4
        = some (state_after 10 100 [(4, .open_file "/a".toList ['3'])], .error .ENODATA) ∧
      storage_can_write (state_after 10 100 [(4, .open_file "/a".toList ['3'])])
        "/a".toList 4 = some true :=
  ⟨rfl,
    ((C29_read_empty 10 100 (storage_create 10 100) Reachable.init "/a".toList 4
      (by decide)).2 (some []) _ (some [])
        (fun q hq => by simp [storage_create] at hq) rfl).1,
    ((C29_read_empty 10 100 (storage_create 10 100) Reachable.init "/a".toList 4
      (by decide)).2 (some []) (state_after 10 100 [(4, .open_file "/a".toList ['3'])])
        (some []) (fun q hq => by simp [storage_create] at hq) rfl).2.2⟩

/-- C24 (amended): every openFile request whose flags byte is not a decimal digit is
answered `BAD_REQUEST`, and the state is as before. -/
theorem C24_open_flags_not_digit (m : Machine) (client : Int)
    (payload flags_buffer : List Char)
    (hflags : ∀ c ∈ flags_buffer.take 1, c.isDigit = false) :
    worker m client (.open_file payload flags_buffer)
      = some (m, [SEND_RESPONSE client BAD_REQUEST, .relay (fmt_04d client)]) := by
  have hl : (flags_buffer.take 1).length ≤ 1 := by
    rw [List.length_take]
    omega
  simp only [worker, str2num_not_digit _ hl hflags]

/-- C24 as stated fails: the flags byte `5` is not one of `0`..`3`; the worker reads the
bits `O_CREATE` and `O_LOCK` of it, creates `/a` and answers OK (`1`). -/
theorem C24_open_flags_five :
    (worker (storage_create 10 100) 4 (.open_file "/a".toList ['5'])).map
        (fun r => ((stored_files r.1).map (fun f => (f.pathname, f.locked_by, f.opened_by)),
          r.2))
      = some ([("/a".toList, 0, [4])], [.send 4 ['1'], .relay "0004".toList]) ∧
    SEND_RESPONSE 4 BAD_REQUEST = .send 4 ['8'] :=
  ⟨by decide, by decide⟩

/-- The statement of C24 (amended) for the flags byte `x`. -/
theorem C24_open_flags_not_digit_witness :
    worker (storage_create 10 100) 4 (.open_file "/a".toList ['x'])
      = some (storage_create 10 100, [.send 4 ['8'], .relay "0004".toList]) :=
  C24_open_flags_not_digit (storage_create 10 100) 4 "/a".toList ['x'] (by decide)

/-- C23 (amended): for a non-empty pathname `p` that is not stored and a client `u ≥ 1`, the
worker answers `FILE_NOT_FOUND` to readFile, to appendToFile with a non-empty content, to
lockFile, unlockFile, closeFile and removeFile, and to openFile with a flags byte without
`O_CREATE`; it answers `FORBIDDEN` to writeFile and `BAD_REQUEST` to appendToFile with an
empty content; in every case the state is as before. -/
theorem C23_not_found (m : Machine) (p : List Char) (hp : p ≠ [])
    (habs : ∀ q, (p, q) ∉ m.storage.dictionary) (u : Int) (hu : 1 ≤ u)
    (payload : List Char) (hpl : c_str payload = p) :
    worker m u (.read_file payload)
      = some (m, [SEND_RESPONSE u FILE_NOT_FOUND, .relay (fmt_04d u)]) ∧
    (∀ content, content ≠ [] → worker m u (.append_to_file payload content)
      = some (m, [SEND_RESPONSE u FILE_NOT_FOUND, .relay (fmt_04d u)])) ∧
    worker m u (.lock_file payload)
      = some (m, [SEND_RESPONSE u FILE_NOT_FOUND, .relay (fmt_04d u)]) ∧
    worker m u (.unlock_file payload)
      = some (m, [SEND_RESPONSE u FILE_NOT_FOUND, .relay (fmt_04d u)]) ∧
    worker m u (.close_file payload)
      = some (m, [SEND_RESPONSE u FILE_NOT_FOUND, .relay (fmt_04d u)]) ∧
    worker m u (.remove_file payload)
      = some (m, [SEND_RESPONSE u FILE_NOT_FOUND, .relay (fmt_04d u)]) ∧
    (∀ flags_buffer flags, str2num (flags_buffer.take 1) = some flags →
      IS_SET O_CREATE flags.toNat = false →
      worker m u (.open_file payload flags_buffer)
        = some (m, [SEND_RESPONSE u FILE_NOT_FOUND, .relay (fmt_04d u)])) ∧
    (∀ content, worker m u (.write_file payload content)
      = some (m, [SEND_RESPONSE u FORBIDDEN, .relay (fmt_04d u)])) ∧
    worker m u (.append_to_file payload [])
      = some (m, [SEND_RESPONSE u BAD_REQUEST, .relay (fmt_04d u)]) := by
  have hfind := storage_find_absent hp habs
  have hpre : ¬ (p = [] ∨ u ≤ 0) := by
    rintro (h1 | h1)
    · exact hp h1
    · omega
  refine ⟨?_, ?_, ?_, ?_, ?_, ?_, ?_, ?_, ?_⟩
  · simp only [worker, hpl, storage_read, if_neg hpre, hfind, Option.map_some']
    rfl
  · intro content hc
    have hpre2 : ¬ (p = [] ∨ content.length = 0 ∨ u ≤ 0) := by
      rintro (h1 | h1 | h1)
      · exact hp h1
      · exact hc (List.length_eq_zero.mp h1)
      · omega
    simp only [worker, worker_append, hpl, storage_append, if_neg hpre2, hfind,
      Option.bind_eq_bind, Option.some_bind, Option.map_some', pure]
    rfl
  · simp only [worker, hpl, storage_lock, if_neg hpre, hfind, Option.map_some']
    rfl
  · simp only [worker, hpl, storage_unlock, if_neg hpre, hfind, Option.map_some']
    rfl
  · simp only [worker, hpl, storage_close, if_neg hpre, hfind, Option.map_some']
    rfl
  · simp only [worker, hpl, storage_remove, if_neg hpre, hfind, Option.map_some']
    rfl
  · intro flags_buffer flags hflags hcreate
    simp only [worker, hpl, hflags, storage_open, if_neg hpre, hfind, hcreate,
      Option.map_some']
    rfl
  · intro content
    simp only [worker, hpl, storage_can_write, if_neg hpre, hfind]
  · simp only [worker, worker_append, hpl, storage_append, List.length_nil, true_or, or_true,
      if_true, Option.bind_eq_bind, Option.some_bind, Option.map_some', pure]
    rfl

/-- C23 as stated fails: in the empty storage a writeFile of `/a` is answered `FORBIDDEN`
(`5`) and an appendToFile of `/a` with an empty content `BAD_REQUEST` (`8`), not
`FILE_NOT_FOUND` (`2`). -/
theorem C23_write_not_found_is_forbidden :
    worker (storage_create 10 100) 4 (.write_file "/a".toList "x".toList)
      = some (storage_create 10 100, [.send 4 ['5'], .relay "0004".toList]) ∧
    worker (storage_create 10 100) 4 (.append_to_file "/a".toList [])
      = some (storage_create 10 100, [.send 4 ['8'], .relay "0004".toList]) ∧
    SEND_RESPONSE 4 FILE_NOT_FOUND = .send 4 ['2'] :=
  ⟨by decide, by decide, by decide⟩

/-- The statement of C23 (amended) for `/b` in a storage that holds `/a` only: the lockFile
of client 5. -/
theorem C23_not_found_witness :
    worker (state_after 10 100 one_file_requests) 5 (.lock_file "/b".toList)
      = some (state_after 10 100 one_file_requests, [.send 5 ['2'], .relay "0005".toList]) :=
  (C23_not_found (state_after 10 100 one_file_requests) "/b".toList (by decide)
    (fun q hq => absurd (List.mem_map_of_mem Prod.fst hq)
      (show "/b".toList ∉ List.map Prod.fst
        (state_after 10 100 one_file_requests).storage.dictionary by decide)) 5 (by decide) "/b".toList (by decide)).2.2.1

/-- C26: in a state of the server, for a stored file `p` whose content is `C` with
`|C| < 10^10`, and a client `u ≥ 1` that has `p` open while `p` is unlocked or locked by `u`:
the worker handling `readFile(p)` of `u` writes to the client exactly the response code `1`,
then `|C|` as ten zero-padded decimal characters, then the bytes of `C`; the field has ten
characters and `str2num`, with which `readFile` of the client library parses it, returns
`|C|`. -/
theorem C26_read_framing (a b : Nat) (m : Machine) (h : Reachable a b m)
    (p : List Char) (file : Ptr) (f : file_t)
    (hmem : (p, file) ∈ m.storage.dictionary) (hf : deref m.mem file = some f)
    (u : Int) (hu : 1 ≤ u) (C : List Char) (hc : f.content = some C)
    (hop : u ∈ f.opened_by) (hlk : f.locked_by = 0 ∨ f.locked_by = u)
    (hlen : C.length < 10 ^ 10) :
    (∀ payload, c_str payload = p → ∃ m1,
      worker m u (.read_file payload)
        = some (m1, [SEND_RESPONSE u RESPONSE_OK, .send u (fmt_010ld C.length ++ C),
            .relay (fmt_04d u)]) ∧
      sent_to u [SEND_RESPONSE u RESPONSE_OK, .send u (fmt_010ld C.length ++ C),
            .relay (fmt_04d u)] = ['1'] ++ fmt_010ld C.length ++ C) ∧
    (fmt_010ld C.length).length = 10 ∧
    str2num (fmt_010ld C.length) = some (C.length : Int) := by
  have hwf := (reachable_inv h).1
  have hp := reachable_key_ne h hmem
  have hfind := storage_find_of_mem hwf hmem hp
  obtain ⟨hl10, hparse⟩ := fmt_010ld_spec C.length hlen
  refine ⟨?_, hl10, hparse⟩
  intro payload hpl
  have hpre : ¬ (p = [] ∨ u ≤ 0) := by
    rintro (h1 | h1)
    · exact hp h1
    · omega
  have hacc : ¬ ((f.locked_by ≠ 0 ∧ f.locked_by ≠ u)
      ∨ (!contains_user f.opened_by u) = true) := by
    rintro (⟨h1, h2⟩ | h1)
    · rcases hlk with h3 | h3
      · exact h1 h3
      · exact h2 h3
    · simp [contains_user, hop] at h1
  have hsize : C.length = f.size := by
    have := wf_content_len hwf hmem hf
    rw [hc] at this
    exact this
  have hcopy : storage_copy f 0 = some C := by
    unfold storage_copy
    rw [if_neg (by simp [hc])]
    simp [hc, ← hsize]
  have hr : storage_read m p u
      = some ({ m with mem := store m.mem file { f with owner := 0 } },
          .ok (C, C.length)) := by
    unfold storage_read
    rw [if_neg hpre, hfind]
    simp only [hf, Option.bind_eq_bind, Option.some_bind]
    rw [if_neg hacc]
    simp only [hcopy, pure, hsize]
  refine ⟨{ m with mem := store m.mem file { f with owner := 0 } }, ?_, ?_⟩
  · simp only [worker, hpl, hr, Option.map_some']
    have h1 : (fmt_010ld C.length).take METADATA_LENGTH = fmt_010ld C.length := by
      rw [List.take_of_length_le]
      rw [hl10]
      decide
    rw [h1, List.take_of_length_le (le_refl _)]
  · have hresp : SEND_RESPONSE u RESPONSE_OK = .send u ['1'] := by
      unfold SEND_RESPONSE
      rfl
    rw [hresp]
    simp [sent_to]

/-- The statement of C26 after client 4 has written `hello` to `/a`: the read of client 4 is
answered `1`, `0000000005`, `hello`. -/
theorem C26_read_framing_witness :
    sent_to 4 [SEND_RESPONSE 4 RESPONSE_OK, .send 4 (fmt_010ld 5 ++ "hello".toList),
        .relay (fmt_04d 4)] = "10000000005hello".toList ∧
      (∃ m1, worker (state_after 10 100 hello_requests) 4 (.read_file "/a".toList)
        = some (m1, [SEND_RESPONSE 4 RESPONSE_OK, .send 4 (fmt_010ld 5 ++ "hello".toList),
            .relay (fmt_04d 4)])) ∧
      str2num (fmt_010ld 5) = some 5 := by
  obtain ⟨h1, _, h3⟩ := C26_read_framing 10 100 (state_after 10 100 hello_requests)
    (reachable_state_after _ _ _ (by decide)) "/a".toList 0
    { new_file "/a".toList with
      content := some "hello".toList, size := 5, modified := true, locked_by := 4,
      opened_by := [4] }
    (by decide) (by decide) 4 (by decide) "hello".toList rfl (by decide) (by decide)
    (by norm_num)
  obtain ⟨m1, h4, _⟩ := h1 "/a".toList (by decide)
  exact ⟨by decide, ⟨m1, h4⟩, h3⟩

/-- C27 (amended): `replacement_counter` is never written after `storage_create` has zeroed
it: in every state of the server it is `0`, whatever number of files open and append have
evicted. -/
theorem C27_replacement_counter_is_zero (a b : Nat) (m : Machine) (h : Reachable a b m) :
    m.storage.replacement_counter = 0 := by
  induction h with
  | init => rfl
  | step _ _ hw ih => rw [worker_counter hw, ih]

/-- C27 as stated fails: in a storage of one file that holds `/x`, the open that creates
`/y` evicts `/x` (its capacity check destroys a victim and leaves no file, before `/y` is
added), and in the state it leaves `replacement_counter` is `0`, not `1`. -/
theorem C27_eviction_is_not_counted :
    Reachable 1 100 (state_after 1 100 open_eviction_requests) ∧
      (stored_files (state_after 1 100 (open_eviction_requests.take 2))).map
        (fun f => f.pathname) = ["/x".toList] ∧
      (open_make_room (state_after 1 100 (open_eviction_requests.take 2)) (some [])).map
        (fun r => r.1.map (fun m0 => stored_files m0)) = some (some []) ∧
      (stored_files (state_after 1 100 open_eviction_requests)).map
        (fun f => f.pathname) = ["/y".toList] ∧
      (state_after 1 100 open_eviction_requests).storage.replacement_counter = 0 :=
  ⟨reachable_state_after _ _ _ (by decide), by decide, by decide, by decide, by decide⟩

/-- The statement of C27 (amended) after an append has evicted a file. -/
theorem C27_replacement_counter_is_zero_witness :
    (state_after 10 5
      [(4, .open_file "/a".toList ['3']), (4, .write_file "/a".toList "aaaa".toList),
       (4, .open_file "/b".toList ['3']), (4, .write_file "/b".toList "bb".toList)]
      ).storage.replacement_counter = 0 :=
  C27_replacement_counter_is_zero 10 5 _ (reachable_state_after _ _ _ (by decide))

/-- The events of a request: in a state of the server, for a connected client that waits
for no lock and a request of it.  The worker returns (for a removeFile, when the file named is a file of the
sequence).  Whenever it returns, either the request is a lockFile on which `storage_lock`
returns `-2`, and the worker writes nothing at all; or what it writes is one response code
for the client, then for each of some other clients, which were waiting for a lock, a
response code on its socket and its descriptor on the pipe, then data blocks for the client
(each of ten bytes at least, so none is a response code), and last the descriptor of the
client on the pipe, once. -/
theorem worker_one_response (a b : Nat) (m : Machine) (h : Reachable a b m)
    (client : Int) (hc : 1 ≤ client)
    (hfree : ∀ f ∈ stored_files m, client ∉ f.pending_locks)
    (req : Request) (hreq : req ≠ .client_left) :
    ((∀ payload q, req = .remove_file payload →
        (c_str payload, q) ∈ m.storage.dictionary → q ∈ sequence m) →
      ∃ r, worker m client req = some r) ∧
    ∀ m1 out, worker m client req = some (m1, out) →
      ((out = [] ∧ ∃ payload, req = .lock_file payload ∧
          storage_lock m (c_str payload) client = some (m1, .error .EINPROGRESS)) ∨
       (∃ (code : Nat) (others : List Int) (code2 : Nat) (data : List (List Char)),
          out = [SEND_RESPONSE client code] ++ NOTIFY_PENDING_CLIENTS others code2
            ++ data.map (Event.send client) ++ [.relay (fmt_04d client)] ∧
          client ∉ others ∧ (∀ d ∈ data, METADATA_LENGTH ≤ d.length) ∧
          ∀ payload, req = .lock_file payload →
            storage_lock m (c_str payload) client ≠ some (m1, .error .EINPROGRESS))) := by
  refine ⟨fun hseq => worker_total h client (by omega) req hseq, ?_⟩
  intro m1 out hw
  rcases worker_answer (reachable_inv h).1 hw hreq with hp |
    ⟨code, others, code2, data, ho, hn, hd, hl⟩
  · exact Or.inl hp
  · refine Or.inr ⟨code, others, code2, data, ho, ?_, hd, hl⟩
    intro hin
    obtain ⟨k, q, f, hk, hf, hu⟩ := hn client hin
    refine hfree f ?_ hu
    simp only [stored_files, List.mem_filterMap]
    exact ⟨(k, q), hk, hf⟩

/-- The events of a request where client 4 unlocks `/y` while client 5 waits for its lock: the
worker answers client 4, notifies client 5 and gives both descriptors back; and the lockFile
of client 6 on `/y` is left pending and nothing is written. -/
theorem worker_one_response_example :
    (worker (state_after 10 100 notify_requests) 4 (.unlock_file "/y".toList)).map
        (fun r => r.2)
      = some [.send 4 ['1'], .send 5 ['1'], .relay "0005".toList, .relay "0004".toList] ∧
    (worker (state_after 10 100 notify_requests) 6 (.lock_file "/y".toList)).map
        (fun r => r.2) = some [] ∧
    (∃ r, worker (state_after 10 100 notify_requests) 4 (.unlock_file "/y".toList)
      = some r) ∧
    ∀ m1 out,
      worker (state_after 10 100 notify_requests) 4 (.unlock_file "/y".toList)
        = some (m1, out) →
      ((out = [] ∧ ∃ payload, Request.unlock_file "/y".toList = .lock_file payload ∧
          storage_lock (state_after 10 100 notify_requests) (c_str payload) 4
            = some (m1, .error .EINPROGRESS)) ∨
       (∃ (code : Nat) (others : List Int) (code2 : Nat) (data : List (List Char)),
          out = [SEND_RESPONSE 4 code] ++ NOTIFY_PENDING_CLIENTS others code2
            ++ data.map (Event.send 4) ++ [.relay (fmt_04d 4)] ∧
          (4 : Int) ∉ others ∧ (∀ d ∈ data, METADATA_LENGTH ≤ d.length) ∧
          ∀ payload, Request.unlock_file "/y".toList = .lock_file payload →
            storage_lock (state_after 10 100 notify_requests) (c_str payload) 4
              ≠ some (m1, .error .EINPROGRESS))) :=
  ⟨by decide, by decide,
    (worker_one_response 10 100 (state_after 10 100 notify_requests)
      (reachable_state_after _ _ _ (by decide)) 4 (by decide) (by decide)
      (.unlock_file "/y".toList) (by decide)).1 (fun _ _ hp => by cases hp),
    (worker_one_response 10 100 (state_after 10 100 notify_requests)
      (reachable_state_after _ _ _ (by decide)) 4 (by decide) (by decide)
      (.unlock_file "/y".toList) (by decide)).2⟩

/-- C28 (the code breaks it): with `max_size = 10` the storage holds `/x` and `/y` of four
bytes each and the empty `/z`, which client 4 has open and locked.  Its append of eight bytes
to `/z` fits (`0 + 8 ≤ 10`) once `/x` and `/y` are evicted, and is answered `OUT_OF_MEMORY`
(`6`): after the first eviction `head` is `NULL`, `get_victim` finds no second victim, and
`/x` is gone from the storage although nothing was written. -/
theorem C28_append_out_of_memory :
    Reachable 10 10 (state_after 10 10 two_victims_requests) ∧
      (state_after 10 10 two_victims_requests).storage.max_size = 10 ∧
      (stored_files (state_after 10 10 two_victims_requests)).map
          (fun f => (f.pathname, f.size, f.modified, f.locked_by, f.opened_by))
        = [("/z".toList, 0, false, 4, [4]), ("/y".toList, 4, true, 4, [4]),
           ("/x".toList, 4, true, 4, [4])] ∧
      (worker (state_after 10 10 two_victims_requests) 4
          (.append_to_file "/z".toList "cccccccc".toList)).map
          (fun r => (r.2, (stored_files r.1).map (fun f => (f.pathname, f.size)),
            r.1.storage.head))
        = some ([.send 4 ['6'], .relay "0004".toList],
            [("/z".toList, 0), ("/y".toList, 4)], none) ∧
      SEND_RESPONSE 4 OUT_OF_MEMORY = .send 4 ['6'] :=
  ⟨reachable_state_after _ _ _ (by decide), by decide, by decide, by decide, by decide⟩

/-- C18 (amended): in every state reached from an empty storage by a sequence of requests of
clients that wait for no lock (the server handles no other), the `pending_locks` queue of
every stored file holds no client twice; and when moreover a client asks for the lock of a
file only while it has the file open, every client in the queue is in the `opened_by` of the
file. -/
theorem C18_pending_locks (a b : Nat) (reqs : List (Int × Request)) (m : Machine)
    (hrun : run (storage_create a b) reqs = some m) :
    (disciplined served (storage_create a b) reqs = true →
      ∀ f ∈ stored_files m, f.pending_locks.Nodup) ∧
    (disciplined served_open (storage_create a b) reqs = true →
      ∀ f ∈ stored_files m,
        f.pending_locks.Nodup ∧ ∀ x ∈ f.pending_locks, x ∈ f.opened_by) := by
  constructor
  · intro hord f hf
    obtain ⟨_, hall⟩ := run_all_files (fun m m1 client req out h hw hD hQ =>
        step_nodup_inv h hw hD hQ) reqs _ m (storage_create_inv a b)
      (all_files_create nodup_inv a b) hord hrun
    simp only [stored_files, List.mem_filterMap] at hf
    obtain ⟨⟨k, q⟩, hk, hd⟩ := hf
    exact hall k q f hk hd
  · intro hord f hf
    obtain ⟨_, hall⟩ := run_all_files (fun m m1 client req out h hw hD hQ =>
        step_queue_inv h hw (served_open_orderly hD) hQ) reqs _ m (storage_create_inv a b)
      (all_files_create queue_inv a b) hord hrun
    simp only [stored_files, List.mem_filterMap] at hf
    obtain ⟨⟨k, q⟩, hk, hd⟩ := hf
    exact ⟨(hall k q f hk hd).2.2, (hall k q f hk hd).2.1⟩

/-- C18 as stated fails: client 5, which has not opened `/a`, asks for the lock client 4
holds and is left waiting; it is in `pending_locks` and not in `opened_by`.  No request of
the run is of a client that waits for a lock. -/
theorem C18_waiter_without_open :
    Reachable 10 100 (state_after 10 100
        [(4, .open_file "/a".toList ['3']), (5, .lock_file "/a".toList)]) ∧
      disciplined served (storage_create 10 100)
        [(4, .open_file "/a".toList ['3']), (5, .lock_file "/a".toList)] = true ∧
      (stored_files (state_after 10 100
          [(4, .open_file "/a".toList ['3']), (5, .lock_file "/a".toList)])).map
        (fun f => (f.pathname, f.locked_by, f.opened_by, f.pending_locks))
        = [("/a".toList, 4, [4], [5])] :=
  ⟨reachable_state_after _ _ _ (by decide), by decide, by decide⟩

/-- The statement of C18 (amended) at `/c` locked by client 4 with the clients 5 and 6, which
have it open, waiting. -/
theorem C18_pending_locks_witness :
    disciplined served_open (storage_create 10 100) waiting_requests = true ∧
      (stored_files (state_after 10 100 waiting_requests)).map
        (fun f => (f.pathname, f.opened_by, f.pending_locks))
        = [("/c".toList, [4, 5, 6], [5, 6])] ∧
      ∀ f ∈ stored_files (state_after 10 100 waiting_requests),
        f.pending_locks.Nodup ∧ ∀ x ∈ f.pending_locks, x ∈ f.opened_by :=
  ⟨by decide, by decide,
    (C18_pending_locks 10 100 waiting_requests _ (by decide)).2 (by decide)⟩

/-- C9 (the code breaks it): a storage of five files is full; from `head` one meets `/a`
(modified) and `/b`, while `tail` is `/g`, which an earlier eviction by `storage_append` has
cut off the sequence.  `open("/z", O_CREATE|O_LOCK)` is answered OK, evicts `/a`, and links
`/z` after `tail`: `/z` is stored, and is not in the sequence from `head`, which is `/b`
alone. -/
theorem C9_open_outside_sequence :
    Reachable 5 10 (state_after 5 10 orphan_tail_requests) ∧
      (state_after 5 10 orphan_tail_requests).storage.file_number = 5 ∧
      (state_after 5 10 orphan_tail_requests).storage.max_file_number = 5 ∧
      ((sequence (state_after 5 10 orphan_tail_requests)).filterMap
          (fun q => (deref (state_after 5 10 orphan_tail_requests).mem q).map
            (fun f => (f.pathname, f.modified)))
        = [("/a".toList, true), ("/b".toList, false)]) ∧
      (state_after 5 10 orphan_tail_requests).storage.tail = some 6 ∧
      (worker (state_after 5 10 orphan_tail_requests) 4
          (.open_file "/z".toList ['3'])).map
          (fun r => (r.2, (stored_files r.1).map (fun f => f.pathname)))
        = some ([.send 4 ['1'], .relay "0004".toList],
            ["/z".toList, "/g".toList, "/f".toList, "/d".toList, "/b".toList]) ∧
      (worker (state_after 5 10 orphan_tail_requests) 4
          (.open_file "/z".toList ['3'])).map
          (fun r => ((sequence r.1).filterMap
              (fun q => (deref r.1.mem q).map (fun f => f.pathname)),
            r.1.storage.tail, (deref r.1.mem 7).map (fun f => f.pathname)))
        = some (["/b".toList], some 7, some "/z".toList) :=
  ⟨reachable_state_after _ _ _ (by decide), by decide, by decide, by decide, by decide,
    by decide, by decide⟩

/-- C19 (the code breaks it): after the eviction by `storage_append`, `/b` is stored and
locked by client 4, is not in the sequence from `head`, and its `previous` is the freed
`/a`.  `storage_remove` of `/b` by its holder does not return OK: `file_destroy` writes
`file->previous->next` through the freed pointer. -/
theorem C19_remove_outside_sequence :
    Reachable 10 5 (state_after 10 5 truncated_requests) ∧
      (stored_files (state_after 10 5 truncated_requests)).map
          (fun f => (f.pathname, f.locked_by, f.previous)) = [("/b".toList, 4, some 0)] ∧
      sequence (state_after 10 5 truncated_requests) = [] ∧
      deref (state_after 10 5 truncated_requests).mem 0 = none ∧
      storage_remove (state_after 10 5 truncated_requests) "/b".toList (some []) 4 = none :=
  ⟨reachable_state_after _ _ _ (by decide), by decide, by decide, by decide, rfl⟩

/-- C25 (the code breaks it): after the eviction by `storage_append`, client 4, which waits
for no lock, sends `removeFile("/b")`.  The worker calls `storage_remove`, which writes
through a freed pointer before anything is sent: no response code and no descriptor is
defined for this request.  The same request on `/b` just created is answered by one response
code and the descriptor. -/
theorem C25_remove_without_answer :
    Reachable 10 5 (state_after 10 5 truncated_requests) ∧
      not_waiting (state_after 10 5 truncated_requests) 4 = true ∧
      worker (state_after 10 5 truncated_requests) 4 (.remove_file "/b".toList) = none ∧
      (worker (state_after 10 5 [(4, .open_file "/b".toList ['3'])]) 4
          (.remove_file "/b".toList)).map (fun r => r.2)
        = some [.send 4 ['1'], .relay "0004".toList] :=
  ⟨reachable_state_after _ _ _ (by decide), by decide, by decide, by decide⟩

/-- C15 (the code breaks it): client 4 has opened `/a` twice; when it leaves,
`storage_user_exit` takes one of the two entries out of `opened_by`, and client 4 is still in
`opened_by` of `/a`.  And after the eviction by `storage_append` has cut `/b` off the
sequence, `storage_user_exit` does not visit `/b`: client 4 leaves and `/b` is still locked
by it and has it in `opened_by`. -/
theorem C15_exit_leaves_client :
    Reachable 10 100 (state_after 10 100 double_open_requests) ∧
      (stored_files (state_after 10 100 double_open_requests)).map
        (fun f => (f.pathname, f.locked_by, f.opened_by)) = [("/a".toList, 4, [4, 4])] ∧
      (worker (state_after 10 100 double_open_requests) 4 .client_left).map
          (fun r => ((stored_files r.1).map (fun f => (f.pathname, f.locked_by, f.opened_by)),
            r.2))
        = some ([("/a".toList, 0, [4])], [.close 4, .relay "0000".toList]) ∧
      Reachable 10 5 (state_after 10 5 truncated_requests) ∧
      (worker (state_after 10 5 truncated_requests) 4 .client_left).map
          (fun r => ((stored_files r.1).map (fun f => (f.pathname, f.locked_by, f.opened_by)),
            r.2))
        = some ([("/b".toList, 4, [4])], [.close 4, .relay "0000".toList]) :=
  ⟨reachable_state_after _ _ _ (by decide), by decide, by decide,
    reachable_state_after _ _ _ (by decide), by decide⟩

end FSS
